import Mathlib

/-!
# Scheduler: a verification development for `scheduler.c`

The C program simulates five CPU scheduling policies (FIFO, SJF, STCF, RR, LT)
over a singly linked list of jobs.  This file embeds the job registry, the
helper functions and the five policy loops as Lean functions, and proves
properties of them.

Modelling conventions.

* The linked list `head` is a `List Job`; a `struct job *` is a position in that
  list (`Nat`), and `NULL` is `none`.  The list never changes shape after it is
  loaded, so a position stays valid for the whole run.
* C `int` values are modelled by `Int`.  Every addition and subtraction the
  policies perform on the clock, on `remaining`, on a segment duration or on a
  ticket sum is followed by `wrap`, the reduction modulo 2^32 into the range
  from `INT_MIN` to `INT_MAX`; comparisons and assignments need none.  The
  numbers of a trace are the results of `atoi`.  The counters of the loader
  (`tickets += 100`, `id + 1`, `numofjobs++`) are kept exact: `tickets` is read
  by the lottery only, and the statements on `policy_LT` are about traces whose
  tickets sum to at most `INT_MAX`; an id or `numofjobs` reaches `INT_MAX` only
  on a trace of 2^31 lines.
* `printf` output is modelled by the list of printed segments (`Seg`), in the
  order in which `print_seg` is called.
* Every `while` loop is a condition and a body run by `runLoop` with a bound
  on the number of iterations: the result is `Run.finished` with the final
  state, `Run.faulted` when the body dereferences `NULL`, or `Run.running`
  when the bound is reached.  `Reach` gives the states at the loop heads.
* The section "The policies in exact arithmetic" repeats the loops without
  `wrap`.  These versions are a device of the proofs and occur in no statement
  about the program: a loop body and its exact version agree as long as the
  clock stays in the range of `int` (`Fits`, `TicketsFit`).
-/

namespace Scheduler


/-- The C constant `INT_MAX` for a 32 bit `int`. -/
def INT_MAX : Int := 2147483647

/-- The C constant `INT_MIN` for a 32 bit `int`. -/
def INT_MIN : Int := -2147483648

/-- The value a 32 bit `int` holds after an addition or subtraction whose exact
result is `x`: `x` reduced modulo 2^32 into the range from `INT_MIN` to
`INT_MAX` (two's complement wrap-around, as the compiled program behaves). -/
def wrap (x : Int) : Int := (x + 2147483648) % 4294967296 - 2147483648

/-- The C `struct job` without its `next` field (which is the list structure). -/
structure Job where
  id : Int
  arrival : Int
  length : Int
  tickets : Int
  remaining : Int
  start_time : Int
  end_time : Int
  deriving DecidableEq

/-- One line printed by `print_seg`: segment start, job id, job arrival, duration. -/
structure Seg where
  tstart : Int
  id : Int
  arrival : Int
  ran : Int
  deriving DecidableEq

/-- The line `print_seg(tstart, j, ran)` prints. -/
def print_seg (tstart : Int) (j : Job) (ran : Int) : Seg :=
  { tstart := tstart, id := j.id, arrival := j.arrival, ran := ran }

/-- The function `all_done`: no job has `end_time < 0`. -/
def all_done : List Job → Bool
  | [] => true
  | j :: rest => if j.end_time < 0 then false else all_done rest

/-- The loop of `next_arrival_after`, with the running value of `best`. -/
def next_arrival_scan (t : Int) : List Job → Int → Int
  | [], best => best
  | j :: rest, best =>
    if j.end_time < 0 ∧ j.arrival > t ∧ j.arrival < best then
      next_arrival_scan t rest j.arrival
    else
      next_arrival_scan t rest best

/-- The function `next_arrival_after`. -/
def next_arrival_after (js : List Job) (t : Int) : Int :=
  next_arrival_scan t js INT_MAX

/-- The clock update `t = (na == INT_MAX) ? t + 1 : na` shared by four policies. -/
def idle_jump (js : List Job) (t : Int) : Int :=
  let na := next_arrival_after js t
  if na = INT_MAX then wrap (t + 1) else na

/-- The C macro `min`. -/
def cmin (a b : Int) : Int := if a < b then a else b

/-- The function `append_to`: the new node gets id 0 on an empty list, and the
id of the tail plus one otherwise. -/
def append_to (head : List Job) (arrival length tickets : Int) : List Job :=
  let n : Job :=
    { id := 0, arrival := arrival, length := length, tickets := tickets,
      remaining := length, start_time := -1, end_time := -1 }
  match head.getLast? with
  | none => [n]
  | some tl => head ++ [{ n with id := tl.id + 1 }]

/-- The reading loop of `read_job_config` on the already tokenised lines
`(arrival, length)`: tickets grow by 100 per line. -/
def read_jobs : List (Int × Int) → List Job → Int → List Job
  | [], head, _ => head
  | (a, l) :: rest, head, tickets =>
    read_jobs rest (append_to head a l (tickets + 100)) (tickets + 100)

/-- The registry `read_job_config` builds from a trace. -/
def load (trace : List (Int × Int)) : List Job :=
  read_jobs trace [] 0

/-- The readiness test of `pick_sjf` and `pick_stcf`: the negation of
`j->end_time >= 0 || j->arrival > t`. -/
def arrived_unfinished (t : Int) (j : Job) : Bool :=
  !(decide (j.end_time ≥ 0) || decide (j.arrival > t))

/-- The readiness test of the RR and LT helpers:
`end_time < 0 && arrival <= t && remaining > 0`. -/
def ready (t : Int) (j : Job) : Bool :=
  decide (j.end_time < 0) && decide (j.arrival ≤ t) && decide (j.remaining > 0)

/-- The replacement test of `pick_sjf` and `pick_stcf` against a non-null `best`. -/
def beats (j b : Job) : Bool :=
  decide (j.remaining < b.remaining) ||
    (decide (j.remaining = b.remaining) && decide (j.arrival < b.arrival))

/-- The loop of `pick_sjf`: `i` is the position of the node under the cursor and
`best` the current best node with its position. -/
def pick_sjf_scan (t : Int) : List Job → Nat → Option (Nat × Job) → Option (Nat × Job)
  | [], _, best => best
  | j :: rest, i, best =>
    if j.end_time ≥ 0 ∨ j.arrival > t then pick_sjf_scan t rest (i + 1) best
    else
      match best with
      | none => pick_sjf_scan t rest (i + 1) (some (i, j))
      | some (bi, b) =>
        if j.remaining < b.remaining ∨ (j.remaining = b.remaining ∧ j.arrival < b.arrival) then
          pick_sjf_scan t rest (i + 1) (some (i, j))
        else
          pick_sjf_scan t rest (i + 1) (some (bi, b))

/-- The function `pick_sjf`: the position of the chosen job, or `none` for `NULL`. -/
def pick_sjf (js : List Job) (t : Int) : Option Nat :=
  (pick_sjf_scan t js 0 none).map Prod.fst

/-- The loop of `pick_stcf` (the C text repeats that of `pick_sjf`). -/
def pick_stcf_scan (t : Int) : List Job → Nat → Option (Nat × Job) → Option (Nat × Job)
  | [], _, best => best
  | j :: rest, i, best =>
    if j.end_time ≥ 0 ∨ j.arrival > t then pick_stcf_scan t rest (i + 1) best
    else
      match best with
      | none => pick_stcf_scan t rest (i + 1) (some (i, j))
      | some (bi, b) =>
        if j.remaining < b.remaining ∨ (j.remaining = b.remaining ∧ j.arrival < b.arrival) then
          pick_stcf_scan t rest (i + 1) (some (i, j))
        else
          pick_stcf_scan t rest (i + 1) (some (bi, b))

/-- The function `pick_stcf`. -/
def pick_stcf (js : List Job) (t : Int) : Option Nat :=
  (pick_stcf_scan t js 0 none).map Prod.fst

/-- The pointer step `p->next ? p->next : head` on positions. -/
def next_or_head (js : List Job) (p : Nat) : Nat :=
  if p + 1 < js.length then p + 1 else 0

/-- The `do ... while (p != start)` loop of `find_next_ready_from`; `fuel` bounds
the number of nodes visited and is the length of the list at the call. -/
def find_scan (js : List Job) (t : Int) (start : Nat) : Nat → Nat → Option Nat
  | 0, _ => none
  | fuel + 1, p =>
    match js[p]? with
    | none => none
    | some j =>
      if j.end_time < 0 ∧ j.arrival ≤ t ∧ j.remaining > 0 then some p
      else
        let p1 := next_or_head js p
        if p1 = start then none else find_scan js t start fuel p1

/-- The function `find_next_ready_from`; `frm` is the pointer `from`. -/
def find_next_ready_from (js : List Job) (frm : Option Nat) (t : Int) : Option Nat :=
  match js with
  | [] => none
  | _ :: _ =>
    let p := match frm with
      | some q => q
      | none => 0
    find_scan js t p js.length p

/-- The function `total_ready_tickets`, with the running value of `tot`. -/
def total_scan (t : Int) : List Job → Int → Int
  | [], tot => tot
  | j :: rest, tot =>
    if j.end_time < 0 ∧ j.arrival ≤ t ∧ j.remaining > 0 then
      total_scan t rest (wrap (tot + j.tickets))
    else total_scan t rest tot

/-- The function `total_ready_tickets`. -/
def total_ready_tickets (js : List Job) (t : Int) : Int :=
  total_scan t js 0

/-- The loop of `pick_lottery`: `i` is the position under the cursor and `acc` the
running ticket sum. -/
def lottery_scan (t winning : Int) : List Job → Nat → Int → Option Nat
  | [], _, _ => none
  | j :: rest, i, acc =>
    if j.end_time < 0 ∧ j.arrival ≤ t ∧ j.remaining > 0 then
      if wrap (acc + j.tickets) > winning then some i
      else lottery_scan t winning rest (i + 1) (wrap (acc + j.tickets))
    else lottery_scan t winning rest (i + 1) acc

/-- The function `pick_lottery`. -/
def pick_lottery (js : List Job) (t winning : Int) : Option Nat :=
  lottery_scan t winning js 0 0

/-! ## Loops -/

/-- The result of running a `while` loop with a bound on its iterations:
finished after `iters` iterations in a final state, stopped by a dereference of
an invalid pointer, or still running when the bound was reached. -/
inductive Run (σ : Type) where
  | finished (iters : Nat) (final : σ) : Run σ
  | faulted : Run σ
  | running : Run σ
  deriving DecidableEq

/-- Count one more iteration in the result of a loop. -/
def Run.again {σ : Type} : Run σ → Run σ
  | Run.finished k r => Run.finished (k + 1) r
  | Run.faulted => Run.faulted
  | Run.running => Run.running

/-- The loop `while (cond) body`, run for at most `fuel` iterations.  The body
returns `none` when it dereferences an invalid pointer. -/
def runLoop {σ : Type} (cond : σ → Bool) (body : σ → Option σ) : Nat → σ → Run σ
  | fuel, s =>
    if cond s then
      match fuel with
      | 0 => Run.running
      | f + 1 =>
        match body s with
        | none => Run.faulted
        | some s1 => (runLoop cond body f s1).again
    else Run.finished 0 s

/-- The statement `if (j->start_time < 0) j->start_time = t`. -/
def stamp_start (j : Job) (t : Int) : Job :=
  if j.start_time < 0 then { j with start_time := t } else j

/-! ## FIFO -/

/-- The variables of `policy_FIFO`: the registry, the clock, the loop cursor `j`
and the lines printed so far. -/
structure FIFOState where
  jobs : List Job
  t : Int
  cur : Option Nat
  out : List Seg
  deriving DecidableEq

/-- The pointer `head`. -/
def head_ptr (js : List Job) : Option Nat :=
  match js with
  | [] => none
  | _ :: _ => some 0

/-- The pointer `p->next`. -/
def next_ptr (js : List Job) (p : Nat) : Option Nat :=
  if p + 1 < js.length then some (p + 1) else none

/-- The body of the `for` loop of `policy_FIFO`, with its increment `j = j->next`. -/
def FIFO_body (s : FIFOState) : Option FIFOState :=
  match s.cur with
  | none => none
  | some p =>
    match s.jobs[p]? with
    | none => none
    | some j =>
      let t0 := if s.t < j.arrival then j.arrival else s.t
      let j1 := stamp_start j t0
      let t1 := wrap (t0 + j1.remaining)
      some { jobs := s.jobs.set p { j1 with remaining := 0, end_time := t1 },
             t := t1,
             cur := next_ptr s.jobs p,
             out := s.out ++ [print_seg t0 j1 j1.remaining] }

/-- The state `policy_FIFO` starts its loop in. -/
def FIFO_init (js : List Job) : FIFOState :=
  { jobs := js, t := 0, cur := head_ptr js, out := [] }

/-- The loop condition `j` (the cursor is not `NULL`) of `policy_FIFO`. -/
def FIFO_cond (s : FIFOState) : Bool := s.cur.isSome

/-- The function `policy_FIFO`. -/
def policy_FIFO (fuel : Nat) (js : List Job) : Run FIFOState :=
  runLoop FIFO_cond FIFO_body fuel (FIFO_init js)

/-! ## SJF -/

/-- The variables of `policy_SJF`: the registry, the clock, the countdown
`remaining` and the lines printed so far. -/
structure SJFState where
  jobs : List Job
  t : Int
  remaining : Int
  out : List Seg
  deriving DecidableEq

/-- The body of the `while` loop of `policy_SJF`. -/
def SJF_body (s : SJFState) : Option SJFState :=
  match pick_sjf s.jobs s.t with
  | none => some { s with t := idle_jump s.jobs s.t }
  | some p =>
    match s.jobs[p]? with
    | none => none
    | some j =>
      let j1 := stamp_start j s.t
      let t1 := wrap (s.t + j1.remaining)
      some { jobs := s.jobs.set p { j1 with remaining := 0, end_time := t1 },
             t := t1,
             remaining := wrap (s.remaining - 1),
             out := s.out ++ [print_seg s.t j1 j1.remaining] }

/-- The state `policy_SJF` starts its loop in; `numofjobs` is the number of
nodes `append_to` has added. -/
def SJF_init (js : List Job) : SJFState :=
  { jobs := js, t := 0, remaining := js.length, out := [] }

/-- The loop condition `remaining > 0` of `policy_SJF`. -/
def SJF_cond (s : SJFState) : Bool := decide (s.remaining > 0)

/-- The function `policy_SJF`. -/
def policy_SJF (fuel : Nat) (js : List Job) : Run SJFState :=
  runLoop SJF_cond SJF_body fuel (SJF_init js)

/-! ## STCF -/

/-- The variables of `policy_STCF`. -/
structure STCFState where
  jobs : List Job
  t : Int
  curr : Option Nat
  seg_start : Int
  out : List Seg
  deriving DecidableEq

/-- The block `if (curr) ...` inside the switch of `policy_STCF`: the lines
printed once the running segment is closed (it is printed when its duration is
positive). -/
def STCF_close (s : STCFState) : Option (List Seg) :=
  match s.curr with
  | none => some s.out
  | some c =>
    match s.jobs[c]? with
    | none => none
    | some cj =>
      let ran := wrap (s.t - s.seg_start)
      if ran > 0 then some (s.out ++ [print_seg s.seg_start cj ran]) else some s.out

/-- The block `if (next != curr) ...` of `policy_STCF`: close the running
segment, switch to `next`, stamp its start. -/
def STCF_switch (s : STCFState) (next : Option Nat) : Option STCFState :=
  if next ≠ s.curr then
    match STCF_close s with
    | none => none
    | some out1 =>
      match next with
      | none => some { s with curr := none, seg_start := s.t, out := out1 }
      | some n =>
        match s.jobs[n]? with
        | none => none
        | some nj =>
          some { jobs := s.jobs.set n (stamp_start nj s.t), t := s.t, curr := some n,
                 seg_start := s.t, out := out1 }
  else some s

/-- The rest of the loop body of `policy_STCF`, after the switch block. -/
def STCF_tick (s : STCFState) : Option STCFState :=
  match s.curr with
  | none => some { s with t := idle_jump s.jobs s.t }
  | some c =>
    match s.jobs[c]? with
    | none => none
    | some cj =>
      let cj1 := { cj with remaining := wrap (cj.remaining - 1) }
      let t1 := wrap (s.t + 1)
      if cj1.remaining = 0 then
        let cj2 := { cj1 with end_time := t1 }
        let ran := wrap (t1 - s.seg_start)
        some { jobs := s.jobs.set c cj2, t := t1, curr := none, seg_start := -1,
               out := if ran > 0 then s.out ++ [print_seg s.seg_start cj2 ran] else s.out }
      else
        some { s with jobs := s.jobs.set c cj1, t := t1 }

/-- The body of the `while` loop of `policy_STCF`. -/
def STCF_body (s : STCFState) : Option STCFState :=
  match STCF_switch s (pick_stcf s.jobs s.t) with
  | none => none
  | some s1 => STCF_tick s1

/-- The state `policy_STCF` starts its loop in. -/
def STCF_init (js : List Job) : STCFState :=
  { jobs := js, t := 0, curr := none, seg_start := -1, out := [] }

/-- The loop condition `!all_done()` of `policy_STCF`. -/
def STCF_cond (s : STCFState) : Bool := !all_done s.jobs

/-- The function `policy_STCF`. -/
def policy_STCF (fuel : Nat) (js : List Job) : Run STCFState :=
  runLoop STCF_cond STCF_body fuel (STCF_init js)

/-! ## Round-Robin -/

/-- The variables of `policy_RR`. -/
structure RRState where
  jobs : List Job
  t : Int
  curr : Option Nat
  out : List Seg
  deriving DecidableEq

/-- The argument `curr ? curr : head` of the call of `find_next_ready_from`. -/
def RR_from (s : RRState) : Option Nat :=
  match s.curr with
  | some c => some c
  | none => head_ptr s.jobs

/-- The body of the `while` loop of `policy_RR`. -/
def RR_body (slice : Int) (s : RRState) : Option RRState :=
  match find_next_ready_from s.jobs (RR_from s) s.t with
  | none => some { s with t := idle_jump s.jobs s.t, curr := none }
  | some p =>
    match s.jobs[p]? with
    | none => none
    | some j =>
      let j1 := stamp_start j s.t
      let ran := cmin slice j1.remaining
      let t1 := wrap (s.t + ran)
      let j2 := { j1 with remaining := wrap (j1.remaining - ran) }
      let j3 := if j2.remaining = 0 then { j2 with end_time := t1 } else j2
      some { jobs := s.jobs.set p j3, t := t1, curr := some (next_or_head s.jobs p),
             out := s.out ++ [print_seg s.t j1 ran] }

/-- The state `policy_RR` starts its loop in. -/
def RR_init (js : List Job) : RRState :=
  { jobs := js, t := 0, curr := none, out := [] }

/-- The loop condition `!all_done()` of `policy_RR`. -/
def RR_cond (s : RRState) : Bool := !all_done s.jobs

/-- The function `policy_RR`. -/
def policy_RR (slice : Int) (fuel : Nat) (js : List Job) : Run RRState :=
  runLoop RR_cond (RR_body slice) fuel (RR_init js)

/-! ## Lottery -/

/-- The variables of `policy_LT`, and the number of calls of `rand` made so far. -/
structure LTState where
  jobs : List Job
  t : Int
  draws : Nat
  out : List Seg
  deriving DecidableEq

/-- The body of the `while` loop of `policy_LT`.  The generator is a parameter:
`rand k` is the value the call number `k` of `rand()` returns (it is never
negative), and `%` is the C remainder, which has the sign of `rand()`.  A `NULL`
result of `pick_lottery` is dereferenced by the C code. -/
def LT_body (rand : Nat → Nat) (slice : Int) (s : LTState) : Option LTState :=
  let tot := total_ready_tickets s.jobs s.t
  if tot = 0 then some { s with t := idle_jump s.jobs s.t }
  else
    let winning := Int.tmod (rand s.draws) tot
    match pick_lottery s.jobs s.t winning with
    | none => none
    | some p =>
      match s.jobs[p]? with
      | none => none
      | some j =>
        let j1 := stamp_start j s.t
        let ran := cmin slice j1.remaining
        let t1 := wrap (s.t + ran)
        let j2 := { j1 with remaining := wrap (j1.remaining - ran) }
        let j3 := if j2.remaining = 0 then { j2 with end_time := t1 } else j2
        some { jobs := s.jobs.set p j3, t := t1, draws := s.draws + 1,
               out := s.out ++ [print_seg s.t j1 ran] }

/-- The state `policy_LT` starts its loop in. -/
def LT_init (js : List Job) : LTState :=
  { jobs := js, t := 0, draws := 0, out := [] }

/-- The loop condition `!all_done()` of `policy_LT`. -/
def LT_cond (s : LTState) : Bool := !all_done s.jobs

/-- The function `policy_LT`. -/
def policy_LT (rand : Nat → Nat) (slice : Int) (fuel : Nat) (js : List Job) : Run LTState :=
  runLoop LT_cond (LT_body rand slice) fuel (LT_init js)

/-! ## Vocabulary of the properties -/

/-- The states a loop passes through at the head of an iteration, from `s0` on. -/
inductive Reach {σ : Type} (cond : σ → Bool) (body : σ → Option σ) (s0 : σ) : σ → Prop where
  | start : Reach cond body s0 s0
  | step {s s1 : σ} : Reach cond body s0 s → cond s = true → body s = some s1 →
      Reach cond body s0 s1

/-- A valid trace: not empty, every arrival at least 0, every length positive. -/
def valid_trace (tr : List (Int × Int)) : Prop :=
  tr ≠ [] ∧ ∀ p ∈ tr, 0 ≤ p.1 ∧ 0 < p.2

instance (tr : List (Int × Int)) : Decidable (valid_trace tr) := by
  unfold valid_trace; infer_instance

/-- The total work of a trace: the sum of the job lengths. -/
def total_work (tr : List (Int × Int)) : Nat :=
  (tr.map (fun p => p.2.toNat)).sum

/-- The number of distinct arrival times of a trace. -/
def distinct_arrivals (tr : List (Int × Int)) : Nat :=
  (tr.map Prod.fst).dedup.length

/-- The sum of the durations of the segments printed for the job `id`. -/
def ran_total (id : Int) (out : List Seg) : Int :=
  ((out.filter (fun g => decide (g.id = id))).map Seg.ran).sum

/-- The start of the first segment printed for the job `id`. -/
def first_start (id : Int) (out : List Seg) : Option Int :=
  (out.find? (fun g => decide (g.id = id))).map Seg.tstart

/-- The end (start plus duration) of the last segment printed for the job `id`. -/
def last_end (id : Int) (out : List Seg) : Option Int :=
  (out.reverse.find? (fun g => decide (g.id = id))).map (fun g => g.tstart + g.ran)

/-- The effect on a job of being granted the processor at `t` for `ran` units:
the start stamp, the decrement, and the end stamp when nothing remains. -/
def run_job (j : Job) (t ran : Int) : Job :=
  let j1 := stamp_start j t
  let j2 := { j1 with remaining := j1.remaining - ran }
  if j2.remaining = 0 then { j2 with end_time := t + ran } else j2

/-- What relates one job to the clock and to the printed segments during a run. -/
structure JobOK (t : Int) (out : List Seg) (j : Job) : Prop where
  arr : 0 ≤ j.arrival
  len : 0 < j.length
  rem_nonneg : 0 ≤ j.remaining
  rem_le : j.remaining ≤ j.length
  start_set : j.start_time = -1 ∨ 0 ≤ j.start_time
  end_set : j.end_time = -1 ∨ 0 ≤ j.end_time
  fin_iff : j.end_time < 0 ↔ 0 < j.remaining
  total : ran_total j.id out + j.remaining = j.length
  unstarted : j.start_time < 0 → ∀ g ∈ out, g.id ≠ j.id
  started : 0 ≤ j.start_time → first_start j.id out = some j.start_time
  ended : 0 ≤ j.end_time → last_end j.id out = some j.end_time
  done_started : 0 ≤ j.end_time → 0 ≤ j.start_time
  seg_arr : ∀ g ∈ out, g.id = j.id → j.arrival ≤ g.tstart
  span_run : 0 ≤ j.start_time → j.end_time < 0 → j.start_time + (j.length - j.remaining) ≤ t
  span_done : 0 ≤ j.end_time → j.start_time + j.length ≤ j.end_time ∧ j.end_time ≤ t

/-- The registry, the clock and the printed segments fit together. -/
structure WF (js : List Job) (t : Int) (out : List Seg) : Prop where
  t_nonneg : 0 ≤ t
  ids : ∀ (i : Nat) (j : Job), js[i]? = some j → j.id = (i : Int)
  jobs : ∀ (i : Nat) (j : Job), js[i]? = some j → JobOK t out j

/-- One iteration of a policy loop leaves the registry alone or grants the
processor to one unfinished job. -/
def JobsStep (js js1 : List Job) : Prop :=
  js1 = js ∨ ∃ (p : Nat) (j : Job) (t ran : Int),
    js[p]? = some j ∧ j.end_time < 0 ∧ 0 ≤ t ∧ js1 = js.set p (run_job j t ran)

/-- A job of a policy without preemption is either untouched or complete. -/
def NonPre (j : Job) : Prop :=
  (j.end_time < 0 → j.start_time < 0) ∧ (0 ≤ j.end_time → j.end_time = j.start_time + j.length)

/-- The fields of a job no policy writes: id, arrival, length and tickets. -/
def Job.static (j : Job) : Int × Int × Int × Int :=
  (j.id, j.arrival, j.length, j.tickets)

/-- A job as `append_to` creates it at position `i` from the trace line `p`. -/
def fresh (i : Nat) (p : Int × Int) : Job :=
  { id := (i : Int), arrival := p.1, length := p.2, tickets := 100 * ((i : Int) + 1),
    remaining := p.2, start_time := -1, end_time := -1 }

/-- The work left in a registry. -/
def work_left : List Job → Nat
  | [] => 0
  | j :: rest => j.remaining.toNat + work_left rest

/-- The latest arrival time of a registry (0 for the empty one). -/
def latest_arrival : List Job → Int
  | [] => 0
  | j :: rest => max j.arrival (latest_arrival rest)

/-- The number of distinct arrival times of a registry that lie after `t`. -/
def late_arrivals (js : List Job) (t : Int) : Nat :=
  ((js.map Job.arrival).dedup.filter (fun a => decide (t < a))).length

/-! ## The policies in exact arithmetic

The loops of the five policies and the ticket sums once more, with every
`wrap` left out.  The properties are proved for these versions first; a loop
body and its exact version agree on every state in which the results of the
additions and subtractions are in the range of `int`. -/

/-- The definition `idle_jump` in exact arithmetic: without `wrap`. -/
def idle_jump_exact (js : List Job) (t : Int) : Int :=
  let na := next_arrival_after js t
  if na = INT_MAX then t + 1 else na

/-- The definition `total_scan` in exact arithmetic: without `wrap`. -/
def total_scan_exact (t : Int) : List Job → Int → Int
  | [], tot => tot
  | j :: rest, tot =>
    if j.end_time < 0 ∧ j.arrival ≤ t ∧ j.remaining > 0 then total_scan_exact t rest (tot + j.tickets)
    else total_scan_exact t rest tot

/-- The definition `total_ready_tickets` in exact arithmetic: without `wrap`. -/
def total_ready_tickets_exact (js : List Job) (t : Int) : Int :=
  total_scan_exact t js 0

/-- The definition `lottery_scan` in exact arithmetic: without `wrap`. -/
def lottery_scan_exact (t winning : Int) : List Job → Nat → Int → Option Nat
  | [], _, _ => none
  | j :: rest, i, acc =>
    if j.end_time < 0 ∧ j.arrival ≤ t ∧ j.remaining > 0 then
      if acc + j.tickets > winning then some i
      else lottery_scan_exact t winning rest (i + 1) (acc + j.tickets)
    else lottery_scan_exact t winning rest (i + 1) acc

/-- The definition `pick_lottery` in exact arithmetic: without `wrap`. -/
def pick_lottery_exact (js : List Job) (t winning : Int) : Option Nat :=
  lottery_scan_exact t winning js 0 0

/-- The definition `FIFO_body` in exact arithmetic: without `wrap`. -/
def FIFO_body_exact (s : FIFOState) : Option FIFOState :=
  match s.cur with
  | none => none
  | some p =>
    match s.jobs[p]? with
    | none => none
    | some j =>
      let t0 := if s.t < j.arrival then j.arrival else s.t
      let j1 := stamp_start j t0
      let t1 := t0 + j1.remaining
      some { jobs := s.jobs.set p { j1 with remaining := 0, end_time := t1 },
             t := t1,
             cur := next_ptr s.jobs p,
             out := s.out ++ [print_seg t0 j1 j1.remaining] }

/-- The definition `policy_FIFO` in exact arithmetic: without `wrap`. -/
def policy_FIFO_exact (fuel : Nat) (js : List Job) : Run FIFOState :=
  runLoop FIFO_cond FIFO_body_exact fuel (FIFO_init js)

/-- The definition `SJF_body` in exact arithmetic: without `wrap`. -/
def SJF_body_exact (s : SJFState) : Option SJFState :=
  match pick_sjf s.jobs s.t with
  | none => some { s with t := idle_jump_exact s.jobs s.t }
  | some p =>
    match s.jobs[p]? with
    | none => none
    | some j =>
      let j1 := stamp_start j s.t
      let t1 := s.t + j1.remaining
      some { jobs := s.jobs.set p { j1 with remaining := 0, end_time := t1 },
             t := t1,
             remaining := s.remaining - 1,
             out := s.out ++ [print_seg s.t j1 j1.remaining] }

/-- The definition `policy_SJF` in exact arithmetic: without `wrap`. -/
def policy_SJF_exact (fuel : Nat) (js : List Job) : Run SJFState :=
  runLoop SJF_cond SJF_body_exact fuel (SJF_init js)

/-- The definition `STCF_close` in exact arithmetic: without `wrap`. -/
def STCF_close_exact (s : STCFState) : Option (List Seg) :=
  match s.curr with
  | none => some s.out
  | some c =>
    match s.jobs[c]? with
    | none => none
    | some cj =>
      let ran := s.t - s.seg_start
      if ran > 0 then some (s.out ++ [print_seg s.seg_start cj ran]) else some s.out

/-- The definition `STCF_switch` in exact arithmetic: without `wrap`. -/
def STCF_switch_exact (s : STCFState) (next : Option Nat) : Option STCFState :=
  if next ≠ s.curr then
    match STCF_close_exact s with
    | none => none
    | some out1 =>
      match next with
      | none => some { s with curr := none, seg_start := s.t, out := out1 }
      | some n =>
        match s.jobs[n]? with
        | none => none
        | some nj =>
          some { jobs := s.jobs.set n (stamp_start nj s.t), t := s.t, curr := some n,
                 seg_start := s.t, out := out1 }
  else some s

/-- The definition `STCF_tick` in exact arithmetic: without `wrap`. -/
def STCF_tick_exact (s : STCFState) : Option STCFState :=
  match s.curr with
  | none => some { s with t := idle_jump_exact s.jobs s.t }
  | some c =>
    match s.jobs[c]? with
    | none => none
    | some cj =>
      let cj1 := { cj with remaining := cj.remaining - 1 }
      let t1 := s.t + 1
      if cj1.remaining = 0 then
        let cj2 := { cj1 with end_time := t1 }
        let ran := t1 - s.seg_start
        some { jobs := s.jobs.set c cj2, t := t1, curr := none, seg_start := -1,
               out := if ran > 0 then s.out ++ [print_seg s.seg_start cj2 ran] else s.out }
      else
        some { s with jobs := s.jobs.set c cj1, t := t1 }

/-- The definition `STCF_body` in exact arithmetic: without `wrap`. -/
def STCF_body_exact (s : STCFState) : Option STCFState :=
  match STCF_switch_exact s (pick_stcf s.jobs s.t) with
  | none => none
  | some s1 => STCF_tick_exact s1

/-- The definition `policy_STCF` in exact arithmetic: without `wrap`. -/
def policy_STCF_exact (fuel : Nat) (js : List Job) : Run STCFState :=
  runLoop STCF_cond STCF_body_exact fuel (STCF_init js)

/-- The definition `RR_body` in exact arithmetic: without `wrap`. -/
def RR_body_exact (slice : Int) (s : RRState) : Option RRState :=
  match find_next_ready_from s.jobs (RR_from s) s.t with
  | none => some { s with t := idle_jump_exact s.jobs s.t, curr := none }
  | some p =>
    match s.jobs[p]? with
    | none => none
    | some j =>
      let j1 := stamp_start j s.t
      let ran := cmin slice j1.remaining
      let t1 := s.t + ran
      let j2 := { j1 with remaining := j1.remaining - ran }
      let j3 := if j2.remaining = 0 then { j2 with end_time := t1 } else j2
      some { jobs := s.jobs.set p j3, t := t1, curr := some (next_or_head s.jobs p),
             out := s.out ++ [print_seg s.t j1 ran] }

/-- The definition `policy_RR` in exact arithmetic: without `wrap`. -/
def policy_RR_exact (slice : Int) (fuel : Nat) (js : List Job) : Run RRState :=
  runLoop RR_cond (RR_body_exact slice) fuel (RR_init js)

/-- The definition `LT_body` in exact arithmetic: without `wrap`. -/
def LT_body_exact (rand : Nat → Nat) (slice : Int) (s : LTState) : Option LTState :=
  let tot := total_ready_tickets_exact s.jobs s.t
  if tot = 0 then some { s with t := idle_jump_exact s.jobs s.t }
  else
    let winning := Int.tmod (rand s.draws) tot
    match pick_lottery_exact s.jobs s.t winning with
    | none => none
    | some p =>
      match s.jobs[p]? with
      | none => none
      | some j =>
        let j1 := stamp_start j s.t
        let ran := cmin slice j1.remaining
        let t1 := s.t + ran
        let j2 := { j1 with remaining := j1.remaining - ran }
        let j3 := if j2.remaining = 0 then { j2 with end_time := t1 } else j2
        some { jobs := s.jobs.set p j3, t := t1, draws := s.draws + 1,
               out := s.out ++ [print_seg s.t j1 ran] }

/-- The definition `policy_LT` in exact arithmetic: without `wrap`. -/
def policy_LT_exact (rand : Nat → Nat) (slice : Int) (fuel : Nat) (js : List Job) : Run LTState :=
  runLoop LT_cond (LT_body_exact rand slice) fuel (LT_init js)

/-! ## Vocabulary of the proofs -/

/-- The order in which `pick_sjf` prefers node `b` at position `bi` to node `x`
at position `k`: less remaining, then earlier arrival, then earlier position. -/
def prefers (b : Job) (bi : Nat) (x : Job) (k : Nat) : Prop :=
  b.remaining < x.remaining ∨
    (b.remaining = x.remaining ∧ (b.arrival < x.arrival ∨ (b.arrival = x.arrival ∧ bi ≤ k)))

/-- The number of jobs with `end_time < 0`. -/
def unfinished : List Job → Nat
  | [] => 0
  | j :: rest => (if j.end_time < 0 then 1 else 0) + unfinished rest

/-- The measure that bounds every loop: work left plus the time to the latest arrival. -/
def potential (js : List Job) (t : Int) : Nat :=
  work_left js + (latest_arrival js - t).toNat

/-- The measure that counts iterations: work left plus the number of distinct
arrival times still to come. -/
def budget (js : List Job) (t : Int) : Nat :=
  work_left js + late_arrivals js t

/-- Every arrival of the registry is below `INT_MAX`. -/
def Bounded (js : List Job) : Prop := ∀ a ∈ js.map Job.arrival, a < INT_MAX

/-- The invariant of the loop of `policy_SJF_exact` on the registry loaded as `js0`. -/
structure SJFInv (js0 : List Job) (s : SJFState) : Prop where
  wf : WF s.jobs s.t s.out
  nonpre : ∀ j ∈ s.jobs, NonPre j
  count : s.remaining = (unfinished s.jobs : Int)
  static : s.jobs.map Job.static = js0.map Job.static

/-- The number of `next` steps (wrapping at the tail) from position `a` to position `b`. -/
def cdist (n a b : Nat) : Nat := if a ≤ b then b - a else b + n - a

/-- The node at position `i` passes the readiness test of the RR and LT helpers. -/
def is_ready (js : List Job) (t : Int) (i : Nat) : Prop :=
  ∃ x, js[i]? = some x ∧ x.end_time < 0 ∧ x.arrival ≤ t ∧ 0 < x.remaining

/-- The position `find_next_ready_from` starts its scan at. -/
def scan_start (frm : Option Nat) : Nat :=
  match frm with
  | some q => q
  | none => 0

/-- The tickets of the ready jobs of a list, summed. -/
def ready_sum (t : Int) : List Job → Int
  | [] => 0
  | j :: rest =>
    (if j.end_time < 0 ∧ j.arrival ≤ t ∧ j.remaining > 0 then j.tickets else 0) + ready_sum t rest

/-- Every ready job of the list holds at least one ticket. -/
def TicketsPos (t : Int) (l : List Job) : Prop :=
  ∀ x ∈ l, x.end_time < 0 → x.arrival ≤ t → 0 < x.remaining → 0 < x.tickets

/-- The invariant of the loop of `policy_RR_exact` on the registry loaded as `js0`. -/
structure RRInv (js0 : List Job) (s : RRState) : Prop where
  wf : WF s.jobs s.t s.out
  static : s.jobs.map Job.static = js0.map Job.static
  curr_lt : ∀ c, s.curr = some c → c < s.jobs.length

/-- The invariant of the loop of `policy_LT_exact` on the registry loaded as `js0`. -/
structure LTInv (js0 : List Job) (s : LTState) : Prop where
  wf : WF s.jobs s.t s.out
  static : s.jobs.map Job.static = js0.map Job.static
  tickets : ∀ j ∈ s.jobs, 0 < j.tickets

/-- The value of the clock when the FIFO loop reaches position `k`: 0 at the
head, and the `end_time` of the node before `k` otherwise. -/
def clock_before (js : List Job) (k : Nat) : Int :=
  match k with
  | 0 => 0
  | k + 1 =>
    match js[k]? with
    | some j => j.end_time
    | none => 0

/-- What FIFO has done to the node at position `k`, and the line it printed. -/
def FIFO_done (js0 js : List Job) (out : List Seg) (k : Nat) : Prop :=
  ∀ j0, js0[k]? = some j0 →
    ∃ j, js[k]? = some j ∧ j.static = j0.static ∧
      j.start_time = max j0.arrival (clock_before js k) ∧
      j.end_time = j.start_time + j0.length ∧ j.remaining = 0 ∧
      out[k]? = some { tstart := j.start_time, id := j0.id, arrival := j0.arrival,
                       ran := j0.length }

/-- The nodes of a registry no policy has touched yet. -/
def Fresh (js0 : List Job) : Prop :=
  ∀ j ∈ js0, j.start_time < 0 ∧ j.remaining = j.length

/-- The loop of `policy_FIFO_exact` after `s.out.length` iterations. -/
structure FIFOSpec (js0 : List Job) (s : FIFOState) : Prop where
  len : s.jobs.length = js0.length
  cur : s.cur = if s.out.length < js0.length then some s.out.length else none
  count : s.out.length ≤ js0.length
  untouched : ∀ i, s.out.length ≤ i → s.jobs[i]? = js0[i]?
  done : ∀ k, k < s.out.length → FIFO_done js0 s.jobs s.out k
  clock : s.t = clock_before s.jobs s.out.length

/-- The invariant of the loop of `policy_FIFO_exact` on a valid trace. -/
structure FIFOInv (js0 : List Job) (s : FIFOState) : Prop where
  wf : WF s.jobs s.t s.out
  nonpre : ∀ j ∈ s.jobs, NonPre j
  static : s.jobs.map Job.static = js0.map Job.static
  spec : FIFOSpec js0 s
  ahead : ∀ i j, s.out.length ≤ i → s.jobs[i]? = some j → j.end_time < 0
  behind : ∀ i j, i < s.out.length → s.jobs[i]? = some j → 0 ≤ j.end_time

/-- The lines `policy_STCF_exact` has printed, followed by the line for the segment
that is open (the running job since `seg_start`), if there is one. -/
def ext_out (s : STCFState) : List Seg :=
  match s.curr with
  | none => s.out
  | some c =>
    match s.jobs[c]? with
    | none => s.out
    | some j => s.out ++ [print_seg s.seg_start j (s.t - s.seg_start)]

/-- The invariant of the loop of `policy_STCF_exact` on the registry loaded as `js0`. -/
structure STCFInv (js0 : List Job) (s : STCFState) : Prop where
  wf : WF s.jobs s.t (ext_out s)
  static : s.jobs.map Job.static = js0.map Job.static
  curr : ∀ c, s.curr = some c → ∃ j, s.jobs[c]? = some j ∧ j.end_time < 0 ∧
    j.arrival ≤ s.seg_start ∧ s.seg_start < s.t ∧ 0 ≤ j.start_time

/-- The state after an iteration of the STCF loop that runs the node `n` for one
tick: `ss` is the start of the segment the tick belongs to and `base` the lines
printed before that segment. -/
def STCF_after (s : STCFState) (n : Nat) (nj : Job) (ss : Int) (base : List Seg) : STCFState :=
  { jobs := s.jobs.set n (run_job nj s.t 1),
    t := s.t + 1,
    curr := if nj.remaining - 1 = 0 then none else some n,
    seg_start := if nj.remaining - 1 = 0 then -1 else ss,
    out := if nj.remaining - 1 = 0 then base ++ [print_seg ss nj (s.t + 1 - ss)] else base }

/-- For every line `i` of the trace, the durations of the segments printed for
the job with id `i` sum to the length on that line. -/
def SumsToLength (tr : List (Int × Int)) (out : List Seg) : Prop :=
  ∀ (i : Nat) (p : Int × Int), tr[i]? = some p → ran_total (i : Int) out = p.2

/-- For every line `i` of the trace, the job at position `i` has
`end_time - start_time` at least the length on that line. -/
def SpanAtLeast (tr : List (Int × Int)) (js : List Job) : Prop :=
  ∀ (i : Nat) (p : Int × Int), tr[i]? = some p →
    ∃ j, js[i]? = some j ∧ j.end_time - j.start_time ≥ p.2

/-- For every line `i` of the trace, the job at position `i` has
`end_time - start_time` equal to the length on that line. -/
def SpanExact (tr : List (Int × Int)) (js : List Job) : Prop :=
  ∀ (i : Nat) (p : Int × Int), tr[i]? = some p →
    ∃ j, js[i]? = some j ∧ j.end_time - j.start_time = p.2

/-- For every line `i` of the trace: the `start_time` of the job is the start of
the first segment printed for it, its `end_time` is the end of the last one, and
no segment printed for it starts before its arrival. -/
def StampsOfSegs (tr : List (Int × Int)) (js : List Job) (out : List Seg) : Prop :=
  ∀ (i : Nat) (p : Int × Int), tr[i]? = some p →
    ∃ j, js[i]? = some j ∧ first_start (i : Int) out = some j.start_time ∧
      last_end (i : Int) out = some j.end_time ∧ p.1 ≤ j.start_time ∧
      ∀ g ∈ out, g.id = (i : Int) → p.1 ≤ g.tstart

/-- The stamps of the registry `js` are either still the sentinel -1 or already
the values they have in the registry `jf`. -/
def SetOnce (js jf : List Job) : Prop :=
  ∀ (i : Nat) (j : Job), js[i]? = some j →
    ∃ x, jf[i]? = some x ∧ (j.start_time = -1 ∨ j.start_time = x.start_time) ∧
      (j.end_time = -1 ∨ j.end_time = x.end_time)

/-- The stamps that are set in `js` have the same value in `js1`. -/
def Stable (js js1 : List Job) : Prop :=
  ∀ (i : Nat) (j : Job), js[i]? = some j →
    ∃ x, js1[i]? = some x ∧ (0 ≤ j.start_time → x.start_time = j.start_time) ∧
      (0 ≤ j.end_time → x.end_time = j.end_time)

/-- The running job of the STCF loop has less remaining than every other
unfinished job that had arrived before the current instant. -/
def Lead (s : STCFState) : Prop :=
  ∀ (c : Nat) (cj : Job), s.curr = some c → s.jobs[c]? = some cj →
    ∀ (i : Nat) (x : Job), s.jobs[i]? = some x → i ≠ c → x.end_time < 0 → x.arrival < s.t →
      cj.remaining < x.remaining

/-- One iteration of the loop of SJF, STCF, RR or LT, as a change of the
registry, the clock and the printed segments: either no job is ready and only
the clock moves, by the idle jump; or a ready job is granted the processor at
the clock for `ran` units, and its segment is printed or, in STCF, the open
segment of the job grows by the one tick granted. -/
def Trans (js : List Job) (t : Int) (out : List Seg) (js1 : List Job) (t1 : Int)
    (out1 : List Seg) : Prop :=
  ((∀ x ∈ js, ¬ (x.end_time < 0 ∧ x.arrival ≤ t)) ∧ js1 = js ∧ t1 = idle_jump_exact js t ∧
    out1 = out) ∨
  ∃ (p : Nat) (j : Job) (ran : Int), js[p]? = some j ∧ j.end_time < 0 ∧ j.arrival ≤ t ∧
    0 < ran ∧ ran ≤ j.remaining ∧ js1 = js.set p (run_job j t ran) ∧ t1 = t + ran ∧
    (out1 = out ++ [print_seg t j ran] ∨
      ∃ (o : List Seg) (g : Seg), out = o ++ [g] ∧ g.id = j.id ∧ g.tstart + g.ran = t ∧
        ran = 1 ∧ out1 = o ++ [{ g with ran := g.ran + 1 }])

/-- The job has `0 <= remaining <= length`, and `end_time < 0` exactly when
something remains. -/
def JobInv (j : Job) : Prop :=
  0 ≤ j.remaining ∧ j.remaining ≤ j.length ∧ (j.end_time < 0 ↔ 0 < j.remaining)

/-- Every job of the registry satisfies `JobInv`, and at every time it passes
the test of `pick_sjf` and `pick_stcf` (it is not skipped by
`end_time >= 0 || arrival > t`) exactly when it passes the test
`end_time < 0 && arrival <= t && remaining > 0` of the RR and LT helpers. -/
def HeadInv (js : List Job) : Prop :=
  ∀ j ∈ js, JobInv j ∧
    ∀ t : Int, (¬ (j.end_time ≥ 0 ∨ j.arrival > t)) ↔
      (j.end_time < 0 ∧ j.arrival ≤ t ∧ j.remaining > 0)

/-- What the idle branch does at a loop head with the invariant. -/
def NoFallback (js : List Job) (t : Int) (js1 : List Job) (t1 : Int) : Prop :=
  (∀ y ∈ js, ¬ (y.end_time < 0 ∧ y.arrival ≤ t)) →
    next_arrival_after js t ≠ INT_MAX ∧ t1 = next_arrival_after js t ∧
      ∃ y ∈ js1, y.end_time < 0 ∧ y.arrival = t1 ∧ 0 < y.remaining

/-- The segments are in order of start time and each starts at or after the end
of every segment printed before it. -/
def Sequential (out : List Seg) : Prop :=
  out.Pairwise (fun a b => a.tstart ≤ b.tstart ∧ a.tstart + a.ran ≤ b.tstart)

/-- The segments are sequential, have positive durations and end by the clock. -/
def SeqInv (_js : List Job) (t : Int) (out : List Seg) : Prop :=
  Sequential out ∧ ∀ g ∈ out, 0 < g.ran ∧ g.tstart + g.ran ≤ t

/-- Every instant before the clock is covered by a printed segment, or no job
that has arrived by then is unfinished at it. -/
def Cov (js : List Job) (t : Int) (out : List Seg) : Prop :=
  ∀ u : Int, 0 ≤ u → u < t →
    (∃ g ∈ out, g.tstart ≤ u ∧ u < g.tstart + g.ran) ∨
    ∀ j ∈ js, ¬ (j.arrival ≤ u ∧ (j.end_time < 0 ∨ u < j.end_time))

/-- At every instant from 0 on that no printed segment covers, no job has arrived
and has a later `end_time`. -/
def IdleBelowEnd (js : List Job) (out : List Seg) : Prop :=
  ∀ u : Int, 0 ≤ u → (∀ g ∈ out, ¬ (g.tstart ≤ u ∧ u < g.tstart + g.ran)) →
    ∀ j ∈ js, ¬ (j.arrival ≤ u ∧ u < j.end_time)

/-- The two invariants together, as kept by every `Trans` step. -/
def SeqCov (js : List Job) (t : Int) (out : List Seg) : Prop :=
  SeqInv js t out ∧ Cov js t out

/-- The node the scan of an iteration of `policy_RR` starts at: the argument
`curr ? curr : head` of the call. -/
def RR_pointer (s : RRState) : Nat :=
  match s.curr with
  | some c => c
  | none => 0

/-- Job `q` is the first ready job in circular registry order from node `p`. -/
def FirstReadyFrom (js : List Job) (t : Int) (p q : Nat) : Prop :=
  is_ready js t q ∧ ∀ i, is_ready js t i → cdist js.length p q ≤ cdist js.length p i

/-- The pointer as the rule "the head before any job has run, and otherwise the
registry successor of the most recently run job" gives it from the printed
segments. -/
def last_run_successor (js : List Job) (out : List Seg) : Nat :=
  match out.getLast? with
  | none => 0
  | some g => next_or_head js g.id.toNat

/-- What one iteration of the loop of `policy_RR_exact` does between the states `s`
and `s1`: either no job is ready, the clock jumps and `curr` is reset to `NULL`;
or the first ready job in circular registry order from the pointer runs for
`min(slice, remaining)` as one segment and `curr` becomes its registry
successor, wrapping to the head. -/
def RR_rule_exact (slice : Int) (s s1 : RRState) : Prop :=
  ((∀ i, ¬ is_ready s.jobs s.t i) ∧ s1.curr = none ∧ s1.jobs = s.jobs ∧ s1.out = s.out ∧
    s1.t = idle_jump_exact s.jobs s.t) ∨
  ∃ q qj, s.jobs[q]? = some qj ∧ FirstReadyFrom s.jobs s.t (RR_pointer s) q ∧
    s1.out = s.out ++ [print_seg s.t qj (cmin slice qj.remaining)] ∧
    s1.jobs = s.jobs.set q (run_job qj s.t (cmin slice qj.remaining)) ∧
    s1.t = s.t + cmin slice qj.remaining ∧
    s1.curr = some (next_or_head s.jobs q)

/-- No two consecutive segments belong to the same job. -/
def AltIds (out : List Seg) : Prop :=
  out.Chain' (fun a b => a.id ≠ b.id)

/-- The loop of `policy_STCF_exact` on the registry `js0` runs the job at position `n`
for the tick that starts at `u`: an iteration is reached with the clock at `u`
in which `pick_stcf` returns `n`, whose `remaining` the iteration decrements. -/
def RunsTick_exact (js0 : List Job) (u : Int) (n : Nat) : Prop :=
  ∃ s s1, Reach STCF_cond STCF_body_exact (STCF_init js0) s ∧ STCF_cond s = true ∧
    STCF_body_exact s = some s1 ∧ s.t = u ∧ pick_stcf s.jobs s.t = some n ∧
    ∃ nj, s.jobs[n]? = some nj ∧ s1.jobs = s.jobs.set n (run_job nj u 1) ∧ s1.t = u + 1

/-- When no job is running, the job of the last printed segment has finished. -/
def LastDone (s : STCFState) : Prop :=
  s.curr = none → ∀ g, s.out.getLast? = some g →
    ∀ (i : Nat) (j : Job), s.jobs[i]? = some j → j.id = g.id → 0 ≤ j.end_time

/-! ### The range of `int`, and the vocabulary of the statements on the wrap-around clock -/

/-- The sum of the lengths of the jobs of a registry. -/
def total_length (js : List Job) : Int := (js.map Job.length).sum

/-- The sum of the tickets of the jobs of a registry. -/
def ticket_total (js : List Job) : Int := (js.map Job.tickets).sum

/-- The clock of a run on the trace cannot leave the range of `int`: the latest
arrival plus the sum of the lengths is at most `INT_MAX`. -/
def Fits (tr : List (Int × Int)) : Prop :=
  latest_arrival (load tr) + total_length (load tr) ≤ INT_MAX

instance (tr : List (Int × Int)) : Decidable (Fits tr) := by
  unfold Fits; infer_instance

/-- The ticket sums of the registry of the trace cannot leave the range of
`int`: the tickets of all jobs together are at most `INT_MAX`. -/
def TicketsFit (tr : List (Int × Int)) : Prop :=
  ticket_total (load tr) ≤ INT_MAX

instance (tr : List (Int × Int)) : Decidable (TicketsFit tr) := by
  unfold TicketsFit; infer_instance

/-- The clock and the work left fit below `INT_MAX`: every arrival is below
`INT_MAX`, and the clock plus the work left is at most the latest arrival plus the
sum of the lengths, which is at most `INT_MAX`. -/
def ClockFit (js : List Job) (t : Int) (_out : List Seg) : Prop :=
  Bounded js ∧ latest_arrival js + total_length js ≤ INT_MAX ∧
    t + (work_left js : Int) ≤ latest_arrival js + total_length js

/-- The state after `n` iterations of a loop, when each of them was entered and
none of them faulted. -/
def loop_state {σ : Type} (cond : σ → Bool) (body : σ → Option σ) : Nat → σ → Option σ
  | 0, s => some s
  | n + 1, s => if cond s then (body s).bind (loop_state cond body n) else none

/-- For every line `i` of the trace: the `start_time` of the job is the start of
the first segment printed for it, its `end_time` is the end of the last one, and
every segment printed for it starts at or after its arrival and at or after its
`start_time` (so the job runs at no instant before `start_time`). -/
def Stamps (tr : List (Int × Int)) (js : List Job) (out : List Seg) : Prop :=
  ∀ (i : Nat) (p : Int × Int), tr[i]? = some p →
    ∃ j, js[i]? = some j ∧ first_start (i : Int) out = some j.start_time ∧
      last_end (i : Int) out = some j.end_time ∧ p.1 ≤ j.start_time ∧
      ∀ g ∈ out, g.id = (i : Int) → p.1 ≤ g.tstart ∧ j.start_time ≤ g.tstart

/-- The processor is idle only when nothing is ready: at every instant from 0 on
that no printed segment covers, no job has arrived and is still unfinished, that
is, has no `end_time` yet (`end_time < 0`) or a later one. -/
def WorkConserving (js : List Job) (out : List Seg) : Prop :=
  ∀ u : Int, 0 ≤ u → (∀ g ∈ out, ¬ (g.tstart ≤ u ∧ u < g.tstart + g.ran)) →
    ∀ j ∈ js, ¬ (j.arrival ≤ u ∧ (j.end_time < 0 ∨ u < j.end_time))

/-- The pointer `curr` of `policy_STCF` is `NULL` or a node of the registry. -/
def STCF_ptr (s : STCFState) : Prop := ∀ c, s.curr = some c → c < s.jobs.length

/-- The loop of `policy_STCF` on the registry `js0` runs the job at position `n`
for the tick that starts at `u`: an iteration is reached with the clock at `u`
in which `pick_stcf` returns `n`, whose `remaining` the iteration decrements. -/
def RunsTick (js0 : List Job) (u : Int) (n : Nat) : Prop :=
  ∃ s s1, Reach STCF_cond STCF_body (STCF_init js0) s ∧ STCF_cond s = true ∧
    STCF_body s = some s1 ∧ s.t = u ∧ pick_stcf s.jobs s.t = some n ∧
    ∃ nj nj1, s.jobs[n]? = some nj ∧ s1.jobs = s.jobs.set n nj1 ∧
      nj1.remaining = wrap (nj.remaining - 1) ∧ s1.t = wrap (u + 1)

/-- The registry of the trace `2147483646,2147483647 / 2147483646,2` once job 1
has been stamped, with `r` units of job 1 remaining. -/
def tie_jobs (r : Int) : List Job :=
  [Job.mk 0 2147483646 2147483647 100 2147483647 (-1) (-1),
   Job.mk 1 2147483646 2 200 r 2147483646 (-2147483648)]

/-- What `policy_FIFO` keeps true whatever the clock does: the cursor is the
number of lines printed, the registry keeps its length and every node its id and
arrival, and the line at position `i` carries the id and arrival of node `i`. -/
structure FIFOIds (js0 : List Job) (s : FIFOState) : Prop where
  len : s.jobs.length = js0.length
  jobs : ∀ (i : Nat) (j : Job), s.jobs[i]? = some j →
    ∃ j0, js0[i]? = some j0 ∧ j.id = j0.id ∧ j.arrival = j0.arrival
  cur : ∀ p, s.cur = some p → p < js0.length ∧ s.out.length = p
  fin : s.cur = none → s.out.length = js0.length
  out : ∀ (i : Nat) (g : Seg), s.out[i]? = some g →
    ∃ j0, js0[i]? = some j0 ∧ g.id = j0.id ∧ g.arrival = j0.arrival

/-- What one iteration of the loop of `policy_RR` does between the states `s`
and `s1`: either no job is ready, the clock jumps and `curr` is reset to `NULL`;
or the first ready job in circular registry order from the pointer runs for
`min(slice, remaining)` as one segment, its `remaining` and the clock are
updated in the arithmetic of `int`, and `curr` becomes its registry successor,
wrapping to the head. -/
def RR_rule (slice : Int) (s s1 : RRState) : Prop :=
  ((∀ i, ¬ is_ready s.jobs s.t i) ∧ s1.curr = none ∧ s1.jobs = s.jobs ∧ s1.out = s.out ∧
    s1.t = idle_jump s.jobs s.t) ∨
  ∃ q qj qj1, s.jobs[q]? = some qj ∧ FirstReadyFrom s.jobs s.t (RR_pointer s) q ∧
    s1.out = s.out ++ [print_seg s.t qj (cmin slice qj.remaining)] ∧
    s1.jobs = s.jobs.set q qj1 ∧
    qj1.remaining = wrap (qj.remaining - cmin slice qj.remaining) ∧
    s1.t = wrap (s.t + cmin slice qj.remaining) ∧
    s1.curr = some (next_or_head s.jobs q)

/-- The effect on a job of a grant of `policy_RR` or `policy_LT` at `t` for `ran`
units: the start stamp, the decrement, and the end stamp when nothing remains. -/
def grant (j : Job) (t ran : Int) : Job :=
  let j1 := stamp_start j t
  let j2 := { j1 with remaining := wrap (j1.remaining - ran) }
  if j2.remaining = 0 then { j2 with end_time := wrap (t + ran) } else j2

/-- The pointer `curr` of `policy_RR` is `NULL` or a node of the registry. -/
def RR_ptr (s : RRState) : Prop := ∀ c, s.curr = some c → c < s.jobs.length

/-- The jobs `append_to` creates from the lines of a trace, the first of them
at position `k`. -/
def fresh_from (k : Nat) : List (Int × Int) → List Job
  | [] => []
  | p :: rest => fresh k p :: fresh_from (k + 1) rest

/-- What the loop of `policy_RR` keeps true whatever the clock does: the static
fields of the jobs, the pointer, and a clock and segment starts that are values
of `int`. -/
structure RRW (js0 : List Job) (s : RRState) : Prop where
  static : s.jobs.map Job.static = js0.map Job.static
  ptr : RR_ptr s
  clock : s.t ≤ INT_MAX
  outb : ∀ g ∈ s.out, g.tstart ≤ INT_MAX

/-- What FIFO has done to the node at position `k`, in the arithmetic of `int`,
and the line it printed. -/
def FIFO_done_wrap (js0 js : List Job) (out : List Seg) (k : Nat) : Prop :=
  ∀ j0, js0[k]? = some j0 →
    ∃ j, js[k]? = some j ∧ j.static = j0.static ∧
      j.start_time = max j0.arrival (clock_before js k) ∧
      j.end_time = wrap (j.start_time + j0.length) ∧ j.remaining = 0 ∧
      out[k]? = some { tstart := j.start_time, id := j0.id, arrival := j0.arrival,
                       ran := j0.length }

/-- The loop of `policy_FIFO` after `s.out.length` iterations, in the arithmetic
of `int`. -/
structure FIFOWrap (js0 : List Job) (s : FIFOState) : Prop where
  len : s.jobs.length = js0.length
  cur : s.cur = if s.out.length < js0.length then some s.out.length else none
  count : s.out.length ≤ js0.length
  untouched : ∀ i, s.out.length ≤ i → s.jobs[i]? = js0[i]?
  done : ∀ k, k < s.out.length → FIFO_done_wrap js0 s.jobs s.out k
  clock : s.t = clock_before s.jobs s.out.length

/-! ## Theorems -/

/-! ### General facts about loops -/

theorem Reach.inv {σ : Type} {cond : σ → Bool} {body : σ → Option σ} {s0 s : σ}
    (P : σ → Prop) (h0 : P s0)
    (hstep : ∀ a b, P a → cond a = true → body a = some b → P b)
    (h : Reach cond body s0 s) : P s := by
  induction h with
  | start => exact h0
  | step _ hc hb ih => exact hstep _ _ ih hc hb

theorem Reach.trans {σ : Type} {cond : σ → Bool} {body : σ → Option σ} {a b c : σ}
    (h1 : Reach cond body a b) (h2 : Reach cond body b c) : Reach cond body a c := by
  induction h2 with
  | start => exact h1
  | step _ hc hb ih => exact Reach.step ih hc hb

theorem runLoop_false {σ : Type} (cond : σ → Bool) (body : σ → Option σ) (n : Nat) (s : σ)
    (h : cond s = false) : runLoop cond body n s = Run.finished 0 s := by
  cases n <;> simp [runLoop, h]

theorem runLoop_succ {σ : Type} (cond : σ → Bool) (body : σ → Option σ) (n : Nat) (s s1 : σ)
    (h : cond s = true) (hb : body s = some s1) :
    runLoop cond body (n + 1) s = (runLoop cond body n s1).again := by
  rw [runLoop]; simp [h, hb]

/-- A loop whose body keeps an invariant and decreases a measure finishes within
the measure of its first state, in a state where the invariant holds and the
condition is false; more fuel does not change the result. -/
theorem runLoop_total {σ : Type} (cond : σ → Bool) (body : σ → Option σ)
    (Inv : σ → Prop) (μ : σ → Nat)
    (hstep : ∀ s, Inv s → cond s = true → ∃ s1, body s = some s1 ∧ Inv s1 ∧ μ s1 < μ s) :
    ∀ (m : Nat) (s : σ), Inv s → μ s ≤ m →
      ∃ k f, k ≤ μ s ∧ Inv f ∧ cond f = false ∧ Reach cond body s f ∧
        ∀ fuel, k ≤ fuel → runLoop cond body fuel s = Run.finished k f := by
  intro m
  induction m with
  | zero =>
    intro s hI hm
    have hc : cond s = false := by
      by_contra hc
      obtain ⟨s1, _, _, hlt⟩ := hstep s hI (by simpa using hc)
      omega
    exact ⟨0, s, Nat.zero_le _, hI, hc, Reach.start, fun fuel _ => runLoop_false cond body fuel s hc⟩
  | succ m ih =>
    intro s hI hm
    by_cases hc : cond s = true
    · obtain ⟨s1, hb, hI1, hlt⟩ := hstep s hI hc
      obtain ⟨k, f, hk, hIf, hcf, hr, hrun⟩ := ih s1 hI1 (by omega)
      refine ⟨k + 1, f, by omega, hIf, hcf, Reach.trans (Reach.step Reach.start hc hb) hr, ?_⟩
      intro fuel hfuel
      obtain ⟨fuel1, rfl⟩ : ∃ q, fuel = q + 1 := ⟨fuel - 1, by omega⟩
      rw [runLoop_succ cond body fuel1 s s1 hc hb, hrun fuel1 (by omega)]; rfl
    · have hc : cond s = false := by simpa using hc
      exact ⟨0, s, Nat.zero_le _, hI, hc, Reach.start, fun fuel _ => runLoop_false cond body fuel s hc⟩

/-- The result of a finished loop does not depend on the bound. -/
theorem runLoop_finished_unique {σ : Type} (cond : σ → Bool) (body : σ → Option σ) :
    ∀ (n : Nat) (s : σ) (k : Nat) (f : σ), runLoop cond body n s = Run.finished k f →
      k ≤ n ∧ cond f = false ∧ Reach cond body s f ∧
        ∀ fuel, k ≤ fuel → runLoop cond body fuel s = Run.finished k f := by
  intro n
  induction n with
  | zero =>
    intro s k f h
    by_cases hc : cond s = true
    · simp [runLoop, hc] at h
    · have hc : cond s = false := by simpa using hc
      rw [runLoop_false cond body 0 s hc] at h
      injection h with h1 h2
      subst h1; subst h2
      exact ⟨Nat.le_refl _, hc, Reach.start, fun fuel _ => runLoop_false cond body fuel s hc⟩
  | succ n ih =>
    intro s k f h
    by_cases hc : cond s = true
    · cases hb : body s with
      | none => rw [runLoop] at h; simp [hc, hb] at h
      | some s1 =>
        rw [runLoop_succ cond body n s s1 hc hb] at h
        cases hr : runLoop cond body n s1 with
        | finished k1 r =>
          rw [hr] at h
          simp only [Run.again] at h
          injection h with h1 h2
          subst h1; subst h2
          obtain ⟨hk, hcf, hreach, hrun⟩ := ih s1 k1 r hr
          refine ⟨by omega, hcf, Reach.trans (Reach.step Reach.start hc hb) hreach, ?_⟩
          intro fuel hfuel
          obtain ⟨fuel1, rfl⟩ : ∃ q, fuel = q + 1 := ⟨fuel - 1, by omega⟩
          rw [runLoop_succ cond body fuel1 s s1 hc hb, hrun fuel1 (by omega)]; rfl
        | faulted => rw [hr] at h; cases h
        | running => rw [hr] at h; cases h
    · have hc : cond s = false := by simpa using hc
      rw [runLoop_false cond body (n + 1) s hc] at h
      injection h with h1 h2
      subst h1; subst h2
      exact ⟨Nat.zero_le _, hc, Reach.start, fun fuel _ => runLoop_false cond body fuel s hc⟩

/-! ### Printed segments -/

theorem ran_total_append (id : Int) (o : List Seg) (g : Seg) :
    ran_total id (o ++ [g]) = ran_total id o + (if g.id = id then g.ran else 0) := by
  unfold ran_total
  by_cases h : g.id = id <;> simp [List.filter_append, List.filter_cons, h]

theorem ran_total_none (id : Int) (o : List Seg) (h : ∀ g ∈ o, g.id ≠ id) :
    ran_total id o = 0 := by
  unfold ran_total
  have : o.filter (fun g => decide (g.id = id)) = [] := by
    rw [List.filter_eq_nil_iff]
    intro g hg
    simpa using h g hg
  simp [this]

theorem first_start_append (id : Int) (o : List Seg) (g : Seg) :
    first_start id (o ++ [g]) =
      match first_start id o with
      | some x => some x
      | none => if g.id = id then some g.tstart else none := by
  unfold first_start
  rw [List.find?_append]
  cases h : o.find? (fun g => decide (g.id = id)) with
  | some x => simp
  | none => by_cases hg : g.id = id <;> simp [List.find?_cons, hg]

theorem first_start_none (id : Int) (o : List Seg) (h : ∀ g ∈ o, g.id ≠ id) :
    first_start id o = none := by
  unfold first_start
  have : o.find? (fun g => decide (g.id = id)) = none := by
    rw [List.find?_eq_none]
    intro g hg
    simpa using h g hg
  simp [this]

theorem last_end_append (id : Int) (o : List Seg) (g : Seg) :
    last_end id (o ++ [g]) = if g.id = id then some (g.tstart + g.ran) else last_end id o := by
  unfold last_end
  by_cases hg : g.id = id <;> simp [List.reverse_append, List.find?_cons, hg]

/-! ### Granting the processor to a job -/

theorem run_job_static (j : Job) (t ran : Int) :
    (run_job j t ran).id = j.id ∧ (run_job j t ran).arrival = j.arrival ∧
      (run_job j t ran).length = j.length ∧ (run_job j t ran).tickets = j.tickets := by
  unfold run_job stamp_start
  by_cases h1 : j.start_time < 0 <;> by_cases h2 : j.remaining - ran = 0 <;> simp [h1, h2]

theorem run_job_remaining (j : Job) (t ran : Int) :
    (run_job j t ran).remaining = j.remaining - ran := by
  unfold run_job stamp_start
  by_cases h1 : j.start_time < 0 <;> by_cases h2 : j.remaining - ran = 0 <;> simp [h1, h2]

theorem run_job_start (j : Job) (t ran : Int) :
    (run_job j t ran).start_time = if j.start_time < 0 then t else j.start_time := by
  unfold run_job stamp_start
  by_cases h1 : j.start_time < 0 <;> by_cases h2 : j.remaining - ran = 0 <;> simp [h1, h2]

theorem run_job_end (j : Job) (t ran : Int) :
    (run_job j t ran).end_time = if j.remaining - ran = 0 then t + ran else j.end_time := by
  unfold run_job stamp_start
  by_cases h1 : j.start_time < 0 <;> by_cases h2 : j.remaining - ran = 0 <;> simp [h1, h2]

theorem stamp_start_static (j : Job) (t : Int) :
    (stamp_start j t).id = j.id ∧ (stamp_start j t).arrival = j.arrival ∧
      (stamp_start j t).length = j.length ∧ (stamp_start j t).tickets = j.tickets ∧
      (stamp_start j t).remaining = j.remaining ∧ (stamp_start j t).end_time = j.end_time := by
  unfold stamp_start
  by_cases h1 : j.start_time < 0 <;> simp [h1]

/-- The update `remaining = 0; end_time = t + remaining` of FIFO and SJF is a grant
of everything that remains. -/
theorem run_job_all (j : Job) (t : Int) :
    ({ stamp_start j t with remaining := 0, end_time := t + (stamp_start j t).remaining } : Job)
      = run_job j t j.remaining := by
  unfold run_job stamp_start
  by_cases h1 : j.start_time < 0 <;> simp [h1]

theorem JobOK.later {t t1 : Int} {out : List Seg} {j : Job} (h : JobOK t out j) (ht : t ≤ t1) :
    JobOK t1 out j :=
  { h with
    span_run := fun a b => le_trans (h.span_run a b) ht
    span_done := fun a => ⟨(h.span_done a).1, le_trans (h.span_done a).2 ht⟩ }

theorem JobOK.other {t t1 : Int} {out : List Seg} {j : Job} {g : Seg} (h : JobOK t out j)
    (hid : g.id ≠ j.id) (ht : t ≤ t1) : JobOK t1 (out ++ [g]) j := by
  have hc := h.later ht
  refine { hc with total := ?_, unstarted := ?_, started := ?_, ended := ?_, seg_arr := ?_ }
  · rw [ran_total_append]; simp [hid]; exact h.total
  · intro hs g1 hg1
    rcases List.mem_append.1 hg1 with hg1 | hg1
    · exact h.unstarted hs g1 hg1
    · simp at hg1; subst hg1; exact hid
  · intro hs
    rw [first_start_append, h.started hs]
  · intro he
    rw [last_end_append]; simp [hid]; exact h.ended he
  · intro g1 hg1 hid1
    rcases List.mem_append.1 hg1 with hg1 | hg1
    · exact h.seg_arr g1 hg1 hid1
    · simp at hg1; subst hg1; exact absurd hid1 hid

theorem JobOK.granted {t ran : Int} {out : List Seg} {j : Job} (h : JobOK t out j)
    (hend : j.end_time < 0) (harr : j.arrival ≤ t) (ht : 0 ≤ t) (hran : 0 < ran)
    (hle : ran ≤ j.remaining) :
    JobOK (t + ran) (out ++ [print_seg t (stamp_start j t) ran]) (run_job j t ran) := by
  obtain ⟨hid, harr1, hlen, htk⟩ := run_job_static j t ran
  have hrem := run_job_remaining j t ran
  have hst := run_job_start j t ran
  have hen := run_job_end j t ran
  have hgid : (print_seg t (stamp_start j t) ran).id = j.id := by
    simp [print_seg, (stamp_start_static j t).1]
  have hgt : (print_seg t (stamp_start j t) ran).tstart = t := rfl
  have hgr : (print_seg t (stamp_start j t) ran).ran = ran := rfl
  have hfresh : j.start_time < 0 → j.remaining = j.length := by
    intro hs
    have := ran_total_none j.id out (h.unstarted hs)
    have := h.total
    omega
  have hst0 : 0 ≤ (run_job j t ran).start_time := by
    rw [hst]; split <;> omega
  constructor
  · rw [harr1]; exact h.arr
  · rw [hlen]; exact h.len
  · rw [hrem]; omega
  · rw [hrem, hlen]; have := h.rem_le; omega
  · right; exact hst0
  · rw [hen]; have := h.end_set; split <;> omega
  · rw [hrem, hen]; split <;> omega
  · rw [hid, hrem, hlen, ran_total_append, hgid, hgr]
    have := h.total
    simp; omega
  · intro hs; omega
  · intro _
    rw [hid, first_start_append, hst]
    by_cases hs : j.start_time < 0
    · rw [first_start_none j.id out (h.unstarted hs)]; simp [hs, hgid, hgt]
    · rw [h.started (by omega)]; simp [hs]
  · intro he
    rw [hid, last_end_append, hgid, hgt, hgr, hen]
    rw [hen] at he
    split at he
    · rename_i h0; simp [h0]
    · omega
  · intro _; exact hst0
  · intro g hg hgid1
    rw [harr1]
    rw [hid] at hgid1
    rcases List.mem_append.1 hg with hg | hg
    · exact h.seg_arr g hg hgid1
    · simp at hg; subst hg; exact harr
  · intro _ he
    rw [hst, hlen, hrem]
    by_cases hs : j.start_time < 0
    · have := hfresh hs; simp [hs]; omega
    · have := h.span_run (by omega) hend; simp [hs]; omega
  · intro he
    rw [hen] at he
    rw [hst, hlen, hen]
    split at he
    · rename_i h0
      by_cases hs : j.start_time < 0
      · have := hfresh hs; simp [hs, h0]; omega
      · have := h.span_run (by omega) hend; simp [hs, h0]; omega
    · omega

theorem WF.clock {js : List Job} {t t1 : Int} {out : List Seg} (h : WF js t out) (ht : t ≤ t1) :
    WF js t1 out :=
  { t_nonneg := le_trans h.t_nonneg ht
    ids := h.ids
    jobs := fun i j hj => (h.jobs i j hj).later ht }

theorem WF.grant {js : List Job} {t ran : Int} {out : List Seg} {p : Nat} {j : Job}
    (h : WF js t out) (hp : js[p]? = some j)
    (hend : j.end_time < 0) (harr : j.arrival ≤ t) (hran : 0 < ran) (hle : ran ≤ j.remaining) :
    WF (js.set p (run_job j t ran)) (t + ran) (out ++ [print_seg t (stamp_start j t) ran]) := by
  have hplt : p < js.length := by
    rcases List.getElem?_eq_some_iff.1 hp with ⟨hlt, _⟩; exact hlt
  have hpid := h.ids p j hp
  constructor
  · have := h.t_nonneg; omega
  · intro i x hx
    rw [List.getElem?_set] at hx
    by_cases hpi : p = i
    · subst hpi
      simp [hplt] at hx
      subst hx
      rw [(run_job_static j t ran).1]; exact hpid
    · simp [hpi] at hx
      exact h.ids i x hx
  · intro i x hx
    rw [List.getElem?_set] at hx
    by_cases hpi : p = i
    · subst hpi
      simp [hplt] at hx
      subst hx
      exact (h.jobs p j hp).granted hend harr h.t_nonneg hran hle
    · simp [hpi] at hx
      refine (h.jobs i x hx).other ?_ (by omega)
      have hxid := h.ids i x hx
      simp [print_seg, (stamp_start_static j t).1, hpid, hxid]
      omega

/-! ### The registry built from a trace -/

theorem append_to_spec (head : List Job) (a l tk : Int)
    (hids : ∀ (i : Nat) (j : Job), head[i]? = some j → j.id = (i : Int)) :
    append_to head a l tk = head ++ [Job.mk (head.length : Int) a l tk l (-1) (-1)] := by
  unfold append_to
  cases hl : head.getLast? with
  | none =>
    have : head = [] := by simpa using hl
    subst this; simp
  | some tl =>
    have hne : head ≠ [] := by
      intro h; subst h; simp at hl
    have hlen : 0 < head.length := List.length_pos.2 hne
    have h1 : head[head.length - 1]? = some tl := by
      rw [← hl, List.getLast?_eq_getElem?]
    have := hids _ _ h1
    simp only [this]
    congr 2
    simp
    omega

theorem read_jobs_spec (rest : List (Int × Int)) :
    ∀ (head : List Job) (tk : Int),
      (∀ (i : Nat) (j : Job), head[i]? = some j → j.id = (i : Int)) →
      tk = 100 * (head.length : Int) →
      ∀ i : Nat, (read_jobs rest head tk)[i]? =
        if i < head.length then head[i]? else (rest[i - head.length]?).map (fresh i) := by
  induction rest with
  | nil =>
    intro head tk _ _ i
    simp only [read_jobs]
    by_cases h : i < head.length
    · simp [h]
    · simp [h]; omega
  | cons p rest ih =>
    intro head tk hids htk i
    obtain ⟨a, l⟩ := p
    simp only [read_jobs]
    rw [append_to_spec head a l (tk + 100) hids]
    have hids1 : ∀ (i : Nat) (j : Job),
        (head ++ [Job.mk (head.length : Int) a l (tk + 100) l (-1) (-1)])[i]? = some j →
        j.id = (i : Int) := by
      intro i j hj
      by_cases h : i < head.length
      · rw [List.getElem?_append_left h] at hj; exact hids i j hj
      · rw [List.getElem?_append_right (by omega)] at hj
        by_cases h2 : i - head.length = 0
        · have : i = head.length := by omega
          subst this
          simp at hj; subst hj; rfl
        · obtain ⟨q, hq⟩ : ∃ q, i - head.length = q + 1 := ⟨i - head.length - 1, by omega⟩
          rw [hq] at hj; simp at hj
    rw [ih _ (tk + 100) hids1 (by simp; omega) i]
    simp only [List.length_append, List.length_singleton]
    by_cases h : i < head.length
    · have h1 : i < head.length + 1 := by omega
      simp only [h, h1, if_true]
      rw [List.getElem?_append_left h]
    · by_cases h2 : i = head.length
      · subst h2
        simp [fresh, htk]
        ring
      · have h3 : ¬ i < head.length + 1 := by omega
        obtain ⟨q, hq⟩ : ∃ q, i - head.length = q + 1 := ⟨i - head.length - 1, by omega⟩
        have h4 : i - (head.length + 1) = q := by omega
        simp only [h, h3, if_false, hq, h4, List.getElem?_cons_succ]

theorem load_getElem? (tr : List (Int × Int)) (i : Nat) :
    (load tr)[i]? = (tr[i]?).map (fresh i) := by
  unfold load
  rw [read_jobs_spec tr [] 0 (by intro i j h; simp at h) (by simp) i]
  simp

theorem load_length (tr : List (Int × Int)) : (load tr).length = tr.length := by
  have h1 := load_getElem? tr tr.length
  have h2 := load_getElem? tr (load tr).length
  simp at h1 h2
  rcases Nat.lt_or_ge (load tr).length tr.length with h | h
  · rw [List.getElem?_eq_getElem h] at h2; simp at h2
  · omega

theorem load_eq_nil (tr : List (Int × Int)) : load tr = [] ↔ tr = [] := by
  rw [← List.length_eq_zero, load_length, List.length_eq_zero]

/-- A freshly loaded registry of a trace with valid lines is well formed at time 0. -/
theorem WF_load (tr : List (Int × Int)) (hv : ∀ p ∈ tr, 0 ≤ p.1 ∧ 0 < p.2) :
    WF (load tr) 0 [] := by
  constructor
  · exact le_refl _
  · intro i j hj
    rw [load_getElem?] at hj
    cases hp : tr[i]? with
    | none => simp [hp] at hj
    | some p => simp [hp] at hj; subst hj; rfl
  · intro i j hj
    rw [load_getElem?] at hj
    cases hp : tr[i]? with
    | none => simp [hp] at hj
    | some p =>
      simp [hp] at hj; subst hj
      have hmem : p ∈ tr := List.mem_iff_getElem?.2 ⟨i, hp⟩
      obtain ⟨h1, h2⟩ := hv p hmem
      constructor <;> simp [fresh, ran_total, first_start, last_end] <;> omega

theorem load_nonpre (tr : List (Int × Int)) (j : Job) (hj : j ∈ load tr) : NonPre j := by
  obtain ⟨i, hi⟩ := List.getElem?_of_mem hj
  rw [load_getElem?] at hi
  cases hp : tr[i]? with
  | none => simp [hp] at hi
  | some p => simp [hp] at hi; subst hi; simp [NonPre, fresh]

/-! ### The helpers `all_done`, `next_arrival_after`, `pick_sjf`, `pick_stcf` -/

theorem all_done_iff (js : List Job) : all_done js = true ↔ ∀ j ∈ js, 0 ≤ j.end_time := by
  induction js with
  | nil => simp [all_done]
  | cons j rest ih =>
    simp only [all_done, List.mem_cons, forall_eq_or_imp]
    by_cases h : j.end_time < 0
    · simp [h]
    · simp [h, ih]; omega

theorem not_all_done_iff (js : List Job) : all_done js = false ↔ ∃ j ∈ js, j.end_time < 0 := by
  rw [← Bool.not_eq_true, all_done_iff]
  push_neg
  rfl

theorem next_arrival_scan_spec (t : Int) (l : List Job) :
    ∀ best : Int,
      next_arrival_scan t l best ≤ best ∧
      (next_arrival_scan t l best = best ∨
        ∃ j ∈ l, j.end_time < 0 ∧ t < j.arrival ∧ j.arrival = next_arrival_scan t l best) ∧
      (∀ j ∈ l, j.end_time < 0 → t < j.arrival → next_arrival_scan t l best ≤ j.arrival) := by
  induction l with
  | nil => intro best; simp [next_arrival_scan]
  | cons j rest ih =>
    intro best
    simp only [next_arrival_scan]
    by_cases h : j.end_time < 0 ∧ j.arrival > t ∧ j.arrival < best
    · simp only [h, and_self, if_true]
      obtain ⟨h1, h2, h3⟩ := ih j.arrival
      refine ⟨by omega, ?_, ?_⟩
      · right
        rcases h2 with h2 | ⟨x, hx, hx1, hx2, hx3⟩
        · exact ⟨j, List.mem_cons_self _ _, h.1, h.2.1, h2.symm⟩
        · exact ⟨x, List.mem_cons_of_mem _ hx, hx1, hx2, hx3⟩
      · intro x hx hx1 hx2
        rcases List.mem_cons.1 hx with rfl | hx
        · exact h1
        · exact h3 x hx hx1 hx2
    · simp only [h, if_false]
      obtain ⟨h1, h2, h3⟩ := ih best
      refine ⟨h1, ?_, ?_⟩
      · rcases h2 with h2 | ⟨x, hx, hx1, hx2, hx3⟩
        · exact Or.inl h2
        · exact Or.inr ⟨x, List.mem_cons_of_mem _ hx, hx1, hx2, hx3⟩
      · intro x hx hx1 hx2
        rcases List.mem_cons.1 hx with rfl | hx
        · have : ¬ x.arrival < best := fun hb => h ⟨hx1, hx2, hb⟩
          omega
        · exact h3 x hx hx1 hx2

/-- The idle jump moves the clock forward. -/
theorem idle_jump_gt (js : List Job) (t : Int) : t < idle_jump_exact js t := by
  unfold idle_jump_exact next_arrival_after
  obtain ⟨_, h2, _⟩ := next_arrival_scan_spec t js INT_MAX
  by_cases h : next_arrival_scan t js INT_MAX = INT_MAX
  · simp [h]
  · simp only [h, if_false]
    rcases h2 with h2 | ⟨x, _, _, hx2, hx3⟩
    · exact absurd h2 h
    · omega

/-- The idle jump does not pass the arrival of an unfinished job that is still to come. -/
theorem idle_jump_le (js : List Job) (t : Int) (j : Job) (hj : j ∈ js) (he : j.end_time < 0)
    (ha : t < j.arrival) : idle_jump_exact js t ≤ j.arrival := by
  unfold idle_jump_exact next_arrival_after
  obtain ⟨_, _, h3⟩ := next_arrival_scan_spec t js INT_MAX
  by_cases h : next_arrival_scan t js INT_MAX = INT_MAX
  · simp [h]; omega
  · simp only [h, if_false]
    exact h3 j hj he ha

/-- When an unfinished job is still to come at a time below `INT_MAX`, the idle
jump lands on the arrival of an unfinished job. -/
theorem idle_jump_arrival (js : List Job) (t : Int) (j : Job) (hj : j ∈ js)
    (he : j.end_time < 0) (ha : t < j.arrival) (hm : j.arrival < INT_MAX) :
    next_arrival_after js t ≠ INT_MAX ∧
      ∃ x ∈ js, x.end_time < 0 ∧ t < x.arrival ∧ x.arrival = idle_jump_exact js t := by
  unfold idle_jump_exact next_arrival_after
  obtain ⟨_, h2, h3⟩ := next_arrival_scan_spec t js INT_MAX
  have hne : next_arrival_scan t js INT_MAX ≠ INT_MAX := by
    have := h3 j hj he ha
    omega
  refine ⟨hne, ?_⟩
  simp only [hne, if_false]
  rcases h2 with h2 | h2
  · exact absurd h2 hne
  · exact h2

theorem pick_sjf_scan_spec (t : Int) (l : List Job) :
    ∀ (i : Nat) (best : Option (Nat × Job)),
      (∀ bi b, best = some (bi, b) → bi < i) →
      match pick_sjf_scan t l i best with
      | none => best = none ∧ ∀ x ∈ l, ¬ (x.end_time < 0 ∧ x.arrival ≤ t)
      | some (ri, r) =>
        (best = some (ri, r) ∨
          ∃ k, l[k]? = some r ∧ ri = i + k ∧ r.end_time < 0 ∧ r.arrival ≤ t) ∧
        (∀ bi b, best = some (bi, b) → prefers r ri b bi) ∧
        (∀ k x, l[k]? = some x → x.end_time < 0 → x.arrival ≤ t → prefers r ri x (i + k)) := by
  induction l with
  | nil =>
    intro i best hb
    simp only [pick_sjf_scan]
    cases best with
    | none => simp
    | some b =>
      obtain ⟨bi, b⟩ := b
      simp [prefers]
  | cons j rest ih =>
    intro i best hb
    simp only [pick_sjf_scan]
    by_cases hskip : j.end_time ≥ 0 ∨ j.arrival > t
    · simp only [hskip, if_true]
      have := ih (i + 1) best (fun bi b h => Nat.lt_succ_of_lt (hb bi b h))
      cases hr : pick_sjf_scan t rest (i + 1) best with
      | none =>
        rw [hr] at this
        refine ⟨this.1, ?_⟩
        intro x hx
        rcases List.mem_cons.1 hx with rfl | hx
        · omega
        · exact this.2 x hx
      | some r =>
        obtain ⟨ri, r⟩ := r
        rw [hr] at this
        obtain ⟨h1, h2, h3⟩ := this
        refine ⟨?_, h2, ?_⟩
        · rcases h1 with h1 | ⟨k, hk, hk1, hk2⟩
          · exact Or.inl h1
          · exact Or.inr ⟨k + 1, by simpa using hk, by omega, hk2⟩
        · intro k x hk he ha
          cases k with
          | zero => simp at hk; subst hk; omega
          | succ k =>
            have := h3 k x (by simpa using hk) he ha
            unfold prefers at this ⊢
            omega
    · simp only [hskip, if_false]
      have hready : j.end_time < 0 ∧ j.arrival ≤ t := by omega
      cases best with
      | none =>
        simp only
        have := ih (i + 1) (some (i, j)) (by intro bi b h; simp at h; omega)
        cases hr : pick_sjf_scan t rest (i + 1) (some (i, j)) with
        | none => rw [hr] at this; simp at this
        | some r =>
          obtain ⟨ri, r⟩ := r
          rw [hr] at this
          obtain ⟨h1, h2, h3⟩ := this
          refine ⟨?_, by simp, ?_⟩
          · right
            rcases h1 with h1 | ⟨k, hk, hk1, hk2⟩
            · simp at h1
              exact ⟨0, by simp [h1.2], by omega, by rw [← h1.2]; exact hready⟩
            · exact ⟨k + 1, by simpa using hk, by omega, hk2⟩
          · intro k x hk he ha
            cases k with
            | zero =>
              simp at hk; subst hk
              exact h2 i j rfl
            | succ k =>
              have := h3 k x (by simpa using hk) he ha
              unfold prefers at this ⊢
              omega
      | some b =>
        obtain ⟨bi, b⟩ := b
        have hbi : bi < i := hb bi b rfl
        simp only
        by_cases hbeat : j.remaining < b.remaining ∨
            (j.remaining = b.remaining ∧ j.arrival < b.arrival)
        · simp only [hbeat, if_true]
          have := ih (i + 1) (some (i, j)) (by intro bi b h; simp at h; omega)
          cases hr : pick_sjf_scan t rest (i + 1) (some (i, j)) with
          | none => rw [hr] at this; simp at this
          | some r =>
            obtain ⟨ri, r⟩ := r
            rw [hr] at this
            obtain ⟨h1, h2, h3⟩ := this
            have h2j := h2 i j rfl
            refine ⟨?_, ?_, ?_⟩
            · right
              rcases h1 with h1 | ⟨k, hk, hk1, hk2⟩
              · simp at h1
                exact ⟨0, by simp [h1.2], by omega, by rw [← h1.2]; exact hready⟩
              · exact ⟨k + 1, by simpa using hk, by omega, hk2⟩
            · intro bi1 b1 hb1
              simp at hb1
              obtain ⟨rfl, rfl⟩ := hb1
              unfold prefers at h2j ⊢
              omega
            · intro k x hk he ha
              cases k with
              | zero =>
                simp at hk; subst hk
                exact h2j
              | succ k =>
                have := h3 k x (by simpa using hk) he ha
                unfold prefers at this ⊢
                omega
        · simp only [hbeat, if_false]
          have := ih (i + 1) (some (bi, b)) (by intro bi1 b1 h; simp at h; omega)
          cases hr : pick_sjf_scan t rest (i + 1) (some (bi, b)) with
          | none => rw [hr] at this; simp at this
          | some r =>
            obtain ⟨ri, r⟩ := r
            rw [hr] at this
            obtain ⟨h1, h2, h3⟩ := this
            have h2b := h2 bi b rfl
            refine ⟨?_, h2, ?_⟩
            · rcases h1 with h1 | ⟨k, hk, hk1, hk2⟩
              · exact Or.inl h1
              · exact Or.inr ⟨k + 1, by simpa using hk, by omega, hk2⟩
            · intro k x hk he ha
              cases k with
              | zero =>
                simp at hk; subst hk
                unfold prefers at h2b ⊢
                omega
              | succ k =>
                have := h3 k x (by simpa using hk) he ha
                unfold prefers at this ⊢
                omega

theorem pick_sjf_none (js : List Job) (t : Int) :
    pick_sjf js t = none ↔ ∀ x ∈ js, ¬ (x.end_time < 0 ∧ x.arrival ≤ t) := by
  unfold pick_sjf
  have := pick_sjf_scan_spec t js 0 none (by simp)
  cases hr : pick_sjf_scan t js 0 none with
  | none => rw [hr] at this; simp; exact fun x hx => by simpa using this.2 x hx
  | some r =>
    obtain ⟨ri, r⟩ := r
    rw [hr] at this
    obtain ⟨h1, _, _⟩ := this
    simp at h1
    obtain ⟨k, hk, _, he, ha⟩ := h1
    simp
    exact ⟨r, List.mem_iff_getElem?.2 ⟨k, hk⟩, he, ha⟩

theorem pick_sjf_some (js : List Job) (t : Int) (p : Nat) (h : pick_sjf js t = some p) :
    ∃ j, js[p]? = some j ∧ j.end_time < 0 ∧ j.arrival ≤ t ∧
      ∀ k x, js[k]? = some x → x.end_time < 0 → x.arrival ≤ t → prefers j p x k := by
  unfold pick_sjf at h
  have := pick_sjf_scan_spec t js 0 none (by simp)
  cases hr : pick_sjf_scan t js 0 none with
  | none => rw [hr] at h; simp at h
  | some r =>
    obtain ⟨ri, r⟩ := r
    rw [hr] at this h
    simp at h
    subst h
    obtain ⟨h1, _, h3⟩ := this
    simp at h1
    obtain ⟨k, hk, hk1, he, ha⟩ := h1
    subst hk1
    refine ⟨r, hk, he, ha, ?_⟩
    intro k1 x hx hxe hxa
    simpa using h3 k1 x hx hxe hxa

theorem pick_stcf_scan_eq (t : Int) (l : List Job) :
    ∀ (i : Nat) (best : Option (Nat × Job)),
      pick_stcf_scan t l i best = pick_sjf_scan t l i best := by
  induction l with
  | nil => intro i best; rfl
  | cons j rest ih =>
    intro i best
    simp only [pick_stcf_scan, pick_sjf_scan, ih]

theorem pick_stcf_eq (js : List Job) (t : Int) : pick_stcf js t = pick_sjf js t := by
  unfold pick_stcf pick_sjf
  rw [pick_stcf_scan_eq]

/-! ### Measures of progress -/

theorem unfinished_zero_iff (js : List Job) : unfinished js = 0 ↔ all_done js = true := by
  induction js with
  | nil => simp [unfinished, all_done]
  | cons j rest ih =>
    simp only [unfinished, all_done]
    by_cases h : j.end_time < 0 <;> simp [h, ih]

theorem unfinished_set (js : List Job) :
    ∀ (p : Nat) (j j1 : Job), js[p]? = some j →
      unfinished (js.set p j1) + (if j.end_time < 0 then 1 else 0) =
        unfinished js + (if j1.end_time < 0 then 1 else 0) := by
  induction js with
  | nil => intro p j j1 h; simp at h
  | cons x rest ih =>
    intro p j j1 h
    cases p with
    | zero =>
      simp at h; subst h
      simp only [List.set_cons_zero, unfinished]; omega
    | succ p =>
      simp at h
      have := ih p j j1 h
      simp only [List.set_cons_succ, unfinished]; omega

theorem work_left_set (js : List Job) :
    ∀ (p : Nat) (j j1 : Job), js[p]? = some j →
      work_left (js.set p j1) + j.remaining.toNat = work_left js + j1.remaining.toNat := by
  induction js with
  | nil => intro p j j1 h; simp at h
  | cons x rest ih =>
    intro p j j1 h
    cases p with
    | zero =>
      simp at h; subst h
      simp only [List.set_cons_zero, work_left]; omega
    | succ p =>
      simp at h
      have := ih p j j1 h
      simp only [List.set_cons_succ, work_left]; omega

theorem map_arrival_set (js : List Job) (p : Nat) (j j1 : Job) (h : js[p]? = some j)
    (ha : j1.arrival = j.arrival) : (js.set p j1).map Job.arrival = js.map Job.arrival := by
  apply List.ext_getElem?
  intro i
  rw [List.getElem?_map, List.getElem?_map, List.getElem?_set]
  by_cases hpi : p = i
  · subst hpi
    have hlt : p < js.length := (List.getElem?_eq_some_iff.1 h).1
    simp [hlt, h, ha]
  · simp [hpi]

theorem latest_arrival_eq (js : List Job) :
    latest_arrival js = (js.map Job.arrival).foldr max 0 := by
  induction js with
  | nil => rfl
  | cons j rest ih => simp [latest_arrival, ih]

theorem le_latest_arrival (js : List Job) (j : Job) (h : j ∈ js) :
    j.arrival ≤ latest_arrival js := by
  induction js with
  | nil => simp at h
  | cons x rest ih =>
    simp only [latest_arrival]
    rcases List.mem_cons.1 h with rfl | h
    · exact le_max_left _ _
    · exact le_trans (ih h) (le_max_right _ _)

theorem late_arrivals_mono (js : List Job) (t t1 : Int) (h : t ≤ t1) :
    late_arrivals js t1 ≤ late_arrivals js t := by
  unfold late_arrivals
  apply List.Sublist.length_le
  apply List.monotone_filter_right
  intro a ha
  simp at ha ⊢
  omega

theorem late_arrivals_lt (js : List Job) (t : Int) (j : Job) (hj : j ∈ js) (h : t < j.arrival) :
    late_arrivals js j.arrival < late_arrivals js t := by
  unfold late_arrivals
  have hfil : ((js.map Job.arrival).dedup.filter (fun a => decide (j.arrival < a))) =
      (((js.map Job.arrival).dedup.filter (fun a => decide (t < a))).filter
        (fun a => decide (j.arrival < a))) := by
    rw [List.filter_filter]
    apply List.filter_congr
    intro a _
    by_cases h1 : j.arrival < a
    · have : t < a := by omega
      simp [h1, this]
    · simp [h1]
  rw [hfil]
  rw [List.length_filter_lt_length_iff_exists]
  refine ⟨j.arrival, ?_, by simp⟩
  rw [List.mem_filter]
  refine ⟨List.mem_dedup.2 (List.mem_map.2 ⟨j, hj, rfl⟩), by simpa using h⟩

theorem potential_idle (js : List Job) (t : Int) (j : Job) (hj : j ∈ js) (he : j.end_time < 0)
    (ha : t < j.arrival) : potential js (idle_jump_exact js t) < potential js t := by
  unfold potential
  have h1 := idle_jump_gt js t
  have h2 := idle_jump_le js t j hj he ha
  have h3 := le_latest_arrival js j hj
  omega

theorem budget_idle (js : List Job) (t : Int) (j : Job) (hj : j ∈ js) (he : j.end_time < 0)
    (ha : t < j.arrival) (hm : j.arrival < INT_MAX) :
    budget js (idle_jump_exact js t) < budget js t := by
  unfold budget
  obtain ⟨_, x, hx, _, hx2, hx3⟩ := idle_jump_arrival js t j hj he ha hm
  rw [← hx3]
  have := late_arrivals_lt js t x hx hx2
  omega

theorem potential_grant (js : List Job) (t ran : Int) (p : Nat) (j j1 : Job) (h : js[p]? = some j)
    (ha : j1.arrival = j.arrival) (hr : j1.remaining = j.remaining - ran) (hran : 0 < ran)
    (hle : ran ≤ j.remaining) :
    potential (js.set p j1) (t + ran) < potential js t := by
  unfold potential
  have h1 := work_left_set js p j j1 h
  have h2 : latest_arrival (js.set p j1) = latest_arrival js := by
    rw [latest_arrival_eq, latest_arrival_eq, map_arrival_set js p j j1 h ha]
  rw [h2]
  omega

theorem budget_grant (js : List Job) (t ran : Int) (p : Nat) (j j1 : Job) (h : js[p]? = some j)
    (ha : j1.arrival = j.arrival) (hr : j1.remaining = j.remaining - ran) (hran : 0 < ran)
    (hle : ran ≤ j.remaining) :
    budget (js.set p j1) (t + ran) < budget js t := by
  unfold budget
  have h1 := work_left_set js p j j1 h
  have h2 : late_arrivals (js.set p j1) (t + ran) = late_arrivals js (t + ran) := by
    unfold late_arrivals
    rw [map_arrival_set js p j j1 h ha]
  have h3 := late_arrivals_mono js t (t + ran) (by omega)
  rw [h2]
  omega

theorem load_map_arrival (tr : List (Int × Int)) :
    (load tr).map Job.arrival = tr.map Prod.fst := by
  apply List.ext_getElem?
  intro i
  rw [List.getElem?_map, List.getElem?_map, load_getElem?]
  cases tr[i]? <;> simp [fresh]

theorem load_map_remaining (tr : List (Int × Int)) :
    (load tr).map Job.remaining = tr.map Prod.snd := by
  apply List.ext_getElem?
  intro i
  rw [List.getElem?_map, List.getElem?_map, load_getElem?]
  cases tr[i]? <;> simp [fresh]

theorem work_left_eq (js : List Job) :
    work_left js = ((js.map Job.remaining).map Int.toNat).sum := by
  induction js with
  | nil => rfl
  | cons j rest ih => simp [work_left, ih]

theorem budget_load (tr : List (Int × Int)) :
    budget (load tr) 0 ≤ total_work tr + distinct_arrivals tr := by
  unfold budget total_work distinct_arrivals late_arrivals
  rw [work_left_eq, load_map_remaining, load_map_arrival]
  have := List.length_filter_le (fun a => decide ((0 : Int) < a)) (tr.map Prod.fst).dedup
  simp only [List.map_map] at *
  have h2 : (Int.toNat ∘ Prod.snd) = (fun p : Int × Int => p.2.toNat) := rfl
  rw [h2]
  omega

/-! ### Frame: the fields no policy writes -/

theorem map_set_same {β : Type} (f : Job → β) (js : List Job) (p : Nat) (j j1 : Job)
    (h : js[p]? = some j) (ha : f j1 = f j) : (js.set p j1).map f = js.map f := by
  apply List.ext_getElem?
  intro i
  rw [List.getElem?_map, List.getElem?_map, List.getElem?_set]
  by_cases hpi : p = i
  · subst hpi
    have hlt : p < js.length := (List.getElem?_eq_some_iff.1 h).1
    simp [hlt, h, ha]
  · simp [hpi]

theorem run_job_static_eq (j : Job) (t ran : Int) : (run_job j t ran).static = j.static := by
  obtain ⟨h1, h2, h3, h4⟩ := run_job_static j t ran
  simp [Job.static, h1, h2, h3, h4]

theorem stamp_start_static_eq (j : Job) (t : Int) : (stamp_start j t).static = j.static := by
  obtain ⟨h1, h2, h3, h4, _, _⟩ := stamp_start_static j t
  simp [Job.static, h1, h2, h3, h4]

theorem static_arrival (js js0 : List Job) (h : js.map Job.static = js0.map Job.static) :
    js.map Job.arrival = js0.map Job.arrival := by
  have h1 : ∀ l : List Job, l.map Job.arrival = (l.map Job.static).map (fun x => x.2.1) := by
    intro l; simp [List.map_map, Job.static, Function.comp_def]
  rw [h1, h1, h]

/-- The job at a position keeps its id, arrival, length and tickets. -/
theorem static_get (js js0 : List Job) (h : js.map Job.static = js0.map Job.static)
    (i : Nat) (j0 : Job) (h0 : js0[i]? = some j0) :
    ∃ j, js[i]? = some j ∧ j.id = j0.id ∧ j.arrival = j0.arrival ∧ j.length = j0.length ∧
      j.tickets = j0.tickets := by
  have h1 : (js.map Job.static)[i]? = (js0.map Job.static)[i]? := by rw [h]
  rw [List.getElem?_map, List.getElem?_map, h0] at h1
  cases hj : js[i]? with
  | none => rw [hj] at h1; simp at h1
  | some j =>
    rw [hj] at h1
    simp [Job.static] at h1
    exact ⟨j, rfl, h1.1, h1.2.1, h1.2.2.1, h1.2.2.2⟩

theorem static_get_rev (js js0 : List Job) (h : js.map Job.static = js0.map Job.static)
    (i : Nat) (j : Job) (hj : js[i]? = some j) :
    ∃ j0, js0[i]? = some j0 ∧ j.id = j0.id ∧ j.arrival = j0.arrival ∧ j.length = j0.length ∧
      j.tickets = j0.tickets := by
  obtain ⟨x, hx, h1, h2, h3, h4⟩ := static_get js0 js h.symm i j hj
  exact ⟨x, hx, h1.symm, h2.symm, h3.symm, h4.symm⟩

theorem unfinished_pos (js : List Job) (h : 0 < unfinished js) : ∃ j ∈ js, j.end_time < 0 := by
  rw [← not_all_done_iff]
  cases hd : all_done js with
  | false => rfl
  | true => rw [← unfinished_zero_iff] at hd; omega

/-! ### SJF -/

theorem NonPre_grant_all {t : Int} {out : List Seg} {j : Job} (h : JobOK t out j)
    (hn : NonPre j) (he : j.end_time < 0) : NonPre (run_job j t j.remaining) := by
  have hs := hn.1 he
  have hrem : j.remaining = j.length := by
    have := ran_total_none j.id out (h.unstarted hs)
    have := h.total
    omega
  unfold NonPre
  rw [run_job_end, run_job_start, (run_job_static j t j.remaining).2.2.1]
  simp [hs, hrem]
  have := h.len
  omega

theorem SJF_step (js0 : List Job) (s : SJFState) (hI : SJFInv js0 s) (hc : 0 < s.remaining) :
    ∃ s1, SJF_body_exact s = some s1 ∧ SJFInv js0 s1 ∧
      potential s1.jobs s1.t < potential s.jobs s.t ∧
      (Bounded s.jobs → budget s1.jobs s1.t < budget s.jobs s.t) ∧
      JobsStep s.jobs s1.jobs := by
  obtain ⟨x, hx, hxe⟩ := unfinished_pos s.jobs (by have := hI.count; omega)
  unfold SJF_body_exact
  cases hp : pick_sjf s.jobs s.t with
  | none =>
    have hnone := (pick_sjf_none s.jobs s.t).1 hp
    have hxa : s.t < x.arrival := by
      have := hnone x hx
      omega
    refine ⟨_, rfl, ?_, potential_idle s.jobs s.t x hx hxe hxa, ?_⟩
    · exact { wf := hI.wf.clock (le_of_lt (idle_jump_gt s.jobs s.t))
              nonpre := hI.nonpre
              count := hI.count
              static := hI.static }
    · exact ⟨fun hb => budget_idle s.jobs s.t x hx hxe hxa (hb _ (List.mem_map.2 ⟨x, hx, rfl⟩)),
        Or.inl rfl⟩
  | some p =>
    obtain ⟨j, hj, hje, hja, _⟩ := pick_sjf_some s.jobs s.t p hp
    have hok := hI.wf.jobs p j hj
    have hrem : 0 < j.remaining := hok.fin_iff.1 hje
    simp only [hj]
    have hsr : (stamp_start j s.t).remaining = j.remaining := (stamp_start_static j s.t).2.2.2.2.1
    rw [run_job_all, hsr]
    refine ⟨_, rfl, ?_, ?_, ?_⟩
    · constructor
      · exact hI.wf.grant hj hje hja hrem (le_refl _)
      · intro y hy
        obtain ⟨i, hi⟩ := List.getElem?_of_mem hy
        simp only at hi
        rw [List.getElem?_set] at hi
        by_cases hpi : p = i
        · subst hpi
          have hlt : p < s.jobs.length := (List.getElem?_eq_some_iff.1 hj).1
          simp [hlt] at hi
          subst hi
          exact NonPre_grant_all hok (hI.nonpre j (List.mem_iff_getElem?.2 ⟨p, hj⟩)) hje
        · simp [hpi] at hi
          exact hI.nonpre y (List.mem_iff_getElem?.2 ⟨i, hi⟩)
      · have h1 := unfinished_set s.jobs p j (run_job j s.t j.remaining) hj
        have h2 : ¬ (run_job j s.t j.remaining).end_time < 0 := by
          rw [run_job_end]; simp
          have := hI.wf.t_nonneg
          omega
        simp only [hje, h2, if_true, if_false] at h1
        have := hI.count
        simp only
        omega
      · simp only
        rw [map_set_same Job.static s.jobs p j _ hj (run_job_static_eq j s.t j.remaining)]
        exact hI.static
    · exact potential_grant s.jobs s.t j.remaining p j _ hj
        (run_job_static j s.t j.remaining).2.1 (run_job_remaining j s.t j.remaining) hrem
        (le_refl _)
    · exact ⟨fun _ => budget_grant s.jobs s.t j.remaining p j _ hj
        (run_job_static j s.t j.remaining).2.1 (run_job_remaining j s.t j.remaining) hrem
        (le_refl _), Or.inr ⟨p, j, s.t, j.remaining, hj, hje, hI.wf.t_nonneg, rfl⟩⟩

theorem SJF_init_inv (tr : List (Int × Int)) (hv : ∀ p ∈ tr, 0 ≤ p.1 ∧ 0 < p.2) :
    SJFInv (load tr) (SJF_init (load tr)) := by
  constructor
  · exact WF_load tr hv
  · exact load_nonpre tr
  · simp only [SJF_init]
    have : ∀ js : List Job, (∀ j ∈ js, j.end_time < 0) → unfinished js = js.length := by
      intro js
      induction js with
      | nil => intro _; rfl
      | cons j rest ih =>
        intro h
        simp only [unfinished, List.length_cons]
        have h1 := h j (List.mem_cons_self _ _)
        have h2 := ih (fun y hy => h y (List.mem_cons_of_mem _ hy))
        simp [h1, h2]; omega
    rw [this]
    intro j hj
    obtain ⟨i, hi⟩ := List.getElem?_of_mem hj
    rw [load_getElem?] at hi
    cases hp : tr[i]? with
    | none => simp [hp] at hi
    | some p => simp [hp] at hi; subst hi; simp [fresh]
  · rfl

theorem Bounded_load (tr : List (Int × Int)) (hb : ∀ p ∈ tr, p.1 < INT_MAX) :
    Bounded (load tr) := by
  unfold Bounded
  rw [load_map_arrival]
  intro a ha
  obtain ⟨p, hp, rfl⟩ := List.mem_map.1 ha
  exact hb p hp

theorem Bounded_static (js js0 : List Job) (h : js.map Job.static = js0.map Job.static)
    (hb : Bounded js0) : Bounded js := by
  unfold Bounded at *
  rw [static_arrival js js0 h]
  exact hb

/-- The loop of `policy_SJF_exact` finishes on every valid trace, with the invariant. -/
theorem SJF_run (tr : List (Int × Int)) (hv : ∀ p ∈ tr, 0 ≤ p.1 ∧ 0 < p.2) :
    ∃ k f, (∀ fuel, k ≤ fuel → policy_SJF_exact fuel (load tr) = Run.finished k f) ∧
      SJFInv (load tr) f ∧ f.remaining ≤ 0 ∧
      Reach SJF_cond SJF_body_exact (SJF_init (load tr)) f ∧
      ((∀ p ∈ tr, p.1 < INT_MAX) → k ≤ total_work tr + distinct_arrivals tr) := by
  obtain ⟨k, f, _, hI, hc, hr, hrun⟩ :=
    runLoop_total SJF_cond SJF_body_exact (SJFInv (load tr))
      (fun s => potential s.jobs s.t)
      (fun s hI hc => by
        obtain ⟨s1, h1, h2, h3, _⟩ := SJF_step (load tr) s hI (by simpa [SJF_cond] using hc)
        exact ⟨s1, h1, h2, h3⟩)
      _ (SJF_init (load tr)) (SJF_init_inv tr hv) (le_refl _)
  refine ⟨k, f, hrun, hI, by simpa [SJF_cond] using hc, hr, ?_⟩
  intro hb
  obtain ⟨k1, f1, hk1, _, _, _, hrun1⟩ :=
    runLoop_total SJF_cond SJF_body_exact
      (fun s => SJFInv (load tr) s)
      (fun s => budget s.jobs s.t)
      (fun s hI hc => by
        obtain ⟨s1, h1, h2, _, h4⟩ := SJF_step (load tr) s hI (by simpa [SJF_cond] using hc)
        exact ⟨s1, h1, h2, h4.1 (Bounded_static _ _ hI.static (Bounded_load tr hb))⟩)
      _ (SJF_init (load tr)) (SJF_init_inv tr hv) (le_refl _)
  have e1 := hrun (max k k1) (le_max_left _ _)
  have e2 := hrun1 (max k k1) (le_max_right _ _)
  unfold policy_SJF_exact at e1
  rw [e1] at e2
  injection e2 with e3 _
  have := budget_load tr
  simp only [SJF_init] at hk1
  omega

/-! ### The helper `find_next_ready_from` -/

theorem is_ready_lt {js : List Job} {t : Int} {i : Nat} (h : is_ready js t i) : i < js.length := by
  obtain ⟨x, hx, _⟩ := h
  exact (List.getElem?_eq_some_iff.1 hx).1

theorem cdist_lt (n p0 i : Nat) (hi : i < n) (h0 : p0 < n) : cdist n p0 i < n := by
  unfold cdist; split_ifs <;> omega

theorem cdist_inj (n p0 i p : Nat) (hi : i < n) (hp : p < n) (h0 : p0 < n)
    (h : cdist n p0 i = cdist n p0 p) : i = p := by
  unfold cdist at h; split_ifs at h <;> omega

theorem cdist_wrap (js : List Job) (p0 p : Nat) (hp : p < js.length) (h0 : p0 < js.length)
    (h : next_or_head js p = p0) : cdist js.length p0 p + 1 = js.length := by
  unfold next_or_head at h; unfold cdist; split_ifs at h ⊢ <;> omega

theorem cdist_next (js : List Job) (p0 p : Nat) (hp : p < js.length) (h0 : p0 < js.length)
    (h : next_or_head js p ≠ p0) :
    cdist js.length p0 (next_or_head js p) = cdist js.length p0 p + 1 := by
  unfold next_or_head at h ⊢; unfold cdist; split_ifs at h ⊢ <;> omega

theorem next_or_head_lt (js : List Job) (p : Nat) (hp : p < js.length) :
    next_or_head js p < js.length := by
  unfold next_or_head; split_ifs <;> omega

theorem find_scan_spec (js : List Job) (t : Int) (p0 : Nat) (hp0 : p0 < js.length) :
    ∀ (fuel p : Nat), p < js.length → cdist js.length p0 p + fuel = js.length →
      (∀ i, i < js.length → cdist js.length p0 i < cdist js.length p0 p → ¬ is_ready js t i) →
      match find_scan js t p0 fuel p with
      | some q => is_ready js t q ∧
          ∀ i, is_ready js t i → cdist js.length p0 q ≤ cdist js.length p0 i
      | none => ∀ i, ¬ is_ready js t i := by
  intro fuel
  induction fuel with
  | zero =>
    intro p hp hd _
    exfalso
    have := cdist_lt js.length p0 p hp hp0
    omega
  | succ fuel ih =>
    intro p hp hd hbefore
    simp only [find_scan]
    have hj : js[p]? = some js[p] := List.getElem?_eq_getElem hp
    rw [hj]
    simp only
    have hstep : ∀ i, i < js.length → cdist js.length p0 i < cdist js.length p0 p + 1 →
        ¬ is_ready js t p → ¬ is_ready js t i := by
      intro i hil hlt hnr hi
      have : cdist js.length p0 i < cdist js.length p0 p ∨
          cdist js.length p0 i = cdist js.length p0 p := by omega
      rcases this with h | h
      · exact hbefore i hil h hi
      · have := cdist_inj js.length p0 i p hil hp hp0 h
        subst this; exact hnr hi
    by_cases hr : js[p].end_time < 0 ∧ js[p].arrival ≤ t ∧ js[p].remaining > 0
    · simp only [hr, and_self, if_true]
      refine ⟨⟨js[p], hj, hr.1, hr.2.1, hr.2.2⟩, ?_⟩
      intro i hi
      by_contra hlt
      exact hbefore i (is_ready_lt hi) (by omega) hi
    · simp only [hr, if_false]
      have hnr : ¬ is_ready js t p := by
        rintro ⟨x, hx, h1, h2, h3⟩
        rw [hj] at hx
        injection hx with hx
        subst hx
        exact hr ⟨h1, h2, h3⟩
      by_cases hwrap : next_or_head js p = p0
      · simp only [hwrap, if_true]
        intro i hi
        have hil := is_ready_lt hi
        have h1 := cdist_wrap js p0 p hp hp0 hwrap
        have h2 := cdist_lt js.length p0 i hil hp0
        exact hstep i hil (by omega) hnr hi
      · simp only [hwrap, if_false]
        have hd1 := cdist_next js p0 p hp hp0 hwrap
        apply ih (next_or_head js p) (next_or_head_lt js p hp) (by omega)
        intro i hil hlt hi
        rw [hd1] at hlt
        exact hstep i hil hlt hnr hi

theorem find_next_ready_from_spec (js : List Job) (frm : Option Nat) (t : Int)
    (hfrm : ∀ c, frm = some c → c < js.length) :
    match find_next_ready_from js frm t with
    | some q => is_ready js t q ∧
        ∀ i, is_ready js t i →
          cdist js.length (scan_start frm) q ≤ cdist js.length (scan_start frm) i
    | none => ∀ i, ¬ is_ready js t i := by
  unfold find_next_ready_from
  cases hjs : js with
  | nil =>
    simp only
    rintro i ⟨x, hx, _⟩
    simp at hx
  | cons a rest =>
    simp only
    rw [← hjs]
    have hn : 0 < js.length := by rw [hjs]; simp
    have hp0 : scan_start frm < js.length := by
      cases frm with
      | none => exact hn
      | some c => exact hfrm c rfl
    have := find_scan_spec js t (scan_start frm) hp0 js.length (scan_start frm) hp0
      (by unfold cdist; simp)
      (by intro i _ h; unfold cdist at h; simp at h)
    exact this

/-! ### The helpers `total_ready_tickets_exact` and `pick_lottery_exact` -/

theorem total_scan_eq (t : Int) (l : List Job) :
    ∀ tot : Int, total_scan_exact t l tot = tot + ready_sum t l := by
  induction l with
  | nil => intro tot; simp [total_scan_exact, ready_sum]
  | cons j rest ih =>
    intro tot
    simp only [total_scan_exact, ready_sum]
    by_cases h : j.end_time < 0 ∧ j.arrival ≤ t ∧ j.remaining > 0
    · simp only [h, and_self, if_true]; rw [ih]; ring
    · simp only [h, if_false]; rw [ih]; ring

theorem total_ready_tickets_eq (js : List Job) (t : Int) :
    total_ready_tickets_exact js t = ready_sum t js := by
  unfold total_ready_tickets_exact
  rw [total_scan_eq]; ring

theorem TicketsPos.tail {t : Int} {j : Job} {rest : List Job} (h : TicketsPos t (j :: rest)) :
    TicketsPos t rest := fun x hx => h x (List.mem_cons_of_mem _ hx)

theorem TicketsPos.take {t : Int} {l : List Job} (h : TicketsPos t l) (k : Nat) :
    TicketsPos t (l.take k) := fun x hx => h x (List.mem_of_mem_take hx)

theorem TicketsPos.drop {t : Int} {l : List Job} (h : TicketsPos t l) (k : Nat) :
    TicketsPos t (l.drop k) := fun x hx => h x (List.mem_of_mem_drop hx)

theorem ready_sum_nonneg (t : Int) (l : List Job) (h : TicketsPos t l) : 0 ≤ ready_sum t l := by
  induction l with
  | nil => simp [ready_sum]
  | cons j rest ih =>
    simp only [ready_sum]
    have h1 := ih h.tail
    by_cases hr : j.end_time < 0 ∧ j.arrival ≤ t ∧ j.remaining > 0
    · have := h j (List.mem_cons_self _ _) hr.1 hr.2.1 hr.2.2
      simp only [hr, and_self, if_true]; omega
    · simp only [hr, if_false]; omega

theorem ready_sum_pos_iff (t : Int) (l : List Job) (h : TicketsPos t l) :
    ready_sum t l ≠ 0 ↔ ∃ x ∈ l, x.end_time < 0 ∧ x.arrival ≤ t ∧ 0 < x.remaining := by
  induction l with
  | nil => simp [ready_sum]
  | cons j rest ih =>
    have h1 := ready_sum_nonneg t rest h.tail
    have h2 := ih h.tail
    by_cases hr : j.end_time < 0 ∧ j.arrival ≤ t ∧ j.remaining > 0
    · have := h j (List.mem_cons_self _ _) hr.1 hr.2.1 hr.2.2
      constructor
      · intro _; exact ⟨j, List.mem_cons_self _ _, hr.1, hr.2.1, hr.2.2⟩
      · intro _
        unfold ready_sum
        rw [if_pos hr]; omega
    · unfold ready_sum
      rw [if_neg hr, zero_add, h2]
      constructor
      · rintro ⟨x, hx, h3⟩; exact ⟨x, List.mem_cons_of_mem _ hx, h3⟩
      · rintro ⟨x, hx, h3⟩
        rcases List.mem_cons.1 hx with rfl | hx
        · exact absurd ⟨h3.1, h3.2.1, h3.2.2⟩ hr
        · exact ⟨x, hx, h3⟩

theorem ready_sum_split (t : Int) (l : List Job) :
    ∀ (p : Nat) (j : Job), l[p]? = some j →
      ready_sum t l = ready_sum t (l.take p) +
        (if j.end_time < 0 ∧ j.arrival ≤ t ∧ j.remaining > 0 then j.tickets else 0) +
        ready_sum t (l.drop (p + 1)) := by
  induction l with
  | nil => intro p j h; simp at h
  | cons x rest ih =>
    intro p j h
    cases p with
    | zero =>
      simp at h; subst h
      simp [ready_sum]
    | succ p =>
      simp at h
      have := ih p j h
      simp only [List.take_succ_cons, List.drop_succ_cons, ready_sum]
      omega

/-- The result of `pick_lottery_exact` always passes the readiness test. -/
theorem lottery_scan_ready (t w : Int) (l : List Job) :
    ∀ (i : Nat) (acc : Int) (q : Nat), lottery_scan_exact t w l i acc = some q →
      ∃ k x, q = i + k ∧ l[k]? = some x ∧ x.end_time < 0 ∧ x.arrival ≤ t ∧ 0 < x.remaining := by
  induction l with
  | nil => intro i acc q h; simp [lottery_scan_exact] at h
  | cons j rest ih =>
    intro i acc q h
    simp only [lottery_scan_exact] at h
    by_cases hr : j.end_time < 0 ∧ j.arrival ≤ t ∧ j.remaining > 0
    · simp only [hr, and_self, if_true] at h
      by_cases hw : acc + j.tickets > w
      · simp only [hw, if_true] at h
        injection h with h
        exact ⟨0, j, by omega, by simp, hr.1, hr.2.1, hr.2.2⟩
      · simp only [hw, if_false] at h
        obtain ⟨k, x, h1, h2, h3⟩ := ih _ _ _ h
        exact ⟨k + 1, x, by omega, by simpa using h2, h3⟩
    · simp only [hr, if_false] at h
      obtain ⟨k, x, h1, h2, h3⟩ := ih _ _ _ h
      exact ⟨k + 1, x, by omega, by simpa using h2, h3⟩

/-- The winning numbers for which the scan returns a given node are those from
the ticket sum before the node up to that sum plus the tickets of the node. -/
theorem lottery_scan_iff (t w : Int) (l : List Job) :
    ∀ (i : Nat) (acc : Int) (q : Nat), acc ≤ w → TicketsPos t l →
      (lottery_scan_exact t w l i acc = some q ↔
        ∃ k x, q = i + k ∧ l[k]? = some x ∧
          (x.end_time < 0 ∧ x.arrival ≤ t ∧ 0 < x.remaining) ∧
          acc + ready_sum t (l.take k) ≤ w ∧ w < acc + ready_sum t (l.take k) + x.tickets) := by
  induction l with
  | nil => intro i acc q _ _; simp [lottery_scan_exact]
  | cons j rest ih =>
    intro i acc q hacc hpos
    simp only [lottery_scan_exact]
    by_cases hr : j.end_time < 0 ∧ j.arrival ≤ t ∧ j.remaining > 0
    · simp only [hr, and_self, if_true]
      by_cases hw : acc + j.tickets > w
      · simp only [hw, if_true]
        constructor
        · intro h
          injection h with h
          exact ⟨0, j, by omega, by simp, ⟨hr.1, hr.2.1, hr.2.2⟩, by simp [ready_sum]; omega,
            by simp [ready_sum]; omega⟩
        · rintro ⟨k, x, h1, h2, _, h4, _⟩
          cases k with
          | zero => simp at h1; rw [h1]
          | succ k =>
            exfalso
            simp only [List.take_succ_cons, ready_sum, hr, and_self, if_true] at h4
            have := ready_sum_nonneg t (rest.take k) (hpos.tail.take k)
            omega
      · simp only [hw, if_false]
        rw [ih (i + 1) (acc + j.tickets) q (by omega) hpos.tail]
        constructor
        · rintro ⟨k, x, h1, h2, h3, h4, h5⟩
          refine ⟨k + 1, x, by omega, by simpa using h2, h3, ?_, ?_⟩
          · simp only [List.take_succ_cons, ready_sum, hr, and_self, if_true]; omega
          · simp only [List.take_succ_cons, ready_sum, hr, and_self, if_true]; omega
        · rintro ⟨k, x, h1, h2, h3, h4, h5⟩
          cases k with
          | zero =>
            exfalso
            simp at h2; subst h2
            simp [ready_sum] at h5
            omega
          | succ k =>
            simp only [List.take_succ_cons, ready_sum, hr, and_self, if_true] at h4 h5
            exact ⟨k, x, by omega, by simpa using h2, h3, by omega, by omega⟩
    · simp only [hr, if_false]
      rw [ih (i + 1) acc q hacc hpos.tail]
      constructor
      · rintro ⟨k, x, h1, h2, h3, h4, h5⟩
        refine ⟨k + 1, x, by omega, by simpa using h2, h3, ?_, ?_⟩
        · simp only [List.take_succ_cons, ready_sum, hr, if_false]; omega
        · simp only [List.take_succ_cons, ready_sum, hr, if_false]; omega
      · rintro ⟨k, x, h1, h2, h3, h4, h5⟩
        cases k with
        | zero =>
          exfalso
          simp at h2; subst h2
          exact hr ⟨h3.1, h3.2.1, h3.2.2⟩
        | succ k =>
          simp only [List.take_succ_cons, ready_sum, hr, if_false] at h4 h5
          exact ⟨k, x, by omega, by simpa using h2, h3, by omega, by omega⟩

/-- A winning number below the ticket total always selects a node. -/
theorem lottery_scan_some (t w : Int) (l : List Job) :
    ∀ (i : Nat) (acc : Int), acc ≤ w → w < acc + ready_sum t l →
      ∃ q, lottery_scan_exact t w l i acc = some q := by
  induction l with
  | nil => intro i acc h0 h; simp [ready_sum] at h; omega
  | cons j rest ih =>
    intro i acc h0 h
    simp only [lottery_scan_exact]
    simp only [ready_sum] at h
    by_cases hr : j.end_time < 0 ∧ j.arrival ≤ t ∧ j.remaining > 0
    · simp only [hr, and_self, if_true] at h ⊢
      by_cases hw : acc + j.tickets > w
      · simp [hw]
      · simp only [hw, if_false]
        exact ih _ _ (by omega) (by omega)
    · simp only [hr, if_false] at h ⊢
      exact ih _ _ h0 (by omega)

theorem pick_lottery_some (js : List Job) (t w : Int) (h0 : 0 ≤ w)
    (h : w < total_ready_tickets_exact js t) :
    ∃ p, pick_lottery_exact js t w = some p ∧ is_ready js t p := by
  rw [total_ready_tickets_eq] at h
  obtain ⟨q, hq⟩ := lottery_scan_some t w js 0 0 h0 (by omega)
  refine ⟨q, hq, ?_⟩
  obtain ⟨k, x, h1, h2, h3⟩ := lottery_scan_ready t w js 0 0 q hq
  have : q = k := by omega
  subst this
  exact ⟨x, h2, h3⟩

/-! ### Round-Robin and Lottery -/

theorem WF.idle_wait {js : List Job} {t : Int} {out : List Seg} (h : WF js t out)
    (hnone : ∀ i, ¬ is_ready js t i) (x : Job) (hx : x ∈ js) (he : x.end_time < 0) :
    t < x.arrival := by
  obtain ⟨i, hi⟩ := List.getElem?_of_mem hx
  have := (h.jobs i x hi).fin_iff.1 he
  by_contra hlt
  exact hnone i ⟨x, hi, he, by omega, this⟩

theorem cmin_bounds (slice r : Int) (hs : 0 < slice) (hr : 0 < r) :
    0 < cmin slice r ∧ cmin slice r ≤ r ∧ cmin slice r ≤ slice := by
  unfold cmin; split_ifs <;> omega

/-- The body of the RR loop in terms of `run_job`. -/
theorem RR_body_eq (slice : Int) (s : RRState) :
    RR_body_exact slice s =
      match find_next_ready_from s.jobs (RR_from s) s.t with
      | none => some { s with t := idle_jump_exact s.jobs s.t, curr := none }
      | some p =>
        match s.jobs[p]? with
        | none => none
        | some j =>
          some { jobs := s.jobs.set p (run_job j s.t (cmin slice j.remaining)),
                 t := s.t + cmin slice j.remaining,
                 curr := some (next_or_head s.jobs p),
                 out := s.out ++ [print_seg s.t (stamp_start j s.t) (cmin slice j.remaining)] } := by
  unfold RR_body_exact
  simp only
  cases find_next_ready_from s.jobs (RR_from s) s.t with
  | none => rfl
  | some p =>
    simp only
    cases s.jobs[p]? with
    | none => rfl
    | some j =>
      have hsr : (stamp_start j s.t).remaining = j.remaining :=
        (stamp_start_static j s.t).2.2.2.2.1
      simp only [run_job, hsr]

theorem not_all_done_mem {js : List Job} (h : (!all_done js) = true) :
    ∃ x ∈ js, x.end_time < 0 := by
  rw [← not_all_done_iff]
  simpa using h

theorem RR_step (js0 : List Job) (slice : Int) (hs : 0 < slice) (s : RRState)
    (hI : RRInv js0 s) (hc : RR_cond s = true) :
    ∃ s1, RR_body_exact slice s = some s1 ∧ RRInv js0 s1 ∧
      potential s1.jobs s1.t < potential s.jobs s.t ∧
      (Bounded s.jobs → budget s1.jobs s1.t < budget s.jobs s.t) ∧
      JobsStep s.jobs s1.jobs := by
  obtain ⟨x, hx, hxe⟩ := not_all_done_mem hc
  have hn : 0 < s.jobs.length := List.length_pos_of_mem hx
  have hfrm : ∀ c, RR_from s = some c → c < s.jobs.length := by
    intro c h
    unfold RR_from at h
    cases hcur : s.curr with
    | some c1 => rw [hcur] at h; simp at h; subst h; exact hI.curr_lt c1 hcur
    | none =>
      rw [hcur] at h
      simp only at h
      unfold head_ptr at h
      split at h
      · cases h
      · injection h with h; omega
  have hspec := find_next_ready_from_spec s.jobs _ s.t hfrm
  rw [RR_body_eq]
  cases hf : find_next_ready_from s.jobs (RR_from s) s.t with
  | none =>
    rw [hf] at hspec
    have hxa := hI.wf.idle_wait hspec x hx hxe
    refine ⟨_, rfl, ?_, potential_idle s.jobs s.t x hx hxe hxa, ?_⟩
    · exact { wf := hI.wf.clock (le_of_lt (idle_jump_gt s.jobs s.t))
              static := hI.static
              curr_lt := by intro c h; simp at h }
    · exact ⟨fun hb => budget_idle s.jobs s.t x hx hxe hxa (hb _ (List.mem_map.2 ⟨x, hx, rfl⟩)),
        Or.inl rfl⟩
  | some p =>
    rw [hf] at hspec
    obtain ⟨⟨j, hj, hje, hja, hjr⟩, _⟩ := hspec
    simp only [hj]
    obtain ⟨hr1, hr2, _⟩ := cmin_bounds slice j.remaining hs hjr
    have hplt : p < s.jobs.length := (List.getElem?_eq_some_iff.1 hj).1
    refine ⟨_, rfl, ?_, ?_, ?_⟩
    · constructor
      · exact hI.wf.grant hj hje hja hr1 hr2
      · simp only
        rw [map_set_same Job.static s.jobs p j _ hj (run_job_static_eq j s.t _)]
        exact hI.static
      · intro c h
        simp only at h
        injection h with h
        subst h
        simp only [List.length_set]
        exact next_or_head_lt s.jobs p hplt
    · exact potential_grant s.jobs s.t _ p j _ hj
        (run_job_static j s.t _).2.1 (run_job_remaining j s.t _) hr1 hr2
    · exact ⟨fun _ => budget_grant s.jobs s.t _ p j _ hj
        (run_job_static j s.t _).2.1 (run_job_remaining j s.t _) hr1 hr2,
        Or.inr ⟨p, j, s.t, _, hj, hje, hI.wf.t_nonneg, rfl⟩⟩

theorem RR_init_inv (tr : List (Int × Int)) (hv : ∀ p ∈ tr, 0 ≤ p.1 ∧ 0 < p.2) :
    RRInv (load tr) (RR_init (load tr)) :=
  { wf := WF_load tr hv
    static := rfl
    curr_lt := by intro c h; simp [RR_init] at h }

/-- The loop of `policy_RR_exact` finishes on every valid trace, with the invariant. -/
theorem RR_run (tr : List (Int × Int)) (hv : ∀ p ∈ tr, 0 ≤ p.1 ∧ 0 < p.2)
    (slice : Int) (hs : 0 < slice) :
    ∃ k f, (∀ fuel, k ≤ fuel → policy_RR_exact slice fuel (load tr) = Run.finished k f) ∧
      RRInv (load tr) f ∧ all_done f.jobs = true ∧
      Reach RR_cond (RR_body_exact slice) (RR_init (load tr)) f ∧
      ((∀ p ∈ tr, p.1 < INT_MAX) → k ≤ total_work tr + distinct_arrivals tr) := by
  obtain ⟨k, f, _, hI, hc, hr, hrun⟩ :=
    runLoop_total RR_cond (RR_body_exact slice) (RRInv (load tr))
      (fun s => potential s.jobs s.t)
      (fun s hI hc => by
        obtain ⟨s1, h1, h2, h3, _⟩ := RR_step (load tr) slice hs s hI hc
        exact ⟨s1, h1, h2, h3⟩)
      _ (RR_init (load tr)) (RR_init_inv tr hv) (le_refl _)
  refine ⟨k, f, hrun, hI, by simpa [RR_cond] using hc, hr, ?_⟩
  intro hb
  obtain ⟨k1, f1, hk1, _, _, _, hrun1⟩ :=
    runLoop_total RR_cond (RR_body_exact slice) (RRInv (load tr))
      (fun s => budget s.jobs s.t)
      (fun s hI hc => by
        obtain ⟨s1, h1, h2, _, h4⟩ := RR_step (load tr) slice hs s hI hc
        exact ⟨s1, h1, h2, h4.1 (Bounded_static _ _ hI.static (Bounded_load tr hb))⟩)
      _ (RR_init (load tr)) (RR_init_inv tr hv) (le_refl _)
  have e1 := hrun (max k k1) (le_max_left _ _)
  have e2 := hrun1 (max k k1) (le_max_right _ _)
  unfold policy_RR_exact at e1
  rw [e1] at e2
  injection e2 with e3 _
  have := budget_load tr
  simp only [RR_init] at hk1
  omega

/-- The body of the LT loop in terms of `run_job`. -/
theorem LT_body_eq (rand : Nat → Nat) (slice : Int) (s : LTState) :
    LT_body_exact rand slice s =
      if total_ready_tickets_exact s.jobs s.t = 0 then some { s with t := idle_jump_exact s.jobs s.t }
      else
        match pick_lottery_exact s.jobs s.t
          (Int.tmod (rand s.draws) (total_ready_tickets_exact s.jobs s.t)) with
        | none => none
        | some p =>
          match s.jobs[p]? with
          | none => none
          | some j =>
            some { jobs := s.jobs.set p (run_job j s.t (cmin slice j.remaining)),
                   t := s.t + cmin slice j.remaining,
                   draws := s.draws + 1,
                   out := s.out ++
                     [print_seg s.t (stamp_start j s.t) (cmin slice j.remaining)] } := by
  unfold LT_body_exact
  simp only
  by_cases htot : total_ready_tickets_exact s.jobs s.t = 0
  · simp only [htot, if_true]
  · simp only [htot, if_false]
    cases pick_lottery_exact s.jobs s.t
        (Int.tmod (rand s.draws) (total_ready_tickets_exact s.jobs s.t)) with
    | none => rfl
    | some p =>
      simp only
      cases s.jobs[p]? with
      | none => rfl
      | some j =>
        have hsr : (stamp_start j s.t).remaining = j.remaining :=
          (stamp_start_static j s.t).2.2.2.2.1
        simp only [run_job, hsr]

theorem LT_step (js0 : List Job) (rand : Nat → Nat) (slice : Int) (hs : 0 < slice) (s : LTState)
    (hI : LTInv js0 s) (hc : LT_cond s = true) :
    ∃ s1, LT_body_exact rand slice s = some s1 ∧ LTInv js0 s1 ∧
      potential s1.jobs s1.t < potential s.jobs s.t ∧
      (Bounded s.jobs → budget s1.jobs s1.t < budget s.jobs s.t) ∧
      JobsStep s.jobs s1.jobs := by
  obtain ⟨x, hx, hxe⟩ := not_all_done_mem hc
  have hpos : TicketsPos s.t s.jobs := fun y hy _ _ _ => hI.tickets y hy
  rw [LT_body_eq]
  by_cases htot : total_ready_tickets_exact s.jobs s.t = 0
  · simp only [htot, if_true]
    have hnone : ∀ i, ¬ is_ready s.jobs s.t i := by
      rintro i ⟨y, hy, h1, h2, h3⟩
      rw [total_ready_tickets_eq] at htot
      exact (ready_sum_pos_iff s.t s.jobs hpos).not.1 (by simpa using htot)
        ⟨y, List.mem_iff_getElem?.2 ⟨i, hy⟩, h1, h2, h3⟩
    have hxa := hI.wf.idle_wait hnone x hx hxe
    refine ⟨_, rfl, ?_, potential_idle s.jobs s.t x hx hxe hxa, ?_⟩
    · exact { wf := hI.wf.clock (le_of_lt (idle_jump_gt s.jobs s.t))
              static := hI.static
              tickets := hI.tickets }
    · exact ⟨fun hb => budget_idle s.jobs s.t x hx hxe hxa (hb _ (List.mem_map.2 ⟨x, hx, rfl⟩)),
        Or.inl rfl⟩
  · simp only [htot, if_false]
    have htpos : 0 < total_ready_tickets_exact s.jobs s.t := by
      have := ready_sum_nonneg s.t s.jobs hpos
      rw [← total_ready_tickets_eq] at this
      omega
    have hw0 : 0 ≤ Int.tmod (rand s.draws) (total_ready_tickets_exact s.jobs s.t) :=
      Int.tmod_nonneg _ (Int.ofNat_nonneg _)
    have hw1 := Int.tmod_lt_of_pos (rand s.draws : Int) htpos
    obtain ⟨p, hp, j, hj, hje, hja, hjr⟩ := pick_lottery_some s.jobs s.t _ hw0 hw1
    simp only [hp, hj]
    obtain ⟨hr1, hr2, _⟩ := cmin_bounds slice j.remaining hs hjr
    refine ⟨_, rfl, ?_, ?_, ?_⟩
    · constructor
      · exact hI.wf.grant hj hje hja hr1 hr2
      · simp only
        rw [map_set_same Job.static s.jobs p j _ hj (run_job_static_eq j s.t _)]
        exact hI.static
      · intro y hy
        simp only at hy
        rcases List.mem_or_eq_of_mem_set hy with hy | hy
        · exact hI.tickets y hy
        · subst hy
          rw [(run_job_static j s.t _).2.2.2]
          exact hI.tickets j (List.mem_iff_getElem?.2 ⟨p, hj⟩)
    · exact potential_grant s.jobs s.t _ p j _ hj
        (run_job_static j s.t _).2.1 (run_job_remaining j s.t _) hr1 hr2
    · exact ⟨fun _ => budget_grant s.jobs s.t _ p j _ hj
        (run_job_static j s.t _).2.1 (run_job_remaining j s.t _) hr1 hr2,
        Or.inr ⟨p, j, s.t, _, hj, hje, hI.wf.t_nonneg, rfl⟩⟩

theorem LT_init_inv (tr : List (Int × Int)) (hv : ∀ p ∈ tr, 0 ≤ p.1 ∧ 0 < p.2) :
    LTInv (load tr) (LT_init (load tr)) :=
  { wf := WF_load tr hv
    static := rfl
    tickets := by
      intro j hj
      obtain ⟨i, hi⟩ := List.getElem?_of_mem hj
      simp only [LT_init] at hi
      rw [load_getElem?] at hi
      cases hp : tr[i]? with
      | none => simp [hp] at hi
      | some p => simp [hp] at hi; subst hi; simp [fresh] }

/-- The loop of `policy_LT_exact` finishes on every valid trace and for every sequence
of draws, with the invariant. -/
theorem LT_run (tr : List (Int × Int)) (hv : ∀ p ∈ tr, 0 ≤ p.1 ∧ 0 < p.2)
    (rand : Nat → Nat) (slice : Int) (hs : 0 < slice) :
    ∃ k f, (∀ fuel, k ≤ fuel → policy_LT_exact rand slice fuel (load tr) = Run.finished k f) ∧
      LTInv (load tr) f ∧ all_done f.jobs = true ∧
      Reach LT_cond (LT_body_exact rand slice) (LT_init (load tr)) f ∧
      ((∀ p ∈ tr, p.1 < INT_MAX) → k ≤ total_work tr + distinct_arrivals tr) := by
  obtain ⟨k, f, _, hI, hc, hr, hrun⟩ :=
    runLoop_total LT_cond (LT_body_exact rand slice) (LTInv (load tr))
      (fun s => potential s.jobs s.t)
      (fun s hI hc => by
        obtain ⟨s1, h1, h2, h3, _⟩ := LT_step (load tr) rand slice hs s hI hc
        exact ⟨s1, h1, h2, h3⟩)
      _ (LT_init (load tr)) (LT_init_inv tr hv) (le_refl _)
  refine ⟨k, f, hrun, hI, by simpa [LT_cond] using hc, hr, ?_⟩
  intro hb
  obtain ⟨k1, f1, hk1, _, _, _, hrun1⟩ :=
    runLoop_total LT_cond (LT_body_exact rand slice) (LTInv (load tr))
      (fun s => budget s.jobs s.t)
      (fun s hI hc => by
        obtain ⟨s1, h1, h2, _, h4⟩ := LT_step (load tr) rand slice hs s hI hc
        exact ⟨s1, h1, h2, h4.1 (Bounded_static _ _ hI.static (Bounded_load tr hb))⟩)
      _ (LT_init (load tr)) (LT_init_inv tr hv) (le_refl _)
  have e1 := hrun (max k k1) (le_max_left _ _)
  have e2 := hrun1 (max k k1) (le_max_right _ _)
  unfold policy_LT_exact at e1
  rw [e1] at e2
  injection e2 with e3 _
  have := budget_load tr
  simp only [LT_init] at hk1
  omega

/-! ### FIFO -/

theorem clock_before_set (js : List Job) (c k : Nat) (x : Job) (h : k ≤ c) :
    clock_before (js.set c x) k = clock_before js k := by
  cases k with
  | zero => rfl
  | succ k =>
    simp only [clock_before]
    rw [List.getElem?_set_ne (by omega)]

theorem FIFOSpec_step (js0 : List Job) (hf : Fresh js0) (s : FIFOState) (hI : FIFOSpec js0 s)
    (hc : FIFO_cond s = true) :
    ∃ s1, FIFO_body_exact s = some s1 ∧ FIFOSpec js0 s1 ∧
      js0.length - s1.out.length < js0.length - s.out.length := by
  have hcur := hI.cur
  have hlt : s.out.length < js0.length := by
    by_contra h
    rw [if_neg h] at hcur
    simp [FIFO_cond, hcur] at hc
  rw [if_pos hlt] at hcur
  have hj0 : js0[s.out.length]? = some js0[s.out.length] := List.getElem?_eq_getElem hlt
  have hj : s.jobs[s.out.length]? = some js0[s.out.length] := by
    rw [hI.untouched _ (le_refl _)]; exact hj0
  obtain ⟨hst, hrem⟩ := hf _ (List.getElem_mem hlt)
  generalize js0[s.out.length] = j at hj0 hj hst hrem
  unfold FIFO_body_exact
  simp only [hcur, hj]
  have hstamp : ∀ t0, stamp_start j t0 = { j with start_time := t0 } := by
    intro t0; unfold stamp_start; simp [hst]
  simp only [hstamp]
  refine ⟨_, rfl, ?_, ?_⟩
  · have hlen1 : (s.out ++ [print_seg (if s.t < j.arrival then j.arrival else s.t)
        { j with start_time := if s.t < j.arrival then j.arrival else s.t } j.remaining]).length
        = s.out.length + 1 := by simp
    constructor
    · simp only [List.length_set]; exact hI.len
    · simp only [hlen1, next_ptr, hI.len]
    · simp only [hlen1]; omega
    · intro i hi
      simp only [hlen1] at hi
      simp only
      rw [List.getElem?_set_ne (by omega)]
      exact hI.untouched i (by omega)
    · intro k hk
      simp only [hlen1] at hk
      simp only
      by_cases hkc : k < s.out.length
      · intro x0 hx0
        obtain ⟨x, h1, h2, h3, h4, h5, h6⟩ := hI.done k hkc x0 hx0
        refine ⟨x, ?_, h2, ?_, h4, h5, ?_⟩
        · rw [List.getElem?_set_ne (by omega)]; exact h1
        · rw [clock_before_set _ _ _ _ (by omega)]; exact h3
        · rw [List.getElem?_append_left hkc]; exact h6
      · have hk2 : k = s.out.length := by omega
        subst hk2
        intro x0 hx0
        rw [hj0] at hx0
        injection hx0 with hx0
        subst hx0
        have hlt2 : s.out.length < s.jobs.length := by rw [hI.len]; exact hlt
        refine ⟨Job.mk j.id j.arrival j.length j.tickets 0
          (if s.t < j.arrival then j.arrival else s.t)
          ((if s.t < j.arrival then j.arrival else s.t) + j.remaining),
          List.getElem?_set_self hlt2, rfl, ?_, ?_, rfl, ?_⟩
        · simp only
          rw [clock_before_set _ _ _ _ (le_refl _), ← hI.clock]
          rcases lt_or_le s.t j.arrival with h | h
          · simp [h, le_of_lt h]
          · simp [not_lt.2 h, h]
        · simp only; rw [hrem]
        · simp only
          rw [List.getElem?_append_right (le_refl _)]
          simp [print_seg, hrem]
    · simp only [hlen1, clock_before]
      have hlt2 : s.out.length < s.jobs.length := by rw [hI.len]; exact hlt
      rw [List.getElem?_set_self hlt2]
  · simp
    omega

theorem FIFOSpec_init (js0 : List Job) : FIFOSpec js0 (FIFO_init js0) := by
  constructor
  · rfl
  · simp only [FIFO_init, head_ptr, List.length_nil]
    cases js0 <;> simp
  · simp [FIFO_init]
  · intro i _; rfl
  · intro k hk; simp [FIFO_init] at hk
  · rfl

/-- The loop of `policy_FIFO_exact` finishes on every registry of fresh nodes after one
iteration per node. -/
theorem FIFO_run (js0 : List Job) (hf : Fresh js0) :
    ∃ k f, (∀ fuel, k ≤ fuel → policy_FIFO_exact fuel js0 = Run.finished k f) ∧
      k ≤ js0.length ∧ FIFOSpec js0 f ∧ f.out.length = js0.length ∧
      Reach FIFO_cond FIFO_body_exact (FIFO_init js0) f := by
  obtain ⟨k, f, hk, hI, hc, hr, hrun⟩ :=
    runLoop_total FIFO_cond FIFO_body_exact (FIFOSpec js0)
      (fun s => js0.length - s.out.length)
      (fun s hI hc => FIFOSpec_step js0 hf s hI hc)
      _ (FIFO_init js0) (FIFOSpec_init js0) (le_refl _)
  refine ⟨k, f, hrun, ?_, hI, ?_, hr⟩
  · simp [FIFO_init] at hk; exact hk
  · have h1 := hI.cur
    have h2 := hI.count
    by_contra hne
    rw [if_pos (by omega)] at h1
    simp [FIFO_cond, h1] at hc

theorem Fresh_load (tr : List (Int × Int)) : Fresh (load tr) := by
  intro j hj
  obtain ⟨i, hi⟩ := List.getElem?_of_mem hj
  rw [load_getElem?] at hi
  cases hp : tr[i]? with
  | none => simp [hp] at hi
  | some p => simp [hp] at hi; subst hi; simp [fresh]

theorem FIFOInv_step (js0 : List Job) (hf : Fresh js0) (s s1 : FIFOState) (hI : FIFOInv js0 s)
    (hc : FIFO_cond s = true) (hb : FIFO_body_exact s = some s1) :
    FIFOInv js0 s1 ∧ JobsStep s.jobs s1.jobs := by
  obtain ⟨s2, hb2, hspec2, _⟩ := FIFOSpec_step js0 hf s hI.spec hc
  rw [hb] at hb2
  injection hb2 with hb2
  subst hb2
  have hcur := hI.spec.cur
  have hlt : s.out.length < js0.length := by
    by_contra h
    rw [if_neg h] at hcur
    simp [FIFO_cond, hcur] at hc
  rw [if_pos hlt] at hcur
  have hlt2 : s.out.length < s.jobs.length := by rw [hI.spec.len]; exact hlt
  have hj : s.jobs[s.out.length]? = some s.jobs[s.out.length] := List.getElem?_eq_getElem hlt2
  have hje := hI.ahead _ _ (le_refl _) hj
  generalize s.jobs[s.out.length] = j at hj hje
  have hok := hI.wf.jobs _ j hj
  have hrem : 0 < j.remaining := hok.fin_iff.1 hje
  unfold FIFO_body_exact at hb
  simp only [hcur, hj] at hb
  have hsr : ∀ t0, (stamp_start j t0).remaining = j.remaining :=
    fun t0 => (stamp_start_static j t0).2.2.2.2.1
  rw [run_job_all, hsr] at hb
  injection hb with hb
  subst hb
  have hwf0 : WF s.jobs (if s.t < j.arrival then j.arrival else s.t) s.out :=
    hI.wf.clock (by split_ifs <;> omega)
  have harr : j.arrival ≤ (if s.t < j.arrival then j.arrival else s.t) := by
    split_ifs <;> omega
  have hend1 : 0 ≤ (run_job j (if s.t < j.arrival then j.arrival else s.t) j.remaining).end_time := by
    rw [run_job_end]; simp
    have := hwf0.t_nonneg
    omega
  refine ⟨?_, Or.inr ⟨_, j, _, _, hj, hje, hwf0.t_nonneg, rfl⟩⟩
  constructor
  · exact hwf0.grant hj hje harr hrem (le_refl _)
  · intro y hy
    simp only at hy
    rcases List.mem_or_eq_of_mem_set hy with hy | hy
    · exact hI.nonpre y hy
    · subst hy
      exact NonPre_grant_all (hwf0.jobs _ j hj) (hI.nonpre j (List.mem_iff_getElem?.2 ⟨_, hj⟩)) hje
  · simp only
    rw [map_set_same Job.static s.jobs _ j _ hj (run_job_static_eq j _ _)]
    exact hI.static
  · exact hspec2
  · intro i y hi hy
    simp only [List.length_append, List.length_singleton] at hi
    simp only at hy
    rw [List.getElem?_set_ne (by omega)] at hy
    exact hI.ahead i y (by omega) hy
  · intro i y hi hy
    simp only [List.length_append, List.length_singleton] at hi
    simp only at hy
    by_cases hic : i = s.out.length
    · subst hic
      rw [List.getElem?_set_self hlt2] at hy
      injection hy with hy
      subst hy
      exact hend1
    · rw [List.getElem?_set_ne (by omega)] at hy
      exact hI.behind i y (by omega) hy

theorem FIFOInv_init (tr : List (Int × Int)) (hv : ∀ p ∈ tr, 0 ≤ p.1 ∧ 0 < p.2) :
    FIFOInv (load tr) (FIFO_init (load tr)) := by
  constructor
  · exact WF_load tr hv
  · exact load_nonpre tr
  · rfl
  · exact FIFOSpec_init _
  · intro i j _ hj
    simp only [FIFO_init] at hj
    rw [load_getElem?] at hj
    cases hp : tr[i]? with
    | none => simp [hp] at hj
    | some p => simp [hp] at hj; subst hj; simp [fresh]
  · intro i j hi; simp [FIFO_init] at hi

/-! ### STCF -/

theorem print_seg_static (t ran : Int) (j j1 : Job) (h : j1.static = j.static) :
    print_seg t j1 ran = print_seg t j ran := by
  simp only [Job.static, Prod.mk.injEq] at h
  simp [print_seg, h.1, h.2.1]

theorem stamp_start_started (j : Job) (t : Int) (h : 0 ≤ j.start_time) :
    stamp_start j t = j := by
  unfold stamp_start
  rw [if_neg (by omega)]

theorem JobOK.extend_other {t t1 : Int} {o : List Seg} {g g1 : Seg} {x : Job}
    (h : JobOK t (o ++ [g]) x) (hid : g.id ≠ x.id) (hid1 : g1.id ≠ x.id) (ht : t ≤ t1) :
    JobOK t1 (o ++ [g1]) x := by
  have hc := h.later ht
  refine { hc with total := ?_, unstarted := ?_, started := ?_, ended := ?_, seg_arr := ?_ }
  · have := h.total
    rw [ran_total_append] at this ⊢
    simp only [hid, hid1, if_false] at this ⊢
    exact this
  · intro hs g2 hg2
    rcases List.mem_append.1 hg2 with hg2 | hg2
    · exact h.unstarted hs g2 (List.mem_append_left _ hg2)
    · simp at hg2; subst hg2; exact hid1
  · intro hs
    have := h.started hs
    rw [first_start_append] at this ⊢
    simp only [hid, hid1, if_false] at this ⊢
    exact this
  · intro he
    have := h.ended he
    rw [last_end_append] at this ⊢
    simp only [hid, hid1, if_false] at this ⊢
    exact this
  · intro g2 hg2 hid2
    rcases List.mem_append.1 hg2 with hg2 | hg2
    · exact h.seg_arr g2 (List.mem_append_left _ hg2) hid2
    · simp at hg2; subst hg2; exact absurd hid2 hid1

theorem JobOK.extend_self {t : Int} {o : List Seg} {g : Seg} {j : Job}
    (h : JobOK t (o ++ [g]) j) (hg : g.id = j.id) (hgt : g.tstart + g.ran = t)
    (he : j.end_time < 0) (hs : 0 ≤ j.start_time) (ht : 0 ≤ t) :
    JobOK (t + 1) (o ++ [{ g with ran := g.ran + 1 }]) (run_job j t 1) := by
  obtain ⟨hid, harr1, hlen, htk⟩ := run_job_static j t 1
  have hrem := run_job_remaining j t 1
  have hst := run_job_start j t 1
  have hen := run_job_end j t 1
  rw [if_neg (by omega)] at hst
  have hr : 0 < j.remaining := h.fin_iff.1 he
  constructor
  · rw [harr1]; exact h.arr
  · rw [hlen]; exact h.len
  · rw [hrem]; omega
  · rw [hrem, hlen]; have := h.rem_le; omega
  · right; rw [hst]; exact hs
  · rw [hen]; have := h.end_set; split <;> omega
  · rw [hrem, hen]; split <;> omega
  · rw [hid, hrem, hlen, ran_total_append]
    have := h.total
    rw [ran_total_append] at this
    simp only [hg, if_true] at this ⊢
    omega
  · intro h1; omega
  · intro _
    have := h.started hs
    rw [first_start_append] at this
    rw [hid, first_start_append, hst]
    simp only [hg, if_true] at this ⊢
    exact this
  · intro he1
    rw [hid, last_end_append, hen]
    rw [hen] at he1
    simp only [hg, if_true]
    split at he1
    · rename_i h0; simp [h0]; omega
    · omega
  · intro _; rw [hst]; exact hs
  · intro g2 hg2 hid2
    rw [harr1]
    rw [hid] at hid2
    rcases List.mem_append.1 hg2 with hg2 | hg2
    · exact h.seg_arr g2 (List.mem_append_left _ hg2) hid2
    · simp at hg2; subst hg2
      exact h.seg_arr g (by simp) hg
  · intro _ he1
    rw [hst, hlen, hrem]
    have := h.span_run hs he
    omega
  · intro he1
    rw [hen] at he1
    rw [hst, hlen, hen]
    split at he1
    · rename_i h0
      have := h.span_run hs he
      simp [h0]; omega
    · omega

theorem WF.extend {js : List Job} {t : Int} {o : List Seg} {g : Seg} {p : Nat} {j : Job}
    (h : WF js t (o ++ [g])) (hp : js[p]? = some j) (hg : g.id = j.id)
    (hgt : g.tstart + g.ran = t) (he : j.end_time < 0) (hs : 0 ≤ j.start_time) :
    WF (js.set p (run_job j t 1)) (t + 1) (o ++ [{ g with ran := g.ran + 1 }]) := by
  have hplt : p < js.length := (List.getElem?_eq_some_iff.1 hp).1
  have hpid := h.ids p j hp
  constructor
  · have := h.t_nonneg; omega
  · intro i x hx
    rw [List.getElem?_set] at hx
    by_cases hpi : p = i
    · subst hpi
      simp [hplt] at hx
      subst hx
      rw [(run_job_static j t 1).1]; exact hpid
    · simp [hpi] at hx
      exact h.ids i x hx
  · intro i x hx
    rw [List.getElem?_set] at hx
    by_cases hpi : p = i
    · subst hpi
      simp [hplt] at hx
      subst hx
      exact (h.jobs p j hp).extend_self hg hgt he hs h.t_nonneg
    · simp [hpi] at hx
      have hxid := h.ids i x hx
      have hne : g.id ≠ x.id := by rw [hg, hpid, hxid]; omega
      exact (h.jobs i x hx).extend_other hne hne (by omega)

theorem STCF_body_idle (s : STCFState) (hp : pick_sjf s.jobs s.t = none) (hc : s.curr = none) :
    STCF_body_exact s = some { s with t := idle_jump_exact s.jobs s.t } := by
  unfold STCF_body_exact STCF_switch_exact
  rw [pick_stcf_eq, hp]
  simp only [hc, ne_eq, not_true_eq_false, if_false]
  unfold STCF_tick_exact
  simp only [hc]

theorem STCF_body_continue (s : STCFState) (n : Nat) (nj : Job)
    (hp : pick_sjf s.jobs s.t = some n) (hc : s.curr = some n) (hj : s.jobs[n]? = some nj)
    (hs : 0 ≤ nj.start_time) (hlt : s.seg_start < s.t) :
    STCF_body_exact s = some (STCF_after s n nj s.seg_start s.out) := by
  unfold STCF_body_exact STCF_switch_exact
  rw [pick_stcf_eq, hp]
  simp only [hc, ne_eq, not_true_eq_false, if_false]
  unfold STCF_tick_exact STCF_after
  simp only [hc, hj]
  have hrun : run_job nj s.t 1 =
      if nj.remaining - 1 = 0 then { nj with remaining := nj.remaining - 1, end_time := s.t + 1 }
      else { nj with remaining := nj.remaining - 1 } := by
    unfold run_job
    rw [stamp_start_started nj s.t hs]
  by_cases h0 : nj.remaining - 1 = 0
  · have hran : s.t + 1 - s.seg_start > 0 := by omega
    simp only [h0, if_true, hran, hrun]
    rfl
  · simp only [h0, if_false, hrun]

theorem STCF_body_switch (s : STCFState) (n : Nat) (nj : Job)
    (hp : pick_sjf s.jobs s.t = some n) (hc : s.curr ≠ some n) (hj : s.jobs[n]? = some nj)
    (hcur : ∀ c, s.curr = some c → (∃ cj, s.jobs[c]? = some cj) ∧ s.seg_start < s.t) :
    STCF_body_exact s = some (STCF_after s n nj s.t (ext_out s)) := by
  have hplt : n < s.jobs.length := (List.getElem?_eq_some_iff.1 hj).1
  unfold STCF_body_exact STCF_switch_exact
  rw [pick_stcf_eq, hp]
  have hne : (some n : Option Nat) ≠ s.curr := fun h => hc h.symm
  simp only [ne_eq, hne, not_false_eq_true, if_true, hj]
  have hclosed : STCF_close_exact s = some (ext_out s) := by
    unfold ext_out STCF_close_exact
    cases hcc : s.curr with
    | none => rfl
    | some c =>
      obtain ⟨⟨cj, hcj⟩, hlt⟩ := hcur c hcc
      simp only [hcj]
      rw [if_pos (by omega)]
  rw [hclosed]
  simp only
  unfold STCF_tick_exact STCF_after
  simp only [List.getElem?_set_self hplt, List.set_set]
  have hrun : run_job nj s.t 1 =
      if nj.remaining - 1 = 0 then
        { stamp_start nj s.t with remaining := nj.remaining - 1, end_time := s.t + 1 }
      else { stamp_start nj s.t with remaining := nj.remaining - 1 } := by
    unfold run_job
    simp only [(stamp_start_static nj s.t).2.2.2.2.1]
  have hsr : (stamp_start nj s.t).remaining = nj.remaining := (stamp_start_static nj s.t).2.2.2.2.1
  by_cases h0 : nj.remaining - 1 = 0
  · have hran : s.t + 1 - s.t > 0 := by omega
    simp only [hsr, h0, if_true, hran, hrun]
    congr 2
    simp only [print_seg, (stamp_start_static nj s.t).1, (stamp_start_static nj s.t).2.1]
  · simp only [hsr, h0, if_false, hrun]

theorem ext_out_after (s : STCFState) (n : Nat) (nj : Job) (ss : Int) (base : List Seg)
    (hj : s.jobs[n]? = some nj) :
    ext_out (STCF_after s n nj ss base) = base ++ [print_seg ss nj (s.t + 1 - ss)] := by
  have hplt : n < s.jobs.length := (List.getElem?_eq_some_iff.1 hj).1
  unfold ext_out STCF_after
  by_cases h0 : nj.remaining - 1 = 0
  · simp only [h0, if_true]
  · simp only [h0, if_false, List.getElem?_set_self hplt]
    rw [print_seg_static _ _ nj _ (run_job_static_eq nj s.t 1)]

theorem STCF_step (js0 : List Job) (s : STCFState) (hI : STCFInv js0 s)
    (hc : STCF_cond s = true) :
    ∃ s1, STCF_body_exact s = some s1 ∧ STCFInv js0 s1 ∧
      potential s1.jobs s1.t < potential s.jobs s.t ∧
      (Bounded s.jobs → budget s1.jobs s1.t < budget s.jobs s.t) ∧
      JobsStep s.jobs s1.jobs := by
  obtain ⟨x, hx, hxe⟩ := not_all_done_mem hc
  cases hp : pick_sjf s.jobs s.t with
  | none =>
    have hnone := (pick_sjf_none s.jobs s.t).1 hp
    have hcn : s.curr = none := by
      cases hcc : s.curr with
      | none => rfl
      | some c =>
        exfalso
        obtain ⟨cj, hcj, h1, h2, h3, _⟩ := hI.curr c hcc
        exact hnone cj (List.mem_iff_getElem?.2 ⟨c, hcj⟩) ⟨h1, by omega⟩
    have hxa : s.t < x.arrival := by
      have := hnone x hx
      omega
    have hext : ext_out s = s.out := by unfold ext_out; rw [hcn]
    refine ⟨_, STCF_body_idle s hp hcn, ?_, potential_idle s.jobs s.t x hx hxe hxa, ?_⟩
    · constructor
      · have : ext_out { s with t := idle_jump_exact s.jobs s.t } = s.out := by
          unfold ext_out; simp only [hcn]
        rw [this, ← hext]
        exact hI.wf.clock (le_of_lt (idle_jump_gt s.jobs s.t))
      · exact hI.static
      · intro c h; simp only [hcn] at h; cases h
    · exact ⟨fun hb => budget_idle s.jobs s.t x hx hxe hxa (hb _ (List.mem_map.2 ⟨x, hx, rfl⟩)),
        Or.inl rfl⟩
  | some n =>
    obtain ⟨nj, hj, hje, hja, _⟩ := pick_sjf_some s.jobs s.t n hp
    have hplt : n < s.jobs.length := (List.getElem?_eq_some_iff.1 hj).1
    have hok := hI.wf.jobs n nj hj
    have hrem : 0 < nj.remaining := hok.fin_iff.1 hje
    have hpot := potential_grant s.jobs s.t 1 n nj _ hj
        (run_job_static nj s.t 1).2.1 (run_job_remaining nj s.t 1) (by omega) (by omega)
    have hbud := budget_grant s.jobs s.t 1 n nj _ hj
        (run_job_static nj s.t 1).2.1 (run_job_remaining nj s.t 1) (by omega) (by omega)
    have hjs : JobsStep s.jobs (s.jobs.set n (run_job nj s.t 1)) :=
      Or.inr ⟨n, nj, s.t, 1, hj, hje, hI.wf.t_nonneg, rfl⟩
    have hstat : (s.jobs.set n (run_job nj s.t 1)).map Job.static = js0.map Job.static := by
      rw [map_set_same Job.static s.jobs n nj _ hj (run_job_static_eq nj s.t 1)]
      exact hI.static
    have hcurr_after : ∀ (ss : Int) (base : List Seg), nj.arrival ≤ ss → ss ≤ s.t →
        ∀ c, (STCF_after s n nj ss base).curr = some c →
          ∃ j, (STCF_after s n nj ss base).jobs[c]? = some j ∧ j.end_time < 0 ∧
            j.arrival ≤ (STCF_after s n nj ss base).seg_start ∧
            (STCF_after s n nj ss base).seg_start < (STCF_after s n nj ss base).t ∧
            0 ≤ j.start_time := by
      intro ss base h1 h2 c hcc
      unfold STCF_after at hcc ⊢
      by_cases h0 : nj.remaining - 1 = 0
      · simp only [h0, if_true] at hcc; cases hcc
      · simp only [h0, if_false] at hcc ⊢
        injection hcc with hcc
        subst hcc
        refine ⟨_, List.getElem?_set_self hplt, ?_, ?_, by omega, ?_⟩
        · rw [run_job_end, if_neg h0]; exact hje
        · rw [(run_job_static nj s.t 1).2.1]; exact h1
        · rw [run_job_start]
          have := hI.wf.t_nonneg
          split <;> omega
    by_cases hcn : s.curr = some n
    · obtain ⟨cj, hcj, _, h2, h3, h4⟩ := hI.curr n hcn
      rw [hj] at hcj
      injection hcj with hcj
      subst hcj
      refine ⟨_, STCF_body_continue s n nj hp hcn hj h4 h3, ?_, hpot, fun _ => hbud, hjs⟩
      constructor
      · rw [ext_out_after s n nj _ _ hj]
        have hext : ext_out s = s.out ++ [print_seg s.seg_start nj (s.t - s.seg_start)] := by
          unfold ext_out; simp only [hcn, hj]
        have hwf := hI.wf
        rw [hext] at hwf
        have := hwf.extend hj rfl (by simp [print_seg]) hje h4
        have hseg : ({ print_seg s.seg_start nj (s.t - s.seg_start) with
            ran := (print_seg s.seg_start nj (s.t - s.seg_start)).ran + 1 } : Seg)
            = print_seg s.seg_start nj (s.t + 1 - s.seg_start) := by
          simp only [print_seg]
          congr 1
          omega
        rw [hseg] at this
        exact this
      · exact hstat
      · exact hcurr_after s.seg_start s.out h2 (le_of_lt h3)
    · have hcur : ∀ c, s.curr = some c → (∃ cj, s.jobs[c]? = some cj) ∧ s.seg_start < s.t := by
        intro c hcc
        obtain ⟨cj, hcj, _, _, h3, _⟩ := hI.curr c hcc
        exact ⟨⟨cj, hcj⟩, h3⟩
      refine ⟨_, STCF_body_switch s n nj hp hcn hj hcur, ?_, hpot, fun _ => hbud, hjs⟩
      constructor
      · rw [ext_out_after s n nj _ _ hj]
        have := hI.wf.grant hj hje hja (by omega : (0 : Int) < 1) (by omega)
        rw [print_seg_static _ _ nj _ (stamp_start_static_eq nj s.t)] at this
        have h1 : s.t + 1 - s.t = 1 := by omega
        rw [h1]
        exact this
      · exact hstat
      · exact hcurr_after s.t (ext_out s) hja (le_refl _)

theorem STCF_init_inv (tr : List (Int × Int)) (hv : ∀ p ∈ tr, 0 ≤ p.1 ∧ 0 < p.2) :
    STCFInv (load tr) (STCF_init (load tr)) :=
  { wf := WF_load tr hv
    static := rfl
    curr := by intro c h; simp [STCF_init] at h }

/-- The loop of `policy_STCF_exact` finishes on every valid trace, with the invariant
and with no segment left open. -/
theorem STCF_run (tr : List (Int × Int)) (hv : ∀ p ∈ tr, 0 ≤ p.1 ∧ 0 < p.2) :
    ∃ k f, (∀ fuel, k ≤ fuel → policy_STCF_exact fuel (load tr) = Run.finished k f) ∧
      STCFInv (load tr) f ∧ all_done f.jobs = true ∧ WF f.jobs f.t f.out ∧
      Reach STCF_cond STCF_body_exact (STCF_init (load tr)) f ∧
      ((∀ p ∈ tr, p.1 < INT_MAX) → k ≤ total_work tr + distinct_arrivals tr) := by
  obtain ⟨k, f, _, hI, hc, hr, hrun⟩ :=
    runLoop_total STCF_cond STCF_body_exact (STCFInv (load tr))
      (fun s => potential s.jobs s.t)
      (fun s hI hc => by
        obtain ⟨s1, h1, h2, h3, _⟩ := STCF_step (load tr) s hI hc
        exact ⟨s1, h1, h2, h3⟩)
      _ (STCF_init (load tr)) (STCF_init_inv tr hv) (le_refl _)
  have hdone : all_done f.jobs = true := by simpa [STCF_cond] using hc
  have hwf : WF f.jobs f.t f.out := by
    have hext : ext_out f = f.out := by
      unfold ext_out
      cases hcc : f.curr with
      | none => rfl
      | some c =>
        exfalso
        obtain ⟨cj, hcj, h1, _⟩ := hI.curr c hcc
        have := (all_done_iff f.jobs).1 hdone cj (List.mem_iff_getElem?.2 ⟨c, hcj⟩)
        omega
    rw [← hext]; exact hI.wf
  refine ⟨k, f, hrun, hI, hdone, hwf, hr, ?_⟩
  intro hb
  obtain ⟨k1, f1, hk1, _, _, _, hrun1⟩ :=
    runLoop_total STCF_cond STCF_body_exact (STCFInv (load tr))
      (fun s => budget s.jobs s.t)
      (fun s hI hc => by
        obtain ⟨s1, h1, h2, _, h4⟩ := STCF_step (load tr) s hI hc
        exact ⟨s1, h1, h2, h4.1 (Bounded_static _ _ hI.static (Bounded_load tr hb))⟩)
      _ (STCF_init (load tr)) (STCF_init_inv tr hv) (le_refl _)
  have e1 := hrun (max k k1) (le_max_left _ _)
  have e2 := hrun1 (max k k1) (le_max_right _ _)
  unfold policy_STCF_exact at e1
  rw [e1] at e2
  injection e2 with e3 _
  have := budget_load tr
  simp only [STCF_init] at hk1
  omega

/-! ### What the invariant gives when a loop has finished -/

/-- The job at position `i` of a registry derived from `load tr`. -/
theorem final_job (tr : List (Int × Int)) (js : List Job)
    (hstat : js.map Job.static = (load tr).map Job.static) (i : Nat) (p : Int × Int)
    (hp : tr[i]? = some p) :
    ∃ j, js[i]? = some j ∧ j.id = (i : Int) ∧ j.arrival = p.1 ∧ j.length = p.2 := by
  have h0 : (load tr)[i]? = some (fresh i p) := by rw [load_getElem?, hp]; rfl
  obtain ⟨j, hj, h1, h2, h3, _⟩ := static_get js (load tr) hstat i _ h0
  exact ⟨j, hj, h1, h2, h3⟩

theorem WF.finished_job {js : List Job} {t : Int} {out : List Seg} (h : WF js t out)
    (hdone : all_done js = true) (i : Nat) (j : Job) (hj : js[i]? = some j) :
    0 ≤ j.end_time ∧ j.remaining = 0 ∧ 0 ≤ j.start_time := by
  have he := (all_done_iff js).1 hdone j (List.mem_iff_getElem?.2 ⟨i, hj⟩)
  have hok := h.jobs i j hj
  have h1 := hok.fin_iff
  have h2 := hok.rem_nonneg
  refine ⟨he, ?_, hok.done_started he⟩
  by_contra hne
  have : 0 < j.remaining := by omega
  have := h1.2 this
  omega

theorem WF.sums {tr : List (Int × Int)} {js : List Job} {t : Int} {out : List Seg}
    (h : WF js t out) (hdone : all_done js = true)
    (hstat : js.map Job.static = (load tr).map Job.static) : SumsToLength tr out := by
  intro i p hp
  obtain ⟨j, hj, h1, _, h3⟩ := final_job tr js hstat i p hp
  obtain ⟨_, hr, _⟩ := h.finished_job hdone i j hj
  have := (h.jobs i j hj).total
  rw [h1, hr, h3] at this
  omega

theorem WF.span {tr : List (Int × Int)} {js : List Job} {t : Int} {out : List Seg}
    (h : WF js t out) (hdone : all_done js = true)
    (hstat : js.map Job.static = (load tr).map Job.static) : SpanAtLeast tr js := by
  intro i p hp
  obtain ⟨j, hj, _, _, h3⟩ := final_job tr js hstat i p hp
  obtain ⟨he, _, _⟩ := h.finished_job hdone i j hj
  have := ((h.jobs i j hj).span_done he).1
  exact ⟨j, hj, by omega⟩

theorem NonPre.span_exact {tr : List (Int × Int)} {js : List Job}
    (h : ∀ j ∈ js, NonPre j) (hdone : all_done js = true)
    (hstat : js.map Job.static = (load tr).map Job.static) : SpanExact tr js := by
  intro i p hp
  obtain ⟨j, hj, _, _, h3⟩ := final_job tr js hstat i p hp
  have hmem : j ∈ js := List.mem_iff_getElem?.2 ⟨i, hj⟩
  have he := (all_done_iff js).1 hdone j hmem
  have := (h j hmem).2 he
  exact ⟨j, hj, by omega⟩

/-- The loop of `policy_FIFO_exact` on a valid trace: it finishes with every job done
and the invariant in force. -/
theorem FIFO_run_valid (tr : List (Int × Int)) (hv : ∀ p ∈ tr, 0 ≤ p.1 ∧ 0 < p.2) :
    ∃ k f, (∀ fuel, k ≤ fuel → policy_FIFO_exact fuel (load tr) = Run.finished k f) ∧
      k ≤ tr.length ∧ FIFOInv (load tr) f ∧ all_done f.jobs = true ∧
      Reach FIFO_cond FIFO_body_exact (FIFO_init (load tr)) f := by
  obtain ⟨k, f, hrun, hk, _, hlen, hr⟩ := FIFO_run (load tr) (Fresh_load tr)
  have hI : FIFOInv (load tr) f :=
    hr.inv (FIFOInv (load tr)) (FIFOInv_init tr hv)
      (fun a b hI hc hb => (FIFOInv_step (load tr) (Fresh_load tr) a b hI hc hb).1)
  refine ⟨k, f, hrun, by rw [← load_length]; exact hk, hI, ?_, hr⟩
  rw [all_done_iff]
  intro j hj
  obtain ⟨i, hi⟩ := List.getElem?_of_mem hj
  have hlt : i < f.jobs.length := (List.getElem?_eq_some_iff.1 hi).1
  exact hI.behind i j (by rw [hlen, ← hI.spec.len]; exact hlt) hi

theorem SJF_all_done (js0 : List Job) (f : SJFState) (hI : SJFInv js0 f) (h : f.remaining ≤ 0) :
    all_done f.jobs = true := by
  rw [← unfinished_zero_iff]
  have := hI.count
  omega

/-! ### Work done, time spans and number of iterations -/

/-- In exact arithmetic: on every valid trace, for every slice above 0 and every sequence of
draws, each of the five policies finishes and, for every job, the durations of
the segments printed for the job sum to the length of the job. -/
theorem sums_to_length_exact (tr : List (Int × Int)) (hv : valid_trace tr)
    (slice : Int) (hs : 0 < slice) (rand : Nat → Nat) :
    (∃ k f, (∀ fuel, k ≤ fuel → policy_FIFO_exact fuel (load tr) = Run.finished k f) ∧
      SumsToLength tr f.out) ∧
    (∃ k f, (∀ fuel, k ≤ fuel → policy_SJF_exact fuel (load tr) = Run.finished k f) ∧
      SumsToLength tr f.out) ∧
    (∃ k f, (∀ fuel, k ≤ fuel → policy_STCF_exact fuel (load tr) = Run.finished k f) ∧
      SumsToLength tr f.out) ∧
    (∃ k f, (∀ fuel, k ≤ fuel → policy_RR_exact slice fuel (load tr) = Run.finished k f) ∧
      SumsToLength tr f.out) ∧
    (∃ k f, (∀ fuel, k ≤ fuel → policy_LT_exact rand slice fuel (load tr) = Run.finished k f) ∧
      SumsToLength tr f.out) := by
  refine ⟨?_, ?_, ?_, ?_, ?_⟩
  · obtain ⟨k, f, hrun, _, hI, hd, _⟩ := FIFO_run_valid tr hv.2
    exact ⟨k, f, hrun, hI.wf.sums hd hI.static⟩
  · obtain ⟨k, f, hrun, hI, hrem, _, _⟩ := SJF_run tr hv.2
    exact ⟨k, f, hrun, hI.wf.sums (SJF_all_done _ f hI hrem) hI.static⟩
  · obtain ⟨k, f, hrun, hI, hd, hwf, _, _⟩ := STCF_run tr hv.2
    exact ⟨k, f, hrun, hwf.sums hd hI.static⟩
  · obtain ⟨k, f, hrun, hI, hd, _, _⟩ := RR_run tr hv.2 slice hs
    exact ⟨k, f, hrun, hI.wf.sums hd hI.static⟩
  · obtain ⟨k, f, hrun, hI, hd, _, _⟩ := LT_run tr hv.2 rand slice hs
    exact ⟨k, f, hrun, hI.wf.sums hd hI.static⟩

/-- In exact arithmetic: on every valid trace, after each of the five policies every job has
`end_time - start_time` at least its length, with equality after FIFO and SJF. -/
theorem span_at_least_exact (tr : List (Int × Int)) (hv : valid_trace tr)
    (slice : Int) (hs : 0 < slice) (rand : Nat → Nat) :
    (∃ k f, (∀ fuel, k ≤ fuel → policy_FIFO_exact fuel (load tr) = Run.finished k f) ∧
      SpanAtLeast tr f.jobs ∧ SpanExact tr f.jobs) ∧
    (∃ k f, (∀ fuel, k ≤ fuel → policy_SJF_exact fuel (load tr) = Run.finished k f) ∧
      SpanAtLeast tr f.jobs ∧ SpanExact tr f.jobs) ∧
    (∃ k f, (∀ fuel, k ≤ fuel → policy_STCF_exact fuel (load tr) = Run.finished k f) ∧
      SpanAtLeast tr f.jobs) ∧
    (∃ k f, (∀ fuel, k ≤ fuel → policy_RR_exact slice fuel (load tr) = Run.finished k f) ∧
      SpanAtLeast tr f.jobs) ∧
    (∃ k f, (∀ fuel, k ≤ fuel → policy_LT_exact rand slice fuel (load tr) = Run.finished k f) ∧
      SpanAtLeast tr f.jobs) := by
  refine ⟨?_, ?_, ?_, ?_, ?_⟩
  · obtain ⟨k, f, hrun, _, hI, hd, _⟩ := FIFO_run_valid tr hv.2
    exact ⟨k, f, hrun, hI.wf.span hd hI.static, NonPre.span_exact hI.nonpre hd hI.static⟩
  · obtain ⟨k, f, hrun, hI, hrem, _, _⟩ := SJF_run tr hv.2
    have hd := SJF_all_done _ f hI hrem
    exact ⟨k, f, hrun, hI.wf.span hd hI.static, NonPre.span_exact hI.nonpre hd hI.static⟩
  · obtain ⟨k, f, hrun, hI, hd, hwf, _, _⟩ := STCF_run tr hv.2
    exact ⟨k, f, hrun, hwf.span hd hI.static⟩
  · obtain ⟨k, f, hrun, hI, hd, _, _⟩ := RR_run tr hv.2 slice hs
    exact ⟨k, f, hrun, hI.wf.span hd hI.static⟩
  · obtain ⟨k, f, hrun, hI, hd, _, _⟩ := LT_run tr hv.2 rand slice hs
    exact ⟨k, f, hrun, hI.wf.span hd hI.static⟩

theorem length_le_total_work (tr : List (Int × Int)) (hv : ∀ p ∈ tr, 0 ≤ p.1 ∧ 0 < p.2) :
    tr.length ≤ total_work tr := by
  unfold total_work
  induction tr with
  | nil => simp
  | cons p rest ih =>
    have h1 := (hv p (List.mem_cons_self _ _)).2
    have h2 := ih (fun q hq => hv q (List.mem_cons_of_mem _ hq))
    simp only [List.length_cons, List.map_cons, List.sum_cons]
    omega

/-- In exact arithmetic: on every valid trace whose arrivals are all below `INT_MAX`,
the loop of each policy finishes with `all_done` true after at most total work
plus number of distinct arrival times iterations. -/
theorem iterations_bounded_exact (tr : List (Int × Int)) (hv : valid_trace tr)
    (hb : ∀ p ∈ tr, p.1 < INT_MAX) (slice : Int) (hs : 0 < slice) (rand : Nat → Nat) :
    (∃ k f, (∀ fuel, k ≤ fuel → policy_FIFO_exact fuel (load tr) = Run.finished k f) ∧
      all_done f.jobs = true ∧ k ≤ total_work tr + distinct_arrivals tr) ∧
    (∃ k f, (∀ fuel, k ≤ fuel → policy_SJF_exact fuel (load tr) = Run.finished k f) ∧
      all_done f.jobs = true ∧ k ≤ total_work tr + distinct_arrivals tr) ∧
    (∃ k f, (∀ fuel, k ≤ fuel → policy_STCF_exact fuel (load tr) = Run.finished k f) ∧
      all_done f.jobs = true ∧ k ≤ total_work tr + distinct_arrivals tr) ∧
    (∃ k f, (∀ fuel, k ≤ fuel → policy_RR_exact slice fuel (load tr) = Run.finished k f) ∧
      all_done f.jobs = true ∧ k ≤ total_work tr + distinct_arrivals tr) ∧
    (∃ k f, (∀ fuel, k ≤ fuel → policy_LT_exact rand slice fuel (load tr) = Run.finished k f) ∧
      all_done f.jobs = true ∧ k ≤ total_work tr + distinct_arrivals tr) := by
  refine ⟨?_, ?_, ?_, ?_, ?_⟩
  · obtain ⟨k, f, hrun, hk, _, hd, _⟩ := FIFO_run_valid tr hv.2
    have := length_le_total_work tr hv.2
    exact ⟨k, f, hrun, hd, by omega⟩
  · obtain ⟨k, f, hrun, hI, hrem, _, hk⟩ := SJF_run tr hv.2
    exact ⟨k, f, hrun, SJF_all_done _ f hI hrem, hk hb⟩
  · obtain ⟨k, f, hrun, _, hd, _, _, hk⟩ := STCF_run tr hv.2
    exact ⟨k, f, hrun, hd, hk hb⟩
  · obtain ⟨k, f, hrun, _, hd, _, hk⟩ := RR_run tr hv.2 slice hs
    exact ⟨k, f, hrun, hd, hk hb⟩
  · obtain ⟨k, f, hrun, _, hd, _, hk⟩ := LT_run tr hv.2 rand slice hs
    exact ⟨k, f, hrun, hd, hk hb⟩

/-! ### FIFO: registry order -/

/-- In exact arithmetic: `policy_FIFO_exact` processes the jobs in registry order.  For every trace, the
job on line `i` gets `start_time = max(arrival, clock)` where the clock is 0 for
the first job and the `end_time` of the job before otherwise,
`end_time = start_time + length` and `remaining = 0`, and the printed trace has
one segment per job, the one at position `i` being
`(start_time, i, arrival, length)`. -/
theorem fifo_per_job_exact (tr : List (Int × Int)) :
    ∃ k f, (∀ fuel, k ≤ fuel → policy_FIFO_exact fuel (load tr) = Run.finished k f) ∧
      f.out.length = tr.length ∧
      ∀ (i : Nat) (p : Int × Int), tr[i]? = some p →
        ∃ j, f.jobs[i]? = some j ∧
          j.start_time = max p.1 (clock_before f.jobs i) ∧
          j.end_time = j.start_time + p.2 ∧ j.remaining = 0 ∧
          f.out[i]? = some { tstart := j.start_time, id := (i : Int), arrival := p.1,
                             ran := p.2 } := by
  obtain ⟨k, f, hrun, _, hI, hlen, _⟩ := FIFO_run (load tr) (Fresh_load tr)
  refine ⟨k, f, hrun, by rw [hlen, load_length], ?_⟩
  intro i p hp
  have hlt : i < tr.length := (List.getElem?_eq_some_iff.1 hp).1
  have h0 : (load tr)[i]? = some (fresh i p) := by rw [load_getElem?, hp]; rfl
  obtain ⟨j, h1, _, h3, h4, h5, h6⟩ := hI.done i (by rw [hlen, load_length]; exact hlt) _ h0
  exact ⟨j, h1, h3, h4, h5, h6⟩

/-! ### SJF: the selection rule -/

/-- Every segment `policy_SJF_exact` has printed was printed at the head of an
iteration whose clock is the start of the segment, for the job `pick_sjf` chose
there, with what remained of that job as duration. -/
theorem SJF_out_picked (js0 : List Job) (s : SJFState)
    (h : Reach SJF_cond SJF_body_exact (SJF_init js0) s) :
    ∀ g ∈ s.out, ∃ s1, Reach SJF_cond SJF_body_exact (SJF_init js0) s1 ∧ SJF_cond s1 = true ∧
      ∃ p j, pick_sjf s1.jobs s1.t = some p ∧ s1.jobs[p]? = some j ∧
        g = print_seg s1.t j j.remaining := by
  induction h with
  | start => intro g hg; simp [SJF_init] at hg
  | @step a b hr hc hb ih =>
    intro g hg
    unfold SJF_body_exact at hb
    cases hp : pick_sjf a.jobs a.t with
    | none =>
      rw [hp] at hb
      injection hb with hb
      subst hb
      exact ih g hg
    | some p =>
      rw [hp] at hb
      simp only at hb
      cases hj : a.jobs[p]? with
      | none => rw [hj] at hb; cases hb
      | some j =>
        rw [hj] at hb
        injection hb with hb
        subst hb
        simp only at hg
        rcases List.mem_append.1 hg with hg | hg
        · exact ih g hg
        · simp at hg
          refine ⟨a, hr, hc, p, j, hp, hj, ?_⟩
          rw [hg, (stamp_start_static j a.t).2.2.2.2.1]
          exact print_seg_static _ _ j _ (stamp_start_static_eq j a.t)

/-- In exact arithmetic: on every valid trace `policy_SJF_exact` finishes, and each segment it prints
starting at `t` is for the job `pick_sjf(t)` chose at the head of an iteration
with clock `t`.  For every registry and time, `pick_sjf` returns no job exactly
when no job is ready (arrived and not finished), and the job it returns is ready,
has the least `remaining` among the ready jobs, the least arrival among those
with the same `remaining`, and the first position among those equal in both.
The trace `0,5 / 1,3` gives the segments `(0, Job 0, 5)`, `(5, Job 1, 3)` and the
end times 5 and 8. -/
theorem sjf_selection_exact (tr : List (Int × Int)) (hv : valid_trace tr) :
    (∃ k f, (∀ fuel, k ≤ fuel → policy_SJF_exact fuel (load tr) = Run.finished k f) ∧
      ∀ g ∈ f.out, ∃ s, Reach SJF_cond SJF_body_exact (SJF_init (load tr)) s ∧ SJF_cond s = true ∧
        s.t = g.tstart ∧
        ∃ p j, pick_sjf s.jobs s.t = some p ∧ s.jobs[p]? = some j ∧
          g = print_seg s.t j j.remaining) ∧
    (∀ (js : List Job) (t : Int),
      pick_sjf js t = none ↔ ∀ x ∈ js, ¬ (x.end_time < 0 ∧ x.arrival ≤ t)) ∧
    (∀ (js : List Job) (t : Int) (p : Nat), pick_sjf js t = some p →
      ∃ j, js[p]? = some j ∧ j.end_time < 0 ∧ j.arrival ≤ t ∧
        ∀ (k : Nat) (x : Job), js[k]? = some x → x.end_time < 0 → x.arrival ≤ t →
          j.remaining ≤ x.remaining ∧
          (x.remaining = j.remaining → j.arrival ≤ x.arrival) ∧
          (x.remaining = j.remaining → x.arrival = j.arrival → p ≤ k)) ∧
    policy_SJF_exact 2 (load [(0, 5), (1, 3)]) = Run.finished 2
      { jobs := [{ id := 0, arrival := 0, length := 5, tickets := 100, remaining := 0,
                   start_time := 0, end_time := 5 },
                 { id := 1, arrival := 1, length := 3, tickets := 200, remaining := 0,
                   start_time := 5, end_time := 8 }],
        t := 8, remaining := 0,
        out := [{ tstart := 0, id := 0, arrival := 0, ran := 5 },
                { tstart := 5, id := 1, arrival := 1, ran := 3 }] } := by
  refine ⟨?_, pick_sjf_none, ?_, by decide⟩
  · obtain ⟨k, f, hrun, _, _, hr, _⟩ := SJF_run tr hv.2
    refine ⟨k, f, hrun, ?_⟩
    intro g hg
    obtain ⟨s, hs, hc, p, j, hp, hj, hgeq⟩ := SJF_out_picked (load tr) f hr g hg
    exact ⟨s, hs, hc, by rw [hgeq]; rfl, p, j, hp, hj, hgeq⟩
  · intro js t p hp
    obtain ⟨j, hj, he, ha, hmin⟩ := pick_sjf_some js t p hp
    refine ⟨j, hj, he, ha, ?_⟩
    intro k x hx hxe hxa
    have := hmin k x hx hxe hxa
    unfold prefers at this
    omega

/-! ### Lottery: selection in proportion to the tickets -/

/-- In exact arithmetic: for every registry and time `t` with a positive ticket total and
positive tickets on every ready job: for every ready job, the number of winning
numbers `w` in `[0, total)` for which `pick_lottery_exact(t, w)` returns that job is
the number of its tickets, and `pick_lottery_exact` never returns a job that is not
ready. -/
theorem lottery_proportional_exact (js : List Job) (t : Int)
    (_htot : 0 < total_ready_tickets_exact js t)
    (hpos : ∀ x ∈ js, x.end_time < 0 → x.arrival ≤ t → 0 < x.remaining → 0 < x.tickets) :
    (∀ (p : Nat) (j : Job), js[p]? = some j → j.end_time < 0 → j.arrival ≤ t → 0 < j.remaining →
      (((Finset.Ico 0 (total_ready_tickets_exact js t)).filter
        (fun w => pick_lottery_exact js t w = some p)).card : Int) = j.tickets) ∧
    (∀ (w : Int) (p : Nat), pick_lottery_exact js t w = some p →
      ∃ j, js[p]? = some j ∧ j.end_time < 0 ∧ j.arrival ≤ t ∧ 0 < j.remaining) := by
  have hTP : TicketsPos t js := hpos
  constructor
  · intro p j hj he ha hr
    have htk : 0 < j.tickets := hpos j (List.mem_iff_getElem?.2 ⟨p, hj⟩) he ha hr
    have hsplit := ready_sum_split t js p j hj
    rw [if_pos ⟨he, ha, hr⟩] at hsplit
    have hc0 := ready_sum_nonneg t (js.take p) (hTP.take p)
    have hd0 := ready_sum_nonneg t (js.drop (p + 1)) (hTP.drop (p + 1))
    have hset : (Finset.Ico 0 (total_ready_tickets_exact js t)).filter
        (fun w => pick_lottery_exact js t w = some p) =
        Finset.Ico (ready_sum t (js.take p)) (ready_sum t (js.take p) + j.tickets) := by
      ext w
      simp only [Finset.mem_filter, Finset.mem_Ico]
      rw [total_ready_tickets_eq]
      constructor
      · rintro ⟨⟨hw0, _⟩, hpick⟩
        unfold pick_lottery_exact at hpick
        obtain ⟨k, x, hk, hx, _, h1, h2⟩ := (lottery_scan_iff t w js 0 0 p hw0 hTP).1 hpick
        have hkp : k = p := by omega
        subst hkp
        rw [hj] at hx
        injection hx with hx
        subst hx
        constructor <;> omega
      · rintro ⟨h1, h2⟩
        have hw0 : 0 ≤ w := by omega
        refine ⟨⟨hw0, by omega⟩, ?_⟩
        unfold pick_lottery_exact
        exact (lottery_scan_iff t w js 0 0 p hw0 hTP).2
          ⟨p, j, by omega, hj, ⟨he, ha, hr⟩, by omega, by omega⟩
    rw [hset, Int.card_Ico]
    have : ready_sum t (js.take p) + j.tickets - ready_sum t (js.take p) = j.tickets := by ring
    rw [this]
    exact Int.toNat_of_nonneg (le_of_lt htk)
  · intro w p hpick
    unfold pick_lottery_exact at hpick
    obtain ⟨k, x, hk, hx, h⟩ := lottery_scan_ready t w js 0 0 p hpick
    have hkp : k = p := by omega
    subst hkp
    exact ⟨x, hx, h⟩

/-! ### The start and end stamps -/

theorem Reach.head {σ : Type} {cond : σ → Bool} {body : σ → Option σ} {a c : σ}
    (h : Reach cond body a c) :
    a = c ∨ ∃ b, cond a = true ∧ body a = some b ∧ Reach cond body b c := by
  induction h with
  | start => exact Or.inl rfl
  | @step x y _ hc hb ih =>
    rcases ih with rfl | ⟨b, h1, h2, h3⟩
    · exact Or.inr ⟨y, hc, hb, Reach.start⟩
    · exact Or.inr ⟨b, h1, h2, Reach.step h3 hc hb⟩

/-- A loop is deterministic: the final state is reached from every state on the way. -/
theorem Reach.to_final {σ : Type} {cond : σ → Bool} {body : σ → Option σ} {a s f : σ}
    (hs : Reach cond body a s) (hf : Reach cond body a f) (hfin : cond f = false) :
    Reach cond body s f := by
  induction hs with
  | start => exact hf
  | @step x y _ hc hb ih =>
    rcases ih.head with rfl | ⟨b, _, h2, h3⟩
    · rw [hfin] at hc; cases hc
    · rw [hb] at h2
      injection h2 with h2
      subst h2
      exact h3

theorem Stable.refl (js : List Job) : Stable js js :=
  fun _ j hj => ⟨j, hj, fun _ => rfl, fun _ => rfl⟩

theorem Stable.chain {a b c : List Job} (h1 : Stable a b) (h2 : Stable b c) : Stable a c := by
  intro i j hj
  obtain ⟨x, hx, hx1, hx2⟩ := h1 i j hj
  obtain ⟨y, hy, hy1, hy2⟩ := h2 i x hx
  refine ⟨y, hy, ?_, ?_⟩
  · intro h; rw [hy1 (by rw [hx1 h]; exact h), hx1 h]
  · intro h; rw [hy2 (by rw [hx2 h]; exact h), hx2 h]

theorem JobsStep.to_stable {js js1 : List Job} (h : JobsStep js js1) : Stable js js1 := by
  rcases h with rfl | ⟨p, j, t, ran, hj, he, ht, rfl⟩
  · exact Stable.refl _
  · intro i x hx
    have hplt : p < js.length := (List.getElem?_eq_some_iff.1 hj).1
    by_cases hpi : p = i
    · subst hpi
      rw [hj] at hx
      injection hx with hx
      subst hx
      refine ⟨_, List.getElem?_set_self hplt, ?_, ?_⟩
      · intro h; rw [run_job_start, if_neg (by omega)]
      · intro h; omega
    · exact ⟨x, by rw [List.getElem?_set_ne hpi]; exact hx, fun _ => rfl, fun _ => rfl⟩

theorem Reach.stable_jobs {σ : Type} {cond : σ → Bool} {body : σ → Option σ}
    (jobs : σ → List Job) (Inv : σ → Prop)
    (hstep : ∀ a b, Inv a → cond a = true → body a = some b →
      Inv b ∧ JobsStep (jobs a) (jobs b))
    {s f : σ} (hI : Inv s) (h : Reach cond body s f) : Inv f ∧ Stable (jobs s) (jobs f) := by
  induction h with
  | start => exact ⟨hI, Stable.refl _⟩
  | @step x y _ hc hb ih =>
    obtain ⟨h1, h2⟩ := hstep x y ih.1 hc hb
    exact ⟨h1, ih.2.chain h2.to_stable⟩

/-- From the invariant at a state on the way and stability up to the final
state: every stamp on the way is the sentinel or the final value. -/
theorem SetOnce_of_stable {js jf : List Job} {t : Int} {out : List Seg}
    (hwf : WF js t out) (hst : Stable js jf) : SetOnce js jf := by
  intro i j hj
  obtain ⟨x, hx, h1, h2⟩ := hst i j hj
  have hok := hwf.jobs i j hj
  refine ⟨x, hx, ?_, ?_⟩
  · rcases hok.start_set with h | h
    · exact Or.inl h
    · exact Or.inr (h1 h).symm
  · rcases hok.end_set with h | h
    · exact Or.inl h
    · exact Or.inr (h2 h).symm

theorem first_start_mem (id x : Int) (o : List Seg) (h : first_start id o = some x) :
    ∃ g ∈ o, g.id = id ∧ g.tstart = x := by
  unfold first_start at h
  cases hf : o.find? (fun g => decide (g.id = id)) with
  | none => rw [hf] at h; simp at h
  | some g =>
    rw [hf] at h
    simp at h
    have h1 := List.find?_some hf
    exact ⟨g, List.mem_of_find?_eq_some hf, by simpa using h1, h⟩

theorem WF.stamps {tr : List (Int × Int)} {js : List Job} {t : Int} {out : List Seg}
    (h : WF js t out) (hdone : all_done js = true)
    (hstat : js.map Job.static = (load tr).map Job.static) : StampsOfSegs tr js out := by
  intro i p hp
  obtain ⟨j, hj, h1, h2, _⟩ := final_job tr js hstat i p hp
  obtain ⟨he, _, hs⟩ := h.finished_job hdone i j hj
  have hok := h.jobs i j hj
  refine ⟨j, hj, ?_, ?_, ?_, ?_⟩
  · rw [← h1]; exact hok.started hs
  · rw [← h1]; exact hok.ended he
  · obtain ⟨g, hg, hgid, hgt⟩ := first_start_mem _ _ _ (hok.started hs)
    rw [← h2, ← hgt]
    exact hok.seg_arr g hg hgid
  · intro g hg hgid
    rw [← h2]
    exact hok.seg_arr g hg (by rw [hgid, h1])

theorem SJF_stepI (js0 : List Job) (a b : SJFState) (hI : SJFInv js0 a)
    (hc : SJF_cond a = true) (hb : SJF_body_exact a = some b) :
    SJFInv js0 b ∧ JobsStep a.jobs b.jobs := by
  obtain ⟨s1, h1, h2, _, _, h5⟩ := SJF_step js0 a hI (by simpa [SJF_cond] using hc)
  rw [hb] at h1; injection h1 with h1; subst h1
  exact ⟨h2, h5⟩

theorem STCF_stepI (js0 : List Job) (a b : STCFState) (hI : STCFInv js0 a)
    (hc : STCF_cond a = true) (hb : STCF_body_exact a = some b) :
    STCFInv js0 b ∧ JobsStep a.jobs b.jobs := by
  obtain ⟨s1, h1, h2, _, _, h5⟩ := STCF_step js0 a hI hc
  rw [hb] at h1; injection h1 with h1; subst h1
  exact ⟨h2, h5⟩

theorem RR_stepI (js0 : List Job) (slice : Int) (hs : 0 < slice) (a b : RRState)
    (hI : RRInv js0 a) (hc : RR_cond a = true) (hb : RR_body_exact slice a = some b) :
    RRInv js0 b ∧ JobsStep a.jobs b.jobs := by
  obtain ⟨s1, h1, h2, _, _, h5⟩ := RR_step js0 slice hs a hI hc
  rw [hb] at h1; injection h1 with h1; subst h1
  exact ⟨h2, h5⟩

theorem LT_stepI (js0 : List Job) (rand : Nat → Nat) (slice : Int) (hs : 0 < slice)
    (a b : LTState) (hI : LTInv js0 a) (hc : LT_cond a = true)
    (hb : LT_body_exact rand slice a = some b) :
    LTInv js0 b ∧ JobsStep a.jobs b.jobs := by
  obtain ⟨s1, h1, h2, _, _, h5⟩ := LT_step js0 rand slice hs a hI hc
  rw [hb] at h1; injection h1 with h1; subst h1
  exact ⟨h2, h5⟩

/-- In exact arithmetic: on every valid trace and for every policy, at the end of the run the
`start_time` of each job is the start of the first segment printed for it, its
`end_time` is the start plus the duration of the last one, and every segment
printed for it starts at or after its arrival; and at the head of every
iteration each of the two stamps of each job is either the sentinel -1 or
already its final value, so it is written once. -/
theorem stamps_set_once_exact (tr : List (Int × Int)) (hv : valid_trace tr)
    (slice : Int) (hs : 0 < slice) (rand : Nat → Nat) :
    (∃ k f, (∀ fuel, k ≤ fuel → policy_FIFO_exact fuel (load tr) = Run.finished k f) ∧
      StampsOfSegs tr f.jobs f.out ∧
      ∀ s, Reach FIFO_cond FIFO_body_exact (FIFO_init (load tr)) s → SetOnce s.jobs f.jobs) ∧
    (∃ k f, (∀ fuel, k ≤ fuel → policy_SJF_exact fuel (load tr) = Run.finished k f) ∧
      StampsOfSegs tr f.jobs f.out ∧
      ∀ s, Reach SJF_cond SJF_body_exact (SJF_init (load tr)) s → SetOnce s.jobs f.jobs) ∧
    (∃ k f, (∀ fuel, k ≤ fuel → policy_STCF_exact fuel (load tr) = Run.finished k f) ∧
      StampsOfSegs tr f.jobs f.out ∧
      ∀ s, Reach STCF_cond STCF_body_exact (STCF_init (load tr)) s → SetOnce s.jobs f.jobs) ∧
    (∃ k f, (∀ fuel, k ≤ fuel → policy_RR_exact slice fuel (load tr) = Run.finished k f) ∧
      StampsOfSegs tr f.jobs f.out ∧
      ∀ s, Reach RR_cond (RR_body_exact slice) (RR_init (load tr)) s → SetOnce s.jobs f.jobs) ∧
    (∃ k f, (∀ fuel, k ≤ fuel → policy_LT_exact rand slice fuel (load tr) = Run.finished k f) ∧
      StampsOfSegs tr f.jobs f.out ∧
      ∀ s, Reach LT_cond (LT_body_exact rand slice) (LT_init (load tr)) s →
        SetOnce s.jobs f.jobs) := by
  refine ⟨?_, ?_, ?_, ?_, ?_⟩
  · obtain ⟨k, f, hrun, _, hI, hd, hr⟩ := FIFO_run_valid tr hv.2
    refine ⟨k, f, hrun, hI.wf.stamps hd hI.static, ?_⟩
    intro s hs1
    have hfin : FIFO_cond f = false := (runLoop_finished_unique _ _ _ _ _ _ (hrun k (le_refl _))).2.1
    have hIs : FIFOInv (load tr) s :=
      hs1.inv (FIFOInv (load tr)) (FIFOInv_init tr hv.2)
        (fun a b hI hc hb => (FIFOInv_step (load tr) (Fresh_load tr) a b hI hc hb).1)
    exact SetOnce_of_stable hIs.wf
      (Reach.stable_jobs (fun s => s.jobs) (FIFOInv (load tr))
        (FIFOInv_step (load tr) (Fresh_load tr)) hIs (hs1.to_final hr hfin)).2
  · obtain ⟨k, f, hrun, hI, hrem, hr, _⟩ := SJF_run tr hv.2
    refine ⟨k, f, hrun, hI.wf.stamps (SJF_all_done _ f hI hrem) hI.static, ?_⟩
    intro s hs1
    have hfin : SJF_cond f = false := (runLoop_finished_unique _ _ _ _ _ _ (hrun k (le_refl _))).2.1
    have hIs : SJFInv (load tr) s :=
      hs1.inv (SJFInv (load tr)) (SJF_init_inv tr hv.2)
        (fun a b hI hc hb => (SJF_stepI (load tr) a b hI hc hb).1)
    exact SetOnce_of_stable hIs.wf
      (Reach.stable_jobs (fun s => s.jobs) (SJFInv (load tr)) (SJF_stepI (load tr)) hIs
        (hs1.to_final hr hfin)).2
  · obtain ⟨k, f, hrun, hI, hd, hwf, hr, _⟩ := STCF_run tr hv.2
    refine ⟨k, f, hrun, hwf.stamps hd hI.static, ?_⟩
    intro s hs1
    have hfin : STCF_cond f = false := (runLoop_finished_unique _ _ _ _ _ _ (hrun k (le_refl _))).2.1
    have hIs : STCFInv (load tr) s :=
      hs1.inv (STCFInv (load tr)) (STCF_init_inv tr hv.2)
        (fun a b hI hc hb => (STCF_stepI (load tr) a b hI hc hb).1)
    exact SetOnce_of_stable hIs.wf
      (Reach.stable_jobs (fun s => s.jobs) (STCFInv (load tr)) (STCF_stepI (load tr)) hIs
        (hs1.to_final hr hfin)).2
  · obtain ⟨k, f, hrun, hI, hd, hr, _⟩ := RR_run tr hv.2 slice hs
    refine ⟨k, f, hrun, hI.wf.stamps hd hI.static, ?_⟩
    intro s hs1
    have hfin : RR_cond f = false := (runLoop_finished_unique _ _ _ _ _ _ (hrun k (le_refl _))).2.1
    have hIs : RRInv (load tr) s :=
      hs1.inv (RRInv (load tr)) (RR_init_inv tr hv.2)
        (fun a b hI hc hb => (RR_stepI (load tr) slice hs a b hI hc hb).1)
    exact SetOnce_of_stable hIs.wf
      (Reach.stable_jobs (fun s => s.jobs) (RRInv (load tr)) (RR_stepI (load tr) slice hs) hIs
        (hs1.to_final hr hfin)).2
  · obtain ⟨k, f, hrun, hI, hd, hr, _⟩ := LT_run tr hv.2 rand slice hs
    refine ⟨k, f, hrun, hI.wf.stamps hd hI.static, ?_⟩
    intro s hs1
    have hfin : LT_cond f = false := (runLoop_finished_unique _ _ _ _ _ _ (hrun k (le_refl _))).2.1
    have hIs : LTInv (load tr) s :=
      hs1.inv (LTInv (load tr)) (LT_init_inv tr hv.2)
        (fun a b hI hc hb => (LT_stepI (load tr) rand slice hs a b hI hc hb).1)
    exact SetOnce_of_stable hIs.wf
      (Reach.stable_jobs (fun s => s.jobs) (LTInv (load tr)) (LT_stepI (load tr) rand slice hs) hIs
        (hs1.to_final hr hfin)).2

/-! ### Round-Robin: the wait between two grants -/

theorem cdist_after (js : List Job) (st q i : Nat) (hst : st < js.length) (hq : q < js.length)
    (hi : i < js.length) (h : cdist js.length st q < cdist js.length st i) :
    cdist js.length (next_or_head js q) i + cdist js.length st q + 1 = cdist js.length st i := by
  unfold next_or_head; unfold cdist at h ⊢; split_ifs at h ⊢ <;> omega

theorem cdist_next_self (js : List Job) (i : Nat) (hi : i < js.length) :
    cdist js.length (next_or_head js i) i = js.length - 1 := by
  unfold next_or_head cdist; split_ifs <;> omega

theorem RR_from_start (s : RRState) (hn : 0 < s.jobs.length)
    (hcur : ∀ c, s.curr = some c → c < s.jobs.length) :
    scan_start (RR_from s) < s.jobs.length := by
  unfold RR_from scan_start
  cases hc : s.curr with
  | some c => simp only; exact hcur c hc
  | none =>
    have h0 : head_ptr s.jobs = some 0 := by
      unfold head_ptr
      cases hjs : s.jobs with
      | nil => rw [hjs] at hn; simp at hn
      | cons a r => rfl
    simp only [h0]
    exact hn

/-- What one iteration of the RR loop does when the scan finds the node `q`. -/
theorem RR_body_grant (slice : Int) (s : RRState) (q : Nat) (qj : Job)
    (hf : find_next_ready_from s.jobs (RR_from s) s.t = some q) (hq : s.jobs[q]? = some qj) :
    RR_body_exact slice s = some
      { jobs := s.jobs.set q (run_job qj s.t (cmin slice qj.remaining)),
        t := s.t + cmin slice qj.remaining,
        curr := some (next_or_head s.jobs q),
        out := s.out ++ [print_seg s.t (stamp_start qj s.t) (cmin slice qj.remaining)] } := by
  rw [RR_body_eq, hf]
  simp only [hq]

/-- A ready job is granted the processor after at most `d` other grants, where
`d` is the number of `next` steps from the scan start to its node; the clock
advances by at most `d` slices meanwhile. -/
theorem RR_next_grant (js0 : List Job) (slice : Int) (hs : 0 < slice) :
    ∀ (d : Nat) (s : RRState) (i : Nat) (j : Job), RRInv js0 s → s.jobs[i]? = some j →
      j.end_time < 0 → j.arrival ≤ s.t → 0 < j.remaining →
      cdist s.jobs.length (scan_start (RR_from s)) i ≤ d →
      ∃ s2 s3 mid g2, Reach RR_cond (RR_body_exact slice) s s2 ∧ RR_cond s2 = true ∧
        RR_body_exact slice s2 = some s3 ∧ s2.out = s.out ++ mid ∧ (∀ g ∈ mid, g.id ≠ (i : Int)) ∧
        s3.out = s2.out ++ [g2] ∧ g2.id = (i : Int) ∧ g2.tstart ≤ s.t + (d : Int) * slice := by
  intro d
  induction d with
  | zero =>
    intro s i j hI hj he ha hr hd
    have hilt : i < s.jobs.length := (List.getElem?_eq_some_iff.1 hj).1
    have hst := RR_from_start s (by omega) hI.curr_lt
    have hc : RR_cond s = true := by
      unfold RR_cond
      have := (not_all_done_iff s.jobs).2 ⟨j, List.mem_iff_getElem?.2 ⟨i, hj⟩, he⟩
      simp [this]
    have hspec := find_next_ready_from_spec s.jobs (RR_from s) s.t (by
      intro c hcc
      have : scan_start (RR_from s) = c := by rw [hcc]; rfl
      omega)
    cases hf : find_next_ready_from s.jobs (RR_from s) s.t with
    | none =>
      rw [hf] at hspec
      exact absurd ⟨j, hj, he, ha, hr⟩ (hspec i)
    | some q =>
      rw [hf] at hspec
      obtain ⟨⟨qj, hq, _, _, _⟩, hmin⟩ := hspec
      have hqlt : q < s.jobs.length := (List.getElem?_eq_some_iff.1 hq).1
      have h1 := hmin i ⟨j, hj, he, ha, hr⟩
      have hqi : q = i :=
        cdist_inj s.jobs.length (scan_start (RR_from s)) q i hqlt hilt hst (by omega)
      subst hqi
      rw [hj] at hq
      injection hq with hq
      subst hq
      refine ⟨s, _, [], _, Reach.start, hc, RR_body_grant slice s q j hf hj, by simp,
        by simp, rfl, ?_, ?_⟩
      · simp only [print_seg, (stamp_start_static j s.t).1]
        exact hI.wf.ids q j hj
      · simp [print_seg]
  | succ d ih =>
    intro s i j hI hj he ha hr hd
    have hilt : i < s.jobs.length := (List.getElem?_eq_some_iff.1 hj).1
    have hst := RR_from_start s (by omega) hI.curr_lt
    have hc : RR_cond s = true := by
      unfold RR_cond
      have := (not_all_done_iff s.jobs).2 ⟨j, List.mem_iff_getElem?.2 ⟨i, hj⟩, he⟩
      simp [this]
    have hspec := find_next_ready_from_spec s.jobs (RR_from s) s.t (by
      intro c hcc
      have : scan_start (RR_from s) = c := by rw [hcc]; rfl
      omega)
    cases hf : find_next_ready_from s.jobs (RR_from s) s.t with
    | none =>
      rw [hf] at hspec
      exact absurd ⟨j, hj, he, ha, hr⟩ (hspec i)
    | some q =>
      rw [hf] at hspec
      obtain ⟨⟨qj, hq, hqe, hqa, hqr⟩, hmin⟩ := hspec
      have hqlt : q < s.jobs.length := (List.getElem?_eq_some_iff.1 hq).1
      have h1 := hmin i ⟨j, hj, he, ha, hr⟩
      have hbody := RR_body_grant slice s q qj hf hq
      obtain ⟨hr1, hr2, hr3⟩ := cmin_bounds slice qj.remaining hs hqr
      have hd0 : (0 : Int) ≤ ((d : Int) + 1) * slice := by positivity
      by_cases hqi : q = i
      · subst hqi
        rw [hj] at hq
        injection hq with hq
        subst hq
        refine ⟨s, _, [], _, Reach.start, hc, hbody, by simp, by simp, rfl, ?_, ?_⟩
        · simp only [print_seg, (stamp_start_static j s.t).1]
          exact hI.wf.ids q j hj
        · simp only [print_seg]
          push_cast
          omega
      · have hlt : cdist s.jobs.length (scan_start (RR_from s)) q <
            cdist s.jobs.length (scan_start (RR_from s)) i := by
          rcases Nat.lt_or_ge (cdist s.jobs.length (scan_start (RR_from s)) q)
            (cdist s.jobs.length (scan_start (RR_from s)) i) with h | h
          · exact h
          · exact absurd (cdist_inj s.jobs.length _ q i hqlt hilt hst (by omega)) hqi
        have hafter := cdist_after s.jobs (scan_start (RR_from s)) q i hst hqlt hilt hlt
        obtain ⟨hI1, _⟩ := RR_stepI js0 slice hs s _ hI hc hbody
        obtain ⟨s2, s3, mid, g2, hreach, hc2, hb2, hout2, hmid, hout3, hg2, hbound⟩ :=
          ih _ i j hI1 (by simp only; rw [List.getElem?_set_ne hqi]; exact hj) he
            (by simp only; omega) hr
            (by
              simp only [List.length_set]
              have : scan_start (RR_from
                  { jobs := s.jobs.set q (run_job qj s.t (cmin slice qj.remaining)),
                    t := s.t + cmin slice qj.remaining,
                    curr := some (next_or_head s.jobs q),
                    out := s.out ++
                      [print_seg s.t (stamp_start qj s.t) (cmin slice qj.remaining)] })
                  = next_or_head s.jobs q := rfl
              rw [this]
              omega)
        refine ⟨s2, s3, print_seg s.t (stamp_start qj s.t) (cmin slice qj.remaining) :: mid, g2,
          Reach.trans (Reach.step Reach.start hc hbody) hreach, hc2, hb2, ?_, ?_, hout3, hg2, ?_⟩
        · rw [hout2]; simp
        · intro g hg
          rcases List.mem_cons.1 hg with rfl | hg
          · simp only [print_seg, (stamp_start_static qj s.t).1]
            rw [hI.wf.ids q qj hq]
            omega
          · exact hmid g hg
        · simp only at hbound
          push_cast
          have : (d : Int) * slice + slice = ((d : Int) + 1) * slice := by ring
          omega

theorem append_singleton_split {α : Type} (a pre post : List α) (g g1 : α)
    (h : a ++ [g] = pre ++ g1 :: post) :
    (a = pre ∧ g = g1 ∧ post = []) ∨ ∃ post1, post = post1 ++ [g] ∧ a = pre ++ g1 :: post1 := by
  rcases List.eq_nil_or_concat post with rfl | ⟨post1, x, rfl⟩
  · left
    have := List.append_inj' (show a ++ [g] = pre ++ [g1] from h) rfl
    simp at this
    exact ⟨this.1, this.2, rfl⟩
  · right
    have h2 : a ++ [g] = (pre ++ g1 :: post1) ++ [x] := by rw [h]; simp
    have := List.append_inj' h2 rfl
    simp at this
    exact ⟨post1, by rw [this.2]; simp, this.1⟩

/-- One iteration of the RR loop prints nothing or one segment. -/
theorem RR_out_step (slice : Int) (a b : RRState) (h : RR_body_exact slice a = some b) :
    b.out = a.out ∨ ∃ g, b.out = a.out ++ [g] := by
  rw [RR_body_eq] at h
  cases hf : find_next_ready_from a.jobs (RR_from a) a.t with
  | none =>
    rw [hf] at h
    injection h with h
    subst h
    exact Or.inl rfl
  | some q =>
    rw [hf] at h
    simp only at h
    cases hq : a.jobs[q]? with
    | none => rw [hq] at h; cases h
    | some qj =>
      rw [hq] at h
      injection h with h
      subst h
      exact Or.inr ⟨_, rfl⟩

theorem RR_out_grows (slice : Int) (a b : RRState)
    (h : Reach RR_cond (RR_body_exact slice) a b) : ∃ rest, b.out = a.out ++ rest := by
  induction h with
  | start => exact ⟨[], by simp⟩
  | @step x y _ _ hb ih =>
    obtain ⟨rest, hrest⟩ := ih
    rcases RR_out_step slice x y hb with h | ⟨g, h⟩
    · exact ⟨rest, by rw [h, hrest]⟩
    · exact ⟨rest ++ [g], by rw [h, hrest]; simp⟩

/-- Every segment of the printed trace was printed by one iteration, on top of
the segments before it. -/
theorem RR_emit_point (slice : Int) (s0 f : RRState) (h0 : s0.out = [])
    (h : Reach RR_cond (RR_body_exact slice) s0 f) :
    ∀ (pre post : List Seg) (g1 : Seg), f.out = pre ++ g1 :: post →
      ∃ s s1, Reach RR_cond (RR_body_exact slice) s0 s ∧ RR_cond s = true ∧
        RR_body_exact slice s = some s1 ∧ s.out = pre ∧ s1.out = pre ++ [g1] := by
  induction h with
  | start =>
    intro pre post g1 h
    rw [h0] at h
    simp at h
  | @step x y hr hc hb ih =>
    intro pre post g1 h
    rcases RR_out_step slice x y hb with hxy | ⟨g, hxy⟩
    · rw [hxy] at h
      exact ih pre post g1 h
    · rw [hxy] at h
      rcases append_singleton_split x.out pre post g g1 h with ⟨h1, h2, _⟩ | ⟨post1, _, h2⟩
      · exact ⟨x, y, hr, hc, hb, h1, by rw [hxy, h1, h2]⟩
      · exact ih pre post1 g1 h2

/-- In exact arithmetic: on every valid trace with `n` jobs and for every slice `s` above 0, in
the trace `policy_RR_exact` prints: when a segment of a job ends at `e` and the
segments of the job printed so far do not add up to its length, a later segment
of the same job follows, and the next one starts no later than `e + (n - 1) * s`.
(The bound holds whether or not all jobs have arrived by `e`.) -/
theorem rr_fairness_exact (tr : List (Int × Int)) (hv : valid_trace tr)
    (slice : Int) (hs : 0 < slice) :
    ∃ k f, (∀ fuel, k ≤ fuel → policy_RR_exact slice fuel (load tr) = Run.finished k f) ∧
      ∀ (pre post : List Seg) (g1 : Seg) (i : Nat) (p : Int × Int),
        f.out = pre ++ g1 :: post → g1.id = (i : Int) → tr[i]? = some p →
        ran_total (i : Int) (pre ++ [g1]) < p.2 →
        ∃ mid g2 rest, post = mid ++ g2 :: rest ∧ (∀ g ∈ mid, g.id ≠ g1.id) ∧
          g2.id = g1.id ∧
          g2.tstart - (g1.tstart + g1.ran) ≤ ((tr.length : Int) - 1) * slice := by
  obtain ⟨k, f, hrun, hIf, hd, hr, _⟩ := RR_run tr hv.2 slice hs
  refine ⟨k, f, hrun, ?_⟩
  intro pre post g1 i p hout hid hp hlt
  have hfin : RR_cond f = false :=
    (runLoop_finished_unique _ _ _ _ _ _ (hrun k (le_refl _))).2.1
  obtain ⟨s, s1, hrs, hcs, hbs, hsout, hs1out⟩ :=
    RR_emit_point slice (RR_init (load tr)) f rfl hr pre post g1 hout
  have hIs : RRInv (load tr) s :=
    hrs.inv (RRInv (load tr)) (RR_init_inv tr hv.2)
      (fun a b hI hc hb => (RR_stepI (load tr) slice hs a b hI hc hb).1)
  obtain ⟨hI1, _⟩ := RR_stepI (load tr) slice hs s s1 hIs hcs hbs
  -- the iteration that printed `g1`
  have hbs2 := hbs
  rw [RR_body_eq] at hbs2
  cases hf : find_next_ready_from s.jobs (RR_from s) s.t with
  | none =>
    rw [hf] at hbs2
    injection hbs2 with hbs2
    subst hbs2
    simp only at hs1out
    rw [hsout] at hs1out
    have := congrArg List.length hs1out
    simp at this
  | some q =>
    rw [hf] at hbs2
    simp only at hbs2
    cases hq : s.jobs[q]? with
    | none => rw [hq] at hbs2; cases hbs2
    | some qj =>
      rw [hq] at hbs2
      injection hbs2 with hbs2
      have hqlt : q < s.jobs.length := (List.getElem?_eq_some_iff.1 hq).1
      have hg1 : g1 = print_seg s.t (stamp_start qj s.t) (cmin slice qj.remaining) := by
        rw [← hbs2] at hs1out
        simp only at hs1out
        rw [hsout] at hs1out
        have := List.append_inj' hs1out rfl
        simp at this
        exact this.symm
      have hqid : qj.id = (q : Int) := hIs.wf.ids q qj hq
      have hqi : q = i := by
        have : g1.id = (q : Int) := by
          rw [hg1]; simp only [print_seg, (stamp_start_static qj s.t).1]; exact hqid
        rw [hid] at this
        omega
      subst hqi
      have hj1 : s1.jobs[q]? = some (run_job qj s.t (cmin slice qj.remaining)) := by
        rw [← hbs2]; exact List.getElem?_set_self hqlt
      have hok1 := hI1.wf.jobs q _ hj1
      obtain ⟨j0, hj0, _, _, hlen0⟩ := final_job tr s1.jobs hI1.static q p hp
      rw [hj1] at hj0
      injection hj0 with hj0
      have hrem1 : 0 < (run_job qj s.t (cmin slice qj.remaining)).remaining := by
        have h1 := hok1.total
        rw [(run_job_static qj s.t _).1, hqid, hs1out, hj0, hlen0] at h1
        rw [hj0]
        omega
      have hend1 := hok1.fin_iff.2 hrem1
      have harr1 : (run_job qj s.t (cmin slice qj.remaining)).arrival ≤ s1.t := by
        have h1 := hok1.seg_arr g1 (by rw [hs1out]; simp)
          (by rw [(run_job_static qj s.t _).1, hqid]; exact hid)
        have h2 : g1.tstart = s.t := by rw [hg1]; rfl
        have h3 : s1.t = s.t + cmin slice qj.remaining := by rw [← hbs2]
        have hqr : 0 < qj.remaining := by
          have := run_job_remaining qj s.t (cmin slice qj.remaining)
          have hc := cmin_bounds slice qj.remaining hs
          by_contra hneg
          have : cmin slice qj.remaining = qj.remaining := by
            unfold cmin; split_ifs <;> omega
          omega
        have := (cmin_bounds slice qj.remaining hs hqr).1
        omega
      have hlen1 : s1.jobs.length = tr.length := by
        have := congrArg List.length hI1.static
        simpa [load_length] using this
      have hdist : cdist s1.jobs.length (scan_start (RR_from s1)) q ≤ tr.length - 1 := by
        have hstart : scan_start (RR_from s1) = next_or_head s.jobs q := by rw [← hbs2]; rfl
        have hl : s1.jobs.length = s.jobs.length := by rw [← hbs2]; simp
        rw [hstart, hl, cdist_next_self s.jobs q hqlt, ← hl, hlen1]
      obtain ⟨s2, s3, mid, g2, hreach2, hc2, hb2, hout2, hmid, hout3, hg2, hbound⟩ :=
        RR_next_grant (load tr) slice hs (tr.length - 1) s1 q _ hI1 hj1 hend1 harr1 hrem1 hdist
      have hr3 : Reach RR_cond (RR_body_exact slice) (RR_init (load tr)) s3 :=
        Reach.step (Reach.trans (Reach.step hrs hcs hbs) hreach2) hc2 hb2
      obtain ⟨rest, hrest⟩ := RR_out_grows slice s3 f (hr3.to_final hr hfin)
      have hpost : post = mid ++ g2 :: rest := by
        rw [hout3, hout2, hs1out, hout] at hrest
        have : pre ++ g1 :: post = pre ++ (g1 :: (mid ++ g2 :: rest)) := by
          rw [hrest]; simp
        have := List.append_cancel_left this
        injection this
      refine ⟨mid, g2, rest, hpost, ?_, by rw [hg2, hid], ?_⟩
      · intro g hg; rw [hid]; exact hmid g hg
      · have h2 : g1.tstart = s.t := by rw [hg1]; rfl
        have h4 : g1.ran = cmin slice qj.remaining := by rw [hg1]; rfl
        have h3 : s1.t = s.t + cmin slice qj.remaining := by rw [← hbs2]
        have hn : 0 < tr.length := by
          have := (List.getElem?_eq_some_iff.1 hp).1
          omega
        have hcast : ((tr.length - 1 : Nat) : Int) = (tr.length : Int) - 1 := by omega
        rw [hcast] at hbound
        omega

/-! ### STCF: the shape of one iteration, and what stays in the printed trace -/

/-- What one iteration of the STCF loop does: it jumps the clock when nothing is
ready, and otherwise runs the picked node `n` for one tick, as the continuation of
the open segment or, after closing it, as the start of a new one. -/
theorem STCF_cases (js0 : List Job) (s s1 : STCFState) (hI : STCFInv js0 s)
    (hb : STCF_body_exact s = some s1) :
    (pick_sjf s.jobs s.t = none ∧ s.curr = none ∧
      s1 = { s with t := idle_jump_exact s.jobs s.t }) ∨
    ∃ n nj ss base, pick_sjf s.jobs s.t = some n ∧ s.jobs[n]? = some nj ∧
      nj.end_time < 0 ∧ nj.arrival ≤ s.t ∧ 0 < nj.remaining ∧
      s1 = STCF_after s n nj ss base ∧
      ((s.curr = some n ∧ ss = s.seg_start ∧ base = s.out) ∨
        (s.curr ≠ some n ∧ ss = s.t ∧ base = ext_out s)) := by
  cases hp : pick_sjf s.jobs s.t with
  | none =>
    left
    have hnone := (pick_sjf_none s.jobs s.t).1 hp
    have hcn : s.curr = none := by
      cases hcc : s.curr with
      | none => rfl
      | some c =>
        exfalso
        obtain ⟨cj, hcj, h1, h2, h3, _⟩ := hI.curr c hcc
        exact hnone cj (List.mem_iff_getElem?.2 ⟨c, hcj⟩) ⟨h1, by omega⟩
    rw [STCF_body_idle s hp hcn] at hb
    injection hb with hb
    exact ⟨rfl, hcn, hb.symm⟩
  | some n =>
    right
    obtain ⟨nj, hj, hje, hja, _⟩ := pick_sjf_some s.jobs s.t n hp
    have hrem : 0 < nj.remaining := (hI.wf.jobs n nj hj).fin_iff.1 hje
    by_cases hcn : s.curr = some n
    · obtain ⟨cj, hcj, _, h2, h3, h4⟩ := hI.curr n hcn
      rw [hj] at hcj
      injection hcj with hcj
      subst hcj
      rw [STCF_body_continue s n nj hp hcn hj h4 h3] at hb
      injection hb with hb
      exact ⟨n, nj, s.seg_start, s.out, rfl, hj, hje, hja, hrem, hb.symm, Or.inl ⟨hcn, rfl, rfl⟩⟩
    · have hcur : ∀ c, s.curr = some c → (∃ cj, s.jobs[c]? = some cj) ∧ s.seg_start < s.t := by
        intro c hcc
        obtain ⟨cj, hcj, _, _, h3, _⟩ := hI.curr c hcc
        exact ⟨⟨cj, hcj⟩, h3⟩
      rw [STCF_body_switch s n nj hp hcn hj hcur] at hb
      injection hb with hb
      exact ⟨n, nj, s.t, ext_out s, rfl, hj, hje, hja, hrem, hb.symm, Or.inr ⟨hcn, rfl, rfl⟩⟩

theorem STCF_after_out (s : STCFState) (n : Nat) (nj : Job) (ss : Int) (base : List Seg)
    (g : Seg) (hg : g ∈ base) : g ∈ (STCF_after s n nj ss base).out := by
  unfold STCF_after
  by_cases h0 : nj.remaining - 1 = 0
  · simp only [h0, if_true]; exact List.mem_append_left _ hg
  · simp only [h0, if_false]; exact hg

theorem ext_out_of_out (s : STCFState) (g : Seg) (hg : g ∈ s.out) : g ∈ ext_out s := by
  unfold ext_out
  cases s.curr with
  | none => exact hg
  | some c =>
    simp only
    cases s.jobs[c]? with
    | none => exact hg
    | some j => exact List.mem_append_left _ hg

/-- A printed segment stays in the printed trace. -/
theorem STCF_out_mono (js0 : List Job) (a b : STCFState) (hI : STCFInv js0 a)
    (h : Reach STCF_cond STCF_body_exact a b) (g : Seg) (hg : g ∈ a.out) : g ∈ b.out := by
  have key : STCFInv js0 b ∧ g ∈ b.out := by
    induction h with
    | start => exact ⟨hI, hg⟩
    | @step x y _ hc hb ih =>
      obtain ⟨hIx, hgx⟩ := ih
      refine ⟨(STCF_stepI js0 x y hIx hc hb).1, ?_⟩
      rcases STCF_cases js0 x y hIx hb with ⟨_, _, rfl⟩ | ⟨n, nj, ss, base, _, _, _, _, _, rfl, hcase⟩
      · exact hgx
      · apply STCF_after_out
        rcases hcase with ⟨_, _, rfl⟩ | ⟨_, _, rfl⟩
        · exact hgx
        · exact ext_out_of_out x g hgx
  exact key.2

/-- A segment of the trace with the open segment keeps its job and its start
for the rest of the run. -/
theorem STCF_ext_mono (js0 : List Job) (a b : STCFState) (hI : STCFInv js0 a)
    (h : Reach STCF_cond STCF_body_exact a b) (id t0 : Int)
    (hg : ∃ g ∈ ext_out a, g.id = id ∧ g.tstart = t0) :
    ∃ g ∈ ext_out b, g.id = id ∧ g.tstart = t0 := by
  have key : STCFInv js0 b ∧ ∃ g ∈ ext_out b, g.id = id ∧ g.tstart = t0 := by
    induction h with
    | start => exact ⟨hI, hg⟩
    | @step x y _ hc hb ih =>
      obtain ⟨hIx, g, hgx, hgid, hgt⟩ := ih
      refine ⟨(STCF_stepI js0 x y hIx hc hb).1, ?_⟩
      rcases STCF_cases js0 x y hIx hb with ⟨_, hcn, rfl⟩ |
        ⟨n, nj, ss, base, _, hj, _, _, _, rfl, hcase⟩
      · refine ⟨g, ?_, hgid, hgt⟩
        have h1 : ext_out { x with t := idle_jump_exact x.jobs x.t } = x.out := by
          unfold ext_out; simp only [hcn]
        have h2 : ext_out x = x.out := by unfold ext_out; rw [hcn]
        rw [h1, ← h2]; exact hgx
      · rw [ext_out_after x n nj ss base hj]
        rcases hcase with ⟨hcn, rfl, rfl⟩ | ⟨_, _, rfl⟩
        · have h2 : ext_out x = x.out ++ [print_seg x.seg_start nj (x.t - x.seg_start)] := by
            unfold ext_out; simp only [hcn, hj]
          rw [h2] at hgx
          rcases List.mem_append.1 hgx with hgx | hgx
          · exact ⟨g, List.mem_append_left _ hgx, hgid, hgt⟩
          · simp at hgx
            subst hgx
            exact ⟨_, List.mem_append_right _ (List.mem_singleton_self _), hgid, hgt⟩
        · exact ⟨g, List.mem_append_left _ hgx, hgid, hgt⟩
  exact key.2

/-- A job does not finish before its arrival plus its length. -/
theorem JobOK.not_early {t : Int} {out : List Seg} {j : Job} (h : JobOK t out j)
    (ha : t ≤ j.arrival) : j.end_time < 0 := by
  by_contra hne
  have he : 0 ≤ j.end_time := by omega
  have hs := h.done_started he
  obtain ⟨g, hg, hgid, hgt⟩ := first_start_mem _ _ _ (h.started hs)
  have h1 := h.seg_arr g hg hgid
  have h2 := h.span_done he
  have h3 := h.len
  omega

/-! ### STCF: preemption by a shorter arrival -/

/-- In exact arithmetic: on every valid trace `policy_STCF_exact` finishes, and whenever an iteration
has run job `a` for the tick that ends at the instant `s.t`, and a job `b` of the
trace arrives at that instant with a length below what remains of `a`, the
printed trace has a segment of `a` that ends at that instant and a segment of
another job that starts at it, and the segments of `a` sum to its length.  The
trace `0,5 / 1,3` gives the segments `(0, Job 0, 1)`, `(1, Job 1, 3)`,
`(4, Job 0, 4)`. -/
theorem stcf_preemption_exact (tr : List (Int × Int)) (hv : valid_trace tr) :
    (∃ k f, (∀ fuel, k ≤ fuel → policy_STCF_exact fuel (load tr) = Run.finished k f) ∧
      ∀ (s0 s : STCFState) (a b : Nat) (aj0 aj : Job) (pb : Int × Int),
        Reach STCF_cond STCF_body_exact (STCF_init (load tr)) s0 → STCF_cond s0 = true →
        STCF_body_exact s0 = some s →
        s0.jobs[a]? = some aj0 → s.jobs[a]? = some aj → aj.remaining = aj0.remaining - 1 →
        tr[b]? = some pb → pb.1 = s.t → pb.2 < aj.remaining →
        (∃ g ∈ f.out, g.id = (a : Int) ∧ g.tstart + g.ran = s.t) ∧
        (∃ g ∈ f.out, g.id ≠ (a : Int) ∧ g.tstart = s.t) ∧
        ran_total (a : Int) f.out = aj.length) ∧
    policy_STCF_exact 8 (load [(0, 5), (1, 3)]) = Run.finished 8
      { jobs := [{ id := 0, arrival := 0, length := 5, tickets := 100, remaining := 0,
                   start_time := 0, end_time := 8 },
                 { id := 1, arrival := 1, length := 3, tickets := 200, remaining := 0,
                   start_time := 1, end_time := 4 }],
        t := 8, curr := none, seg_start := -1,
        out := [{ tstart := 0, id := 0, arrival := 0, ran := 1 },
                { tstart := 1, id := 1, arrival := 1, ran := 3 },
                { tstart := 4, id := 0, arrival := 0, ran := 4 }] } := by
  refine ⟨?_, by decide!⟩
  obtain ⟨k, f, hrun, hIf, hd, hwf, hr, _⟩ := STCF_run tr hv.2
  refine ⟨k, f, hrun, ?_⟩
  intro s0 s a b aj0 aj pb hr0 hc0 hb0 ha0 ha hdec hpb hpb1 hpb2
  have hfin : STCF_cond f = false :=
    (runLoop_finished_unique _ _ _ _ _ _ (hrun k (le_refl _))).2.1
  have hI0 : STCFInv (load tr) s0 :=
    hr0.inv (STCFInv (load tr)) (STCF_init_inv tr hv.2)
      (fun x y hI hc hb => (STCF_stepI (load tr) x y hI hc hb).1)
  have hIs : STCFInv (load tr) s := (STCF_stepI (load tr) s0 s hI0 hc0 hb0).1
  have hrs : Reach STCF_cond STCF_body_exact (STCF_init (load tr)) s := Reach.step hr0 hc0 hb0
  have hlenpos : 0 < pb.2 := (hv.2 pb (List.mem_iff_getElem?.2 ⟨b, hpb⟩)).2
  -- the iteration from `s0` ran `a` and did not finish it
  have hcur : s.curr = some a := by
    rcases STCF_cases (load tr) s0 s hI0 hb0 with ⟨_, _, rfl⟩ |
      ⟨n, nj, ss, base, _, hj, _, _, _, rfl, _⟩
    · simp only at ha
      rw [ha0] at ha
      injection ha with ha
      subst ha
      omega
    · have hnlt : n < s0.jobs.length := (List.getElem?_eq_some_iff.1 hj).1
      have hna : n = a := by
        by_contra hne
        simp only [STCF_after] at ha
        rw [List.getElem?_set_ne hne, ha0] at ha
        injection ha with ha
        subst ha
        omega
      subst hna
      simp only [STCF_after] at ha
      rw [List.getElem?_set_self hnlt] at ha
      injection ha with ha
      rw [hj] at ha0
      injection ha0 with ha0
      subst ha0
      have hr1 : aj.remaining = nj.remaining - 1 := by rw [← ha, run_job_remaining]
      have hne0 : ¬ nj.remaining - 1 = 0 := by omega
      simp only [STCF_after, hne0, if_false]
  obtain ⟨cj, hcj, hce, _, hss, _⟩ := hIs.curr a hcur
  rw [ha] at hcj
  injection hcj with hcj
  subst hcj
  have hcs : STCF_cond s = true := by
    unfold STCF_cond
    have := (not_all_done_iff s.jobs).2 ⟨aj, List.mem_iff_getElem?.2 ⟨a, ha⟩, hce⟩
    simp [this]
  -- the job `b` is ready at `s.t` with less remaining than `a`
  obtain ⟨bj, hbj, _, hbarr, hblen⟩ := final_job tr s.jobs hIs.static b pb hpb
  have hbok := hIs.wf.jobs b bj hbj
  have hbe : bj.end_time < 0 := hbok.not_early (by omega)
  have hbrem : bj.remaining < aj.remaining := by
    have := hbok.rem_le
    omega
  -- the next iteration switches away from `a`
  obtain ⟨s1, hb1, hI1, _⟩ := STCF_step (load tr) s hIs hcs
  have hext : ext_out s = s.out ++ [print_seg s.seg_start aj (s.t - s.seg_start)] := by
    unfold ext_out; simp only [hcur, ha]
  have haid : aj.id = (a : Int) := hIs.wf.ids a aj ha
  rcases STCF_cases (load tr) s s1 hIs hb1 with ⟨hp, _, _⟩ |
    ⟨n, nj, ss, base, hp, hj, _, _, _, hs1, hcase⟩
  · exfalso
    exact (pick_sjf_none s.jobs s.t).1 hp bj (List.mem_iff_getElem?.2 ⟨b, hbj⟩)
      ⟨hbe, by omega⟩
  · obtain ⟨nj1, hj1, _, _, hmin⟩ := pick_sjf_some s.jobs s.t n hp
    rw [hj] at hj1
    injection hj1 with hj1
    subst hj1
    have hpref := hmin b bj hbj hbe (by omega)
    have hna : n ≠ a := by
      intro h
      subst h
      rw [ha] at hj
      injection hj with hj
      subst hj
      unfold prefers at hpref
      omega
    have hnid : nj.id = (n : Int) := hIs.wf.ids n nj hj
    rcases hcase with ⟨hcn, _, _⟩ | ⟨_, hss1, hbase⟩
    · rw [hcur] at hcn
      injection hcn with hcn
      exact absurd hcn.symm hna
    · subst hss1
      subst hbase
      have hr1 : Reach STCF_cond STCF_body_exact (STCF_init (load tr)) s1 := Reach.step hrs hcs hb1
      have hr1f := hr1.to_final hr hfin
      have hextf : ext_out f = f.out := by
        unfold ext_out
        cases hcc : f.curr with
        | none => rfl
        | some c =>
          exfalso
          obtain ⟨cj, hcj, h1, _⟩ := hIf.curr c hcc
          have := (all_done_iff f.jobs).1 hd cj (List.mem_iff_getElem?.2 ⟨c, hcj⟩)
          omega
      refine ⟨?_, ?_, ?_⟩
      · refine ⟨print_seg s.seg_start aj (s.t - s.seg_start), ?_, haid, ?_⟩
        · apply STCF_out_mono (load tr) s1 f hI1 hr1f
          rw [hs1]
          apply STCF_after_out
          rw [hext]
          exact List.mem_append_right _ (List.mem_singleton_self _)
        · simp only [print_seg]; omega
      · have h1 : ∃ g ∈ ext_out s1, g.id = (n : Int) ∧ g.tstart = s.t := by
          rw [hs1, ext_out_after s n nj s.t (ext_out s) hj]
          exact ⟨_, List.mem_append_right _ (List.mem_singleton_self _), hnid, rfl⟩
        obtain ⟨g, hg, hgid, hgt⟩ := STCF_ext_mono (load tr) s1 f hI1 hr1f _ _ h1
        rw [hextf] at hg
        exact ⟨g, hg, by rw [hgid]; omega, hgt⟩
      · have hao : (load tr)[a]? ≠ none := by
          intro hnone
          obtain ⟨x, hx, _⟩ := static_get_rev s.jobs (load tr) hIs.static a aj ha
          rw [hnone] at hx
          cases hx
        have hpa : ∃ pa, tr[a]? = some pa := by
          rw [load_getElem?] at hao
          cases hta : tr[a]? with
          | none => rw [hta] at hao; simp at hao
          | some pa => exact ⟨pa, rfl⟩
        obtain ⟨pa, hpa⟩ := hpa
        obtain ⟨x, hx, _, _, hxl⟩ := final_job tr s.jobs hIs.static a pa hpa
        rw [ha] at hx
        injection hx with hx
        subst hx
        rw [hxl]
        exact hwf.sums hd hIf.static a pa hpa

/-! ### STCF: the selection at every tick -/

/-- In exact arithmetic: `pick_stcf` returns the same node as `pick_sjf` on every registry and
time, and on every valid trace `policy_STCF_exact` finishes and every iteration of its
loop either finds no ready job and leaves the registry alone, or runs for the
tick from `t` to `t + 1` the job `pick_stcf(t)` returns, which is ready at `t`,
has the least `remaining` among the jobs ready at `t` and the least arrival
among those with the same `remaining`. -/
theorem stcf_reselects_exact (tr : List (Int × Int)) (hv : valid_trace tr) :
    (∀ (js : List Job) (t : Int), pick_stcf js t = pick_sjf js t) ∧
    ∃ k f, (∀ fuel, k ≤ fuel → policy_STCF_exact fuel (load tr) = Run.finished k f) ∧
      ∀ (s s1 : STCFState), Reach STCF_cond STCF_body_exact (STCF_init (load tr)) s →
        STCF_cond s = true → STCF_body_exact s = some s1 →
        (pick_stcf s.jobs s.t = none ∧ s1.jobs = s.jobs) ∨
        ∃ n nj, pick_stcf s.jobs s.t = some n ∧ s.jobs[n]? = some nj ∧
          nj.end_time < 0 ∧ nj.arrival ≤ s.t ∧
          s1.jobs = s.jobs.set n (run_job nj s.t 1) ∧
          (run_job nj s.t 1).remaining = nj.remaining - 1 ∧ s1.t = s.t + 1 ∧
          ∀ (i : Nat) (x : Job), s.jobs[i]? = some x → x.end_time < 0 → x.arrival ≤ s.t →
            nj.remaining ≤ x.remaining ∧ (x.remaining = nj.remaining → nj.arrival ≤ x.arrival) := by
  refine ⟨pick_stcf_eq, ?_⟩
  obtain ⟨k, f, hrun, _, _, _, _, _⟩ := STCF_run tr hv.2
  refine ⟨k, f, hrun, ?_⟩
  intro s s1 hr _ hb
  have hI : STCFInv (load tr) s :=
    hr.inv (STCFInv (load tr)) (STCF_init_inv tr hv.2)
      (fun x y hI hc hb => (STCF_stepI (load tr) x y hI hc hb).1)
  rcases STCF_cases (load tr) s s1 hI hb with ⟨hp, _, rfl⟩ |
    ⟨n, nj, ss, base, hp, hj, he, ha, _, rfl, _⟩
  · left
    exact ⟨by rw [pick_stcf_eq]; exact hp, rfl⟩
  · right
    obtain ⟨nj1, hj1, _, _, hmin⟩ := pick_sjf_some s.jobs s.t n hp
    rw [hj] at hj1
    injection hj1 with hj1
    subst hj1
    refine ⟨n, nj, by rw [pick_stcf_eq]; exact hp, hj, he, ha, rfl, run_job_remaining nj s.t 1,
      rfl, ?_⟩
    intro i x hx hxe hxa
    have := hmin i x hx hxe hxa
    unfold prefers at this
    omega

/-! ### STCF: no preemption on a tie -/

theorem Lead_step (js0 : List Job) (s s1 : STCFState) (hI : STCFInv js0 s)
    (hb : STCF_body_exact s = some s1) : Lead s1 := by
  rcases STCF_cases js0 s s1 hI hb with ⟨_, hcn, rfl⟩ |
    ⟨n, nj, ss, base, hp, hj, _, _, _, rfl, _⟩
  · intro c cj hc
    simp only [hcn] at hc
    cases hc
  · intro c cj hc hcj i x hx hic hxe hxa
    have hnlt : n < s.jobs.length := (List.getElem?_eq_some_iff.1 hj).1
    simp only [STCF_after] at hc hcj hx hxa
    by_cases h0 : nj.remaining - 1 = 0
    · simp only [h0, if_true] at hc
      cases hc
    · simp only [h0, if_false] at hc
      injection hc with hc
      subst hc
      rw [List.getElem?_set_self hnlt] at hcj
      injection hcj with hcj
      subst hcj
      rw [List.getElem?_set_ne (fun h => hic h.symm)] at hx
      obtain ⟨nj1, hj1, _, _, hmin⟩ := pick_sjf_some s.jobs s.t n hp
      rw [hj] at hj1
      injection hj1 with hj1
      subst hj1
      have := hmin i x hx hxe (by omega)
      unfold prefers at this
      rw [run_job_remaining]
      omega

theorem Lead_reach (tr : List (Int × Int)) (hv : ∀ p ∈ tr, 0 ≤ p.1 ∧ 0 < p.2) (s : STCFState)
    (h : Reach STCF_cond STCF_body_exact (STCF_init (load tr)) s) : STCFInv (load tr) s ∧ Lead s := by
  induction h with
  | start =>
    refine ⟨STCF_init_inv tr hv, ?_⟩
    intro c cj hc
    simp [STCF_init] at hc
  | @step x y _ hc hb ih =>
    exact ⟨(STCF_stepI (load tr) x y ih.1 hc hb).1, Lead_step (load tr) x y ih.1 hb⟩

/-- In exact arithmetic: on every valid trace `policy_STCF_exact` finishes, and whenever an iteration
finds the running job `a` unfinished and `pick_stcf` selects a different job `b`,
so that the open segment of `a` is printed at that instant, what remains of `b`
is strictly less than what remains of `a`. -/
theorem no_tie_preemption_exact (tr : List (Int × Int)) (hv : valid_trace tr) :
    ∃ k f, (∀ fuel, k ≤ fuel → policy_STCF_exact fuel (load tr) = Run.finished k f) ∧
      ∀ (s s1 : STCFState) (a b : Nat) (aj bj : Job),
        Reach STCF_cond STCF_body_exact (STCF_init (load tr)) s → STCF_body_exact s = some s1 →
        s.curr = some a → s.jobs[a]? = some aj → pick_stcf s.jobs s.t = some b → b ≠ a →
        s.jobs[b]? = some bj →
        aj.end_time < 0 ∧
        (∃ rest, s1.out = s.out ++ print_seg s.seg_start aj (s.t - s.seg_start) :: rest) ∧
        bj.remaining < aj.remaining := by
  obtain ⟨k, f, hrun, _, _, _, _, _⟩ := STCF_run tr hv.2
  refine ⟨k, f, hrun, ?_⟩
  intro s s1 a b aj bj hr hb hcur ha hpick hba hbj
  obtain ⟨hI, hlead⟩ := Lead_reach tr hv.2 s hr
  rw [pick_stcf_eq] at hpick
  obtain ⟨cj, hcj, hce, hca, hss, _⟩ := hI.curr a hcur
  rw [ha] at hcj
  injection hcj with hcj
  subst hcj
  obtain ⟨bj1, hbj1, hbe, hbarr, hmin⟩ := pick_sjf_some s.jobs s.t b hpick
  rw [hbj] at hbj1
  injection hbj1 with hbj1
  subst hbj1
  have hext : ext_out s = s.out ++ [print_seg s.seg_start aj (s.t - s.seg_start)] := by
    unfold ext_out; simp only [hcur, ha]
  refine ⟨hce, ?_, ?_⟩
  · rcases STCF_cases (load tr) s s1 hI hb with ⟨hp, _, _⟩ |
      ⟨n, nj, ss, base, hp, hj, _, _, _, rfl, hcase⟩
    · rw [hp] at hpick; cases hpick
    · rw [hp] at hpick
      injection hpick with hpick
      subst hpick
      rcases hcase with ⟨hcn, _, _⟩ | ⟨_, _, rfl⟩
      · rw [hcur] at hcn
        injection hcn with hcn
        exact absurd hcn.symm hba
      · simp only [STCF_after, hext]
        by_cases h0 : nj.remaining - 1 = 0
        · simp only [h0, if_true]
          exact ⟨[print_seg ss nj (s.t + 1 - ss)], by simp⟩
        · simp only [h0, if_false]
          exact ⟨[], by simp⟩
  · have hpref := hmin a aj ha hce (by omega)
    unfold prefers at hpref
    by_cases hbt : bj.arrival < s.t
    · have := hlead a aj hcur ha b bj hbj hba hbe hbt
      omega
    · omega

/-! ### Lottery: the winning number always selects a ready job -/

/-- C15 (amended): for every registry (whose arrivals, being C integers, are at
most `INT_MAX`) and every time `t`: when some job has `end_time < 0` and an
arrival after `t`, `next_arrival_after(t)` is the least arrival of such a job;
and it is `INT_MAX` exactly when no such job has an arrival below `INT_MAX`.
The function returns a time only, so it changes no job. -/
theorem C15_next_arrival_after_min (js : List Job) (t : Int)
    (hint : ∀ j ∈ js, j.arrival ≤ INT_MAX) :
    ((∃ j ∈ js, j.end_time < 0 ∧ t < j.arrival) →
      (∃ j ∈ js, j.end_time < 0 ∧ t < j.arrival ∧ j.arrival = next_arrival_after js t) ∧
      ∀ j ∈ js, j.end_time < 0 → t < j.arrival → next_arrival_after js t ≤ j.arrival) ∧
    (next_arrival_after js t = INT_MAX ↔
      ¬ ∃ j ∈ js, j.end_time < 0 ∧ t < j.arrival ∧ j.arrival < INT_MAX) := by
  unfold next_arrival_after
  obtain ⟨h1, h2, h3⟩ := next_arrival_scan_spec t js INT_MAX
  constructor
  · rintro ⟨j, hj, hje, hja⟩
    refine ⟨?_, h3⟩
    rcases h2 with h2 | h2
    · have := h3 j hj hje hja
      have := hint j hj
      exact ⟨j, hj, hje, hja, by omega⟩
    · exact h2
  · constructor
    · rintro heq ⟨j, hj, hje, hja, hlt⟩
      have := h3 j hj hje hja
      omega
    · intro hno
      rcases h2 with h2 | ⟨x, hx, hxe, hxa, hxeq⟩
      · exact h2
      · have := hint x hx
        by_contra hne
        exact hno ⟨x, hx, hxe, hxa, by omega⟩

/-- C15 (amended) on the registry of the trace `0,5 / 1,3` at time 0. -/
theorem C15_witness :
    (∀ j ∈ load [(0, 5), (1, 3)], j.arrival ≤ INT_MAX) ∧
    (next_arrival_after (load [(0, 5), (1, 3)]) 0 = INT_MAX ↔
      ¬ ∃ j ∈ load [(0, 5), (1, 3)], j.end_time < 0 ∧ 0 < j.arrival ∧ j.arrival < INT_MAX) :=
  ⟨by decide, (C15_next_arrival_after_min (load [(0, 5), (1, 3)]) 0 (by decide)).2⟩

/-- C15 as stated fails: on the registry of the trace `2147483647,1` at time 0 a
job with `end_time < 0` and an arrival after 0 exists, and `next_arrival_after`
returns `INT_MAX`, the value for "no such job". -/
theorem C15_counterexample :
    next_arrival_after (load [(2147483647, 1)]) 0 = INT_MAX ∧
    ∃ j ∈ load [(2147483647, 1)], j.end_time < 0 ∧ 0 < j.arrival := by
  decide

/-! ### The shape of one iteration of SJF, STCF, RR and LT -/

theorem SJF_trans (js0 : List Job) (s s1 : SJFState) (hI : SJFInv js0 s)
    (hb : SJF_body_exact s = some s1) : Trans s.jobs s.t s.out s1.jobs s1.t s1.out := by
  unfold SJF_body_exact at hb
  cases hp : pick_sjf s.jobs s.t with
  | none =>
    rw [hp] at hb
    injection hb with hb
    subst hb
    exact Or.inl ⟨(pick_sjf_none s.jobs s.t).1 hp, rfl, rfl, rfl⟩
  | some p =>
    obtain ⟨j, hj, hje, hja, _⟩ := pick_sjf_some s.jobs s.t p hp
    have hrem : 0 < j.remaining := (hI.wf.jobs p j hj).fin_iff.1 hje
    rw [hp] at hb
    simp only [hj] at hb
    have hsr : (stamp_start j s.t).remaining = j.remaining := (stamp_start_static j s.t).2.2.2.2.1
    rw [run_job_all, hsr, print_seg_static _ _ j _ (stamp_start_static_eq j s.t)] at hb
    injection hb with hb
    subst hb
    exact Or.inr ⟨p, j, j.remaining, hj, hje, hja, hrem, le_refl _, rfl, rfl, Or.inl rfl⟩

theorem is_ready_none {js : List Job} {t : Int} {out : List Seg} (hwf : WF js t out)
    (h : ∀ i, ¬ is_ready js t i) : ∀ x ∈ js, ¬ (x.end_time < 0 ∧ x.arrival ≤ t) := by
  intro x hx ⟨he, ha⟩
  obtain ⟨i, hi⟩ := List.getElem?_of_mem hx
  exact h i ⟨x, hi, he, ha, (hwf.jobs i x hi).fin_iff.1 he⟩

theorem RR_trans (js0 : List Job) (slice : Int) (hs : 0 < slice) (s s1 : RRState)
    (hI : RRInv js0 s) (hc : RR_cond s = true) (hb : RR_body_exact slice s = some s1) :
    Trans s.jobs s.t s.out s1.jobs s1.t s1.out := by
  obtain ⟨x, hx, _⟩ := not_all_done_mem hc
  have hst := RR_from_start s (List.length_pos_of_mem hx) hI.curr_lt
  have hspec := find_next_ready_from_spec s.jobs (RR_from s) s.t (by
    intro c hcc
    have : scan_start (RR_from s) = c := by rw [hcc]; rfl
    omega)
  rw [RR_body_eq] at hb
  cases hf : find_next_ready_from s.jobs (RR_from s) s.t with
  | none =>
    rw [hf] at hb hspec
    injection hb with hb
    subst hb
    exact Or.inl ⟨is_ready_none hI.wf hspec, rfl, rfl, rfl⟩
  | some q =>
    rw [hf] at hb hspec
    obtain ⟨⟨qj, hq, hqe, hqa, hqr⟩, _⟩ := hspec
    simp only [hq] at hb
    rw [print_seg_static _ _ qj _ (stamp_start_static_eq qj s.t)] at hb
    injection hb with hb
    subst hb
    obtain ⟨hr1, hr2, _⟩ := cmin_bounds slice qj.remaining hs hqr
    exact Or.inr ⟨q, qj, _, hq, hqe, hqa, hr1, hr2, rfl, rfl, Or.inl rfl⟩

theorem LT_trans (js0 : List Job) (rand : Nat → Nat) (slice : Int) (hs : 0 < slice)
    (s s1 : LTState) (hI : LTInv js0 s) (hb : LT_body_exact rand slice s = some s1) :
    Trans s.jobs s.t s.out s1.jobs s1.t s1.out := by
  have hpos : TicketsPos s.t s.jobs := fun y hy _ _ _ => hI.tickets y hy
  rw [LT_body_eq] at hb
  by_cases htot : total_ready_tickets_exact s.jobs s.t = 0
  · simp only [htot, if_true] at hb
    injection hb with hb
    subst hb
    refine Or.inl ⟨?_, rfl, rfl, rfl⟩
    intro y hy ⟨h1, h2⟩
    obtain ⟨i, hi⟩ := List.getElem?_of_mem hy
    rw [total_ready_tickets_eq] at htot
    exact (ready_sum_pos_iff s.t s.jobs hpos).not.1 (by simpa using htot)
      ⟨y, hy, h1, h2, (hI.wf.jobs i y hi).fin_iff.1 h1⟩
  · simp only [htot, if_false] at hb
    have htpos : 0 < total_ready_tickets_exact s.jobs s.t := by
      have := ready_sum_nonneg s.t s.jobs hpos
      rw [← total_ready_tickets_eq] at this
      omega
    have hw0 : 0 ≤ Int.tmod (rand s.draws) (total_ready_tickets_exact s.jobs s.t) :=
      Int.tmod_nonneg _ (Int.ofNat_nonneg _)
    have hw1 := Int.tmod_lt_of_pos (rand s.draws : Int) htpos
    obtain ⟨p, hp, j, hj, hje, hja, hjr⟩ := pick_lottery_some s.jobs s.t _ hw0 hw1
    simp only [hp, hj] at hb
    rw [print_seg_static _ _ j _ (stamp_start_static_eq j s.t)] at hb
    injection hb with hb
    subst hb
    obtain ⟨hr1, hr2, _⟩ := cmin_bounds slice j.remaining hs hjr
    exact Or.inr ⟨p, j, _, hj, hje, hja, hr1, hr2, rfl, rfl, Or.inl rfl⟩

theorem STCF_trans (js0 : List Job) (s s1 : STCFState) (hI : STCFInv js0 s)
    (hb : STCF_body_exact s = some s1) :
    Trans s.jobs s.t (ext_out s) s1.jobs s1.t (ext_out s1) := by
  rcases STCF_cases js0 s s1 hI hb with ⟨hp, hcn, rfl⟩ |
    ⟨n, nj, ss, base, hp, hj, he, ha, hr, rfl, hcase⟩
  · refine Or.inl ⟨(pick_sjf_none s.jobs s.t).1 hp, rfl, rfl, ?_⟩
    unfold ext_out
    simp only [hcn]
  · refine Or.inr ⟨n, nj, 1, hj, he, ha, by omega, by omega, rfl, rfl, ?_⟩
    rw [ext_out_after s n nj ss base hj]
    rcases hcase with ⟨hcn, rfl, rfl⟩ | ⟨_, rfl, rfl⟩
    · right
      refine ⟨s.out, print_seg s.seg_start nj (s.t - s.seg_start), ?_, rfl, ?_, rfl, ?_⟩
      · unfold ext_out; simp only [hcn, hj]
      · simp only [print_seg]; omega
      · have hseg : ({ print_seg s.seg_start nj (s.t - s.seg_start) with
            ran := (print_seg s.seg_start nj (s.t - s.seg_start)).ran + 1 } : Seg)
            = print_seg s.seg_start nj (s.t + 1 - s.seg_start) := by
          simp only [print_seg]
          congr 1
          omega
        rw [hseg]
    · left
      have : s.t + 1 - s.t = 1 := by omega
      rw [this]

/-- An invariant that every `Trans` step keeps holds at every head of a loop
whose iterations are `Trans` steps. -/
theorem Reach.trans_inv {σ : Type} {cond : σ → Bool} {body : σ → Option σ}
    (jobs : σ → List Job) (clock : σ → Int) (outp : σ → List Seg) (Inv : σ → Prop)
    (P : List Job → Int → List Seg → Prop)
    (hP : ∀ js t out js1 t1 out1, WF js t out → P js t out → Trans js t out js1 t1 out1 →
      P js1 t1 out1)
    (hwf : ∀ a, Inv a → WF (jobs a) (clock a) (outp a))
    (hstep : ∀ a b, Inv a → cond a = true → body a = some b →
      Inv b ∧ Trans (jobs a) (clock a) (outp a) (jobs b) (clock b) (outp b))
    {s0 s : σ} (hI : Inv s0) (h0 : P (jobs s0) (clock s0) (outp s0))
    (h : Reach cond body s0 s) : Inv s ∧ P (jobs s) (clock s) (outp s) := by
  induction h with
  | start => exact ⟨hI, h0⟩
  | @step x y _ hc hb ih =>
    obtain ⟨h1, h2⟩ := hstep x y ih.1 hc hb
    exact ⟨h1, hP _ _ _ _ _ _ (hwf x ih.1) ih.2 h2⟩

theorem SJF_stepT (js0 : List Job) (a b : SJFState) (hI : SJFInv js0 a)
    (hc : SJF_cond a = true) (hb : SJF_body_exact a = some b) :
    SJFInv js0 b ∧ Trans a.jobs a.t a.out b.jobs b.t b.out :=
  ⟨(SJF_stepI js0 a b hI hc hb).1, SJF_trans js0 a b hI hb⟩

theorem STCF_stepT (js0 : List Job) (a b : STCFState) (hI : STCFInv js0 a)
    (hc : STCF_cond a = true) (hb : STCF_body_exact a = some b) :
    STCFInv js0 b ∧ Trans a.jobs a.t (ext_out a) b.jobs b.t (ext_out b) :=
  ⟨(STCF_stepI js0 a b hI hc hb).1, STCF_trans js0 a b hI hb⟩

theorem RR_stepT (js0 : List Job) (slice : Int) (hs : 0 < slice) (a b : RRState)
    (hI : RRInv js0 a) (hc : RR_cond a = true) (hb : RR_body_exact slice a = some b) :
    RRInv js0 b ∧ Trans a.jobs a.t a.out b.jobs b.t b.out :=
  ⟨(RR_stepI js0 slice hs a b hI hc hb).1, RR_trans js0 slice hs a b hI hc hb⟩

theorem LT_stepT (js0 : List Job) (rand : Nat → Nat) (slice : Int) (hs : 0 < slice)
    (a b : LTState) (hI : LTInv js0 a) (hc : LT_cond a = true)
    (hb : LT_body_exact rand slice a = some b) :
    LTInv js0 b ∧ Trans a.jobs a.t a.out b.jobs b.t b.out :=
  ⟨(LT_stepI js0 rand slice hs a b hI hc hb).1, LT_trans js0 rand slice hs a b hI hb⟩

/-- The invariant holds at every head of each loop. -/
theorem SJF_reach_inv (tr : List (Int × Int)) (hv : ∀ p ∈ tr, 0 ≤ p.1 ∧ 0 < p.2) (s : SJFState)
    (h : Reach SJF_cond SJF_body_exact (SJF_init (load tr)) s) : SJFInv (load tr) s :=
  h.inv (SJFInv (load tr)) (SJF_init_inv tr hv)
    (fun a b hI hc hb => (SJF_stepI (load tr) a b hI hc hb).1)

theorem STCF_reach_inv (tr : List (Int × Int)) (hv : ∀ p ∈ tr, 0 ≤ p.1 ∧ 0 < p.2)
    (s : STCFState) (h : Reach STCF_cond STCF_body_exact (STCF_init (load tr)) s) :
    STCFInv (load tr) s :=
  h.inv (STCFInv (load tr)) (STCF_init_inv tr hv)
    (fun a b hI hc hb => (STCF_stepI (load tr) a b hI hc hb).1)

theorem RR_reach_inv (tr : List (Int × Int)) (hv : ∀ p ∈ tr, 0 ≤ p.1 ∧ 0 < p.2)
    (slice : Int) (hs : 0 < slice) (s : RRState)
    (h : Reach RR_cond (RR_body_exact slice) (RR_init (load tr)) s) : RRInv (load tr) s :=
  h.inv (RRInv (load tr)) (RR_init_inv tr hv)
    (fun a b hI hc hb => (RR_stepI (load tr) slice hs a b hI hc hb).1)

theorem LT_reach_inv (tr : List (Int × Int)) (hv : ∀ p ∈ tr, 0 ≤ p.1 ∧ 0 < p.2)
    (rand : Nat → Nat) (slice : Int) (hs : 0 < slice) (s : LTState)
    (h : Reach LT_cond (LT_body_exact rand slice) (LT_init (load tr)) s) : LTInv (load tr) s :=
  h.inv (LTInv (load tr)) (LT_init_inv tr hv)
    (fun a b hI hc hb => (LT_stepI (load tr) rand slice hs a b hI hc hb).1)

theorem FIFO_reach_inv (tr : List (Int × Int)) (hv : ∀ p ∈ tr, 0 ≤ p.1 ∧ 0 < p.2)
    (s : FIFOState) (h : Reach FIFO_cond FIFO_body_exact (FIFO_init (load tr)) s) :
    FIFOInv (load tr) s :=
  h.inv (FIFOInv (load tr)) (FIFOInv_init tr hv)
    (fun a b hI hc hb => (FIFOInv_step (load tr) (Fresh_load tr) a b hI hc hb).1)

/-! ### The invariant on `remaining` and `end_time` -/

theorem WF.head_inv {js : List Job} {t : Int} {out : List Seg} (h : WF js t out) :
    HeadInv js := by
  intro j hj
  obtain ⟨i, hi⟩ := List.getElem?_of_mem hj
  have hok := h.jobs i j hi
  refine ⟨⟨hok.rem_nonneg, hok.rem_le, hok.fin_iff⟩, ?_⟩
  intro t1
  have := hok.fin_iff
  constructor
  · intro h1
    refine ⟨by omega, by omega, ?_⟩
    exact this.1 (by omega)
  · intro h1
    omega

/-- In exact arithmetic: on every valid trace, for every slice above 0 and every sequence of
draws, at the head of every iteration of the loop of each of the five policies
every job has `0 <= remaining <= length` and `end_time < 0` exactly when
`remaining > 0`; so the readiness test of `pick_sjf` and `pick_stcf` and the one
of `find_next_ready_from`, `total_ready_tickets_exact` and `pick_lottery_exact` select the
same jobs. -/
theorem remaining_invariant_exact (tr : List (Int × Int)) (hv : valid_trace tr)
    (slice : Int) (hs : 0 < slice) (rand : Nat → Nat) :
    (∀ s, Reach FIFO_cond FIFO_body_exact (FIFO_init (load tr)) s → HeadInv s.jobs) ∧
    (∀ s, Reach SJF_cond SJF_body_exact (SJF_init (load tr)) s → HeadInv s.jobs) ∧
    (∀ s, Reach STCF_cond STCF_body_exact (STCF_init (load tr)) s → HeadInv s.jobs) ∧
    (∀ s, Reach RR_cond (RR_body_exact slice) (RR_init (load tr)) s → HeadInv s.jobs) ∧
    (∀ s, Reach LT_cond (LT_body_exact rand slice) (LT_init (load tr)) s → HeadInv s.jobs) :=
  ⟨fun s h => (FIFO_reach_inv tr hv.2 s h).wf.head_inv,
   fun s h => (SJF_reach_inv tr hv.2 s h).wf.head_inv,
   fun s h => (STCF_reach_inv tr hv.2 s h).wf.head_inv,
   fun s h => (RR_reach_inv tr hv.2 slice hs s h).wf.head_inv,
   fun s h => (LT_reach_inv tr hv.2 rand slice hs s h).wf.head_inv⟩

/-! ### The one-tick fallback of the idle jump -/

/-- When some job is unfinished, none is ready and every arrival is below
`INT_MAX`, the idle jump lands on the arrival of an unfinished job. -/
theorem WF.no_fallback {js : List Job} {t : Int} {out : List Seg} (hwf : WF js t out)
    (hb : Bounded js) (x : Job) (hx : x ∈ js) (hxe : x.end_time < 0)
    (hnone : ∀ y ∈ js, ¬ (y.end_time < 0 ∧ y.arrival ≤ t)) :
    next_arrival_after js t ≠ INT_MAX ∧ idle_jump_exact js t = next_arrival_after js t ∧
      ∃ y ∈ js, y.end_time < 0 ∧ y.arrival = next_arrival_after js t ∧ 0 < y.remaining := by
  have hxa : t < x.arrival := by
    have := hnone x hx
    omega
  obtain ⟨hne, y, hy, hye, _, hyeq⟩ :=
    idle_jump_arrival js t x hx hxe hxa (hb _ (List.mem_map.2 ⟨x, hx, rfl⟩))
  have hij : idle_jump_exact js t = next_arrival_after js t := by
    unfold idle_jump_exact
    simp only [hne, if_false]
  obtain ⟨i, hi⟩ := List.getElem?_of_mem hy
  exact ⟨hne, hij, y, hy, hye, by rw [← hij, hyeq], (hwf.jobs i y hi).fin_iff.1 hye⟩

theorem Trans.idle_clock {js : List Job} {t : Int} {out : List Seg} {js1 : List Job} {t1 : Int}
    {out1 : List Seg} (h : Trans js t out js1 t1 out1)
    (hnone : ∀ y ∈ js, ¬ (y.end_time < 0 ∧ y.arrival ≤ t)) :
    js1 = js ∧ t1 = idle_jump_exact js t := by
  rcases h with ⟨_, h1, h2, _⟩ | ⟨p, j, ran, hj, he, ha, _⟩
  · exact ⟨h1, h2⟩
  · exact absurd ⟨he, ha⟩ (hnone j (List.mem_iff_getElem?.2 ⟨p, hj⟩))

theorem NoFallback_of_trans {js : List Job} {t : Int} {out : List Seg} {js1 : List Job}
    {t1 : Int} {out1 : List Seg} (hwf : WF js t out) (hb : Bounded js) (x : Job) (hx : x ∈ js)
    (hxe : x.end_time < 0) (h : Trans js t out js1 t1 out1) : NoFallback js t js1 t1 := by
  intro hnone
  obtain ⟨h1, h2⟩ := h.idle_clock hnone
  obtain ⟨h3, h4, y, hy, h5⟩ := hwf.no_fallback hb x hx hxe hnone
  subst h1
  rw [h2, h4]
  exact ⟨h3, rfl, y, hy, h5⟩

/-- In exact arithmetic: on every valid trace whose arrivals are below `INT_MAX`, for every
slice above 0 and every sequence of draws, in `policy_SJF_exact`, `policy_STCF_exact`,
`policy_RR_exact` and `policy_LT_exact`: at the head of an iteration that the loop enters
(not all jobs are done) with no job ready at the clock, `next_arrival_after`
does not return `INT_MAX`, the iteration sets the clock to the value it returns
and not to `t + 1`, and some job is ready at the new clock. -/
theorem fallback_unreachable_exact (tr : List (Int × Int)) (hv : valid_trace tr)
    (hb : ∀ p ∈ tr, p.1 < INT_MAX) (slice : Int) (hs : 0 < slice) (rand : Nat → Nat) :
    (∀ s s1, Reach SJF_cond SJF_body_exact (SJF_init (load tr)) s → SJF_cond s = true →
      SJF_body_exact s = some s1 → NoFallback s.jobs s.t s1.jobs s1.t) ∧
    (∀ s s1, Reach STCF_cond STCF_body_exact (STCF_init (load tr)) s → STCF_cond s = true →
      STCF_body_exact s = some s1 → NoFallback s.jobs s.t s1.jobs s1.t) ∧
    (∀ s s1, Reach RR_cond (RR_body_exact slice) (RR_init (load tr)) s → RR_cond s = true →
      RR_body_exact slice s = some s1 → NoFallback s.jobs s.t s1.jobs s1.t) ∧
    (∀ s s1, Reach LT_cond (LT_body_exact rand slice) (LT_init (load tr)) s → LT_cond s = true →
      LT_body_exact rand slice s = some s1 → NoFallback s.jobs s.t s1.jobs s1.t) := by
  refine ⟨?_, ?_, ?_, ?_⟩
  · intro s s1 hr hc hbody
    have hI := SJF_reach_inv tr hv.2 s hr
    obtain ⟨x, hx, hxe⟩ := unfinished_pos s.jobs (by
      have := hI.count
      have : 0 < s.remaining := by simpa [SJF_cond] using hc
      omega)
    exact NoFallback_of_trans hI.wf (Bounded_static _ _ hI.static (Bounded_load tr hb)) x hx hxe
      (SJF_trans (load tr) s s1 hI hbody)
  · intro s s1 hr hc hbody
    have hI := STCF_reach_inv tr hv.2 s hr
    obtain ⟨x, hx, hxe⟩ := not_all_done_mem hc
    exact NoFallback_of_trans hI.wf (Bounded_static _ _ hI.static (Bounded_load tr hb)) x hx hxe
      (STCF_trans (load tr) s s1 hI hbody)
  · intro s s1 hr hc hbody
    have hI := RR_reach_inv tr hv.2 slice hs s hr
    obtain ⟨x, hx, hxe⟩ := not_all_done_mem hc
    exact NoFallback_of_trans hI.wf (Bounded_static _ _ hI.static (Bounded_load tr hb)) x hx hxe
      (RR_trans (load tr) slice hs s s1 hI hc hbody)
  · intro s s1 hr hc hbody
    have hI := LT_reach_inv tr hv.2 rand slice hs s hr
    obtain ⟨x, hx, hxe⟩ := not_all_done_mem hc
    exact NoFallback_of_trans hI.wf (Bounded_static _ _ hI.static (Bounded_load tr hb)) x hx hxe
      (LT_trans (load tr) rand slice hs s s1 hI hbody)

/-! ### One processor: the printed segments do not overlap -/

theorem SeqInv_append (js js1 : List Job) (t t1 : Int) (out : List Seg) (g : Seg)
    (h : SeqInv js t out) (h1 : t ≤ g.tstart) (h2 : 0 < g.ran) (h3 : g.tstart + g.ran ≤ t1) :
    SeqInv js1 t1 (out ++ [g]) := by
  obtain ⟨hp, hall⟩ := h
  constructor
  · unfold Sequential at hp ⊢
    rw [List.pairwise_append]
    refine ⟨hp, List.pairwise_singleton _ _, ?_⟩
    intro a ha b hb
    simp at hb
    subst hb
    have := hall a ha
    constructor <;> omega
  · intro x hx
    rcases List.mem_append.1 hx with hx | hx
    · have := hall x hx
      constructor <;> omega
    · simp at hx
      subst hx
      exact ⟨h2, h3⟩

theorem SeqInv_extend (js js1 : List Job) (t : Int) (o : List Seg) (g : Seg)
    (h : SeqInv js t (o ++ [g])) (hg : g.tstart + g.ran = t) :
    SeqInv js1 (t + 1) (o ++ [{ g with ran := g.ran + 1 }]) := by
  obtain ⟨hp, hall⟩ := h
  unfold Sequential at hp
  rw [List.pairwise_append] at hp
  obtain ⟨hpo, _, hcross⟩ := hp
  have hgr := (hall g (by simp)).1
  constructor
  · unfold Sequential
    rw [List.pairwise_append]
    refine ⟨hpo, List.pairwise_singleton _ _, ?_⟩
    intro a ha b hb
    simp at hb
    subst hb
    exact hcross a ha g (by simp)
  · intro x hx
    rcases List.mem_append.1 hx with hx | hx
    · have := hall x (List.mem_append_left _ hx)
      constructor <;> omega
    · simp at hx
      subst hx
      simp only
      constructor <;> omega

theorem SeqInv_trans (js : List Job) (t : Int) (out : List Seg) (js1 : List Job) (t1 : Int)
    (out1 : List Seg) (h : SeqInv js t out) (ht : Trans js t out js1 t1 out1) :
    SeqInv js1 t1 out1 := by
  rcases ht with ⟨_, _, rfl, rfl⟩ | ⟨p, j, ran, _, _, _, hr, _, _, rfl, hout⟩
  · have := idle_jump_gt js t
    refine ⟨h.1, ?_⟩
    intro g hg
    have := h.2 g hg
    constructor <;> omega
  · rcases hout with rfl | ⟨o, g, rfl, _, hgt, rfl, rfl⟩
    · exact SeqInv_append js js1 t _ out _ h (le_refl _) hr (le_refl _)
    · exact SeqInv_extend js js1 t o g h hgt

theorem Cov_trans (js : List Job) (t : Int) (out : List Seg) (js1 : List Job) (t1 : Int)
    (out1 : List Seg) (hwf : WF js t out) (hs : SeqInv js t out) (h : Cov js t out)
    (ht : Trans js t out js1 t1 out1) : Cov js1 t1 out1 := by
  rcases ht with ⟨hnone, rfl, rfl, rfl⟩ | ⟨p, j, ran, hj, hje, hja, hr, _, rfl, rfl, hout⟩
  · intro u hu0 hu1
    by_cases hut : u < t
    · exact h u hu0 hut
    · right
      intro x hx ⟨hxa, hxu⟩
      obtain ⟨i, hi⟩ := List.getElem?_of_mem hx
      have hok := hwf.jobs i x hi
      by_cases hxe : x.end_time < 0
      · have h1 := hnone x hx
        have h2 := idle_jump_le js1 t x hx hxe (by omega)
        omega
      · have := (hok.span_done (by omega)).2
        omega
  · have hold : ∀ u : Int, (∀ x ∈ js, ¬ (x.arrival ≤ u ∧ (x.end_time < 0 ∨ u < x.end_time))) →
        ∀ x ∈ js.set p (run_job j t ran),
          ¬ (x.arrival ≤ u ∧ (x.end_time < 0 ∨ u < x.end_time)) := by
      intro u hall x hx
      rcases List.mem_or_eq_of_mem_set hx with hx | hx
      · exact hall x hx
      · subst hx
        rw [(run_job_static j t ran).2.1]
        have := hall j (List.mem_iff_getElem?.2 ⟨p, hj⟩)
        omega
    rcases hout with rfl | ⟨o, g, rfl, _, hgt, rfl, rfl⟩
    · intro u hu0 hu1
      by_cases hut : u < t
      · rcases h u hu0 hut with ⟨g, hg, hg1⟩ | hall
        · exact Or.inl ⟨g, List.mem_append_left _ hg, hg1⟩
        · exact Or.inr (hold u hall)
      · left
        refine ⟨print_seg t j ran, by simp, ?_⟩
        simp only [print_seg]
        omega
    · have hgr := (hs.2 g (by simp)).1
      intro u hu0 hu1
      by_cases hut : u < t
      · rcases h u hu0 hut with ⟨x, hx, hx1⟩ | hall
        · rcases List.mem_append.1 hx with hx | hx
          · exact Or.inl ⟨x, List.mem_append_left _ hx, hx1⟩
          · simp at hx
            subst hx
            refine Or.inl ⟨_, List.mem_append_right _ (List.mem_singleton_self _), ?_⟩
            simp only
            omega
        · exact Or.inr (hold u hall)
      · left
        refine ⟨_, List.mem_append_right _ (List.mem_singleton_self _), ?_⟩
        simp only
        omega

theorem SeqCov_trans (js : List Job) (t : Int) (out : List Seg) (js1 : List Job) (t1 : Int)
    (out1 : List Seg) (hwf : WF js t out) (h : SeqCov js t out)
    (ht : Trans js t out js1 t1 out1) : SeqCov js1 t1 out1 :=
  ⟨SeqInv_trans js t out js1 t1 out1 h.1 ht, Cov_trans js t out js1 t1 out1 hwf h.1 h.2 ht⟩

theorem SeqCov_init (js : List Job) : SeqCov js 0 [] := by
  refine ⟨⟨List.Pairwise.nil, by simp⟩, ?_⟩
  intro u hu0 hu1
  omega

theorem WF.work_conserving {js : List Job} {t : Int} {out : List Seg} (hwf : WF js t out)
    (hdone : all_done js = true) (h : Cov js t out) : IdleBelowEnd js out := by
  intro u hu0 hnot j hj ⟨hja, hju⟩
  obtain ⟨i, hi⟩ := List.getElem?_of_mem hj
  obtain ⟨he, _, _⟩ := hwf.finished_job hdone i j hi
  have hle := ((hwf.jobs i j hi).span_done he).2
  rcases h u hu0 (by omega) with ⟨g, hg, hg1⟩ | hall
  · exact hnot g hg hg1
  · exact hall j hj ⟨hja, Or.inr hju⟩

theorem ext_out_final (js0 : List Job) (f : STCFState) (hI : STCFInv js0 f)
    (hd : all_done f.jobs = true) : ext_out f = f.out := by
  unfold ext_out
  cases hcc : f.curr with
  | none => rfl
  | some c =>
    exfalso
    obtain ⟨cj, hcj, h1, _⟩ := hI.curr c hcc
    have := (all_done_iff f.jobs).1 hd cj (List.mem_iff_getElem?.2 ⟨c, hcj⟩)
    omega

/-- One iteration of the FIFO loop prints one segment that starts at or after
the clock, has a positive duration and ends at the new clock. -/
theorem FIFO_out_step (js0 : List Job) (s s1 : FIFOState) (hI : FIFOInv js0 s)
    (hc : FIFO_cond s = true) (hb : FIFO_body_exact s = some s1) :
    ∃ g, s1.out = s.out ++ [g] ∧ s.t ≤ g.tstart ∧ 0 < g.ran ∧ s1.t = g.tstart + g.ran := by
  have hcur := hI.spec.cur
  have hlt : s.out.length < js0.length := by
    by_contra h
    rw [if_neg h] at hcur
    simp [FIFO_cond, hcur] at hc
  rw [if_pos hlt] at hcur
  have hlt2 : s.out.length < s.jobs.length := by rw [hI.spec.len]; exact hlt
  have hj : s.jobs[s.out.length]? = some s.jobs[s.out.length] := List.getElem?_eq_getElem hlt2
  have hje := hI.ahead _ _ (le_refl _) hj
  generalize s.jobs[s.out.length] = j at hj hje
  have hrem : 0 < j.remaining := (hI.wf.jobs _ j hj).fin_iff.1 hje
  unfold FIFO_body_exact at hb
  simp only [hcur, hj] at hb
  injection hb with hb
  subst hb
  have hsr : ∀ t0, (stamp_start j t0).remaining = j.remaining :=
    fun t0 => (stamp_start_static j t0).2.2.2.2.1
  refine ⟨_, rfl, ?_, ?_, ?_⟩
  · simp only [print_seg]; split_ifs <;> omega
  · simp only [print_seg, hsr]; exact hrem
  · simp only [print_seg]

theorem FIFO_seq (tr : List (Int × Int)) (hv : ∀ p ∈ tr, 0 ≤ p.1 ∧ 0 < p.2) (s : FIFOState)
    (h : Reach FIFO_cond FIFO_body_exact (FIFO_init (load tr)) s) :
    FIFOInv (load tr) s ∧ SeqInv s.jobs s.t s.out := by
  induction h with
  | start => exact ⟨FIFOInv_init tr hv, (SeqCov_init _).1⟩
  | @step x y _ hc hb ih =>
    obtain ⟨g, h1, h2, h3, h4⟩ := FIFO_out_step (load tr) x y ih.1 hc hb
    refine ⟨(FIFOInv_step (load tr) (Fresh_load tr) x y ih.1 hc hb).1, ?_⟩
    rw [h1]
    exact SeqInv_append x.jobs y.jobs x.t y.t x.out g ih.2 h2 h3 (by omega)

/-- In exact arithmetic: on every valid trace, for every slice above 0 and every sequence of
draws, each policy finishes and the segments it has printed are in order of
start time, each starting at or after the end of every segment printed before
it, so no two of them overlap. -/
theorem no_overlap_exact (tr : List (Int × Int)) (hv : valid_trace tr)
    (slice : Int) (hs : 0 < slice) (rand : Nat → Nat) :
    (∃ k f, (∀ fuel, k ≤ fuel → policy_FIFO_exact fuel (load tr) = Run.finished k f) ∧
      Sequential f.out) ∧
    (∃ k f, (∀ fuel, k ≤ fuel → policy_SJF_exact fuel (load tr) = Run.finished k f) ∧
      Sequential f.out) ∧
    (∃ k f, (∀ fuel, k ≤ fuel → policy_STCF_exact fuel (load tr) = Run.finished k f) ∧
      Sequential f.out) ∧
    (∃ k f, (∀ fuel, k ≤ fuel → policy_RR_exact slice fuel (load tr) = Run.finished k f) ∧
      Sequential f.out) ∧
    (∃ k f, (∀ fuel, k ≤ fuel → policy_LT_exact rand slice fuel (load tr) = Run.finished k f) ∧
      Sequential f.out) := by
  refine ⟨?_, ?_, ?_, ?_, ?_⟩
  · obtain ⟨k, f, hrun, _, _, _, hr⟩ := FIFO_run_valid tr hv.2
    exact ⟨k, f, hrun, (FIFO_seq tr hv.2 f hr).2.1⟩
  · obtain ⟨k, f, hrun, _, _, hr, _⟩ := SJF_run tr hv.2
    exact ⟨k, f, hrun, (Reach.trans_inv (fun s => s.jobs) (fun s => s.t) (fun s => s.out)
      (SJFInv (load tr)) SeqCov SeqCov_trans (fun _ h => h.wf) (SJF_stepT (load tr))
      (SJF_init_inv tr hv.2) (SeqCov_init _) hr).2.1.1⟩
  · obtain ⟨k, f, hrun, hI, hd, _, hr, _⟩ := STCF_run tr hv.2
    have := (Reach.trans_inv (fun s => s.jobs) (fun s => s.t) ext_out
      (STCFInv (load tr)) SeqCov SeqCov_trans (fun _ h => h.wf) (STCF_stepT (load tr))
      (STCF_init_inv tr hv.2) (SeqCov_init _) hr).2.1.1
    rw [ext_out_final (load tr) f hI hd] at this
    exact ⟨k, f, hrun, this⟩
  · obtain ⟨k, f, hrun, _, _, hr, _⟩ := RR_run tr hv.2 slice hs
    exact ⟨k, f, hrun, (Reach.trans_inv (fun s => s.jobs) (fun s => s.t) (fun s => s.out)
      (RRInv (load tr)) SeqCov SeqCov_trans (fun _ h => h.wf) (RR_stepT (load tr) slice hs)
      (RR_init_inv tr hv.2) (SeqCov_init _) hr).2.1.1⟩
  · obtain ⟨k, f, hrun, _, _, hr, _⟩ := LT_run tr hv.2 rand slice hs
    exact ⟨k, f, hrun, (Reach.trans_inv (fun s => s.jobs) (fun s => s.t) (fun s => s.out)
      (LTInv (load tr)) SeqCov SeqCov_trans (fun _ h => h.wf)
      (LT_stepT (load tr) rand slice hs)
      (LT_init_inv tr hv.2) (SeqCov_init _) hr).2.1.1⟩

/-- In exact arithmetic: on every valid trace, for every slice above 0 and every sequence of
draws, `policy_SJF_exact`, `policy_STCF_exact`, `policy_RR_exact` and `policy_LT_exact` finish and are
work conserving: at every instant from 0 on that no printed segment covers, no
job has arrived and is still unfinished (has a later `end_time`). -/
theorem work_conservation_exact (tr : List (Int × Int)) (hv : valid_trace tr)
    (slice : Int) (hs : 0 < slice) (rand : Nat → Nat) :
    (∃ k f, (∀ fuel, k ≤ fuel → policy_SJF_exact fuel (load tr) = Run.finished k f) ∧
      IdleBelowEnd f.jobs f.out) ∧
    (∃ k f, (∀ fuel, k ≤ fuel → policy_STCF_exact fuel (load tr) = Run.finished k f) ∧
      IdleBelowEnd f.jobs f.out) ∧
    (∃ k f, (∀ fuel, k ≤ fuel → policy_RR_exact slice fuel (load tr) = Run.finished k f) ∧
      IdleBelowEnd f.jobs f.out) ∧
    (∃ k f, (∀ fuel, k ≤ fuel → policy_LT_exact rand slice fuel (load tr) = Run.finished k f) ∧
      IdleBelowEnd f.jobs f.out) := by
  refine ⟨?_, ?_, ?_, ?_⟩
  · obtain ⟨k, f, hrun, hI, hrem, hr, _⟩ := SJF_run tr hv.2
    exact ⟨k, f, hrun, hI.wf.work_conserving (SJF_all_done _ f hI hrem)
      (Reach.trans_inv (fun s => s.jobs) (fun s => s.t) (fun s => s.out)
      (SJFInv (load tr)) SeqCov SeqCov_trans (fun _ h => h.wf) (SJF_stepT (load tr))
      (SJF_init_inv tr hv.2) (SeqCov_init _) hr).2.2⟩
  · obtain ⟨k, f, hrun, hI, hd, hwf, hr, _⟩ := STCF_run tr hv.2
    have := (Reach.trans_inv (fun s => s.jobs) (fun s => s.t) ext_out
      (STCFInv (load tr)) SeqCov SeqCov_trans (fun _ h => h.wf) (STCF_stepT (load tr))
      (STCF_init_inv tr hv.2) (SeqCov_init _) hr).2.2
    rw [ext_out_final (load tr) f hI hd] at this
    exact ⟨k, f, hrun, hwf.work_conserving hd this⟩
  · obtain ⟨k, f, hrun, hI, hd, hr, _⟩ := RR_run tr hv.2 slice hs
    exact ⟨k, f, hrun, hI.wf.work_conserving hd
      (Reach.trans_inv (fun s => s.jobs) (fun s => s.t) (fun s => s.out)
      (RRInv (load tr)) SeqCov SeqCov_trans (fun _ h => h.wf) (RR_stepT (load tr) slice hs)
      (RR_init_inv tr hv.2) (SeqCov_init _) hr).2.2⟩
  · obtain ⟨k, f, hrun, hI, hd, hr, _⟩ := LT_run tr hv.2 rand slice hs
    exact ⟨k, f, hrun, hI.wf.work_conserving hd
      (Reach.trans_inv (fun s => s.jobs) (fun s => s.t) (fun s => s.out)
      (LTInv (load tr)) SeqCov SeqCov_trans (fun _ h => h.wf)
      (LT_stepT (load tr) rand slice hs)
      (LT_init_inv tr hv.2) (SeqCov_init _) hr).2.2⟩

/-! ### Round-robin: where the scan starts -/

theorem RR_pointer_eq (s : RRState) (hn : 0 < s.jobs.length) :
    scan_start (RR_from s) = RR_pointer s := by
  unfold RR_from RR_pointer scan_start
  cases hc : s.curr with
  | some c => rfl
  | none =>
    have h0 : head_ptr s.jobs = some 0 := by
      unfold head_ptr
      cases hj : s.jobs with
      | nil => rw [hj] at hn; simp at hn
      | cons a l => rfl
    simp only [h0]

/-- Every iteration of the loop of `policy_RR_exact` follows `RR_rule_exact`. -/
theorem RR_scan_step (js0 : List Job) (slice : Int) (s s1 : RRState)
    (hI : RRInv js0 s) (hc : RR_cond s = true) (hb : RR_body_exact slice s = some s1) :
    RR_rule_exact slice s s1 := by
  obtain ⟨x, hx, _⟩ := not_all_done_mem hc
  have hn : 0 < s.jobs.length := List.length_pos_of_mem hx
  have hst := RR_from_start s hn hI.curr_lt
  have hspec := find_next_ready_from_spec s.jobs (RR_from s) s.t (by
    intro c hcc
    have : scan_start (RR_from s) = c := by rw [hcc]; rfl
    omega)
  rw [RR_pointer_eq s hn] at hspec
  rw [RR_body_eq] at hb
  cases hf : find_next_ready_from s.jobs (RR_from s) s.t with
  | none =>
    rw [hf] at hb hspec
    injection hb with hb
    subst hb
    exact Or.inl ⟨hspec, rfl, rfl, rfl, rfl⟩
  | some q =>
    rw [hf] at hb hspec
    obtain ⟨⟨qj, hq, hqe, hqa, hqr⟩, hmin⟩ := hspec
    simp only [hq] at hb
    rw [print_seg_static _ _ qj _ (stamp_start_static_eq qj s.t)] at hb
    injection hb with hb
    subst hb
    exact Or.inr ⟨q, qj, hq, ⟨⟨qj, hq, hqe, hqa, hqr⟩, hmin⟩, rfl, rfl, rfl, rfl⟩

/-- In exact arithmetic: on every valid trace and for every slice above 0, `policy_RR_exact`
finishes; the pointer `curr` is `NULL` (the scan starts at the head) before the
first iteration and after every iteration that found no ready job, and is the
registry successor (wrapping to the head) of the job just run after every other
iteration; the job run at each step is the first ready job in circular registry
order from that pointer, and it runs for `min(slice, remaining)` units as one
segment. -/
theorem rr_scan_exact (tr : List (Int × Int)) (hv : valid_trace tr)
    (slice : Int) (hs : 0 < slice) :
    (∃ k f, ∀ fuel, k ≤ fuel → policy_RR_exact slice fuel (load tr) = Run.finished k f) ∧
    (RR_init (load tr)).curr = none ∧
    ∀ s s1, Reach RR_cond (RR_body_exact slice) (RR_init (load tr)) s → RR_cond s = true →
      RR_body_exact slice s = some s1 →
      RR_rule_exact slice s s1 := by
  obtain ⟨k, f, hrun, _⟩ := RR_run tr hv.2 slice hs
  refine ⟨⟨k, f, hrun⟩, rfl, ?_⟩
  intro s s1 hr hc hb
  exact RR_scan_step (load tr) slice s s1 (RR_reach_inv tr hv.2 slice hs s hr) hc hb

/-! ### STCF: segments are maximal uninterrupted runs -/

theorem AltIds_snoc (l : List Seg) (a : Seg) :
    AltIds (l ++ [a]) ↔ AltIds l ∧ ∀ g, l.getLast? = some g → g.id ≠ a.id := by
  unfold AltIds
  rw [List.chain'_append]
  simp

theorem Sequential.no_touch {out : List Seg} (hseq : Sequential out)
    (hpos : ∀ g ∈ out, 0 < g.ran) (halt : AltIds out) {a b : Seg} (ha : a ∈ out)
    (hb : b ∈ out) (hid : a.id = b.id) : a.tstart + a.ran ≠ b.tstart := by
  intro htouch
  obtain ⟨i, hi, rfl⟩ := List.getElem_of_mem ha
  obtain ⟨k, hk, rfl⟩ := List.getElem_of_mem hb
  have hp := List.pairwise_iff_getElem.1 hseq
  have hch := List.chain'_iff_get.1 halt
  rcases Nat.lt_trichotomy i k with hlt | heq | hgt
  · by_cases hadj : i + 1 = k
    · subst hadj
      exact hch i (by omega) hid
    · have h1 := hp i (i + 1) hi (by omega) (by omega)
      have h2 := hp (i + 1) k (by omega) hk (by omega)
      have h3 := hpos out[i + 1] (List.getElem_mem _)
      omega
  · subst heq
    have := hpos out[i] (List.getElem_mem _)
    omega
  · have h1 := hp k i hk hi hgt
    have h2 := hpos out[k] (List.getElem_mem _)
    have h3 := hpos out[i] (List.getElem_mem _)
    omega

theorem Sequential.apart {out : List Seg} (hseq : Sequential out) {a b : Seg} (ha : a ∈ out)
    (hb : b ∈ out) :
    a = b ∨ a.tstart + a.ran ≤ b.tstart ∨ b.tstart + b.ran ≤ a.tstart := by
  obtain ⟨i, hi, rfl⟩ := List.getElem_of_mem ha
  obtain ⟨k, hk, rfl⟩ := List.getElem_of_mem hb
  have hp := List.pairwise_iff_getElem.1 hseq
  rcases Nat.lt_trichotomy i k with hlt | heq | hgt
  · exact Or.inr (Or.inl (hp i k hi hk hlt).2)
  · subst heq; exact Or.inl rfl
  · exact Or.inr (Or.inr (hp k i hk hi hgt).2)

/-- In a sequential list of positive segments where consecutive segments are of
different jobs, no segment of the same job covers the instant just before a
segment nor the instant the segment ends at. -/
theorem Sequential.maximal {out : List Seg} (hseq : Sequential out)
    (hpos : ∀ g ∈ out, 0 < g.ran) (halt : AltIds out) {g g1 : Seg} (hg : g ∈ out)
    (hg1 : g1 ∈ out) (hid : g1.id = g.id) :
    ¬ (g1.tstart ≤ g.tstart - 1 ∧ g.tstart - 1 < g1.tstart + g1.ran) ∧
    ¬ (g1.tstart ≤ g.tstart + g.ran ∧ g.tstart + g.ran < g1.tstart + g1.ran) := by
  have hr := hpos g hg
  have hr1 := hpos g1 hg1
  have ht1 := hseq.no_touch hpos halt hg1 hg hid
  have ht2 := hseq.no_touch hpos halt hg hg1 hid.symm
  constructor
  · rintro ⟨h1, h2⟩
    rcases hseq.apart hg1 hg with rfl | h | h <;> omega
  · rintro ⟨h1, h2⟩
    rcases hseq.apart hg1 hg with rfl | h | h <;> omega

theorem ext_out_idle (s : STCFState) (t1 : Int) (hcn : s.curr = none) :
    ext_out { s with t := t1 } = ext_out s := by
  unfold ext_out
  simp only [hcn]

theorem ext_out_open (s : STCFState) (c : Nat) (cj : Job) (hcc : s.curr = some c)
    (hcj : s.jobs[c]? = some cj) :
    ext_out s = s.out ++ [print_seg s.seg_start cj (s.t - s.seg_start)] := by
  unfold ext_out
  simp only [hcc, hcj]

theorem ext_out_closed (s : STCFState) (hcn : s.curr = none) : ext_out s = s.out := by
  unfold ext_out
  rw [hcn]

/-- One iteration of the STCF loop keeps consecutive segments on different
jobs, the open segment included. -/
theorem STCF_alt_step (js0 : List Job) (x y : STCFState) (hI : STCFInv js0 x)
    (hIy : STCFInv js0 y) (hA : AltIds (ext_out x) ∧ LastDone x)
    (hb : STCF_body_exact x = some y) : AltIds (ext_out y) ∧ LastDone y := by
  obtain ⟨hA1, hA2⟩ := hA
  rcases STCF_cases js0 x y hI hb with ⟨_, hcn, rfl⟩ |
    ⟨n, nj, ss, base, _, hj, hje, hja, hrem, rfl, hcase⟩
  · refine ⟨by rw [ext_out_idle x _ hcn]; exact hA1, ?_⟩
    intro _ g hg i j hij hid
    exact hA2 hcn g hg i j hij hid
  · have hnid : nj.id = (n : Int) := hI.wf.ids n nj hj
    constructor
    · rw [ext_out_after x n nj ss base hj, AltIds_snoc]
      rcases hcase with ⟨hcn, rfl, rfl⟩ | ⟨hcn, rfl, rfl⟩
      · rw [ext_out_open x n nj hcn hj, AltIds_snoc] at hA1
        exact ⟨hA1.1, fun g hg => hA1.2 g hg⟩
      · refine ⟨hA1, ?_⟩
        intro g hg hid
        have hid2 : g.id = (n : Int) := by rw [← hnid]; exact hid
        cases hcc : x.curr with
        | none =>
          rw [ext_out_closed x hcc] at hg
          have := hA2 hcc g hg n nj hj (by rw [hid2, hnid])
          omega
        | some c =>
          obtain ⟨cj, hcj, _⟩ := hI.curr c hcc
          rw [ext_out_open x c cj hcc hcj] at hg
          simp at hg
          subst hg
          have hcid : cj.id = (c : Int) := hI.wf.ids c cj hcj
          have : (c : Int) = (n : Int) := by rw [← hcid]; exact hid2
          have hcn2 : c = n := by omega
          rw [hcc, hcn2] at hcn
          exact hcn rfl
    · intro hcur g hg i j hij hid
      have hwy := hIy.wf.ids i j hij
      unfold STCF_after at hcur hg hij
      by_cases h0 : nj.remaining - 1 = 0
      · simp only [h0, if_true] at hg hij
        simp at hg
        subst hg
        have hin : i = n := by
          have : (i : Int) = (n : Int) := by rw [← hwy, hid, ← hnid]; rfl
          omega
        subst hin
        have hlt : i < x.jobs.length := (List.getElem?_eq_some_iff.1 hj).1
        rw [List.getElem?_set_self hlt] at hij
        injection hij with hij
        subst hij
        rw [run_job_end, if_pos h0]
        have := hI.wf.t_nonneg
        omega
      · simp [h0] at hcur

theorem STCF_alt (tr : List (Int × Int)) (hv : ∀ p ∈ tr, 0 ≤ p.1 ∧ 0 < p.2) (s : STCFState)
    (h : Reach STCF_cond STCF_body_exact (STCF_init (load tr)) s) :
    AltIds (ext_out s) := by
  have key : STCFInv (load tr) s ∧ AltIds (ext_out s) ∧ LastDone s :=
    h.inv (fun s => STCFInv (load tr) s ∧ AltIds (ext_out s) ∧ LastDone s)
      ⟨STCF_init_inv tr hv, List.chain'_nil, by intro _ g hg; simp [STCF_init] at hg⟩
      (fun a b hP hc hb =>
        have hIb := (STCF_stepI (load tr) a b hP.1 hc hb).1
        ⟨hIb, STCF_alt_step (load tr) a b hP.1 hIb hP.2 hb⟩)
  exact key.2.1

theorem STCF_seq (tr : List (Int × Int)) (hv : ∀ p ∈ tr, 0 ≤ p.1 ∧ 0 < p.2) (s : STCFState)
    (h : Reach STCF_cond STCF_body_exact (STCF_init (load tr)) s) :
    SeqInv s.jobs s.t (ext_out s) :=
  (Reach.trans_inv (fun s => s.jobs) (fun s => s.t) ext_out
    (STCFInv (load tr)) SeqCov SeqCov_trans (fun _ h => h.wf) (STCF_stepT (load tr))
    (STCF_init_inv tr hv) (SeqCov_init _) h).2.1

/-- Every instant inside a segment, printed or open, is a tick the loop ran the
job of the segment for. -/
theorem STCF_cover (tr : List (Int × Int)) (hv : ∀ p ∈ tr, 0 ≤ p.1 ∧ 0 < p.2) (s : STCFState)
    (h : Reach STCF_cond STCF_body_exact (STCF_init (load tr)) s) :
    ∀ g ∈ ext_out s, ∀ u : Int, g.tstart ≤ u → u < g.tstart + g.ran →
      ∃ n : Nat, (n : Int) = g.id ∧ RunsTick_exact (load tr) u n := by
  induction h with
  | start => intro g hg; simp [ext_out, STCF_init] at hg
  | @step x y hxr hc hb ih =>
    have hI := STCF_reach_inv tr hv x hxr
    rcases STCF_cases (load tr) x y hI hb with ⟨_, hcn, rfl⟩ |
      ⟨n, nj, ss, base, hp, hj, hje, hja, hrem, rfl, hcase⟩
    · rw [ext_out_idle x _ hcn]
      exact ih
    · have hnid : nj.id = (n : Int) := hI.wf.ids n nj hj
      have hrun : RunsTick_exact (load tr) x.t n :=
        ⟨x, _, hxr, hc, hb, rfl, by rw [pick_stcf_eq]; exact hp, nj, hj, rfl, rfl⟩
      rw [ext_out_after x n nj ss base hj]
      intro g hg u hu1 hu2
      rcases hcase with ⟨hcn, rfl, rfl⟩ | ⟨hcn, rfl, rfl⟩
      · rw [ext_out_open x n nj hcn hj] at ih
        rcases List.mem_append.1 hg with hg | hg
        · exact ih g (List.mem_append_left _ hg) u hu1 hu2
        · simp at hg
          subst hg
          simp only [print_seg] at hu1 hu2 ⊢
          by_cases hut : u < x.t
          · exact ih (print_seg x.seg_start nj (x.t - x.seg_start))
              (List.mem_append_right _ (List.mem_singleton_self _)) u hu1
              (by simp only [print_seg]; omega)
          · have : u = x.t := by omega
            subst this
            exact ⟨n, hnid.symm, hrun⟩
      · rcases List.mem_append.1 hg with hg | hg
        · exact ih g hg u hu1 hu2
        · simp at hg
          subst hg
          simp only [print_seg] at hu1 hu2 ⊢
          have : u = x.t := by omega
          subst this
          exact ⟨n, hnid.symm, hrun⟩

/-- A segment, printed or open, keeps its job and its start and does not
shrink while the loop goes on. -/
theorem STCF_ext_grow (js0 : List Job) (a b : STCFState) (hI : STCFInv js0 a)
    (h : Reach STCF_cond STCF_body_exact a b) (g : Seg) (hg : g ∈ ext_out a) :
    ∃ g1 ∈ ext_out b, g1.id = g.id ∧ g1.tstart = g.tstart ∧ g.ran ≤ g1.ran := by
  have key : STCFInv js0 b ∧
      ∃ g1 ∈ ext_out b, g1.id = g.id ∧ g1.tstart = g.tstart ∧ g.ran ≤ g1.ran := by
    induction h with
    | start => exact ⟨hI, g, hg, rfl, rfl, le_refl _⟩
    | @step x y _ hc hb ih =>
      obtain ⟨hIx, g1, hgx, hgid, hgt, hgr⟩ := ih
      refine ⟨(STCF_stepI js0 x y hIx hc hb).1, ?_⟩
      rcases STCF_cases js0 x y hIx hb with ⟨_, hcn, rfl⟩ |
        ⟨n, nj, ss, base, _, hj, _, _, _, rfl, hcase⟩
      · rw [ext_out_idle x _ hcn]
        exact ⟨g1, hgx, hgid, hgt, hgr⟩
      · rw [ext_out_after x n nj ss base hj]
        rcases hcase with ⟨hcn, rfl, rfl⟩ | ⟨_, _, rfl⟩
        · rw [ext_out_open x n nj hcn hj] at hgx
          rcases List.mem_append.1 hgx with hgx | hgx
          · exact ⟨g1, List.mem_append_left _ hgx, hgid, hgt, hgr⟩
          · simp at hgx
            subst hgx
            refine ⟨_, List.mem_append_right _ (List.mem_singleton_self _), hgid, hgt, ?_⟩
            simp only [print_seg] at hgr ⊢
            omega
        · exact ⟨g1, List.mem_append_left _ hgx, hgid, hgt, hgr⟩
  exact key.2

/-- Every tick the loop runs a job for lies inside a printed segment of that job. -/
theorem RunsTick_covered (tr : List (Int × Int)) (hv : ∀ p ∈ tr, 0 ≤ p.1 ∧ 0 < p.2)
    (f : STCFState) (hf : Reach STCF_cond STCF_body_exact (STCF_init (load tr)) f)
    (hfin : all_done f.jobs = true) (u : Int) (n : Nat) (h : RunsTick_exact (load tr) u n) :
    ∃ g ∈ f.out, g.id = (n : Int) ∧ g.tstart ≤ u ∧ u < g.tstart + g.ran := by
  obtain ⟨s, s1, hr, hc, hb, rfl, hp, _⟩ := h
  have hI := STCF_reach_inv tr hv s hr
  have hI1 := (STCF_stepI (load tr) s s1 hI hc hb).1
  have hIf := STCF_reach_inv tr hv f hf
  have hto : Reach STCF_cond STCF_body_exact s1 f :=
    Reach.to_final (Reach.step hr hc hb) hf (by simp [STCF_cond, hfin])
  rw [pick_stcf_eq] at hp
  rcases STCF_cases (load tr) s s1 hI hb with ⟨hp0, _, _⟩ |
    ⟨m, nj, ss, base, hpm, hj, _, _, _, rfl, hcase⟩
  · rw [hp0] at hp; cases hp
  · rw [hp] at hpm
    injection hpm with hpm
    subst hpm
    have hnid : nj.id = (n : Int) := hI.wf.ids n nj hj
    have hss : ss ≤ s.t := by
      rcases hcase with ⟨hcn, rfl, _⟩ | ⟨_, rfl, _⟩
      · obtain ⟨_, _, _, _, h3, _⟩ := hI.curr n hcn
        omega
      · exact le_refl _
    obtain ⟨g1, hg1, hid, hts, hran⟩ := STCF_ext_grow (load tr) _ f hI1 hto
      (print_seg ss nj (s.t + 1 - ss))
      (by rw [ext_out_after s n nj ss base hj]
          exact List.mem_append_right _ (List.mem_singleton_self _))
    rw [ext_out_final (load tr) f hIf hfin] at hg1
    simp only [print_seg] at hid hts hran
    exact ⟨g1, hg1, by rw [hid, hnid], by omega, by omega⟩

theorem AltIds.consecutive {out : List Seg} (h : AltIds out) (i : Nat) (g1 g2 : Seg)
    (h1 : out[i]? = some g1) (h2 : out[i + 1]? = some g2) : g1.id ≠ g2.id := by
  obtain ⟨hi, rfl⟩ := List.getElem?_eq_some_iff.1 h1
  obtain ⟨hk, rfl⟩ := List.getElem?_eq_some_iff.1 h2
  have := List.chain'_iff_get.1 h i (by omega)
  simpa using this

/-- In exact arithmetic: on every valid trace `policy_STCF_exact` finishes, and every segment it has
printed has a positive duration; the loop ran the job of the segment for every
tick of the interval of the segment, and did not run that job for the tick just
before the interval nor for the tick just after it (the segment is a maximal
uninterrupted run); and no two consecutive printed segments are of the same
job. -/
theorem stcf_coalescing_exact (tr : List (Int × Int)) (hv : valid_trace tr) :
    ∃ k f, (∀ fuel, k ≤ fuel → policy_STCF_exact fuel (load tr) = Run.finished k f) ∧
      (∀ g ∈ f.out, 0 < g.ran ∧ ∃ n : Nat, (n : Int) = g.id ∧
        (∀ u : Int, g.tstart ≤ u → u < g.tstart + g.ran → RunsTick_exact (load tr) u n) ∧
        ¬ RunsTick_exact (load tr) (g.tstart - 1) n ∧
        ¬ RunsTick_exact (load tr) (g.tstart + g.ran) n) ∧
      (∀ (i : Nat) (g1 g2 : Seg), f.out[i]? = some g1 → f.out[i + 1]? = some g2 →
        g1.id ≠ g2.id) := by
  obtain ⟨k, f, hrun, hI, hd, _, hr, _⟩ := STCF_run tr hv.2
  have hext := ext_out_final (load tr) f hI hd
  have hseq := STCF_seq tr hv.2 f hr
  have halt := STCF_alt tr hv.2 f hr
  have hcov := STCF_cover tr hv.2 f hr
  rw [hext] at hseq halt hcov
  have hpos : ∀ g ∈ f.out, 0 < g.ran := fun g hg => (hseq.2 g hg).1
  refine ⟨k, f, hrun, ?_, halt.consecutive⟩
  intro g hg
  have hgr := hpos g hg
  obtain ⟨n, hn, _⟩ := hcov g hg g.tstart (le_refl _) (by omega)
  refine ⟨hgr, n, hn, ?_, ?_, ?_⟩
  · intro u hu1 hu2
    obtain ⟨m, hm, hrt⟩ := hcov g hg u hu1 hu2
    have : m = n := by omega
    rw [← this]
    exact hrt
  · intro hrt
    obtain ⟨g1, hg1, hid, h1, h2⟩ := RunsTick_covered tr hv.2 f hr hd _ n hrt
    exact (hseq.1.maximal hpos halt hg hg1 (by rw [hid, hn])).1 ⟨h1, h2⟩
  · intro hrt
    obtain ⟨g1, hg1, hid, h1, h2⟩ := RunsTick_covered tr hv.2 f hr hd _ n hrt
    exact (hseq.1.maximal hpos halt hg hg1 (by rw [hid, hn])).2 ⟨h1, h2⟩

/-! ### Wrap-around and the exact versions of the loops -/

theorem wrap_eq (x : Int) (h1 : INT_MIN ≤ x) (h2 : x ≤ INT_MAX) : wrap x = x := by
  unfold wrap
  unfold INT_MIN at h1
  unfold INT_MAX at h2
  omega

theorem wrap_eq_nonneg (x : Int) (h1 : 0 ≤ x) (h2 : x ≤ INT_MAX) : wrap x = x :=
  wrap_eq x (by unfold INT_MIN; omega) h2

theorem wrap_bounds (x : Int) : INT_MIN ≤ wrap x ∧ wrap x ≤ INT_MAX := by
  unfold wrap INT_MIN INT_MAX
  omega

theorem Reach.congr {σ : Type} {cond : σ → Bool} {b1 b2 : σ → Option σ} {s0 s : σ}
    (h : ∀ a, Reach cond b2 s0 a → cond a = true → b1 a = b2 a)
    (hr : Reach cond b1 s0 s) : Reach cond b2 s0 s := by
  induction hr with
  | start => exact Reach.start
  | step _ hc hb ih => exact Reach.step ih hc (by rw [← h _ ih hc]; exact hb)

theorem Reach.congr_rev {σ : Type} {cond : σ → Bool} {b1 b2 : σ → Option σ} {s0 s : σ}
    (h : ∀ a, Reach cond b2 s0 a → cond a = true → b1 a = b2 a)
    (hr : Reach cond b2 s0 s) : Reach cond b1 s0 s := by
  induction hr with
  | start => exact Reach.start
  | @step x y hx hc hb ih => exact Reach.step ih hc (by rw [h _ hx hc]; exact hb)

/-- Two loop bodies that agree on the states the second one reaches give the
same run. -/
theorem runLoop_congr {σ : Type} (cond : σ → Bool) (b1 b2 : σ → Option σ) (s0 : σ)
    (h : ∀ a, Reach cond b2 s0 a → cond a = true → b1 a = b2 a) :
    ∀ (fuel : Nat) (s : σ), Reach cond b2 s0 s →
      runLoop cond b1 fuel s = runLoop cond b2 fuel s := by
  intro fuel
  induction fuel with
  | zero =>
    intro s _
    by_cases hc : cond s = true
    · simp [runLoop, hc]
    · simp [runLoop, hc]
  | succ n ih =>
    intro s hr
    by_cases hc : cond s = true
    · have hb := h s hr hc
      cases hb2 : b2 s with
      | none =>
        rw [hb2] at hb
        rw [runLoop, runLoop]
        simp [hc, hb, hb2]
      | some s1 =>
        rw [hb2] at hb
        rw [runLoop_succ cond b1 n s s1 hc hb, runLoop_succ cond b2 n s s1 hc hb2,
          ih s1 (Reach.step hr hc hb2)]
    · have hc2 : cond s = false := by simpa using hc
      rw [runLoop_false cond b1 _ s hc2, runLoop_false cond b2 _ s hc2]

theorem latest_arrival_nonneg (js : List Job) : 0 ≤ latest_arrival js := by
  induction js with
  | nil => simp [latest_arrival]
  | cons j rest ih =>
    simp only [latest_arrival]
    exact le_trans ih (le_max_right _ _)

theorem total_length_set (js : List Job) (p : Nat) (j j1 : Job) (h : js[p]? = some j)
    (hl : j1.length = j.length) : total_length (js.set p j1) = total_length js := by
  unfold total_length
  rw [map_set_same Job.length js p j j1 h hl]

theorem latest_arrival_set (js : List Job) (p : Nat) (j j1 : Job) (h : js[p]? = some j)
    (ha : j1.arrival = j.arrival) : latest_arrival (js.set p j1) = latest_arrival js := by
  rw [latest_arrival_eq, latest_arrival_eq, map_arrival_set js p j j1 h ha]

theorem work_left_le_total_length (js : List Job)
    (h : ∀ j ∈ js, 0 ≤ j.remaining ∧ j.remaining ≤ j.length) :
    (work_left js : Int) ≤ total_length js := by
  induction js with
  | nil => simp [work_left, total_length]
  | cons j rest ih =>
    have h1 := h j (List.mem_cons_self _ _)
    have h2 := ih (fun x hx => h x (List.mem_cons_of_mem _ hx))
    unfold total_length at h2 ⊢
    simp only [work_left, List.map_cons, List.sum_cons]
    omega

theorem remaining_le_work_left (js : List Job) (j : Job) (hj : j ∈ js) :
    j.remaining ≤ (work_left js : Int) := by
  induction js with
  | nil => simp at hj
  | cons x rest ih =>
    simp only [work_left]
    rcases List.mem_cons.1 hj with rfl | h
    · omega
    · have := ih h
      omega

theorem unfinished_le_work_left (js : List Job)
    (h : ∀ j ∈ js, j.end_time < 0 → 0 < j.remaining) : unfinished js ≤ work_left js := by
  induction js with
  | nil => simp [unfinished, work_left]
  | cons j rest ih =>
    have h1 := h j (List.mem_cons_self _ _)
    have h2 := ih (fun x hx => h x (List.mem_cons_of_mem _ hx))
    simp only [unfinished, work_left]
    split_ifs with he
    · have := h1 he
      omega
    · omega

theorem WF.rem_bounds {js : List Job} {t : Int} {out : List Seg} (h : WF js t out) :
    ∀ j ∈ js, 0 ≤ j.remaining ∧ j.remaining ≤ j.length := by
  intro j hj
  obtain ⟨i, hi⟩ := List.getElem?_of_mem hj
  exact ⟨(h.jobs i j hi).rem_nonneg, (h.jobs i j hi).rem_le⟩

theorem Bounded_set (js : List Job) (p : Nat) (j j1 : Job) (h : js[p]? = some j)
    (ha : j1.arrival = j.arrival) (hb : Bounded js) : Bounded (js.set p j1) := by
  unfold Bounded at *
  rw [map_arrival_set js p j j1 h ha]
  exact hb

/-- One iteration of SJF, STCF, RR or LT in exact arithmetic keeps the clock
plus the work left below the bound. -/
theorem ClockFit_trans (js : List Job) (t : Int) (out : List Seg) (js1 : List Job) (t1 : Int)
    (out1 : List Seg) (hwf : WF js t out) (hun : ∃ x ∈ js, x.end_time < 0)
    (h : ClockFit js t out) (ht : Trans js t out js1 t1 out1) : ClockFit js1 t1 out1 := by
  obtain ⟨hb, hB, hc⟩ := h
  rcases ht with ⟨hnone, rfl, rfl, _⟩ | ⟨p, j, ran, hj, hje, hja, hr, hrl, rfl, rfl, _⟩
  · refine ⟨hb, hB, ?_⟩
    obtain ⟨x, hx, hxe⟩ := hun
    obtain ⟨_, h2, y, hy, _, hya, _⟩ := hwf.no_fallback hb x hx hxe hnone
    have h3 := le_latest_arrival js1 y hy
    have h4 := work_left_le_total_length js1 hwf.rem_bounds
    rw [h2, ← hya]
    omega
  · obtain ⟨_, hsa, hsl, _⟩ := run_job_static j t ran
    refine ⟨Bounded_set js p j _ hj hsa hb, ?_, ?_⟩
    · rw [latest_arrival_set js p j _ hj hsa, total_length_set js p j _ hj hsl]
      exact hB
    · rw [latest_arrival_set js p j _ hj hsa, total_length_set js p j _ hj hsl]
      have h1 := work_left_set js p j (run_job j t ran) hj
      rw [run_job_remaining] at h1
      omega

theorem total_length_pos (js : List Job) (j : Job) (hj : j ∈ js)
    (h : ∀ x ∈ js, 0 < x.length) : j.length ≤ total_length js := by
  induction js with
  | nil => simp at hj
  | cons x rest ih =>
    unfold total_length
    simp only [List.map_cons, List.sum_cons]
    have hpos : 0 ≤ total_length rest := by
      clear ih hj
      induction rest with
      | nil => simp [total_length]
      | cons y r ihr =>
        unfold total_length
        simp only [List.map_cons, List.sum_cons]
        have h1 := h y (by simp)
        have h2 := ihr (fun z hz => h z (by
          rcases List.mem_cons.1 hz with rfl | hz
          · simp
          · simp [hz]))
        unfold total_length at h2
        omega
    unfold total_length at hpos
    rcases List.mem_cons.1 hj with rfl | hm
    · omega
    · have h1 := ih hm (fun z hz => h z (List.mem_cons_of_mem _ hz))
      have h2 := h x (List.mem_cons_self _ _)
      unfold total_length at h1
      omega

theorem ClockFit_load (tr : List (Int × Int)) (hv : ∀ p ∈ tr, 0 ≤ p.1 ∧ 0 < p.2)
    (hfit : Fits tr) : ClockFit (load tr) 0 [] := by
  have hwf := WF_load tr hv
  refine ⟨?_, hfit, ?_⟩
  · intro a ha
    obtain ⟨j, hj, rfl⟩ := List.mem_map.1 ha
    obtain ⟨i, hi⟩ := List.getElem?_of_mem hj
    have h1 := le_latest_arrival (load tr) j hj
    have h2 := total_length_pos (load tr) j hj (fun x hx => by
      obtain ⟨k, hk⟩ := List.getElem?_of_mem hx
      exact (hwf.jobs k x hk).len)
    have h3 := (hwf.jobs i j hi).len
    unfold Fits at hfit
    omega
  · have h1 := work_left_le_total_length (load tr) hwf.rem_bounds
    have h2 := latest_arrival_nonneg (load tr)
    omega

theorem Reach.trans_inv_un {σ : Type} {cond : σ → Bool} {body : σ → Option σ}
    (jobs : σ → List Job) (clock : σ → Int) (outp : σ → List Seg) (Inv : σ → Prop)
    (P : List Job → Int → List Seg → Prop)
    (hP : ∀ js t out js1 t1 out1, WF js t out → (∃ x ∈ js, x.end_time < 0) → P js t out →
      Trans js t out js1 t1 out1 → P js1 t1 out1)
    (hwf : ∀ a, Inv a → WF (jobs a) (clock a) (outp a))
    (hun : ∀ a, Inv a → cond a = true → ∃ x ∈ jobs a, x.end_time < 0)
    (hstep : ∀ a b, Inv a → cond a = true → body a = some b →
      Inv b ∧ Trans (jobs a) (clock a) (outp a) (jobs b) (clock b) (outp b))
    {s0 s : σ} (hI : Inv s0) (h0 : P (jobs s0) (clock s0) (outp s0))
    (h : Reach cond body s0 s) : Inv s ∧ P (jobs s) (clock s) (outp s) := by
  induction h with
  | start => exact ⟨hI, h0⟩
  | @step x y _ hc hb ih =>
    obtain ⟨h1, h2⟩ := hstep x y ih.1 hc hb
    exact ⟨h1, hP _ _ _ _ _ _ (hwf x ih.1) (hun x ih.1 hc) ih.2 h2⟩

/-- What the bound gives at a loop head where some job is unfinished. -/
theorem WF.state_fits {js : List Job} {t : Int} {out : List Seg} (hwf : WF js t out)
    (hc : ClockFit js t out) :
    0 ≤ t ∧ t ≤ INT_MAX ∧
    (∀ j ∈ js, 0 ≤ j.remaining ∧ t + j.remaining ≤ INT_MAX) ∧
    ∀ j ∈ js, j.end_time < 0 → 0 < j.remaining ∧ t + 1 ≤ INT_MAX := by
  obtain ⟨_, hB, hfit⟩ := hc
  have ht := hwf.t_nonneg
  refine ⟨ht, by omega, ?_, ?_⟩
  · intro j hj
    have h1 := remaining_le_work_left js j hj
    exact ⟨(hwf.rem_bounds j hj).1, by omega⟩
  · intro j hj he
    obtain ⟨i, hi⟩ := List.getElem?_of_mem hj
    have h1 := (hwf.jobs i j hi).fin_iff.1 he
    have h2 := remaining_le_work_left js j hj
    exact ⟨h1, by omega⟩

theorem idle_jump_agree (js : List Job) (t : Int) (h1 : 0 ≤ t) (h2 : t + 1 ≤ INT_MAX) :
    idle_jump js t = idle_jump_exact js t := by
  unfold idle_jump idle_jump_exact
  simp only
  rw [wrap_eq_nonneg (t + 1) (by omega) h2]

/-! ### SJF -/

theorem SJF_unfinished (js0 : List Job) (s : SJFState) (hI : SJFInv js0 s)
    (hc : SJF_cond s = true) : ∃ x ∈ s.jobs, x.end_time < 0 :=
  unfinished_pos s.jobs (by
    have := hI.count
    have : 0 < s.remaining := by simpa [SJF_cond] using hc
    omega)

theorem SJF_fit (tr : List (Int × Int)) (hv : ∀ p ∈ tr, 0 ≤ p.1 ∧ 0 < p.2) (hfit : Fits tr)
    (s : SJFState) (h : Reach SJF_cond SJF_body_exact (SJF_init (load tr)) s) :
    SJFInv (load tr) s ∧ ClockFit s.jobs s.t s.out :=
  Reach.trans_inv_un (fun s => s.jobs) (fun s => s.t) (fun s => s.out)
    (SJFInv (load tr)) ClockFit ClockFit_trans (fun _ h => h.wf)
    (SJF_unfinished (load tr)) (SJF_stepT (load tr))
    (SJF_init_inv tr hv) (ClockFit_load tr hv hfit) h

theorem SJF_agree (tr : List (Int × Int)) (hv : ∀ p ∈ tr, 0 ≤ p.1 ∧ 0 < p.2) (hfit : Fits tr)
    (s : SJFState) (h : Reach SJF_cond SJF_body_exact (SJF_init (load tr)) s)
    (hc : SJF_cond s = true) : SJF_body s = SJF_body_exact s := by
  obtain ⟨hI, hcf⟩ := SJF_fit tr hv hfit s h
  obtain ⟨x, hx, hxe⟩ := SJF_unfinished (load tr) s hI hc
  obtain ⟨h0, _, hall, hun⟩ := hI.wf.state_fits hcf
  have hcount : wrap (s.remaining - 1) = s.remaining - 1 := by
    have h1 := hI.count
    have h2 := unfinished_le_work_left s.jobs (fun j hj he => (hun j hj he).1)
    have h3 : 0 < s.remaining := by simpa [SJF_cond] using hc
    obtain ⟨_, hB, hf⟩ := hcf
    exact wrap_eq_nonneg _ (by omega) (by omega)
  unfold SJF_body SJF_body_exact
  cases hp : pick_sjf s.jobs s.t with
  | none =>
    simp only
    rw [idle_jump_agree s.jobs s.t h0 (hun x hx hxe).2]
  | some p =>
    simp only
    cases hj : s.jobs[p]? with
    | none => rfl
    | some j =>
      have hsr : (stamp_start j s.t).remaining = j.remaining :=
        (stamp_start_static j s.t).2.2.2.2.1
      have hjm : j ∈ s.jobs := List.mem_iff_getElem?.2 ⟨p, hj⟩
      have ht1 : wrap (s.t + (stamp_start j s.t).remaining) =
          s.t + (stamp_start j s.t).remaining := by
        rw [hsr]
        exact wrap_eq_nonneg _ (by have := (hall j hjm).1; omega) (hall j hjm).2
      simp only [ht1, hcount]

theorem policy_SJF_agree (tr : List (Int × Int)) (hv : ∀ p ∈ tr, 0 ≤ p.1 ∧ 0 < p.2)
    (hfit : Fits tr) (fuel : Nat) :
    policy_SJF fuel (load tr) = policy_SJF_exact fuel (load tr) :=
  runLoop_congr SJF_cond SJF_body SJF_body_exact _ (SJF_agree tr hv hfit) fuel _ Reach.start

theorem SJF_reach_agree (tr : List (Int × Int)) (hv : ∀ p ∈ tr, 0 ≤ p.1 ∧ 0 < p.2)
    (hfit : Fits tr) (s : SJFState) (h : Reach SJF_cond SJF_body (SJF_init (load tr)) s) :
    Reach SJF_cond SJF_body_exact (SJF_init (load tr)) s :=
  Reach.congr (SJF_agree tr hv hfit) h

/-! ### Round-Robin -/

theorem RR_fit (tr : List (Int × Int)) (hv : ∀ p ∈ tr, 0 ≤ p.1 ∧ 0 < p.2) (hfit : Fits tr)
    (slice : Int) (hs : 0 < slice)
    (s : RRState) (h : Reach RR_cond (RR_body_exact slice) (RR_init (load tr)) s) :
    RRInv (load tr) s ∧ ClockFit s.jobs s.t s.out :=
  @Reach.trans_inv_un RRState RR_cond (RR_body_exact slice) (fun s => s.jobs) (fun s => s.t) (fun s => s.out)
    (RRInv (load tr)) ClockFit ClockFit_trans (fun _ h => h.wf)
    (fun _ _ hc => not_all_done_mem hc) (RR_stepT (load tr) slice hs) _ _
    (RR_init_inv tr hv) (ClockFit_load tr hv hfit) h

/-- The two wrapped values of a grant of RR and LT are exact when the job is
ready and the clock after the grant is in range. -/
theorem grant_agree (slice : Int) (hs : 0 < slice) (j : Job) (t : Int)
    (hr : 0 < j.remaining) (h0 : 0 ≤ t) (h1 : t + j.remaining ≤ INT_MAX) :
    wrap (t + cmin slice (stamp_start j t).remaining) =
      t + cmin slice (stamp_start j t).remaining ∧
    wrap ((stamp_start j t).remaining - cmin slice (stamp_start j t).remaining) =
      (stamp_start j t).remaining - cmin slice (stamp_start j t).remaining := by
  have hsr : (stamp_start j t).remaining = j.remaining := (stamp_start_static j t).2.2.2.2.1
  obtain ⟨c1, c2, _⟩ := cmin_bounds slice j.remaining hs hr
  rw [hsr]
  exact ⟨wrap_eq_nonneg _ (by omega) (by omega), wrap_eq_nonneg _ (by omega) (by omega)⟩

theorem RR_agree (tr : List (Int × Int)) (hv : ∀ p ∈ tr, 0 ≤ p.1 ∧ 0 < p.2) (hfit : Fits tr)
    (slice : Int) (hs : 0 < slice)
    (s : RRState) (h : Reach RR_cond (RR_body_exact slice) (RR_init (load tr)) s)
    (hc : RR_cond s = true) : RR_body slice s = RR_body_exact slice s := by
  obtain ⟨hI, hcf⟩ := RR_fit tr hv hfit slice hs s h
  obtain ⟨x, hx, hxe⟩ := not_all_done_mem hc
  obtain ⟨h0, _, hall, hun⟩ := hI.wf.state_fits hcf
  unfold RR_body RR_body_exact
  cases hp : find_next_ready_from s.jobs (RR_from s) s.t with
  | none =>
    simp only
    rw [idle_jump_agree s.jobs s.t h0 (hun x hx hxe).2]
  | some p =>
    simp only
    cases hj : s.jobs[p]? with
    | none => rfl
    | some j =>
      have hjm : j ∈ s.jobs := List.mem_iff_getElem?.2 ⟨p, hj⟩
      have hspec := find_next_ready_from_spec s.jobs (RR_from s) s.t (by
        intro c hcc
        have hst := RR_from_start s (List.length_pos_of_mem hx) hI.curr_lt
        have : scan_start (RR_from s) = c := by rw [hcc]; rfl
        omega)
      rw [hp] at hspec
      obtain ⟨⟨qj, hq, _, _, hqr⟩, _⟩ := hspec
      rw [hj] at hq
      injection hq with hq
      subst hq
      obtain ⟨g1, g2⟩ := grant_agree slice hs j s.t hqr h0 (hall j hjm).2
      simp only [g1, g2]

theorem policy_RR_agree (tr : List (Int × Int)) (hv : ∀ p ∈ tr, 0 ≤ p.1 ∧ 0 < p.2)
    (hfit : Fits tr) (slice : Int) (hs : 0 < slice) (fuel : Nat) :
    policy_RR slice fuel (load tr) = policy_RR_exact slice fuel (load tr) :=
  runLoop_congr RR_cond (RR_body slice) (RR_body_exact slice) _
    (RR_agree tr hv hfit slice hs) fuel _ Reach.start

theorem RR_reach_agree (tr : List (Int × Int)) (hv : ∀ p ∈ tr, 0 ≤ p.1 ∧ 0 < p.2)
    (hfit : Fits tr) (slice : Int) (hs : 0 < slice) (s : RRState)
    (h : Reach RR_cond (RR_body slice) (RR_init (load tr)) s) :
    Reach RR_cond (RR_body_exact slice) (RR_init (load tr)) s :=
  Reach.congr (RR_agree tr hv hfit slice hs) h

/-! ### FIFO -/

/-- One iteration of the exact FIFO loop grants the job under the cursor all
that remains of it, from the later of the clock and its arrival. -/
theorem FIFO_shape (js0 : List Job) (s : FIFOState) (hI : FIFOInv js0 s)
    (hc : FIFO_cond s = true) :
    ∃ p j, s.cur = some p ∧ s.jobs[p]? = some j ∧ j.end_time < 0 ∧
      FIFO_body_exact s = some
        { jobs := s.jobs.set p
            (run_job j (if s.t < j.arrival then j.arrival else s.t) j.remaining),
          t := (if s.t < j.arrival then j.arrival else s.t) + j.remaining,
          cur := next_ptr s.jobs p,
          out := s.out ++ [print_seg (if s.t < j.arrival then j.arrival else s.t) j
            j.remaining] } := by
  have hcur := hI.spec.cur
  have hlt : s.out.length < js0.length := by
    by_contra h
    rw [if_neg h] at hcur
    simp [FIFO_cond, hcur] at hc
  rw [if_pos hlt] at hcur
  have hlt2 : s.out.length < s.jobs.length := by rw [hI.spec.len]; exact hlt
  have hj : s.jobs[s.out.length]? = some s.jobs[s.out.length] := List.getElem?_eq_getElem hlt2
  have hje := hI.ahead _ _ (le_refl _) hj
  generalize s.jobs[s.out.length] = j at hj hje
  refine ⟨s.out.length, j, hcur, hj, hje, ?_⟩
  unfold FIFO_body_exact
  simp only [hcur, hj]
  have hsr : ∀ t0, (stamp_start j t0).remaining = j.remaining :=
    fun t0 => (stamp_start_static j t0).2.2.2.2.1
  rw [run_job_all, hsr, print_seg_static _ _ j _ (stamp_start_static_eq j _)]

theorem FIFO_fit (tr : List (Int × Int)) (hv : ∀ p ∈ tr, 0 ≤ p.1 ∧ 0 < p.2) (hfit : Fits tr)
    (s : FIFOState) (h : Reach FIFO_cond FIFO_body_exact (FIFO_init (load tr)) s) :
    FIFOInv (load tr) s ∧ ClockFit s.jobs s.t s.out := by
  induction h with
  | start => exact ⟨FIFOInv_init tr hv, ClockFit_load tr hv hfit⟩
  | @step x y _ hc hb ih =>
    obtain ⟨hI, hb0, hB, hcf⟩ := ih
    refine ⟨(FIFOInv_step (load tr) (Fresh_load tr) x y hI hc hb).1, ?_⟩
    obtain ⟨p, j, _, hj, hje, hbody⟩ := FIFO_shape (load tr) x hI hc
    rw [hb] at hbody
    injection hbody with hbody
    subst hbody
    have hjm : j ∈ x.jobs := List.mem_iff_getElem?.2 ⟨p, hj⟩
    have ht0 : (if x.t < j.arrival then j.arrival else x.t) = x.t ∨
        (if x.t < j.arrival then j.arrival else x.t) = j.arrival := by
      split_ifs
      · exact Or.inr rfl
      · exact Or.inl rfl
    generalize (if x.t < j.arrival then j.arrival else x.t) = t0 at ht0 ⊢
    obtain ⟨_, hsa, hsl, _⟩ := run_job_static j t0 j.remaining
    refine ⟨Bounded_set x.jobs p j _ hj hsa hb0, ?_, ?_⟩
    · simp only
      rw [latest_arrival_set x.jobs p j _ hj hsa, total_length_set x.jobs p j _ hj hsl]
      exact hB
    · simp only
      rw [latest_arrival_set x.jobs p j _ hj hsa, total_length_set x.jobs p j _ hj hsl]
      have h1 := work_left_set x.jobs p j (run_job j t0 j.remaining) hj
      rw [run_job_remaining] at h1
      have h2 := (hI.wf.rem_bounds j hjm).1
      have h3 := le_latest_arrival x.jobs j hjm
      have h4 := work_left_le_total_length x.jobs hI.wf.rem_bounds
      have h5 := remaining_le_work_left x.jobs j hjm
      rcases ht0 with ht0 | ht0 <;> omega

theorem FIFO_agree (tr : List (Int × Int)) (hv : ∀ p ∈ tr, 0 ≤ p.1 ∧ 0 < p.2) (hfit : Fits tr)
    (s : FIFOState) (h : Reach FIFO_cond FIFO_body_exact (FIFO_init (load tr)) s)
    (hc : FIFO_cond s = true) : FIFO_body s = FIFO_body_exact s := by
  obtain ⟨hI, hcf⟩ := FIFO_fit tr hv hfit s h
  obtain ⟨p, j, hcur, hj, hje, hbody⟩ := FIFO_shape (load tr) s hI hc
  obtain ⟨hI1, hcf1⟩ := FIFO_fit tr hv hfit _ (Reach.step h hc hbody)
  have ht1 := hI1.wf.t_nonneg
  obtain ⟨_, ht2, _, _⟩ := hI1.wf.state_fits hcf1
  simp only at ht1 ht2
  have hsr : ∀ t0, (stamp_start j t0).remaining = j.remaining :=
    fun t0 => (stamp_start_static j t0).2.2.2.2.1
  have e1 : wrap ((if s.t < j.arrival then j.arrival else s.t) +
      (stamp_start j (if s.t < j.arrival then j.arrival else s.t)).remaining) =
      (if s.t < j.arrival then j.arrival else s.t) +
        (stamp_start j (if s.t < j.arrival then j.arrival else s.t)).remaining := by
    rw [hsr]
    exact wrap_eq_nonneg _ ht1 ht2
  unfold FIFO_body FIFO_body_exact
  simp only [hcur, hj, e1]

theorem policy_FIFO_agree (tr : List (Int × Int)) (hv : ∀ p ∈ tr, 0 ≤ p.1 ∧ 0 < p.2)
    (hfit : Fits tr) (fuel : Nat) :
    policy_FIFO fuel (load tr) = policy_FIFO_exact fuel (load tr) :=
  runLoop_congr FIFO_cond FIFO_body FIFO_body_exact _ (FIFO_agree tr hv hfit) fuel _ Reach.start

theorem FIFO_reach_agree (tr : List (Int × Int)) (hv : ∀ p ∈ tr, 0 ≤ p.1 ∧ 0 < p.2)
    (hfit : Fits tr) (s : FIFOState) (h : Reach FIFO_cond FIFO_body (FIFO_init (load tr)) s) :
    Reach FIFO_cond FIFO_body_exact (FIFO_init (load tr)) s :=
  Reach.congr (FIFO_agree tr hv hfit) h

/-! ### STCF -/

theorem STCF_fit (tr : List (Int × Int)) (hv : ∀ p ∈ tr, 0 ≤ p.1 ∧ 0 < p.2) (hfit : Fits tr)
    (s : STCFState) (h : Reach STCF_cond STCF_body_exact (STCF_init (load tr)) s) :
    STCFInv (load tr) s ∧ ClockFit s.jobs s.t (ext_out s) :=
  @Reach.trans_inv_un STCFState STCF_cond STCF_body_exact (fun s => s.jobs) (fun s => s.t)
    ext_out (STCFInv (load tr)) ClockFit ClockFit_trans (fun _ h => h.wf)
    (fun _ _ hc => not_all_done_mem hc) (STCF_stepT (load tr)) _ _
    (STCF_init_inv tr hv) (ClockFit_load tr hv hfit) h

theorem STCF_close_agree (s : STCFState)
    (h : ∀ c, s.curr = some c → 0 ≤ s.t - s.seg_start ∧ s.t - s.seg_start ≤ INT_MAX) :
    STCF_close s = STCF_close_exact s := by
  unfold STCF_close STCF_close_exact
  cases hc : s.curr with
  | none => rfl
  | some c =>
    obtain ⟨h1, h2⟩ := h c hc
    simp only [wrap_eq_nonneg _ h1 h2]

theorem STCF_switch_agree (s : STCFState) (nx : Option Nat)
    (h : ∀ c, s.curr = some c → 0 ≤ s.t - s.seg_start ∧ s.t - s.seg_start ≤ INT_MAX) :
    STCF_switch s nx = STCF_switch_exact s nx := by
  unfold STCF_switch STCF_switch_exact
  rw [STCF_close_agree s h]

theorem STCF_tick_agree (s : STCFState) (h0 : 0 ≤ s.t) (h1 : s.t + 1 ≤ INT_MAX)
    (h2 : ∀ c cj, s.curr = some c → s.jobs[c]? = some cj →
      0 < cj.remaining ∧ cj.remaining ≤ INT_MAX ∧ 0 ≤ s.t + 1 - s.seg_start ∧
        s.t + 1 - s.seg_start ≤ INT_MAX) :
    STCF_tick s = STCF_tick_exact s := by
  unfold STCF_tick STCF_tick_exact
  cases hc : s.curr with
  | none =>
    simp only
    rw [idle_jump_agree s.jobs s.t h0 h1]
  | some c =>
    simp only
    cases hj : s.jobs[c]? with
    | none => rfl
    | some cj =>
      obtain ⟨a1, a2, a3, a4⟩ := h2 c cj hc hj
      have e1 : wrap (cj.remaining - 1) = cj.remaining - 1 :=
        wrap_eq_nonneg _ (by omega) (by omega)
      have e2 : wrap (s.t + 1) = s.t + 1 := wrap_eq_nonneg _ (by omega) h1
      have e3 : wrap (s.t + 1 - s.seg_start) = s.t + 1 - s.seg_start := wrap_eq_nonneg _ a3 a4
      simp only [e1, e2, e3]

/-- What the switch block leaves for the tick. -/
theorem STCF_switch_spec (s s1 : STCFState) (nx : Option Nat)
    (h : STCF_switch_exact s nx = some s1) :
    s1.t = s.t ∧ s1.curr = nx ∧
    (s1.seg_start = s.t ∨ (nx = s.curr ∧ s1.seg_start = s.seg_start)) ∧
    ∀ (c : Nat) (cj1 : Job), s1.jobs[c]? = some cj1 →
      ∃ cj : Job, s.jobs[c]? = some cj ∧ cj1.remaining = cj.remaining := by
  unfold STCF_switch_exact at h
  by_cases hne : nx ≠ s.curr
  · rw [if_pos hne] at h
    cases hcl : STCF_close_exact s with
    | none => rw [hcl] at h; cases h
    | some out1 =>
      rw [hcl] at h
      cases nx with
      | none =>
        simp only at h
        injection h with h
        subst h
        exact ⟨rfl, rfl, Or.inl rfl, fun c cj1 hc => ⟨cj1, hc, rfl⟩⟩
      | some n =>
        simp only at h
        cases hj : s.jobs[n]? with
        | none => rw [hj] at h; cases h
        | some nj =>
          rw [hj] at h
          injection h with h
          subst h
          refine ⟨rfl, rfl, Or.inl rfl, ?_⟩
          intro c cj1 hc
          simp only at hc
          by_cases hcn : n = c
          · subst hcn
            have hlt : n < s.jobs.length := (List.getElem?_eq_some_iff.1 hj).1
            rw [List.getElem?_set_self hlt] at hc
            injection hc with hc
            subst hc
            exact ⟨nj, hj, (stamp_start_static nj s.t).2.2.2.2.1⟩
          · rw [List.getElem?_set_ne hcn] at hc
            exact ⟨cj1, hc, rfl⟩
  · rw [if_neg hne] at h
    injection h with h
    subst h
    have hnx : nx = s.curr := by
      by_contra h2
      exact hne h2
    exact ⟨rfl, hnx.symm, Or.inr ⟨hnx, rfl⟩, fun c cj1 hc => ⟨cj1, hc, rfl⟩⟩

theorem STCF_agree (tr : List (Int × Int)) (hv : ∀ p ∈ tr, 0 ≤ p.1 ∧ 0 < p.2) (hfit : Fits tr)
    (s : STCFState) (h : Reach STCF_cond STCF_body_exact (STCF_init (load tr)) s)
    (hc : STCF_cond s = true) : STCF_body s = STCF_body_exact s := by
  obtain ⟨hI, hcf⟩ := STCF_fit tr hv hfit s h
  obtain ⟨x, hx, hxe⟩ := not_all_done_mem hc
  obtain ⟨h0, hmax, hall, hun⟩ := hI.wf.state_fits hcf
  have hseg : ∀ c, s.curr = some c → 0 ≤ s.seg_start ∧ s.seg_start < s.t := by
    intro c hcc
    obtain ⟨cj, hcj, _, h2, h3, _⟩ := hI.curr c hcc
    have := (hI.wf.jobs c cj hcj).arr
    exact ⟨by omega, h3⟩
  have hcl : ∀ c, s.curr = some c → 0 ≤ s.t - s.seg_start ∧ s.t - s.seg_start ≤ INT_MAX := by
    intro c hcc
    have := hseg c hcc
    omega
  unfold STCF_body STCF_body_exact
  rw [STCF_switch_agree s _ hcl]
  cases hsw : STCF_switch_exact s (pick_stcf s.jobs s.t) with
  | none => rfl
  | some s1 =>
    simp only
    obtain ⟨e1, e2, e3, e4⟩ := STCF_switch_spec s s1 _ hsw
    apply STCF_tick_agree s1 (by rw [e1]; exact h0) (by rw [e1]; exact (hun x hx hxe).2)
    intro c cj1 hcc hcj1
    obtain ⟨cj, hcj, hrem⟩ := e4 c cj1 hcj1
    rw [e2, pick_stcf_eq] at hcc
    obtain ⟨nj, hnj, hne, hna, _⟩ := pick_sjf_some s.jobs s.t c hcc
    rw [hcj] at hnj
    injection hnj with hnj
    subst hnj
    have hjm : cj ∈ s.jobs := List.mem_iff_getElem?.2 ⟨c, hcj⟩
    have hr1 := (hun cj hjm hne).1
    have hr2 := (hall cj hjm).2
    rw [hrem, e1]
    refine ⟨hr1, by omega, ?_, ?_⟩
    · rcases e3 with e3 | ⟨e3, e5⟩
      · rw [e3]; omega
      · rw [e5]
        have := hseg c (by rw [← e3, pick_stcf_eq]; exact hcc)
        omega
    · rcases e3 with e3 | ⟨e3, e5⟩
      · rw [e3]; unfold INT_MAX; omega
      · rw [e5]
        have := hseg c (by rw [← e3, pick_stcf_eq]; exact hcc)
        have := (hun x hx hxe).2
        omega

theorem policy_STCF_agree (tr : List (Int × Int)) (hv : ∀ p ∈ tr, 0 ≤ p.1 ∧ 0 < p.2)
    (hfit : Fits tr) (fuel : Nat) :
    policy_STCF fuel (load tr) = policy_STCF_exact fuel (load tr) :=
  runLoop_congr STCF_cond STCF_body STCF_body_exact _ (STCF_agree tr hv hfit) fuel _ Reach.start

theorem STCF_reach_agree (tr : List (Int × Int)) (hv : ∀ p ∈ tr, 0 ≤ p.1 ∧ 0 < p.2)
    (hfit : Fits tr) (s : STCFState) (h : Reach STCF_cond STCF_body (STCF_init (load tr)) s) :
    Reach STCF_cond STCF_body_exact (STCF_init (load tr)) s :=
  Reach.congr (STCF_agree tr hv hfit) h

/-! ### Lottery -/

theorem static_tickets (js js0 : List Job) (h : js.map Job.static = js0.map Job.static) :
    js.map Job.tickets = js0.map Job.tickets := by
  have h1 : ∀ l : List Job, l.map Job.tickets = (l.map Job.static).map (fun x => x.2.2.2) := by
    intro l; simp [List.map_map, Job.static, Function.comp_def]
  rw [h1, h1, h]

theorem ready_sum_le_ticket_total (t : Int) (l : List Job) (h : ∀ j ∈ l, 0 < j.tickets) :
    ready_sum t l ≤ ticket_total l := by
  induction l with
  | nil => simp [ready_sum, ticket_total]
  | cons j rest ih =>
    have h1 := h j (List.mem_cons_self _ _)
    have h2 := ih (fun x hx => h x (List.mem_cons_of_mem _ hx))
    unfold ticket_total at h2 ⊢
    simp only [ready_sum, List.map_cons, List.sum_cons]
    split_ifs <;> omega

theorem total_scan_agree (t : Int) (l : List Job) (hpos : TicketsPos t l) :
    ∀ tot : Int, 0 ≤ tot → tot + ready_sum t l ≤ INT_MAX →
      total_scan t l tot = total_scan_exact t l tot := by
  induction l with
  | nil => intro tot _ _; rfl
  | cons j rest ih =>
    intro tot h0 h1
    have hrest := ready_sum_nonneg t rest hpos.tail
    simp only [total_scan, total_scan_exact]
    simp only [ready_sum] at h1
    by_cases hr : j.end_time < 0 ∧ j.arrival ≤ t ∧ j.remaining > 0
    · have htk := hpos j (List.mem_cons_self _ _) hr.1 hr.2.1 hr.2.2
      rw [if_pos hr] at h1
      rw [if_pos hr, if_pos hr, wrap_eq_nonneg _ (by omega) (by omega)]
      exact ih hpos.tail _ (by omega) (by omega)
    · rw [if_neg hr] at h1
      rw [if_neg hr, if_neg hr]
      exact ih hpos.tail _ h0 (by omega)

theorem lottery_scan_agree (t w : Int) (l : List Job) (hpos : TicketsPos t l) :
    ∀ (i : Nat) (acc : Int), 0 ≤ acc → acc + ready_sum t l ≤ INT_MAX →
      lottery_scan t w l i acc = lottery_scan_exact t w l i acc := by
  induction l with
  | nil => intro i acc _ _; rfl
  | cons j rest ih =>
    intro i acc h0 h1
    have hrest := ready_sum_nonneg t rest hpos.tail
    simp only [lottery_scan, lottery_scan_exact]
    simp only [ready_sum] at h1
    by_cases hr : j.end_time < 0 ∧ j.arrival ≤ t ∧ j.remaining > 0
    · have htk := hpos j (List.mem_cons_self _ _) hr.1 hr.2.1 hr.2.2
      rw [if_pos hr] at h1
      rw [if_pos hr, if_pos hr, wrap_eq_nonneg _ (by omega) (by omega)]
      rw [ih hpos.tail _ _ (by omega) (by omega)]
    · rw [if_neg hr] at h1
      rw [if_neg hr, if_neg hr]
      exact ih hpos.tail _ _ h0 (by omega)

theorem total_ready_tickets_agree (js : List Job) (t : Int) (hpos : ∀ j ∈ js, 0 < j.tickets)
    (hfit : ticket_total js ≤ INT_MAX) :
    total_ready_tickets js t = total_ready_tickets_exact js t := by
  unfold total_ready_tickets total_ready_tickets_exact
  have := ready_sum_le_ticket_total t js hpos
  exact total_scan_agree t js (fun x hx _ _ _ => hpos x hx) 0 (le_refl _) (by omega)

theorem pick_lottery_agree (js : List Job) (t w : Int) (hpos : ∀ j ∈ js, 0 < j.tickets)
    (hfit : ticket_total js ≤ INT_MAX) :
    pick_lottery js t w = pick_lottery_exact js t w := by
  unfold pick_lottery pick_lottery_exact
  have := ready_sum_le_ticket_total t js hpos
  exact lottery_scan_agree t w js (fun x hx _ _ _ => hpos x hx) 0 0 (le_refl _) (by omega)

theorem LTInv.ticket_total {js0 : List Job} {s : LTState} (hI : LTInv js0 s) :
    ticket_total s.jobs = ticket_total js0 := by
  unfold Scheduler.ticket_total
  rw [static_tickets s.jobs js0 hI.static]

theorem LT_fit (tr : List (Int × Int)) (hv : ∀ p ∈ tr, 0 ≤ p.1 ∧ 0 < p.2) (hfit : Fits tr)
    (rand : Nat → Nat) (slice : Int) (hs : 0 < slice)
    (s : LTState) (h : Reach LT_cond (LT_body_exact rand slice) (LT_init (load tr)) s) :
    LTInv (load tr) s ∧ ClockFit s.jobs s.t s.out :=
  @Reach.trans_inv_un LTState LT_cond (LT_body_exact rand slice) (fun s => s.jobs)
    (fun s => s.t) (fun s => s.out)
    (LTInv (load tr)) ClockFit ClockFit_trans (fun _ h => h.wf)
    (fun _ _ hc => not_all_done_mem hc) (LT_stepT (load tr) rand slice hs) _ _
    (LT_init_inv tr hv) (ClockFit_load tr hv hfit) h

theorem LT_agree (tr : List (Int × Int)) (hv : ∀ p ∈ tr, 0 ≤ p.1 ∧ 0 < p.2) (hfit : Fits tr)
    (htk : TicketsFit tr) (rand : Nat → Nat) (slice : Int) (hs : 0 < slice)
    (s : LTState) (h : Reach LT_cond (LT_body_exact rand slice) (LT_init (load tr)) s)
    (hc : LT_cond s = true) : LT_body rand slice s = LT_body_exact rand slice s := by
  obtain ⟨hI, hcf⟩ := LT_fit tr hv hfit rand slice hs s h
  obtain ⟨x, hx, hxe⟩ := not_all_done_mem hc
  obtain ⟨h0, _, hall, hun⟩ := hI.wf.state_fits hcf
  have htt : ticket_total s.jobs ≤ INT_MAX := by rw [hI.ticket_total]; exact htk
  have e1 := total_ready_tickets_agree s.jobs s.t hI.tickets htt
  have e2 := fun w => pick_lottery_agree s.jobs s.t w hI.tickets htt
  unfold LT_body LT_body_exact
  simp only [e1, e2]
  by_cases htot : total_ready_tickets_exact s.jobs s.t = 0
  · simp only [htot, if_true]
    rw [idle_jump_agree s.jobs s.t h0 (hun x hx hxe).2]
  · simp only [htot, if_false]
    cases hp : pick_lottery_exact s.jobs s.t
        (Int.tmod (rand s.draws) (total_ready_tickets_exact s.jobs s.t)) with
    | none => rfl
    | some p =>
      simp only
      cases hj : s.jobs[p]? with
      | none => rfl
      | some j =>
        have hjm : j ∈ s.jobs := List.mem_iff_getElem?.2 ⟨p, hj⟩
        unfold pick_lottery_exact at hp
        obtain ⟨k, y, hk, hy, _, _, hyr⟩ := lottery_scan_ready _ _ _ _ _ _ hp
        have hkp : k = p := by omega
        subst hkp
        rw [hj] at hy
        injection hy with hy
        subst hy
        obtain ⟨g1, g2⟩ := grant_agree slice hs j s.t hyr h0 (hall j hjm).2
        simp only [g1, g2]

theorem policy_LT_agree (tr : List (Int × Int)) (hv : ∀ p ∈ tr, 0 ≤ p.1 ∧ 0 < p.2)
    (hfit : Fits tr) (htk : TicketsFit tr) (rand : Nat → Nat) (slice : Int) (hs : 0 < slice)
    (fuel : Nat) :
    policy_LT rand slice fuel (load tr) = policy_LT_exact rand slice fuel (load tr) :=
  runLoop_congr LT_cond (LT_body rand slice) (LT_body_exact rand slice) _
    (LT_agree tr hv hfit htk rand slice hs) fuel _ Reach.start

theorem LT_reach_agree (tr : List (Int × Int)) (hv : ∀ p ∈ tr, 0 ≤ p.1 ∧ 0 < p.2)
    (hfit : Fits tr) (htk : TicketsFit tr) (rand : Nat → Nat) (slice : Int) (hs : 0 < slice)
    (s : LTState) (h : Reach LT_cond (LT_body rand slice) (LT_init (load tr)) s) :
    Reach LT_cond (LT_body_exact rand slice) (LT_init (load tr)) s :=
  Reach.congr (LT_agree tr hv hfit htk rand slice hs) h

theorem Reach.of_loop_state {σ : Type} {cond : σ → Bool} {body : σ → Option σ} :
    ∀ (n : Nat) (s0 s : σ), loop_state cond body n s0 = some s → Reach cond body s0 s := by
  intro n
  induction n with
  | zero =>
    intro s0 s h
    simp only [loop_state] at h
    injection h with h
    subst h
    exact Reach.start
  | succ n ih =>
    intro s0 s h
    simp only [loop_state] at h
    by_cases hc : cond s0 = true
    · rw [if_pos hc] at h
      cases hb : body s0 with
      | none => rw [hb] at h; simp at h
      | some s1 =>
        rw [hb] at h
        simp only [Option.bind] at h
        exact Reach.trans (Reach.step Reach.start hc hb) (ih s1 s h)
    · rw [if_neg hc] at h
      cases h

/-- A loop that reaches a state from which it runs for ever never finishes. -/
theorem Reach.never_finishes {σ : Type} {cond : σ → Bool} {body : σ → Option σ} {s0 s : σ}
    (h : Reach cond body s0 s) (hs : ∀ fuel, runLoop cond body fuel s = Run.running) :
    ∀ fuel, runLoop cond body fuel s0 = Run.running := by
  have key : ∀ a b, Reach cond body a b → Reach cond body s0 a →
      (∀ fuel, runLoop cond body fuel b = Run.running) →
      ∀ fuel, runLoop cond body fuel a = Run.running := by
    intro a b hab
    induction hab with
    | start => intro _ h2; exact h2
    | @step x y _ hc hb ih =>
      intro h1 h2
      apply ih h1
      intro fuel
      cases fuel with
      | zero => simp [runLoop, hc]
      | succ n => rw [runLoop_succ cond body n x y hc hb, h2 n]; rfl
  exact key s0 s h Reach.start hs

/-- A loop that keeps a property under which its condition holds runs for ever. -/
theorem runLoop_running {σ : Type} (cond : σ → Bool) (body : σ → Option σ) (P : σ → Prop)
    (hP : ∀ s, P s → cond s = true ∧ ∃ s1, body s = some s1 ∧ P s1) :
    ∀ (fuel : Nat) (s : σ), P s → runLoop cond body fuel s = Run.running := by
  intro fuel
  induction fuel with
  | zero =>
    intro s hs
    simp [runLoop, (hP s hs).1]
  | succ n ih =>
    intro s hs
    obtain ⟨hc, s1, hb, h1⟩ := hP s hs
    rw [runLoop_succ cond body n s s1 hc hb, ih s1 h1]
    rfl

theorem Fits.arrivals {tr : List (Int × Int)} (hfit : Fits tr)
    (hv : ∀ p ∈ tr, 0 ≤ p.1 ∧ 0 < p.2) : ∀ p ∈ tr, p.1 < INT_MAX := by
  have hb := (ClockFit_load tr hv hfit).1
  unfold Bounded at hb
  rw [load_map_arrival] at hb
  intro p hp
  exact hb p.1 (List.mem_map.2 ⟨p, hp, rfl⟩)

theorem SJF_reach_iff (tr : List (Int × Int)) (hv : ∀ p ∈ tr, 0 ≤ p.1 ∧ 0 < p.2)
    (hfit : Fits tr) (s : SJFState) :
    Reach SJF_cond SJF_body (SJF_init (load tr)) s ↔
      Reach SJF_cond SJF_body_exact (SJF_init (load tr)) s :=
  ⟨Reach.congr (SJF_agree tr hv hfit), Reach.congr_rev (SJF_agree tr hv hfit)⟩

theorem FIFO_reach_iff (tr : List (Int × Int)) (hv : ∀ p ∈ tr, 0 ≤ p.1 ∧ 0 < p.2)
    (hfit : Fits tr) (s : FIFOState) :
    Reach FIFO_cond FIFO_body (FIFO_init (load tr)) s ↔
      Reach FIFO_cond FIFO_body_exact (FIFO_init (load tr)) s :=
  ⟨Reach.congr (FIFO_agree tr hv hfit), Reach.congr_rev (FIFO_agree tr hv hfit)⟩

theorem STCF_reach_iff (tr : List (Int × Int)) (hv : ∀ p ∈ tr, 0 ≤ p.1 ∧ 0 < p.2)
    (hfit : Fits tr) (s : STCFState) :
    Reach STCF_cond STCF_body (STCF_init (load tr)) s ↔
      Reach STCF_cond STCF_body_exact (STCF_init (load tr)) s :=
  ⟨Reach.congr (STCF_agree tr hv hfit), Reach.congr_rev (STCF_agree tr hv hfit)⟩

theorem RR_reach_iff (tr : List (Int × Int)) (hv : ∀ p ∈ tr, 0 ≤ p.1 ∧ 0 < p.2)
    (hfit : Fits tr) (slice : Int) (hs : 0 < slice) (s : RRState) :
    Reach RR_cond (RR_body slice) (RR_init (load tr)) s ↔
      Reach RR_cond (RR_body_exact slice) (RR_init (load tr)) s :=
  ⟨Reach.congr (RR_agree tr hv hfit slice hs), Reach.congr_rev (RR_agree tr hv hfit slice hs)⟩

theorem LT_reach_iff (tr : List (Int × Int)) (hv : ∀ p ∈ tr, 0 ≤ p.1 ∧ 0 < p.2)
    (hfit : Fits tr) (htk : TicketsFit tr) (rand : Nat → Nat) (slice : Int) (hs : 0 < slice)
    (s : LTState) :
    Reach LT_cond (LT_body rand slice) (LT_init (load tr)) s ↔
      Reach LT_cond (LT_body_exact rand slice) (LT_init (load tr)) s :=
  ⟨Reach.congr (LT_agree tr hv hfit htk rand slice hs),
    Reach.congr_rev (LT_agree tr hv hfit htk rand slice hs)⟩

/-! ### Work done, time spans and number of iterations -/

/-- C2 as stated fails: on the valid trace `2147483646,3` the clock of
`policy_STCF` wraps around during the run of job 0; the loop finishes after 5
iterations with `start_time = 2147483646` and `end_time = 2147483647`, a span of
1 for a job of length 3. -/
theorem C2_counterexample :
    valid_trace [(2147483646, 3)] ∧
    ∃ f, policy_STCF 5 (load [(2147483646, 3)]) = Run.finished 5 f ∧
      f.jobs = [Job.mk 0 2147483646 3 100 0 2147483646 2147483647] ∧
      ¬ SpanAtLeast [(2147483646, 3)] f.jobs :=
  ⟨by decide,
   STCFState.mk [Job.mk 0 2147483646 3 100 0 2147483646 2147483647] 2147483647 none (-1)
     [Seg.mk 2147483646 0 2147483646 2, Seg.mk 2147483646 0 2147483646 1],
   by decide!, rfl, fun h => by
     obtain ⟨j, hj, hspan⟩ := h 0 (2147483646, 3) rfl
     simp at hj
     subst hj
     simp at hspan⟩

/-- C2, amended: on every valid trace whose latest arrival plus the sum of its
lengths is at most `INT_MAX`, after each of the five policies (for `policy_LT`
when moreover the tickets of the registry sum to at most `INT_MAX`) every job has
`end_time - start_time` at least its length, with equality after FIFO and SJF. -/
theorem C2_span_at_least_length (tr : List (Int × Int)) (hv : valid_trace tr)
    (hfit : Fits tr) (slice : Int) (hs : 0 < slice) (rand : Nat → Nat) :
    (∃ k f, (∀ fuel, k ≤ fuel → policy_FIFO fuel (load tr) = Run.finished k f) ∧
      SpanAtLeast tr f.jobs ∧ SpanExact tr f.jobs) ∧
    (∃ k f, (∀ fuel, k ≤ fuel → policy_SJF fuel (load tr) = Run.finished k f) ∧
      SpanAtLeast tr f.jobs ∧ SpanExact tr f.jobs) ∧
    (∃ k f, (∀ fuel, k ≤ fuel → policy_STCF fuel (load tr) = Run.finished k f) ∧
      SpanAtLeast tr f.jobs) ∧
    (∃ k f, (∀ fuel, k ≤ fuel → policy_RR slice fuel (load tr) = Run.finished k f) ∧
      SpanAtLeast tr f.jobs) ∧
    (TicketsFit tr →
      ∃ k f, (∀ fuel, k ≤ fuel → policy_LT rand slice fuel (load tr) = Run.finished k f) ∧
        SpanAtLeast tr f.jobs) := by
  obtain ⟨h1, h2, h3, h4, h5⟩ := span_at_least_exact tr hv slice hs rand
  refine ⟨?_, ?_, ?_, ?_, ?_⟩
  · simp only [policy_FIFO_agree tr hv.2 hfit]; exact h1
  · simp only [policy_SJF_agree tr hv.2 hfit]; exact h2
  · simp only [policy_STCF_agree tr hv.2 hfit]; exact h3
  · simp only [policy_RR_agree tr hv.2 hfit slice hs]; exact h4
  · intro htk
    simp only [policy_LT_agree tr hv.2 hfit htk rand slice hs]; exact h5

/-- C2 (amended) on the trace `0,5 / 1,3` with slice 2 and the draws 0, 1, 2, ... -/
theorem C2_witness :
    valid_trace [(0, 5), (1, 3)] ∧ Fits [(0, 5), (1, 3)] ∧ (0 : Int) < 2 ∧
    (∃ k f, (∀ fuel, k ≤ fuel → policy_SJF fuel (load [(0, 5), (1, 3)]) = Run.finished k f) ∧
      SpanAtLeast [(0, 5), (1, 3)] f.jobs ∧ SpanExact [(0, 5), (1, 3)] f.jobs) :=
  ⟨by decide, by decide, by decide,
    (C2_span_at_least_length [(0, 5), (1, 3)] (by decide) (by decide) 2 (by decide)
      (fun k => k)).2.1⟩

/-- C3 as stated fails: on the valid trace `2147483646,3` (total work 3, one
arrival time) with slice 1 the clock of `policy_RR` wraps around after the second
grant, and the loop finishes after 5 iterations, one more than the bound 4. -/
theorem C3_counterexample :
    valid_trace [(2147483646, 3)] ∧
    ∃ f, policy_RR 1 5 (load [(2147483646, 3)]) = Run.finished 5 f ∧
      total_work [(2147483646, 3)] + distinct_arrivals [(2147483646, 3)] = 4 :=
  ⟨by decide,
   RRState.mk [Job.mk 0 2147483646 3 100 0 2147483646 2147483647] 2147483647 (some 0)
     [Seg.mk 2147483646 0 2147483646 1, Seg.mk 2147483647 0 2147483646 1,
      Seg.mk 2147483646 0 2147483646 1],
   by decide!, by decide⟩

/-- C3, amended: on every valid trace whose latest arrival plus the sum of its
lengths is at most `INT_MAX`, the loop of each policy (for `policy_LT` when
moreover the tickets of the registry sum to at most `INT_MAX`) finishes with
`all_done` true after at most total work plus number of distinct arrival times
iterations. -/
theorem C3_iterations_bounded (tr : List (Int × Int)) (hv : valid_trace tr)
    (hfit : Fits tr) (slice : Int) (hs : 0 < slice) (rand : Nat → Nat) :
    (∃ k f, (∀ fuel, k ≤ fuel → policy_FIFO fuel (load tr) = Run.finished k f) ∧
      all_done f.jobs = true ∧ k ≤ total_work tr + distinct_arrivals tr) ∧
    (∃ k f, (∀ fuel, k ≤ fuel → policy_SJF fuel (load tr) = Run.finished k f) ∧
      all_done f.jobs = true ∧ k ≤ total_work tr + distinct_arrivals tr) ∧
    (∃ k f, (∀ fuel, k ≤ fuel → policy_STCF fuel (load tr) = Run.finished k f) ∧
      all_done f.jobs = true ∧ k ≤ total_work tr + distinct_arrivals tr) ∧
    (∃ k f, (∀ fuel, k ≤ fuel → policy_RR slice fuel (load tr) = Run.finished k f) ∧
      all_done f.jobs = true ∧ k ≤ total_work tr + distinct_arrivals tr) ∧
    (TicketsFit tr →
      ∃ k f, (∀ fuel, k ≤ fuel → policy_LT rand slice fuel (load tr) = Run.finished k f) ∧
        all_done f.jobs = true ∧ k ≤ total_work tr + distinct_arrivals tr) := by
  obtain ⟨h1, h2, h3, h4, h5⟩ :=
    iterations_bounded_exact tr hv (hfit.arrivals hv.2) slice hs rand
  refine ⟨?_, ?_, ?_, ?_, ?_⟩
  · simp only [policy_FIFO_agree tr hv.2 hfit]; exact h1
  · simp only [policy_SJF_agree tr hv.2 hfit]; exact h2
  · simp only [policy_STCF_agree tr hv.2 hfit]; exact h3
  · simp only [policy_RR_agree tr hv.2 hfit slice hs]; exact h4
  · intro htk
    simp only [policy_LT_agree tr hv.2 hfit htk rand slice hs]; exact h5

/-- C3 (amended) on the trace `0,5 / 1,3` with slice 2 and the draws 0, 1, 2, ... -/
theorem C3_witness :
    valid_trace [(0, 5), (1, 3)] ∧ Fits [(0, 5), (1, 3)] ∧ (0 : Int) < 2 ∧
    (∃ k f, (∀ fuel, k ≤ fuel → policy_RR 2 fuel (load [(0, 5), (1, 3)]) = Run.finished k f) ∧
      all_done f.jobs = true ∧
      k ≤ total_work [(0, 5), (1, 3)] + distinct_arrivals [(0, 5), (1, 3)]) :=
  ⟨by decide, by decide, by decide,
    (C3_iterations_bounded [(0, 5), (1, 3)] (by decide) (by decide) 2 (by decide)
      (fun k => k)).2.2.2.1⟩

theorem finished_unique {σ : Type} (run : Nat → Run σ) (k k1 : Nat) (f f1 : σ)
    (h : ∀ fuel, k ≤ fuel → run fuel = Run.finished k f)
    (h1 : ∀ fuel, k1 ≤ fuel → run fuel = Run.finished k1 f1) : f = f1 := by
  have a := h (max k k1) (le_max_left _ _)
  have b := h1 (max k k1) (le_max_right _ _)
  rw [a] at b
  injection b

theorem first_start_le (id : Int) : ∀ (out : List Seg) (x : Int), Sequential out →
    first_start id out = some x → ∀ g ∈ out, g.id = id → x ≤ g.tstart := by
  intro out
  induction out with
  | nil => intro x _ _ g hg; cases hg
  | cons a rest ih =>
    intro x hseq hx g hg hid
    unfold Sequential at hseq
    rw [List.pairwise_cons] at hseq
    unfold first_start at hx
    by_cases ha : a.id = id
    · simp only [List.find?_cons, ha, decide_True, Option.map_some'] at hx
      injection hx with hx
      subst hx
      rcases List.mem_cons.1 hg with h | h
      · subst h; exact le_refl _
      · exact (hseq.1 g h).1
    · simp only [List.find?_cons, ha, decide_False] at hx
      rcases List.mem_cons.1 hg with h | h
      · subst h; exact absurd hid ha
      · exact ih x hseq.2 hx g h hid

theorem StampsOfSegs.to_stamps {tr : List (Int × Int)} {js : List Job} {out : List Seg}
    (h : StampsOfSegs tr js out) (hseq : Sequential out) : Stamps tr js out := by
  intro i p hp
  obtain ⟨j, h1, h2, h3, h4, h5⟩ := h i p hp
  exact ⟨j, h1, h2, h3, h4, fun g hg hid => ⟨h5 g hg hid, first_start_le _ out _ hseq h2 g hg hid⟩⟩

theorem IdleBelowEnd.conserving {js : List Job} {out : List Seg} (h : IdleBelowEnd js out)
    (hd : all_done js = true) : WorkConserving js out := by
  intro u hu hcov j hj hr
  have := (all_done_iff js).1 hd j hj
  rcases hr.2 with h1 | h1
  · omega
  · exact h u hu hcov j hj ⟨hr.1, h1⟩

/-! ### The two stamps -/

/-- C9 as stated fails: on the valid trace `2147483646,3 / 2147483646,5` the
clock of `policy_SJF` wraps around when job 0 finishes, so its `end_time` is set
to -2147483647, which is negative; job 0 is then picked again, runs for 0 units
and its `end_time` is set a second time, to 2147483646; the loop ends after 4
iterations, and job 1 has no segment and both stamps still at -1. -/
theorem C9_counterexample :
    valid_trace [(2147483646, 3), (2147483646, 5)] ∧
    ∃ f, policy_SJF 4 (load [(2147483646, 3), (2147483646, 5)]) = Run.finished 4 f ∧
      ¬ Stamps [(2147483646, 3), (2147483646, 5)] f.jobs f.out ∧
      ∃ s, Reach SJF_cond SJF_body (SJF_init (load [(2147483646, 3), (2147483646, 5)])) s ∧
        s.jobs[0]? = some (Job.mk 0 2147483646 3 100 0 2147483646 (-2147483647)) ∧
        f.jobs[0]? = some (Job.mk 0 2147483646 3 100 0 2147483646 2147483646) ∧
        ¬ SetOnce s.jobs f.jobs :=
  ⟨by decide,
   SJFState.mk [Job.mk 0 2147483646 3 100 0 2147483646 2147483646,
                Job.mk 1 2147483646 5 200 5 (-1) (-1)] 2147483646 0
     [Seg.mk 2147483646 0 2147483646 3, Seg.mk 2147483646 0 2147483646 0],
   by decide!,
   fun h => by
     obtain ⟨j, _, h1, _⟩ := h 1 (2147483646, 5) rfl
     simp [first_start] at h1,
   SJFState.mk [Job.mk 0 2147483646 3 100 0 2147483646 (-2147483647),
                Job.mk 1 2147483646 5 200 5 (-1) (-1)] (-2147483647) 1
     [Seg.mk 2147483646 0 2147483646 3],
   Reach.of_loop_state 2 _ _ (by decide!), rfl, rfl,
   fun h => by
     obtain ⟨x, hx, _, h2⟩ := h 0 _ rfl
     simp at hx
     subst hx
     revert h2
     decide⟩

/-- C9, amended: on every valid trace whose latest arrival plus the sum of its
lengths is at most `INT_MAX`, for every policy (for `policy_LT` when moreover the
tickets of the registry sum to at most `INT_MAX`), at the end of the run the
`start_time` of each job is the start of the first segment printed for it, its
`end_time` is the start plus the duration of the last one, and every segment
printed for it starts at or after its arrival and at or after its `start_time`;
and at the head of every iteration each of the two stamps of each job is either
the sentinel -1 or already its final value, so it is written once. -/
theorem C9_stamps_set_once (tr : List (Int × Int)) (hv : valid_trace tr) (hfit : Fits tr)
    (slice : Int) (hs : 0 < slice) (rand : Nat → Nat) :
    (∃ k f, (∀ fuel, k ≤ fuel → policy_FIFO fuel (load tr) = Run.finished k f) ∧
      Stamps tr f.jobs f.out ∧
      ∀ s, Reach FIFO_cond FIFO_body (FIFO_init (load tr)) s → SetOnce s.jobs f.jobs) ∧
    (∃ k f, (∀ fuel, k ≤ fuel → policy_SJF fuel (load tr) = Run.finished k f) ∧
      Stamps tr f.jobs f.out ∧
      ∀ s, Reach SJF_cond SJF_body (SJF_init (load tr)) s → SetOnce s.jobs f.jobs) ∧
    (∃ k f, (∀ fuel, k ≤ fuel → policy_STCF fuel (load tr) = Run.finished k f) ∧
      Stamps tr f.jobs f.out ∧
      ∀ s, Reach STCF_cond STCF_body (STCF_init (load tr)) s → SetOnce s.jobs f.jobs) ∧
    (∃ k f, (∀ fuel, k ≤ fuel → policy_RR slice fuel (load tr) = Run.finished k f) ∧
      Stamps tr f.jobs f.out ∧
      ∀ s, Reach RR_cond (RR_body slice) (RR_init (load tr)) s → SetOnce s.jobs f.jobs) ∧
    (TicketsFit tr →
      ∃ k f, (∀ fuel, k ≤ fuel → policy_LT rand slice fuel (load tr) = Run.finished k f) ∧
        Stamps tr f.jobs f.out ∧
        ∀ s, Reach LT_cond (LT_body rand slice) (LT_init (load tr)) s →
          SetOnce s.jobs f.jobs) := by
  obtain ⟨a1, a2, a3, a4, a5⟩ := stamps_set_once_exact tr hv slice hs rand
  obtain ⟨b1, b2, b3, b4, b5⟩ := no_overlap_exact tr hv slice hs rand
  refine ⟨?_, ?_, ?_, ?_, ?_⟩
  · obtain ⟨k, f, hrun, hst, hso⟩ := a1
    obtain ⟨k1, f1, hrun1, hseq⟩ := b1
    have e := finished_unique _ k k1 f f1 hrun hrun1
    subst e
    refine ⟨k, f, ?_, hst.to_stamps hseq, fun s h => hso s ((FIFO_reach_iff tr hv.2 hfit s).1 h)⟩
    simp only [policy_FIFO_agree tr hv.2 hfit]; exact hrun
  · obtain ⟨k, f, hrun, hst, hso⟩ := a2
    obtain ⟨k1, f1, hrun1, hseq⟩ := b2
    have e := finished_unique _ k k1 f f1 hrun hrun1
    subst e
    refine ⟨k, f, ?_, hst.to_stamps hseq, fun s h => hso s ((SJF_reach_iff tr hv.2 hfit s).1 h)⟩
    simp only [policy_SJF_agree tr hv.2 hfit]; exact hrun
  · obtain ⟨k, f, hrun, hst, hso⟩ := a3
    obtain ⟨k1, f1, hrun1, hseq⟩ := b3
    have e := finished_unique _ k k1 f f1 hrun hrun1
    subst e
    refine ⟨k, f, ?_, hst.to_stamps hseq, fun s h => hso s ((STCF_reach_iff tr hv.2 hfit s).1 h)⟩
    simp only [policy_STCF_agree tr hv.2 hfit]; exact hrun
  · obtain ⟨k, f, hrun, hst, hso⟩ := a4
    obtain ⟨k1, f1, hrun1, hseq⟩ := b4
    have e := finished_unique _ k k1 f f1 hrun hrun1
    subst e
    refine ⟨k, f, ?_, hst.to_stamps hseq,
      fun s h => hso s ((RR_reach_iff tr hv.2 hfit slice hs s).1 h)⟩
    simp only [policy_RR_agree tr hv.2 hfit slice hs]; exact hrun
  · intro htk
    obtain ⟨k, f, hrun, hst, hso⟩ := a5
    obtain ⟨k1, f1, hrun1, hseq⟩ := b5
    have e := finished_unique _ k k1 f f1 hrun hrun1
    subst e
    refine ⟨k, f, ?_, hst.to_stamps hseq,
      fun s h => hso s ((LT_reach_iff tr hv.2 hfit htk rand slice hs s).1 h)⟩
    simp only [policy_LT_agree tr hv.2 hfit htk rand slice hs]; exact hrun

/-- C9 (amended) on the trace `0,5 / 1,3` with slice 2 and the draws 0, 1, 2, ... -/
theorem C9_witness :
    valid_trace [(0, 5), (1, 3)] ∧ Fits [(0, 5), (1, 3)] ∧ (0 : Int) < 2 ∧
    (∃ k f, (∀ fuel, k ≤ fuel → policy_STCF fuel (load [(0, 5), (1, 3)]) = Run.finished k f) ∧
      Stamps [(0, 5), (1, 3)] f.jobs f.out ∧
      ∀ s, Reach STCF_cond STCF_body (STCF_init (load [(0, 5), (1, 3)])) s →
        SetOnce s.jobs f.jobs) :=
  ⟨by decide, by decide, by decide,
    (C9_stamps_set_once [(0, 5), (1, 3)] (by decide) (by decide) 2 (by decide)
      (fun k => k)).2.2.1⟩

/-! ### The invariant of `remaining` -/

/-- C16 as stated fails: on the valid trace `2147483646,2` with slice 2 the clock
of `policy_RR` wraps around when job 0 finishes; at the head of the third
iteration job 0 has `remaining = 0` and `end_time = -2147483648`, which is
negative. -/
theorem C16_counterexample :
    valid_trace [(2147483646, 2)] ∧
    ∃ s, Reach RR_cond (RR_body 2) (RR_init (load [(2147483646, 2)])) s ∧ RR_cond s = true ∧
      s.jobs = [Job.mk 0 2147483646 2 100 0 2147483646 (-2147483648)] ∧
      ¬ HeadInv s.jobs :=
  ⟨by decide,
   RRState.mk [Job.mk 0 2147483646 2 100 0 2147483646 (-2147483648)] (-2147483648) (some 0)
     [Seg.mk 2147483646 0 2147483646 2],
   Reach.of_loop_state 2 _ _ (by decide!), by decide, rfl,
   fun h => by
     have := (h _ (List.mem_singleton.2 rfl)).1.2.2
     revert this
     decide⟩

/-- C16, amended: on every valid trace whose latest arrival plus the sum of its
lengths is at most `INT_MAX`, for every slice above 0 and every sequence of
draws, at the head of every iteration of the loop of each of the five policies
(for `policy_LT` when moreover the tickets of the registry sum to at most
`INT_MAX`) every job has `0 <= remaining <= length` and `end_time < 0` exactly
when `remaining > 0`; so the readiness test of `pick_sjf` and `pick_stcf` and the
one of `find_next_ready_from`, `total_ready_tickets` and `pick_lottery` select
the same jobs. -/
theorem C16_remaining_invariant (tr : List (Int × Int)) (hv : valid_trace tr) (hfit : Fits tr)
    (slice : Int) (hs : 0 < slice) (rand : Nat → Nat) :
    (∀ s, Reach FIFO_cond FIFO_body (FIFO_init (load tr)) s → HeadInv s.jobs) ∧
    (∀ s, Reach SJF_cond SJF_body (SJF_init (load tr)) s → HeadInv s.jobs) ∧
    (∀ s, Reach STCF_cond STCF_body (STCF_init (load tr)) s → HeadInv s.jobs) ∧
    (∀ s, Reach RR_cond (RR_body slice) (RR_init (load tr)) s → HeadInv s.jobs) ∧
    (TicketsFit tr →
      ∀ s, Reach LT_cond (LT_body rand slice) (LT_init (load tr)) s → HeadInv s.jobs) := by
  obtain ⟨h1, h2, h3, h4, h5⟩ := remaining_invariant_exact tr hv slice hs rand
  exact ⟨fun s h => h1 s ((FIFO_reach_iff tr hv.2 hfit s).1 h),
    fun s h => h2 s ((SJF_reach_iff tr hv.2 hfit s).1 h),
    fun s h => h3 s ((STCF_reach_iff tr hv.2 hfit s).1 h),
    fun s h => h4 s ((RR_reach_iff tr hv.2 hfit slice hs s).1 h),
    fun htk s h => h5 s ((LT_reach_iff tr hv.2 hfit htk rand slice hs s).1 h)⟩

/-- C16 (amended) on the trace `0,5 / 1,3` with slice 2 and the draws 0, 1, 2, ... -/
theorem C16_witness :
    valid_trace [(0, 5), (1, 3)] ∧ Fits [(0, 5), (1, 3)] ∧ (0 : Int) < 2 ∧
    (∀ s, Reach RR_cond (RR_body 2) (RR_init (load [(0, 5), (1, 3)])) s → HeadInv s.jobs) :=
  ⟨by decide, by decide, by decide,
    (C16_remaining_invariant [(0, 5), (1, 3)] (by decide) (by decide) 2 (by decide)
      (fun k => k)).2.2.2.1⟩

/-! ### The single-tick fallback -/

/-- C17 as stated fails: on the valid trace `2147483646,2` (arrival below
`INT_MAX`) with slice 2 the clock of `policy_RR` wraps around when job 0
finishes, which leaves job 0 with `remaining = 0` and a negative `end_time`.  At
the head of the third iteration (clock -2147483648) no job is ready, and the
clock jumps to 2147483646, where no job is ready either; at the head of the
fourth iteration the loop is entered, `find_next_ready_from` finds no job,
`next_arrival_after` returns `INT_MAX` and the clock becomes `t + 1`. -/
theorem C17_counterexample :
    valid_trace [(2147483646, 2)] ∧ (∀ p ∈ [((2147483646 : Int), (2 : Int))], p.1 < INT_MAX) ∧
    (∃ s s1, Reach RR_cond (RR_body 2) (RR_init (load [(2147483646, 2)])) s ∧
      RR_cond s = true ∧ RR_body 2 s = some s1 ∧ ¬ NoFallback s.jobs s.t s1.jobs s1.t) ∧
    (∃ s s1, Reach RR_cond (RR_body 2) (RR_init (load [(2147483646, 2)])) s ∧
      RR_cond s = true ∧ RR_body 2 s = some s1 ∧
      find_next_ready_from s.jobs (RR_from s) s.t = none ∧
      next_arrival_after s.jobs s.t = INT_MAX ∧ s.t = 2147483646 ∧ s1.t = s.t + 1) :=
  ⟨by decide, by decide,
   ⟨RRState.mk [Job.mk 0 2147483646 2 100 0 2147483646 (-2147483648)] (-2147483648) (some 0)
      [Seg.mk 2147483646 0 2147483646 2],
    RRState.mk [Job.mk 0 2147483646 2 100 0 2147483646 (-2147483648)] 2147483646 none
      [Seg.mk 2147483646 0 2147483646 2],
    Reach.of_loop_state 2 _ _ (by decide!), by decide, by decide,
    fun h => by
      obtain ⟨_, _, y, hy, _, _, h3⟩ := h (by decide)
      simp at hy
      subst hy
      revert h3
      decide⟩,
   ⟨RRState.mk [Job.mk 0 2147483646 2 100 0 2147483646 (-2147483648)] 2147483646 none
      [Seg.mk 2147483646 0 2147483646 2],
    RRState.mk [Job.mk 0 2147483646 2 100 0 2147483646 (-2147483648)] 2147483647 none
      [Seg.mk 2147483646 0 2147483646 2],
    Reach.of_loop_state 3 _ _ (by decide!), by decide, by decide, by decide, by decide, rfl,
    by decide⟩⟩

/-- C17, amended: on every valid trace whose latest arrival plus the sum of its
lengths is at most `INT_MAX` (every arrival is then below `INT_MAX`), for every
slice above 0 and every sequence of draws, in `policy_SJF`, `policy_STCF`,
`policy_RR` and (when moreover the tickets of the registry sum to at most
`INT_MAX`) `policy_LT`: at the head of an iteration that the loop enters (not all
jobs are done) with no job ready at the clock, `next_arrival_after` does not
return `INT_MAX`, the iteration sets the clock to the value it returns and not to
`t + 1`, and some job is ready at the new clock. -/
theorem C17_fallback_unreachable (tr : List (Int × Int)) (hv : valid_trace tr)
    (hfit : Fits tr) (slice : Int) (hs : 0 < slice) (rand : Nat → Nat) :
    (∀ s s1, Reach SJF_cond SJF_body (SJF_init (load tr)) s → SJF_cond s = true →
      SJF_body s = some s1 → NoFallback s.jobs s.t s1.jobs s1.t) ∧
    (∀ s s1, Reach STCF_cond STCF_body (STCF_init (load tr)) s → STCF_cond s = true →
      STCF_body s = some s1 → NoFallback s.jobs s.t s1.jobs s1.t) ∧
    (∀ s s1, Reach RR_cond (RR_body slice) (RR_init (load tr)) s → RR_cond s = true →
      RR_body slice s = some s1 → NoFallback s.jobs s.t s1.jobs s1.t) ∧
    (TicketsFit tr →
      ∀ s s1, Reach LT_cond (LT_body rand slice) (LT_init (load tr)) s → LT_cond s = true →
        LT_body rand slice s = some s1 → NoFallback s.jobs s.t s1.jobs s1.t) := by
  obtain ⟨h1, h2, h3, h4⟩ :=
    fallback_unreachable_exact tr hv (hfit.arrivals hv.2) slice hs rand
  refine ⟨?_, ?_, ?_, ?_⟩
  · intro s s1 h hc hb
    have hr := (SJF_reach_iff tr hv.2 hfit s).1 h
    rw [SJF_agree tr hv.2 hfit s hr hc] at hb
    exact h1 s s1 hr hc hb
  · intro s s1 h hc hb
    have hr := (STCF_reach_iff tr hv.2 hfit s).1 h
    rw [STCF_agree tr hv.2 hfit s hr hc] at hb
    exact h2 s s1 hr hc hb
  · intro s s1 h hc hb
    have hr := (RR_reach_iff tr hv.2 hfit slice hs s).1 h
    rw [RR_agree tr hv.2 hfit slice hs s hr hc] at hb
    exact h3 s s1 hr hc hb
  · intro htk s s1 h hc hb
    have hr := (LT_reach_iff tr hv.2 hfit htk rand slice hs s).1 h
    rw [LT_agree tr hv.2 hfit htk rand slice hs s hr hc] at hb
    exact h4 s s1 hr hc hb

/-- C17 (amended) on the trace `3,2 / 7,1` with slice 2 and the draws 0, 1, 2, ... -/
theorem C17_witness :
    valid_trace [(3, 2), (7, 1)] ∧ Fits [(3, 2), (7, 1)] ∧ (0 : Int) < 2 ∧
    (∀ s s1, Reach STCF_cond STCF_body (STCF_init (load [(3, 2), (7, 1)])) s →
      STCF_cond s = true → STCF_body s = some s1 → NoFallback s.jobs s.t s1.jobs s1.t) :=
  ⟨by decide, by decide, by decide,
    (C17_fallback_unreachable [(3, 2), (7, 1)] (by decide) (by decide) 2 (by decide)
      (fun k => k)).2.1⟩

/-! ### One processor -/

/-- C18 as stated fails: on the valid trace `2147483646,3` the clock of
`policy_STCF` wraps around during the run of job 0; the loop finishes after 5
iterations and has printed the segment `(2147483646, Job 0, 2)` and then the
segment `(2147483646, Job 0, 1)`, which starts before the end of the first. -/
theorem C18_counterexample :
    valid_trace [(2147483646, 3)] ∧
    ∃ f, policy_STCF 5 (load [(2147483646, 3)]) = Run.finished 5 f ∧
      f.out = [Seg.mk 2147483646 0 2147483646 2, Seg.mk 2147483646 0 2147483646 1] ∧
      ¬ Sequential f.out :=
  ⟨by decide,
   STCFState.mk [Job.mk 0 2147483646 3 100 0 2147483646 2147483647] 2147483647 none (-1)
     [Seg.mk 2147483646 0 2147483646 2, Seg.mk 2147483646 0 2147483646 1],
   by decide!, rfl, by
     unfold Sequential
     decide⟩

/-- C18, amended: on every valid trace whose latest arrival plus the sum of its
lengths is at most `INT_MAX`, for every slice above 0 and every sequence of
draws, each policy (for `policy_LT` when moreover the tickets of the registry sum
to at most `INT_MAX`) finishes and the segments it has printed are in order of
start time, each starting at or after the end of every segment printed before
it, so no two of them overlap. -/
theorem C18_segments_do_not_overlap (tr : List (Int × Int)) (hv : valid_trace tr)
    (hfit : Fits tr) (slice : Int) (hs : 0 < slice) (rand : Nat → Nat) :
    (∃ k f, (∀ fuel, k ≤ fuel → policy_FIFO fuel (load tr) = Run.finished k f) ∧
      Sequential f.out) ∧
    (∃ k f, (∀ fuel, k ≤ fuel → policy_SJF fuel (load tr) = Run.finished k f) ∧
      Sequential f.out) ∧
    (∃ k f, (∀ fuel, k ≤ fuel → policy_STCF fuel (load tr) = Run.finished k f) ∧
      Sequential f.out) ∧
    (∃ k f, (∀ fuel, k ≤ fuel → policy_RR slice fuel (load tr) = Run.finished k f) ∧
      Sequential f.out) ∧
    (TicketsFit tr →
      ∃ k f, (∀ fuel, k ≤ fuel → policy_LT rand slice fuel (load tr) = Run.finished k f) ∧
        Sequential f.out) := by
  obtain ⟨h1, h2, h3, h4, h5⟩ := no_overlap_exact tr hv slice hs rand
  refine ⟨?_, ?_, ?_, ?_, ?_⟩
  · simp only [policy_FIFO_agree tr hv.2 hfit]; exact h1
  · simp only [policy_SJF_agree tr hv.2 hfit]; exact h2
  · simp only [policy_STCF_agree tr hv.2 hfit]; exact h3
  · simp only [policy_RR_agree tr hv.2 hfit slice hs]; exact h4
  · intro htk
    simp only [policy_LT_agree tr hv.2 hfit htk rand slice hs]; exact h5

/-- C18 (amended) on the trace `0,5 / 1,3` with slice 2 and the draws 0, 1, 2, ... -/
theorem C18_witness :
    valid_trace [(0, 5), (1, 3)] ∧ Fits [(0, 5), (1, 3)] ∧ (0 : Int) < 2 ∧
    (∃ k f, (∀ fuel, k ≤ fuel → policy_RR 2 fuel (load [(0, 5), (1, 3)]) = Run.finished k f) ∧
      Sequential f.out) :=
  ⟨by decide, by decide, by decide,
    (C18_segments_do_not_overlap [(0, 5), (1, 3)] (by decide) (by decide) 2 (by decide)
      (fun k => k)).2.2.2.1⟩

/-! ### Work conservation -/

/-- The loop of `policy_RR` runs for ever from a state whose registry is job 0
with nothing remaining and a negative `end_time`. -/
theorem RR_stuck (slice : Int) (j : Job) (hr : j.remaining = 0) (he : j.end_time < 0) :
    ∀ (fuel : Nat) (s : RRState), s.jobs = [j] ∧ (s.curr = none ∨ s.curr = some 0) →
      runLoop RR_cond (RR_body slice) fuel s = Run.running := by
  apply runLoop_running
  intro s hs
  obtain ⟨hj, hc⟩ := hs
  refine ⟨?_, ?_⟩
  · simp [RR_cond, hj, all_done, he]
  · refine ⟨{ s with t := idle_jump s.jobs s.t, curr := none }, ?_, hj, Or.inl rfl⟩
    rcases hc with hc | hc <;>
      simp [RR_body, RR_from, hj, hc, head_ptr, find_next_ready_from, find_scan, hr,
        next_or_head]

/-- C19 as stated fails.  On the valid trace `2147483646,3 / 2147483646,5` the
clock of `policy_SJF` wraps around when job 0 finishes; job 0 is picked a second
time, and the loop ends after 4 iterations without having run job 1, which has
arrived at 2147483646 and is never finished: at the instant 2147483649, where
the only segment of positive duration ends, no segment is running and job 1 has
arrived and is unfinished.  On the valid trace `2147483646,2` with slice 2 the clock of
`policy_RR` wraps around when job 0 finishes, which leaves job 0 with
`remaining = 0` and the negative `end_time = -2147483648`: `all_done` stays false
and the loop never finishes, so there is no completion time; from the third
iteration on the processor idles, also at the clock 2147483646, at which job 0
has arrived and has a negative `end_time`. -/
theorem C19_counterexample :
    valid_trace [(2147483646, 3), (2147483646, 5)] ∧
    (∃ f, policy_SJF 4 (load [(2147483646, 3), (2147483646, 5)]) = Run.finished 4 f ∧
      f.out = [Seg.mk 2147483646 0 2147483646 3, Seg.mk 2147483646 0 2147483646 0] ∧
      f.jobs[1]? = some (Job.mk 1 2147483646 5 200 5 (-1) (-1)) ∧
      all_done f.jobs = false ∧ ¬ WorkConserving f.jobs f.out) ∧
    valid_trace [(2147483646, 2)] ∧
    (∀ fuel, policy_RR 2 fuel (load [(2147483646, 2)]) = Run.running) ∧
    ∃ s s1, Reach RR_cond (RR_body 2) (RR_init (load [(2147483646, 2)])) s ∧
      RR_cond s = true ∧ RR_body 2 s = some s1 ∧ s.t = 2147483646 ∧ s1.out = s.out ∧
      s1.jobs = s.jobs ∧ ∃ j ∈ s.jobs, j.arrival ≤ s.t ∧ j.end_time < 0 :=
  ⟨by decide,
   ⟨SJFState.mk [Job.mk 0 2147483646 3 100 0 2147483646 2147483646,
                 Job.mk 1 2147483646 5 200 5 (-1) (-1)] 2147483646 0
      [Seg.mk 2147483646 0 2147483646 3, Seg.mk 2147483646 0 2147483646 0],
    by decide!, rfl, rfl, by decide,
    fun h => h 2147483649 (by decide) (by decide) (Job.mk 1 2147483646 5 200 5 (-1) (-1))
      (List.mem_cons_of_mem _ (List.mem_singleton.2 rfl)) ⟨by decide, Or.inl (by decide)⟩⟩,
   by decide,
   Reach.never_finishes
     (Reach.of_loop_state 2 _
       (RRState.mk [Job.mk 0 2147483646 2 100 0 2147483646 (-2147483648)] (-2147483648)
         (some 0) [Seg.mk 2147483646 0 2147483646 2]) (by decide!))
     (fun fuel => RR_stuck 2 _ rfl (by decide) fuel _ ⟨rfl, Or.inr rfl⟩),
   RRState.mk [Job.mk 0 2147483646 2 100 0 2147483646 (-2147483648)] 2147483646 none
     [Seg.mk 2147483646 0 2147483646 2],
   RRState.mk [Job.mk 0 2147483646 2 100 0 2147483646 (-2147483648)] 2147483647 none
     [Seg.mk 2147483646 0 2147483646 2],
   Reach.of_loop_state 3 _ _ (by decide!), by decide, by decide, rfl, rfl, rfl,
   Job.mk 0 2147483646 2 100 0 2147483646 (-2147483648), List.mem_singleton.2 rfl,
   by decide, by decide⟩

/-- C19, amended: on every valid trace whose latest arrival plus the sum of its
lengths is at most `INT_MAX`, for every slice above 0 and every sequence of
draws, `policy_SJF`, `policy_STCF`, `policy_RR` and (when moreover the tickets of
the registry sum to at most `INT_MAX`) `policy_LT` finish with every job
completed (`all_done` is true) and are work conserving: at every instant from 0
on that no printed segment covers, no job has arrived and is still unfinished
(has no `end_time` or a later one). -/
theorem C19_work_conservation (tr : List (Int × Int)) (hv : valid_trace tr) (hfit : Fits tr)
    (slice : Int) (hs : 0 < slice) (rand : Nat → Nat) :
    (∃ k f, (∀ fuel, k ≤ fuel → policy_SJF fuel (load tr) = Run.finished k f) ∧
      all_done f.jobs = true ∧ WorkConserving f.jobs f.out) ∧
    (∃ k f, (∀ fuel, k ≤ fuel → policy_STCF fuel (load tr) = Run.finished k f) ∧
      all_done f.jobs = true ∧ WorkConserving f.jobs f.out) ∧
    (∃ k f, (∀ fuel, k ≤ fuel → policy_RR slice fuel (load tr) = Run.finished k f) ∧
      all_done f.jobs = true ∧ WorkConserving f.jobs f.out) ∧
    (TicketsFit tr →
      ∃ k f, (∀ fuel, k ≤ fuel → policy_LT rand slice fuel (load tr) = Run.finished k f) ∧
        all_done f.jobs = true ∧ WorkConserving f.jobs f.out) := by
  obtain ⟨a2, a3, a4, a5⟩ := work_conservation_exact tr hv slice hs rand
  obtain ⟨_, b2, b3, b4, b5⟩ :=
    iterations_bounded_exact tr hv (hfit.arrivals hv.2) slice hs rand
  refine ⟨?_, ?_, ?_, ?_⟩
  · obtain ⟨k, f, hrun, hw⟩ := a2
    obtain ⟨k1, f1, hrun1, hd, _⟩ := b2
    have e := finished_unique _ k k1 f f1 hrun hrun1
    subst e
    refine ⟨k, f, ?_, hd, hw.conserving hd⟩
    simp only [policy_SJF_agree tr hv.2 hfit]; exact hrun
  · obtain ⟨k, f, hrun, hw⟩ := a3
    obtain ⟨k1, f1, hrun1, hd, _⟩ := b3
    have e := finished_unique _ k k1 f f1 hrun hrun1
    subst e
    refine ⟨k, f, ?_, hd, hw.conserving hd⟩
    simp only [policy_STCF_agree tr hv.2 hfit]; exact hrun
  · obtain ⟨k, f, hrun, hw⟩ := a4
    obtain ⟨k1, f1, hrun1, hd, _⟩ := b4
    have e := finished_unique _ k k1 f f1 hrun hrun1
    subst e
    refine ⟨k, f, ?_, hd, hw.conserving hd⟩
    simp only [policy_RR_agree tr hv.2 hfit slice hs]; exact hrun
  · intro htk
    obtain ⟨k, f, hrun, hw⟩ := a5
    obtain ⟨k1, f1, hrun1, hd, _⟩ := b5
    have e := finished_unique _ k k1 f f1 hrun hrun1
    subst e
    refine ⟨k, f, ?_, hd, hw.conserving hd⟩
    simp only [policy_LT_agree tr hv.2 hfit htk rand slice hs]; exact hrun

/-- C19 (amended) on the trace `3,2 / 7,1` with slice 2 and the draws 0, 1, 2, ... -/
theorem C19_witness :
    valid_trace [(3, 2), (7, 1)] ∧ Fits [(3, 2), (7, 1)] ∧ (0 : Int) < 2 ∧
    (∃ k f, (∀ fuel, k ≤ fuel → policy_RR 2 fuel (load [(3, 2), (7, 1)]) = Run.finished k f) ∧
      all_done f.jobs = true ∧ WorkConserving f.jobs f.out) :=
  ⟨by decide, by decide, by decide,
    (C19_work_conservation [(3, 2), (7, 1)] (by decide) (by decide) 2 (by decide)
      (fun k => k)).2.2.1⟩

/-! ### STCF: preemption -/

/-- C7 as stated fails: on the valid trace
`2147483644,1 / 2147483644,5 / 2147483645,1` the clock of `policy_STCF` wraps
around during the run of job 1, which is then run again from its arrival on.  The
seventh iteration runs job 1 for the tick that ends at 2147483645 and leaves it
2 units; job 2 has arrival 2147483645 and length 1; the loop finishes after 9
iterations, and no printed segment of job 1 ends at 2147483645 (nor does one in
the arithmetic of `int`). -/
theorem C7_counterexample :
    valid_trace [(2147483644, 1), (2147483644, 5), (2147483645, 1)] ∧
    ∃ f, policy_STCF 9 (load [(2147483644, 1), (2147483644, 5), (2147483645, 1)]) =
        Run.finished 9 f ∧
      ∃ s0 s aj0 aj,
        Reach STCF_cond STCF_body
          (STCF_init (load [(2147483644, 1), (2147483644, 5), (2147483645, 1)])) s0 ∧
        STCF_cond s0 = true ∧ STCF_body s0 = some s ∧
        s0.jobs[1]? = some aj0 ∧ s.jobs[1]? = some aj ∧ aj.remaining = aj0.remaining - 1 ∧
        s.t = 2147483645 ∧ (1 : Int) < aj.remaining ∧
        ¬ ∃ g ∈ f.out, g.id = 1 ∧ (g.tstart + g.ran = s.t ∨ wrap (g.tstart + g.ran) = s.t) :=
  ⟨by decide,
   STCFState.mk [Job.mk 0 2147483644 1 100 0 2147483644 2147483645,
                 Job.mk 1 2147483644 5 200 0 2147483646 2147483647,
                 Job.mk 2 2147483645 1 300 0 2147483645 2147483646] 2147483647 none (-1)
     [Seg.mk 2147483644 0 2147483644 1, Seg.mk 2147483645 2 2147483645 1,
      Seg.mk 2147483646 1 2147483644 2, Seg.mk 2147483644 1 2147483644 3],
   by decide!,
   STCFState.mk [Job.mk 0 2147483644 1 100 0 2147483644 2147483645,
                 Job.mk 1 2147483644 5 200 3 2147483646 (-1),
                 Job.mk 2 2147483645 1 300 0 2147483645 2147483646] 2147483644 none
     (-2147483648)
     [Seg.mk 2147483644 0 2147483644 1, Seg.mk 2147483645 2 2147483645 1,
      Seg.mk 2147483646 1 2147483644 2],
   STCFState.mk [Job.mk 0 2147483644 1 100 0 2147483644 2147483645,
                 Job.mk 1 2147483644 5 200 2 2147483646 (-1),
                 Job.mk 2 2147483645 1 300 0 2147483645 2147483646] 2147483645 (some 1)
     2147483644
     [Seg.mk 2147483644 0 2147483644 1, Seg.mk 2147483645 2 2147483645 1,
      Seg.mk 2147483646 1 2147483644 2],
   Job.mk 1 2147483644 5 200 3 2147483646 (-1), Job.mk 1 2147483644 5 200 2 2147483646 (-1),
   Reach.of_loop_state 6 _ _ (by decide!), by decide, by decide!, rfl, rfl, by decide, rfl,
   by decide, by decide⟩

/-- C7, amended: on every valid trace whose latest arrival plus the sum of its
lengths is at most `INT_MAX`, `policy_STCF` finishes, and whenever an iteration
has run job `a` for the tick that ends at the instant `s.t`, and a job `b` of the
trace arrives at that instant with a length below what remains of `a`, the
printed trace has a segment of `a` that ends at that instant and a segment of
another job that starts at it, and the segments of `a` sum to its length.  The
trace `0,5 / 1,3` gives the segments `(0, Job 0, 1)`, `(1, Job 1, 3)`,
`(4, Job 0, 4)`. -/
theorem C7_stcf_preemption (tr : List (Int × Int)) (hv : valid_trace tr) (hfit : Fits tr) :
    (∃ k f, (∀ fuel, k ≤ fuel → policy_STCF fuel (load tr) = Run.finished k f) ∧
      ∀ (s0 s : STCFState) (a b : Nat) (aj0 aj : Job) (pb : Int × Int),
        Reach STCF_cond STCF_body (STCF_init (load tr)) s0 → STCF_cond s0 = true →
        STCF_body s0 = some s →
        s0.jobs[a]? = some aj0 → s.jobs[a]? = some aj → aj.remaining = aj0.remaining - 1 →
        tr[b]? = some pb → pb.1 = s.t → pb.2 < aj.remaining →
        (∃ g ∈ f.out, g.id = (a : Int) ∧ g.tstart + g.ran = s.t) ∧
        (∃ g ∈ f.out, g.id ≠ (a : Int) ∧ g.tstart = s.t) ∧
        ran_total (a : Int) f.out = aj.length) ∧
    policy_STCF 8 (load [(0, 5), (1, 3)]) = Run.finished 8
      { jobs := [{ id := 0, arrival := 0, length := 5, tickets := 100, remaining := 0,
                   start_time := 0, end_time := 8 },
                 { id := 1, arrival := 1, length := 3, tickets := 200, remaining := 0,
                   start_time := 1, end_time := 4 }],
        t := 8, curr := none, seg_start := -1,
        out := [{ tstart := 0, id := 0, arrival := 0, ran := 1 },
                { tstart := 1, id := 1, arrival := 1, ran := 3 },
                { tstart := 4, id := 0, arrival := 0, ran := 4 }] } := by
  obtain ⟨⟨k, f, hrun, hall⟩, hex⟩ := stcf_preemption_exact tr hv
  refine ⟨⟨k, f, ?_, ?_⟩, ?_⟩
  · simp only [policy_STCF_agree tr hv.2 hfit]; exact hrun
  · intro s0 s a b aj0 aj pb h hc hb
    have hr := (STCF_reach_iff tr hv.2 hfit s0).1 h
    rw [STCF_agree tr hv.2 hfit s0 hr hc] at hb
    exact hall s0 s a b aj0 aj pb hr hc hb
  · rw [policy_STCF_agree [(0, 5), (1, 3)] (by decide) (by decide)]
    exact hex

/-- C7 (amended) on the trace `0,5 / 1,3`. -/
theorem C7_witness :
    valid_trace [(0, 5), (1, 3)] ∧ Fits [(0, 5), (1, 3)] ∧
    ∃ k f, (∀ fuel, k ≤ fuel → policy_STCF fuel (load [(0, 5), (1, 3)]) = Run.finished k f) ∧
      ∀ (s0 s : STCFState) (a b : Nat) (aj0 aj : Job) (pb : Int × Int),
        Reach STCF_cond STCF_body (STCF_init (load [(0, 5), (1, 3)])) s0 →
        STCF_cond s0 = true → STCF_body s0 = some s →
        s0.jobs[a]? = some aj0 → s.jobs[a]? = some aj → aj.remaining = aj0.remaining - 1 →
        [((0 : Int), (5 : Int)), (1, 3)][b]? = some pb → pb.1 = s.t → pb.2 < aj.remaining →
        (∃ g ∈ f.out, g.id = (a : Int) ∧ g.tstart + g.ran = s.t) ∧
        (∃ g ∈ f.out, g.id ≠ (a : Int) ∧ g.tstart = s.t) ∧
        ran_total (a : Int) f.out = aj.length :=
  ⟨by decide, by decide, (C7_stcf_preemption [(0, 5), (1, 3)] (by decide) (by decide)).1⟩

theorem STCF_tick_step (s : STCFState) (n : Nat) (nj : Job) (hc : s.curr = some n)
    (hj : s.jobs[n]? = some nj) :
    ∃ s1 nj1, STCF_tick s = some s1 ∧ STCF_ptr s1 ∧ s1.jobs = s.jobs.set n nj1 ∧
      nj1.remaining = wrap (nj.remaining - 1) ∧ s1.t = wrap (s.t + 1) := by
  have hlt : n < s.jobs.length := (List.getElem?_eq_some_iff.1 hj).1
  unfold STCF_tick
  simp only [hc, hj]
  by_cases h0 : wrap (nj.remaining - 1) = 0
  · simp only [h0, if_true]
    refine ⟨_, _, rfl, ?_, rfl, rfl, rfl⟩
    intro c hcc
    cases hcc
  · simp only [h0, if_false]
    refine ⟨_, _, rfl, ?_, rfl, rfl, rfl⟩
    intro c hcc
    simp only [hc] at hcc
    injection hcc with hcc
    subst hcc
    simpa using hlt

theorem STCF_wrap_step (s : STCFState) (hc : STCF_ptr s) :
    ∃ s1, STCF_body s = some s1 ∧ STCF_ptr s1 ∧
      ((pick_stcf s.jobs s.t = none ∧ s1.jobs = s.jobs ∧ s1.t = idle_jump s.jobs s.t) ∨
       ∃ n nj nj1, pick_stcf s.jobs s.t = some n ∧ s.jobs[n]? = some nj ∧
         s1.jobs = s.jobs.set n nj1 ∧ nj1.remaining = wrap (nj.remaining - 1) ∧
         s1.t = wrap (s.t + 1)) := by
  have hclose : ∃ out1, STCF_close s = some out1 := by
    unfold STCF_close
    cases hcur : s.curr with
    | none => exact ⟨_, rfl⟩
    | some c =>
      have hlt := hc c hcur
      simp only [List.getElem?_eq_getElem hlt]
      split_ifs
      · exact ⟨_, rfl⟩
      · exact ⟨_, rfl⟩
  obtain ⟨out1, hout1⟩ := hclose
  unfold STCF_body
  cases hp : pick_stcf s.jobs s.t with
  | none =>
    by_cases hcur : s.curr = none
    · refine ⟨{ s with t := idle_jump s.jobs s.t }, ?_, ?_, Or.inl ⟨rfl, rfl, rfl⟩⟩
      · simp [STCF_switch, hcur, STCF_tick]
      · intro c hcc
        simp only [hcur] at hcc
        cases hcc
    · refine ⟨STCFState.mk s.jobs (idle_jump s.jobs s.t) none s.t out1, ?_, ?_,
        Or.inl ⟨rfl, rfl, rfl⟩⟩
      · have hne : (none : Option Nat) ≠ s.curr := fun h => hcur h.symm
        simp [STCF_switch, hne, hout1, STCF_tick]
      · intro c hcc
        cases hcc
  | some n =>
    have hp1 : pick_sjf s.jobs s.t = some n := by rw [← pick_stcf_eq]; exact hp
    obtain ⟨nj, hj, _, _, _⟩ := pick_sjf_some s.jobs s.t n hp1
    have hlt : n < s.jobs.length := (List.getElem?_eq_some_iff.1 hj).1
    by_cases hcur : s.curr = some n
    · obtain ⟨s1, nj1, h1, h2, h3, h4, h5⟩ := STCF_tick_step s n nj hcur hj
      refine ⟨s1, ?_, h2, Or.inr ⟨n, nj, nj1, rfl, hj, h3, h4, h5⟩⟩
      simp [STCF_switch, hcur, h1]
    · have hne : (some n : Option Nat) ≠ s.curr := fun h => hcur h.symm
      obtain ⟨s1, nj1, h1, h2, h3, h4, h5⟩ :=
        STCF_tick_step { jobs := s.jobs.set n (stamp_start nj s.t), t := s.t, curr := some n,
                         seg_start := s.t, out := out1 } n (stamp_start nj s.t) rfl
          (by simp [List.getElem?_set_self hlt])
      refine ⟨s1, ?_, h2, Or.inr ⟨n, nj, nj1, rfl, hj, ?_, ?_, h5⟩⟩
      · simp [STCF_switch, hne, hout1, hj, h1]
      · rw [h3]
        simp [List.set_set]
      · rw [h4, (stamp_start_static nj s.t).2.2.2.2.1]

theorem STCF_ptr_reach (js0 : List Job) (s : STCFState)
    (h : Reach STCF_cond STCF_body (STCF_init js0) s) : STCF_ptr s := by
  refine h.inv STCF_ptr ?_ ?_
  · intro c hc
    cases hc
  · intro a b ha _ hb
    obtain ⟨s1, h1, h2, _⟩ := STCF_wrap_step a ha
    rw [h1] at hb
    injection hb with hb
    subst hb
    exact h2

theorem RunsTick_iff (tr : List (Int × Int)) (hv : valid_trace tr) (hfit : Fits tr)
    (u : Int) (n : Nat) : RunsTick (load tr) u n ↔ RunsTick_exact (load tr) u n := by
  obtain ⟨_, _, _, _, hex⟩ := stcf_reselects_exact tr hv
  constructor
  · rintro ⟨s, s1, hr, hc, hb, ht, hp, _⟩
    have hr1 := (STCF_reach_iff tr hv.2 hfit s).1 hr
    rw [STCF_agree tr hv.2 hfit s hr1 hc] at hb
    rcases hex s s1 hr1 hc hb with ⟨h1, _⟩ | ⟨n1, nj, h1, h2, _, _, h3, _, h4, _⟩
    · rw [h1] at hp
      cases hp
    · rw [h1] at hp
      injection hp with hp
      subst hp
      subst ht
      exact ⟨s, s1, hr1, hc, hb, rfl, h1, nj, h2, h3, h4⟩
  · rintro ⟨s, s1, hr1, hc, hb, ht, hp, _⟩
    have hr := (STCF_reach_iff tr hv.2 hfit s).2 hr1
    rw [← STCF_agree tr hv.2 hfit s hr1 hc] at hb
    obtain ⟨s2, h1, _, h2⟩ := STCF_wrap_step s (STCF_ptr_reach (load tr) s hr)
    rw [hb] at h1
    injection h1 with h1
    subst h1
    rcases h2 with ⟨h3, _⟩ | ⟨n1, nj, nj1, h3, h4, h5, h6, h7⟩
    · rw [h3] at hp
      cases hp
    · rw [h3] at hp
      injection hp with hp
      subst hp
      subst ht
      exact ⟨s, s1, hr, hc, hb, rfl, h3, nj, nj1, h4, h5, h6, h7⟩

/-! ### STCF: the selection at every tick -/

/-- C11: `pick_stcf` returns the same node as `pick_sjf` on every registry and
time, and on every trace every iteration of the loop of `policy_STCF` completes
and either finds no ready job and leaves the registry alone, or runs for one
tick, from `t` to `t + 1` in the arithmetic of `int`, the job `pick_stcf(t)`
returns, which is ready at `t`, has the least `remaining` among the jobs ready at
`t` and the least arrival among those with the same `remaining`.  On a valid
trace whose latest arrival plus the sum of its lengths is at most `INT_MAX` the
loop finishes. -/
theorem C11_stcf_reselects_every_tick (tr : List (Int × Int)) :
    (∀ (js : List Job) (t : Int), pick_stcf js t = pick_sjf js t) ∧
    (∀ (s : STCFState), Reach STCF_cond STCF_body (STCF_init (load tr)) s →
      STCF_cond s = true →
      ∃ s1, STCF_body s = some s1 ∧
        ((pick_stcf s.jobs s.t = none ∧ s1.jobs = s.jobs) ∨
        ∃ n nj nj1, pick_stcf s.jobs s.t = some n ∧ s.jobs[n]? = some nj ∧
          nj.end_time < 0 ∧ nj.arrival ≤ s.t ∧
          s1.jobs = s.jobs.set n nj1 ∧ nj1.remaining = wrap (nj.remaining - 1) ∧
          s1.t = wrap (s.t + 1) ∧
          ∀ (i : Nat) (x : Job), s.jobs[i]? = some x → x.end_time < 0 → x.arrival ≤ s.t →
            nj.remaining ≤ x.remaining ∧
              (x.remaining = nj.remaining → nj.arrival ≤ x.arrival))) ∧
    (valid_trace tr → Fits tr →
      ∃ k f, ∀ fuel, k ≤ fuel → policy_STCF fuel (load tr) = Run.finished k f) := by
  refine ⟨pick_stcf_eq, ?_, ?_⟩
  rotate_left
  · intro hv hfit
    obtain ⟨_, k, f, hrun, _⟩ := stcf_reselects_exact tr hv
    refine ⟨k, f, ?_⟩
    simp only [policy_STCF_agree tr hv.2 hfit]; exact hrun
  intro s hr _
  obtain ⟨s1, h1, _, h2⟩ := STCF_wrap_step s (STCF_ptr_reach (load tr) s hr)
  refine ⟨s1, h1, ?_⟩
  rcases h2 with ⟨h3, h4, _⟩ | ⟨n, nj, nj1, h3, h4, h5, h6, h7⟩
  · exact Or.inl ⟨h3, h4⟩
  · right
    have hp : pick_sjf s.jobs s.t = some n := by rw [← pick_stcf_eq]; exact h3
    obtain ⟨nj2, hj2, he, ha, hmin⟩ := pick_sjf_some s.jobs s.t n hp
    rw [h4] at hj2
    injection hj2 with hj2
    subst hj2
    refine ⟨n, nj, nj1, h3, h4, he, ha, h5, h6, h7, ?_⟩
    intro i x hx hxe hxa
    have := hmin i x hx hxe hxa
    unfold prefers at this
    omega

/-- C11 at the second iteration of the loop on the trace `0,5 / 1,3`. -/
theorem C11_witness :
    Reach STCF_cond STCF_body (STCF_init (load [(0, 5), (1, 3)]))
      (STCFState.mk [Job.mk 0 0 5 100 4 0 (-1), Job.mk 1 1 3 200 3 (-1) (-1)] 1 (some 0) 0 []) ∧
    ∃ s1, STCF_body
        (STCFState.mk [Job.mk 0 0 5 100 4 0 (-1), Job.mk 1 1 3 200 3 (-1) (-1)] 1 (some 0) 0
          []) = some s1 ∧
      ((pick_stcf [Job.mk 0 0 5 100 4 0 (-1), Job.mk 1 1 3 200 3 (-1) (-1)] 1 = none ∧
          s1.jobs = [Job.mk 0 0 5 100 4 0 (-1), Job.mk 1 1 3 200 3 (-1) (-1)]) ∨
        ∃ n nj nj1,
          pick_stcf [Job.mk 0 0 5 100 4 0 (-1), Job.mk 1 1 3 200 3 (-1) (-1)] 1 = some n ∧
          [Job.mk 0 0 5 100 4 0 (-1), Job.mk 1 1 3 200 3 (-1) (-1)][n]? = some nj ∧
          nj.end_time < 0 ∧ nj.arrival ≤ 1 ∧
          s1.jobs = [Job.mk 0 0 5 100 4 0 (-1), Job.mk 1 1 3 200 3 (-1) (-1)].set n nj1 ∧
          nj1.remaining = wrap (nj.remaining - 1) ∧ s1.t = wrap (1 + 1) ∧
          ∀ (i : Nat) (x : Job),
            [Job.mk 0 0 5 100 4 0 (-1), Job.mk 1 1 3 200 3 (-1) (-1)][i]? = some x →
            x.end_time < 0 → x.arrival ≤ 1 →
            nj.remaining ≤ x.remaining ∧
              (x.remaining = nj.remaining → nj.arrival ≤ x.arrival)) :=
  ⟨Reach.of_loop_state 1 _ _ (by decide),
   (C11_stcf_reselects_every_tick [(0, 5), (1, 3)]).2.1 _
     (Reach.of_loop_state 1 _ _ (by decide)) (by decide)⟩

/-! ### STCF: the printed segments are maximal runs -/

/-- C12 as stated fails: on the valid trace `2147483646,3` the clock of
`policy_STCF` wraps around during the run of job 0; the loop finishes after 5
iterations and has printed two consecutive segments of job 0,
`(2147483646, Job 0, 2)` and `(2147483646, Job 0, 1)`. -/
theorem C12_counterexample :
    valid_trace [(2147483646, 3)] ∧
    ∃ f, policy_STCF 5 (load [(2147483646, 3)]) = Run.finished 5 f ∧
      ∃ g1 g2, f.out[0]? = some g1 ∧ f.out[0 + 1]? = some g2 ∧ g1.id = g2.id :=
  ⟨by decide,
   STCFState.mk [Job.mk 0 2147483646 3 100 0 2147483646 2147483647] 2147483647 none (-1)
     [Seg.mk 2147483646 0 2147483646 2, Seg.mk 2147483646 0 2147483646 1],
   by decide!, Seg.mk 2147483646 0 2147483646 2, Seg.mk 2147483646 0 2147483646 1, rfl, rfl,
   rfl⟩

/-- C12, amended: on every valid trace whose latest arrival plus the sum of its
lengths is at most `INT_MAX`, `policy_STCF` finishes, and every segment it has
printed has a positive duration; the loop ran the job of the segment for every
tick of the interval of the segment, and did not run that job for the tick just
before the interval nor for the tick just after it (the segment is a maximal
uninterrupted run); and no two consecutive printed segments are of the same
job. -/
theorem C12_stcf_segment_coalescing (tr : List (Int × Int)) (hv : valid_trace tr)
    (hfit : Fits tr) :
    ∃ k f, (∀ fuel, k ≤ fuel → policy_STCF fuel (load tr) = Run.finished k f) ∧
      (∀ g ∈ f.out, 0 < g.ran ∧ ∃ n : Nat, (n : Int) = g.id ∧
        (∀ u : Int, g.tstart ≤ u → u < g.tstart + g.ran → RunsTick (load tr) u n) ∧
        ¬ RunsTick (load tr) (g.tstart - 1) n ∧
        ¬ RunsTick (load tr) (g.tstart + g.ran) n) ∧
      (∀ (i : Nat) (g1 g2 : Seg), f.out[i]? = some g1 → f.out[i + 1]? = some g2 →
        g1.id ≠ g2.id) := by
  obtain ⟨k, f, hrun, h1, h2⟩ := stcf_coalescing_exact tr hv
  refine ⟨k, f, ?_, ?_, h2⟩
  · simp only [policy_STCF_agree tr hv.2 hfit]; exact hrun
  · intro g hg
    obtain ⟨hpos, n, hn, ha, hb, hc⟩ := h1 g hg
    refine ⟨hpos, n, hn, ?_, ?_, ?_⟩
    · intro u hu1 hu2
      exact (RunsTick_iff tr hv hfit u n).2 (ha u hu1 hu2)
    · exact fun h => hb ((RunsTick_iff tr hv hfit _ n).1 h)
    · exact fun h => hc ((RunsTick_iff tr hv hfit _ n).1 h)

/-- C12 (amended) on the trace `0,5 / 1,3`. -/
theorem C12_witness :
    valid_trace [(0, 5), (1, 3)] ∧ Fits [(0, 5), (1, 3)] ∧
    ∃ k f, (∀ fuel, k ≤ fuel → policy_STCF fuel (load [(0, 5), (1, 3)]) = Run.finished k f) ∧
      (∀ g ∈ f.out, 0 < g.ran ∧ ∃ n : Nat, (n : Int) = g.id ∧
        (∀ u : Int, g.tstart ≤ u → u < g.tstart + g.ran →
          RunsTick (load [(0, 5), (1, 3)]) u n) ∧
        ¬ RunsTick (load [(0, 5), (1, 3)]) (g.tstart - 1) n ∧
        ¬ RunsTick (load [(0, 5), (1, 3)]) (g.tstart + g.ran) n) ∧
      (∀ (i : Nat) (g1 g2 : Seg), f.out[i]? = some g1 → f.out[i + 1]? = some g2 →
        g1.id ≠ g2.id) :=
  ⟨by decide, by decide, C12_stcf_segment_coalescing [(0, 5), (1, 3)] (by decide) (by decide)⟩

/-! ### STCF: no preemption on a tie -/

/-- C20, amended: on every valid trace whose latest arrival plus the sum of its
lengths is at most `INT_MAX`, `policy_STCF` finishes, and whenever an iteration
finds the running job `a` unfinished and `pick_stcf` selects a different job `b`,
so that the open segment of `a` is printed at that instant, what remains of `b`
is strictly less than what remains of `a`. -/
theorem C20_stcf_no_preemption_on_tie (tr : List (Int × Int)) (hv : valid_trace tr)
    (hfit : Fits tr) :
    ∃ k f, (∀ fuel, k ≤ fuel → policy_STCF fuel (load tr) = Run.finished k f) ∧
      ∀ (s s1 : STCFState) (a b : Nat) (aj bj : Job),
        Reach STCF_cond STCF_body (STCF_init (load tr)) s → STCF_cond s = true →
        STCF_body s = some s1 →
        s.curr = some a → s.jobs[a]? = some aj → pick_stcf s.jobs s.t = some b → b ≠ a →
        s.jobs[b]? = some bj →
        aj.end_time < 0 ∧
        (∃ rest, s1.out = s.out ++ print_seg s.seg_start aj (s.t - s.seg_start) :: rest) ∧
        bj.remaining < aj.remaining := by
  obtain ⟨k, f, hrun, hall⟩ := no_tie_preemption_exact tr hv
  refine ⟨k, f, ?_, ?_⟩
  · simp only [policy_STCF_agree tr hv.2 hfit]; exact hrun
  · intro s s1 a b aj bj h hc hb
    have hr := (STCF_reach_iff tr hv.2 hfit s).1 h
    rw [STCF_agree tr hv.2 hfit s hr hc] at hb
    exact hall s s1 a b aj bj hr hb

/-- C20 (amended) on the trace `0,5 / 1,3`. -/
theorem C20_witness :
    valid_trace [(0, 5), (1, 3)] ∧ Fits [(0, 5), (1, 3)] ∧
    ∃ k f, (∀ fuel, k ≤ fuel → policy_STCF fuel (load [(0, 5), (1, 3)]) = Run.finished k f) ∧
      ∀ (s s1 : STCFState) (a b : Nat) (aj bj : Job),
        Reach STCF_cond STCF_body (STCF_init (load [(0, 5), (1, 3)])) s →
        STCF_cond s = true → STCF_body s = some s1 →
        s.curr = some a → s.jobs[a]? = some aj → pick_stcf s.jobs s.t = some b → b ≠ a →
        s.jobs[b]? = some bj →
        aj.end_time < 0 ∧
        (∃ rest, s1.out = s.out ++ print_seg s.seg_start aj (s.t - s.seg_start) :: rest) ∧
        bj.remaining < aj.remaining :=
  ⟨by decide, by decide,
    C20_stcf_no_preemption_on_tie [(0, 5), (1, 3)] (by decide) (by decide)⟩

theorem tie_stepA (r : Int) (out : List Seg) :
    STCF_cond (STCFState.mk (tie_jobs r) (-2147483648) (some 1) 2147483646 out) = true ∧
    STCF_body (STCFState.mk (tie_jobs r) (-2147483648) (some 1) 2147483646 out) =
      some (STCFState.mk (tie_jobs r) 2147483646 none (-2147483648)
        (out ++ [Seg.mk 2147483646 1 2147483646 2])) := by
  constructor
  · simp [STCF_cond, tie_jobs, all_done]
  · simp [STCF_body, STCF_switch, STCF_close, STCF_tick, pick_stcf, pick_stcf_scan, idle_jump,
      next_arrival_after, next_arrival_scan, print_seg, wrap, INT_MAX, tie_jobs]

theorem tie_stepB (r : Int) (out : List Seg) (h1 : r < 2147483647) (h2 : wrap (r - 1) ≠ 0) :
    STCF_cond (STCFState.mk (tie_jobs r) 2147483646 none (-2147483648) out) = true ∧
    STCF_body (STCFState.mk (tie_jobs r) 2147483646 none (-2147483648) out) =
      some (STCFState.mk (tie_jobs (wrap (r - 1))) 2147483647 (some 1) 2147483646 out) := by
  constructor
  · simp [STCF_cond, tie_jobs, all_done]
  · simp [STCF_body, STCF_switch, STCF_close, STCF_tick, pick_stcf, pick_stcf_scan,
      stamp_start, tie_jobs, h1, h2]
    simp [wrap]

theorem tie_stepC (r : Int) (out : List Seg) (h1 : r < 2147483647) (h2 : wrap (r - 1) ≠ 0) :
    STCF_cond (STCFState.mk (tie_jobs r) 2147483647 (some 1) 2147483646 out) = true ∧
    STCF_body (STCFState.mk (tie_jobs r) 2147483647 (some 1) 2147483646 out) =
      some (STCFState.mk (tie_jobs (wrap (r - 1))) (-2147483648) (some 1) 2147483646 out) := by
  constructor
  · simp [STCF_cond, tie_jobs, all_done]
  · simp [STCF_body, STCF_switch, STCF_close, STCF_tick, pick_stcf, pick_stcf_scan,
      stamp_start, tie_jobs, h1, h2]
    simp [wrap]

theorem tie_cycle (r : Int) (out : List Seg) (h1 : -2147483646 ≤ r) (h2 : r ≤ 0) :
    Reach STCF_cond STCF_body
      (STCFState.mk (tie_jobs r) (-2147483648) (some 1) 2147483646 out)
      (STCFState.mk (tie_jobs (r - 2)) (-2147483648) (some 1) 2147483646
        (out ++ [Seg.mk 2147483646 1 2147483646 2])) := by
  have w1 : wrap (r - 1) = r - 1 := wrap_eq _ (by unfold INT_MIN; omega) (by unfold INT_MAX; omega)
  have w2 : wrap (r - 1 - 1) = r - 2 := by
    rw [wrap_eq _ (by unfold INT_MIN; omega) (by unfold INT_MAX; omega)]
    omega
  have a := tie_stepA r out
  have b := tie_stepB r (out ++ [Seg.mk 2147483646 1 2147483646 2]) (by omega)
    (by rw [w1]; omega)
  have c := tie_stepC (r - 1) (out ++ [Seg.mk 2147483646 1 2147483646 2]) (by omega)
    (by rw [w2]; omega)
  rw [w1] at b
  rw [w2] at c
  exact Reach.step (Reach.step (Reach.step Reach.start a.1 a.2) b.1 b.2) c.1 c.2

theorem tie_reach (k : Nat) (hk : k ≤ 1073741823) :
    ∃ out, Reach STCF_cond STCF_body
      (STCF_init (load [(2147483646, 2147483647), (2147483646, 2)]))
      (STCFState.mk (tie_jobs (-2 - 2 * (k : Int))) (-2147483648) (some 1) 2147483646 out) := by
  induction k with
  | zero =>
    exact ⟨[Seg.mk 2147483646 1 2147483646 2], Reach.of_loop_state 6 _ _ (by decide!)⟩
  | succ n ih =>
    obtain ⟨out, h⟩ := ih (by omega)
    refine ⟨out ++ [Seg.mk 2147483646 1 2147483646 2], ?_⟩
    have := tie_cycle (-2 - 2 * (n : Int)) out (by omega) (by omega)
    have e : -2 - 2 * ((n + 1 : Nat) : Int) = -2 - 2 * (n : Int) - 2 := by push_cast; ring
    rw [e]
    exact Reach.trans h this

theorem tie_stepD (out : List Seg) :
    STCF_body (STCFState.mk (tie_jobs 2147483647) 2147483647 (some 1) 2147483646 out) =
      some (STCFState.mk
        [Job.mk 0 2147483646 2147483647 100 2147483646 2147483647 (-1),
         Job.mk 1 2147483646 2 200 2147483647 2147483646 (-2147483648)]
        (-2147483648) (some 0) 2147483647 (out ++ [Seg.mk 2147483646 1 2147483646 1])) := by
  simp [STCF_body, STCF_switch, STCF_close, STCF_tick, pick_stcf, pick_stcf_scan,
    stamp_start, tie_jobs, print_seg, wrap]

/-! ### STCF: a preemption on a tie -/

/-- C20 as stated fails: on the valid trace `2147483646,2147483647 / 2147483646,2`
the clock of `policy_STCF` wraps around when job 1 finishes, so job 1 gets the
negative `end_time = -2147483648` and stays ready; it is run again for two ticks
in every pass of the clock from 2147483646 to the wrap, and its `remaining`
goes down by 2 per pass, to -2147483648 and then, by one more tick and a wrap, to
2147483647.  At that head the clock is 2147483647, job 1 is running and
unfinished, and `pick_stcf` returns job 0, whose `remaining` is 2147483647 too:
the segment of job 1 is closed on a tie. -/
theorem C20_counterexample :
    valid_trace [(2147483646, 2147483647), (2147483646, 2)] ∧
    ∃ (s s1 : STCFState) (aj bj : Job),
      Reach STCF_cond STCF_body
        (STCF_init (load [(2147483646, 2147483647), (2147483646, 2)])) s ∧
      STCF_cond s = true ∧ STCF_body s = some s1 ∧
      s.curr = some 1 ∧ s.jobs[1]? = some aj ∧ pick_stcf s.jobs s.t = some 0 ∧
      s.jobs[0]? = some bj ∧ aj.end_time < 0 ∧
      s1.out = s.out ++ [print_seg s.seg_start aj (s.t - s.seg_start)] ∧
      bj.remaining = 2147483647 ∧ aj.remaining = 2147483647 := by
  refine ⟨by decide, ?_⟩
  obtain ⟨out, h⟩ := tie_reach 1073741823 (le_refl _)
  have a := tie_stepA (-2 - 2 * ((1073741823 : Nat) : Int)) out
  have b := tie_stepB (-2 - 2 * ((1073741823 : Nat) : Int))
    (out ++ [Seg.mk 2147483646 1 2147483646 2]) (by decide) (by decide)
  have e : wrap (-2 - 2 * ((1073741823 : Nat) : Int) - 1) = 2147483647 := by decide
  rw [e] at b
  have hr := Reach.step (Reach.step h a.1 a.2) b.1 b.2
  exact ⟨_, _, Job.mk 1 2147483646 2 200 2147483647 2147483646 (-2147483648),
    Job.mk 0 2147483646 2147483647 100 2147483647 (-1) (-1), hr,
    by simp [STCF_cond, tie_jobs, all_done],
    tie_stepD _, rfl, rfl, by simp [pick_stcf, pick_stcf_scan, tie_jobs], rfl, by decide,
    rfl, rfl, rfl⟩

theorem FIFOIds_init (js0 : List Job) : FIFOIds js0 (FIFO_init js0) := by
  refine ⟨rfl, fun i j h => ⟨j, h, rfl, rfl⟩, ?_, ?_, ?_⟩
  · intro p hp
    cases js0 with
    | nil => simp [FIFO_init, head_ptr] at hp
    | cons a r =>
      simp only [FIFO_init, head_ptr] at hp
      injection hp with hp
      subst hp
      simp [FIFO_init]
  · intro h
    cases js0 with
    | nil => rfl
    | cons a r => simp [FIFO_init, head_ptr] at h
  · intro i g h
    simp [FIFO_init] at h

theorem FIFOIds_step (js0 : List Job) (s : FIFOState) (hI : FIFOIds js0 s)
    (hc : FIFO_cond s = true) :
    ∃ s1, FIFO_body s = some s1 ∧ FIFOIds js0 s1 ∧
      js0.length - s1.out.length < js0.length - s.out.length := by
  unfold FIFO_cond at hc
  cases hcur : s.cur with
  | none => rw [hcur] at hc; cases hc
  | some p =>
    obtain ⟨hp, hlen⟩ := hI.cur p hcur
    have hplt : p < s.jobs.length := by rw [hI.len]; exact hp
    have hj : s.jobs[p]? = some s.jobs[p] := List.getElem?_eq_getElem hplt
    obtain ⟨j0, hj0, hid, harr⟩ := hI.jobs p _ hj
    unfold FIFO_body
    simp only [hcur, hj]
    refine ⟨_, rfl, ⟨?_, ?_, ?_, ?_, ?_⟩, ?_⟩
    · simp [hI.len]
    · intro i j h
      by_cases hip : i = p
      · subst hip
        simp only [List.getElem?_set_self hplt] at h
        injection h with h
        subst h
        refine ⟨j0, hj0, ?_, ?_⟩
        · simp only [(stamp_start_static _ _).1]; exact hid
        · simp only [(stamp_start_static _ _).2.1]; exact harr
      · simp only [List.getElem?_set_ne (fun h => hip h.symm)] at h
        exact hI.jobs i j h
    · intro q hq
      simp only [next_ptr] at hq
      split_ifs at hq with h1
      injection hq with hq
      subst hq
      rw [hI.len] at h1
      exact ⟨h1, by simp [hlen]⟩
    · intro hq
      simp only [next_ptr] at hq
      split_ifs at hq with h1
      rw [hI.len] at h1
      simp only [List.length_append, List.length_singleton, hlen]
      omega
    · intro i g h
      by_cases hi : i < s.out.length
      · rw [List.getElem?_append_left hi] at h
        exact hI.out i g h
      · have hi2 : i = p := by
          have := (List.getElem?_eq_some_iff.1 h).1
          simp only [List.length_append, List.length_singleton] at this
          omega
        subst hi2
        rw [List.getElem?_append_right (by omega)] at h
        simp only [hlen, Nat.sub_self, List.getElem?_cons_zero] at h
        injection h with h
        subst h
        refine ⟨j0, hj0, ?_, ?_⟩
        · simp only [print_seg, (stamp_start_static _ _).1]; exact hid
        · simp only [print_seg, (stamp_start_static _ _).2.1]; exact harr
    · simp only [List.length_append, List.length_singleton, hlen]
      omega

/-- The loop of `policy_FIFO` finishes on every registry, whatever the clock
does, with one line per node that carries the id and the arrival of the node. -/
theorem FIFO_ids_run (js0 : List Job) :
    ∃ k f, (∀ fuel, k ≤ fuel → policy_FIFO fuel js0 = Run.finished k f) ∧
      f.out.length = js0.length ∧
      ∀ (i : Nat) (g : Seg), f.out[i]? = some g →
        ∃ j0, js0[i]? = some j0 ∧ g.id = j0.id ∧ g.arrival = j0.arrival := by
  obtain ⟨k, f, _, hI, hfin, _, hrun⟩ :=
    runLoop_total FIFO_cond FIFO_body (FIFOIds js0) (fun s => js0.length - s.out.length)
      (fun s hI hc => FIFOIds_step js0 s hI hc) _ (FIFO_init js0) (FIFOIds_init js0)
      (le_refl _)
  refine ⟨k, f, hrun, ?_, hI.out⟩
  apply hI.fin
  unfold FIFO_cond at hfin
  cases h : f.cur with
  | none => rfl
  | some p => rw [h] at hfin; cases hfin

/-! ### FIFO: the order of the printed trace -/

/-- C5 as stated fails: on the trace `5,1 / 0,1` FIFO prints the segment of job 0
(arrival 5) before the segment of job 1 (arrival 0). -/
theorem C5_counterexample :
    ∃ f, policy_FIFO 2 (load [(5, 1), (0, 1)]) = Run.finished 2 f ∧
      ∃ ga gb, f.out[0]? = some ga ∧ f.out[1]? = some gb ∧ ¬ ga.arrival ≤ gb.arrival :=
  ⟨{ jobs := [{ id := 0, arrival := 5, length := 1, tickets := 100, remaining := 0,
                start_time := 5, end_time := 6 },
              { id := 1, arrival := 0, length := 1, tickets := 200, remaining := 0,
                start_time := 6, end_time := 7 }],
     t := 7, cur := none,
     out := [{ tstart := 5, id := 0, arrival := 5, ran := 1 },
             { tstart := 6, id := 1, arrival := 0, ran := 1 }] },
   by decide,
   { tstart := 5, id := 0, arrival := 5, ran := 1 },
   { tstart := 6, id := 1, arrival := 0, ran := 1 }, rfl, rfl, by decide⟩

/-- C5 (amended): `policy_FIFO` runs the jobs in registry order: for every trace
the segment at position `i` of the printed trace is the one of the job on line
`i`; and when the lines of the trace are in non-decreasing order of arrival, a
segment printed before another has an arrival that is not later. -/
theorem C5_fifo_registry_order (tr : List (Int × Int)) :
    ∃ k f, (∀ fuel, k ≤ fuel → policy_FIFO fuel (load tr) = Run.finished k f) ∧
      (∀ (i : Nat) (g : Seg), f.out[i]? = some g →
        g.id = (i : Int) ∧ ∃ p, tr[i]? = some p ∧ g.arrival = p.1) ∧
      ((tr.map Prod.fst).Pairwise (fun a b => a ≤ b) →
        ∀ (a b : Nat) (ga gb : Seg), a < b → f.out[a]? = some ga → f.out[b]? = some gb →
          ga.arrival ≤ gb.arrival) := by
  obtain ⟨k, f, hrun, _, hout⟩ := FIFO_ids_run (load tr)
  have hseg : ∀ (i : Nat) (g : Seg), f.out[i]? = some g →
      g.id = (i : Int) ∧ ∃ p, tr[i]? = some p ∧ g.arrival = p.1 := by
    intro i g hg
    obtain ⟨j0, hj0, hid, harr⟩ := hout i g hg
    rw [load_getElem?] at hj0
    cases hp : tr[i]? with
    | none => rw [hp] at hj0; cases hj0
    | some p =>
      rw [hp] at hj0
      simp only [Option.map_some'] at hj0
      injection hj0 with hj0
      subst hj0
      exact ⟨hid, p, rfl, harr⟩
  refine ⟨k, f, hrun, hseg, ?_⟩
  intro hsorted a b ga gb hab hga hgb
  obtain ⟨_, pa, hpa, hpa1⟩ := hseg a ga hga
  obtain ⟨_, pb, hpb, hpb1⟩ := hseg b gb hgb
  rw [List.pairwise_iff_getElem] at hsorted
  have hla : a < tr.length := (List.getElem?_eq_some_iff.1 hpa).1
  have hlb : b < tr.length := (List.getElem?_eq_some_iff.1 hpb).1
  have := hsorted a b (by simpa using hla) (by simpa using hlb) hab
  simp only [List.getElem_map] at this
  have ea : tr[a] = pa := by
    have := List.getElem?_eq_getElem hla
    rw [hpa] at this; injection this with this; exact this.symm
  have eb : tr[b] = pb := by
    have := List.getElem?_eq_getElem hlb
    rw [hpb] at this; injection this with this; exact this.symm
  rw [ea, eb] at this
  omega

/-- C5 (amended) on the trace `0,5 / 1,3`, whose arrivals are in order. -/
theorem C5_witness :
    ([((0 : Int), (5 : Int)), (1, 3)].map Prod.fst).Pairwise (fun a b => a ≤ b) ∧
    ∃ k f, (∀ fuel, k ≤ fuel → policy_FIFO fuel (load [(0, 5), (1, 3)]) = Run.finished k f) ∧
      (∀ (i : Nat) (g : Seg), f.out[i]? = some g →
        g.id = (i : Int) ∧ ∃ p, [((0 : Int), (5 : Int)), (1, 3)][i]? = some p ∧ g.arrival = p.1) ∧
      (([((0 : Int), (5 : Int)), (1, 3)].map Prod.fst).Pairwise (fun a b => a ≤ b) →
        ∀ (a b : Nat) (ga gb : Seg), a < b → f.out[a]? = some ga → f.out[b]? = some gb →
          ga.arrival ≤ gb.arrival) :=
  ⟨by decide, C5_fifo_registry_order [(0, 5), (1, 3)]⟩

/-! ### SJF: the selection -/

theorem SJF_wrap_step (s : SJFState) :
    ∃ s1, SJF_body s = some s1 ∧
      ((pick_sjf s.jobs s.t = none ∧ s1.out = s.out) ∨
        ∃ p j, pick_sjf s.jobs s.t = some p ∧ s.jobs[p]? = some j ∧
          s1.out = s.out ++ [print_seg s.t j j.remaining]) := by
  unfold SJF_body
  cases hp : pick_sjf s.jobs s.t with
  | none => exact ⟨_, rfl, Or.inl ⟨rfl, rfl⟩⟩
  | some p =>
    obtain ⟨j, hj, _⟩ := pick_sjf_some s.jobs s.t p hp
    simp only [hj]
    refine ⟨_, rfl, Or.inr ⟨p, j, rfl, hj, ?_⟩⟩
    simp only [print_seg, (stamp_start_static j s.t).1, (stamp_start_static j s.t).2.1,
      (stamp_start_static j s.t).2.2.2.2.1]

/-- Every line `policy_SJF` has printed was printed by an iteration for the job
`pick_sjf` chose at its head. -/
theorem SJF_wrap_out_picked (js0 : List Job) (s : SJFState)
    (h : Reach SJF_cond SJF_body (SJF_init js0) s) :
    ∀ g ∈ s.out, ∃ s0, Reach SJF_cond SJF_body (SJF_init js0) s0 ∧ SJF_cond s0 = true ∧
      s0.t = g.tstart ∧
      ∃ p j, pick_sjf s0.jobs s0.t = some p ∧ s0.jobs[p]? = some j ∧
        g = print_seg s0.t j j.remaining := by
  induction h with
  | start =>
    intro g hg
    simp [SJF_init] at hg
  | @step x y hr hc hb ih =>
    intro g hg
    obtain ⟨s1, h1, h2⟩ := SJF_wrap_step x
    rw [hb] at h1
    injection h1 with h1
    subst h1
    rcases h2 with ⟨_, h3⟩ | ⟨p, j, h3, h4, h5⟩
    · rw [h3] at hg
      exact ih g hg
    · rw [h5] at hg
      rcases List.mem_append.1 hg with hg | hg
      · exact ih g hg
      · simp only [List.mem_singleton] at hg
        subst hg
        exact ⟨x, hr, hc, rfl, p, j, h3, h4, rfl⟩

/-- C6: on every trace, every iteration of the loop of `policy_SJF` completes,
and each segment the loop has printed, starting at `t`, is for the job
`pick_sjf(t)` chose at the head of an iteration with clock `t`.  For every
registry and time, `pick_sjf` returns no job exactly when no job is ready
(arrived and not finished), and the job it returns is ready, has the least
`remaining` among the ready jobs, the least arrival among those with the same
`remaining`, and the first position among those equal in both.  The trace
`0,5 / 1,3` gives the segments `(0, Job 0, 5)`, `(5, Job 1, 3)` and the end times
5 and 8.  On a valid trace whose latest arrival plus the sum of its lengths is at
most `INT_MAX` the loop finishes. -/
theorem C6_sjf_selection (tr : List (Int × Int)) :
    (∀ s, Reach SJF_cond SJF_body (SJF_init (load tr)) s →
      (∃ s1, SJF_body s = some s1) ∧
      ∀ g ∈ s.out, ∃ s0, Reach SJF_cond SJF_body (SJF_init (load tr)) s0 ∧
        SJF_cond s0 = true ∧ s0.t = g.tstart ∧
        ∃ p j, pick_sjf s0.jobs s0.t = some p ∧ s0.jobs[p]? = some j ∧
          g = print_seg s0.t j j.remaining) ∧
    (∀ (js : List Job) (t : Int),
      pick_sjf js t = none ↔ ∀ x ∈ js, ¬ (x.end_time < 0 ∧ x.arrival ≤ t)) ∧
    (∀ (js : List Job) (t : Int) (p : Nat), pick_sjf js t = some p →
      ∃ j, js[p]? = some j ∧ j.end_time < 0 ∧ j.arrival ≤ t ∧
        ∀ (k : Nat) (x : Job), js[k]? = some x → x.end_time < 0 → x.arrival ≤ t →
          j.remaining ≤ x.remaining ∧
          (x.remaining = j.remaining → j.arrival ≤ x.arrival) ∧
          (x.remaining = j.remaining → x.arrival = j.arrival → p ≤ k)) ∧
    policy_SJF 2 (load [(0, 5), (1, 3)]) = Run.finished 2
      { jobs := [{ id := 0, arrival := 0, length := 5, tickets := 100, remaining := 0,
                   start_time := 0, end_time := 5 },
                 { id := 1, arrival := 1, length := 3, tickets := 200, remaining := 0,
                   start_time := 5, end_time := 8 }],
        t := 8, remaining := 0,
        out := [{ tstart := 0, id := 0, arrival := 0, ran := 5 },
                { tstart := 5, id := 1, arrival := 1, ran := 3 }] } ∧
    (valid_trace tr → Fits tr →
      ∃ k f, ∀ fuel, k ≤ fuel → policy_SJF fuel (load tr) = Run.finished k f) := by
  refine ⟨fun s h => ⟨?_, SJF_wrap_out_picked (load tr) s h⟩, pick_sjf_none, ?_, by decide,
    ?_⟩
  rotate_left 2
  · intro hv hfit
    obtain ⟨⟨k, f, hrun, _⟩, _⟩ := sjf_selection_exact tr hv
    refine ⟨k, f, ?_⟩
    simp only [policy_SJF_agree tr hv.2 hfit]; exact hrun
  · obtain ⟨s1, h1, _⟩ := SJF_wrap_step s
    exact ⟨s1, h1⟩
  · intro js t p hp
    obtain ⟨j, hj, he, ha, hmin⟩ := pick_sjf_some js t p hp
    refine ⟨j, hj, he, ha, ?_⟩
    intro k x hx hxe hxa
    have := hmin k x hx hxe hxa
    unfold prefers at this
    omega

/-- C6 at the end of the run on the trace `0,5 / 1,3`. -/
theorem C6_witness :
    Reach SJF_cond SJF_body (SJF_init (load [(0, 5), (1, 3)]))
      (SJFState.mk [Job.mk 0 0 5 100 0 0 5, Job.mk 1 1 3 200 0 5 8] 8 0
        [Seg.mk 0 0 0 5, Seg.mk 5 1 1 3]) ∧
    ∀ g ∈ [Seg.mk 0 0 0 5, Seg.mk 5 1 1 3],
      ∃ s0, Reach SJF_cond SJF_body (SJF_init (load [(0, 5), (1, 3)])) s0 ∧
        SJF_cond s0 = true ∧ s0.t = g.tstart ∧
        ∃ p j, pick_sjf s0.jobs s0.t = some p ∧ s0.jobs[p]? = some j ∧
          g = print_seg s0.t j j.remaining :=
  have h : Reach SJF_cond SJF_body (SJF_init (load [(0, 5), (1, 3)]))
      (SJFState.mk [Job.mk 0 0 5 100 0 0 5, Job.mk 1 1 3 200 0 5 8] 8 0
        [Seg.mk 0 0 0 5, Seg.mk 5 1 1 3]) := Reach.of_loop_state 2 _ _ (by decide)
  ⟨h, ((C6_sjf_selection [(0, 5), (1, 3)]).1 _ h).2⟩

theorem grant_static (j : Job) (t ran : Int) :
    (grant j t ran).id = j.id ∧ (grant j t ran).arrival = j.arrival ∧
      (grant j t ran).length = j.length ∧ (grant j t ran).tickets = j.tickets ∧
      (grant j t ran).remaining = wrap (j.remaining - ran) := by
  obtain ⟨h1, h2, h3, h4, h5, _⟩ := stamp_start_static j t
  unfold grant
  simp only
  split_ifs <;> simp [h1, h2, h3, h4, h5]

theorem grant_end_time (j : Job) (t ran : Int) :
    (grant j t ran).end_time = j.end_time ∨ (grant j t ran).remaining = 0 := by
  obtain ⟨_, _, _, _, _, h6⟩ := stamp_start_static j t
  unfold grant
  simp only
  split_ifs with h
  · right; exact h
  · left; exact h6

/-- The body of the RR loop when the scan finds the node `q`. -/
theorem RR_wrap_grant (slice : Int) (s : RRState) (q : Nat) (qj : Job)
    (hf : find_next_ready_from s.jobs (RR_from s) s.t = some q) (hq : s.jobs[q]? = some qj) :
    RR_body slice s = some
      { jobs := s.jobs.set q (grant qj s.t (cmin slice qj.remaining)),
        t := wrap (s.t + cmin slice qj.remaining),
        curr := some (next_or_head s.jobs q),
        out := s.out ++ [print_seg s.t qj (cmin slice qj.remaining)] } := by
  unfold RR_body
  simp only [hf, hq]
  rw [print_seg_static _ _ qj _ (stamp_start_static_eq qj s.t)]
  simp only [(stamp_start_static qj s.t).2.2.2.2.1, grant]

theorem RR_wrap_step (slice : Int) (s : RRState) (hptr : RR_ptr s) (hc : RR_cond s = true) :
    ∃ s1, RR_body slice s = some s1 ∧ RR_ptr s1 ∧ s1.jobs.length = s.jobs.length ∧
      RR_rule slice s s1 := by
  obtain ⟨x, hx, _⟩ := not_all_done_mem hc
  have hn : 0 < s.jobs.length := List.length_pos_of_mem hx
  have hst := RR_from_start s hn hptr
  have hspec := find_next_ready_from_spec s.jobs (RR_from s) s.t (by
    intro c hcc
    have : scan_start (RR_from s) = c := by rw [hcc]; rfl
    omega)
  rw [RR_pointer_eq s hn] at hspec
  cases hf : find_next_ready_from s.jobs (RR_from s) s.t with
  | none =>
    rw [hf] at hspec
    refine ⟨{ s with t := idle_jump s.jobs s.t, curr := none }, ?_, ?_, rfl,
      Or.inl ⟨hspec, rfl, rfl, rfl, rfl⟩⟩
    · unfold RR_body
      simp only [hf]
    · intro c hcc
      cases hcc
  | some q =>
    rw [hf] at hspec
    obtain ⟨⟨qj, hq, hqe, hqa, hqr⟩, hmin⟩ := hspec
    have hqlt : q < s.jobs.length := (List.getElem?_eq_some_iff.1 hq).1
    refine ⟨_, RR_wrap_grant slice s q qj hf hq, ?_, by simp,
      Or.inr ⟨q, qj, _, hq, ⟨⟨qj, hq, hqe, hqa, hqr⟩, hmin⟩, rfl, rfl,
        (grant_static qj s.t _).2.2.2.2, rfl, rfl⟩⟩
    intro c hcc
    simp only at hcc
    injection hcc with hcc
    subst hcc
    simp only [List.length_set]
    exact next_or_head_lt s.jobs q hqlt

theorem RR_ptr_reach (js0 : List Job) (slice : Int) (s : RRState)
    (h : Reach RR_cond (RR_body slice) (RR_init js0) s) : RR_ptr s := by
  refine h.inv RR_ptr ?_ ?_
  · intro c hc
    cases hc
  · intro a b ha hc hb
    obtain ⟨s1, h1, h2, _⟩ := RR_wrap_step slice a ha hc
    rw [h1] at hb
    injection hb with hb
    subst hb
    exact h2

/-! ### Round-robin: where the scan starts -/

/-- C13 as stated fails: on the trace `5,2 / 0,1 / 5,2` with slice 2, job 1 runs
over [0,1), no job is ready at 1 and the clock jumps to 5 with `curr` reset to
`NULL`; the next iteration scans from the head and runs job 0, although job 2,
the registry successor of the most recently run job 1, is ready at 5. -/
theorem C13_counterexample :
    ∃ s s1 : RRState,
      Reach RR_cond (RR_body 2) (RR_init (load [(5, 2), (0, 1), (5, 2)])) s ∧
      RR_cond s = true ∧ RR_body 2 s = some s1 ∧
      s.out = [{ tstart := 0, id := 1, arrival := 0, ran := 1 }] ∧
      s1.out = s.out ++ [{ tstart := 5, id := 0, arrival := 5, ran := 2 }] ∧
      last_run_successor s.jobs s.out = 2 ∧
      is_ready s.jobs s.t 2 ∧
      ¬ FirstReadyFrom s.jobs s.t (last_run_successor s.jobs s.out) 0 :=
  ⟨{ jobs := [Job.mk 0 5 2 100 2 (-1) (-1), Job.mk 1 0 1 200 0 0 1,
              Job.mk 2 5 2 300 2 (-1) (-1)],
     t := 5, curr := none, out := [{ tstart := 0, id := 1, arrival := 0, ran := 1 }] },
   { jobs := [Job.mk 0 5 2 100 0 5 7, Job.mk 1 0 1 200 0 0 1,
              Job.mk 2 5 2 300 2 (-1) (-1)],
     t := 7, curr := some 1,
     out := [{ tstart := 0, id := 1, arrival := 0, ran := 1 },
             { tstart := 5, id := 0, arrival := 5, ran := 2 }] },
   Reach.step
     (@Reach.step _ _ _ _ _
       (RRState.mk [Job.mk 0 5 2 100 2 (-1) (-1), Job.mk 1 0 1 200 0 0 1,
                    Job.mk 2 5 2 300 2 (-1) (-1)] 1 (some 2) [Seg.mk 0 1 0 1])
       Reach.start (by decide) (by decide))
     (by decide) (by decide),
   by decide, by decide, rfl, rfl, by decide,
   ⟨Job.mk 2 5 2 300 2 (-1) (-1), rfl, by decide, by decide, by decide⟩,
   fun h => absurd (h.2 2 ⟨Job.mk 2 5 2 300 2 (-1) (-1), rfl, by decide, by decide,
     by decide⟩) (by decide)⟩

/-- C13, amended: on every trace and for every slice, the pointer `curr` of
`policy_RR` is `NULL` (the scan starts at the head) before the first iteration
and after every iteration that found no ready job, and is the registry successor
(wrapping to the head) of the job just run after every other iteration; every
iteration of the loop completes, the job it runs is the first ready job in
circular registry order from that pointer, and it runs for
`min(slice, remaining)` units as one segment.  On a valid trace whose latest
arrival plus the sum of its lengths is at most `INT_MAX`, with a slice above 0,
the loop finishes. -/
theorem C13_rr_scan_from_pointer (tr : List (Int × Int)) (slice : Int) :
    (RR_init (load tr)).curr = none ∧
    (∀ s, Reach RR_cond (RR_body slice) (RR_init (load tr)) s → RR_cond s = true →
      ∃ s1, RR_body slice s = some s1 ∧ RR_rule slice s s1) ∧
    (valid_trace tr → Fits tr → 0 < slice →
      ∃ k f, ∀ fuel, k ≤ fuel → policy_RR slice fuel (load tr) = Run.finished k f) := by
  refine ⟨rfl, ?_, ?_⟩
  · intro s hr hc
    obtain ⟨s1, h1, _, _, h2⟩ := RR_wrap_step slice s (RR_ptr_reach (load tr) slice s hr) hc
    exact ⟨s1, h1, h2⟩
  · intro hv hfit hs
    obtain ⟨⟨k, f, hrun⟩, _⟩ := rr_scan_exact tr hv slice hs
    refine ⟨k, f, ?_⟩
    simp only [policy_RR_agree tr hv.2 hfit slice hs]; exact hrun

/-- C13 (amended) on the trace `5,2 / 0,1 / 5,2` with slice 2: the first
iteration scans from the head and runs job 1, and `curr` becomes job 2. -/
theorem C13_witness :
    RR_cond (RR_init (load [(5, 2), (0, 1), (5, 2)])) = true ∧
    ∃ s1, RR_body 2 (RR_init (load [(5, 2), (0, 1), (5, 2)])) = some s1 ∧
      RR_rule 2 (RR_init (load [(5, 2), (0, 1), (5, 2)])) s1 :=
  ⟨by decide,
   (C13_rr_scan_from_pointer [(5, 2), (0, 1), (5, 2)] 2).2.1 _ Reach.start (by decide)⟩

theorem wrap_add_wrap (a b : Int) : wrap (wrap a + b) = wrap (a + b) := by
  unfold wrap
  omega

theorem wrap_zero : wrap 0 = 0 := by decide

/-- The function `total_ready_tickets` returns the sum of the ready tickets
reduced into the range of `int`. -/
theorem total_scan_wrap (t : Int) (l : List Job) :
    ∀ tot : Int, total_scan t l (wrap tot) = wrap (tot + ready_sum t l) := by
  induction l with
  | nil => intro tot; simp [total_scan, ready_sum]
  | cons j rest ih =>
    intro tot
    simp only [total_scan, ready_sum]
    by_cases hr : j.end_time < 0 ∧ j.arrival ≤ t ∧ j.remaining > 0
    · rw [if_pos hr, if_pos hr, wrap_add_wrap, ih]
      congr 1
      ring
    · rw [if_neg hr, if_neg hr, ih]
      congr 1
      ring

theorem total_ready_tickets_wrap (js : List Job) (t : Int) :
    total_ready_tickets js t = wrap (ready_sum t js) := by
  unfold total_ready_tickets
  have := total_scan_wrap t js 0
  rw [wrap_zero] at this
  rw [this]
  congr 1
  ring

theorem fresh_from_getElem? (tr : List (Int × Int)) :
    ∀ (k i : Nat), (fresh_from k tr)[i]? = (tr[i]?).map (fresh (k + i)) := by
  induction tr with
  | nil => intro k i; simp [fresh_from]
  | cons p rest ih =>
    intro k i
    cases i with
    | zero => simp [fresh_from]
    | succ n =>
      simp only [fresh_from, List.getElem?_cons_succ]
      rw [ih]
      have e : k + 1 + n = k + (n + 1) := by omega
      rw [e]

theorem load_eq_fresh_from (tr : List (Int × Int)) : load tr = fresh_from 0 tr := by
  apply List.ext_getElem?
  intro i
  rw [load_getElem?, fresh_from_getElem?]
  simp

/-- The ready tickets of `n` fresh jobs from position `k` on that have all arrived. -/
theorem ready_sum_replicate (t a l : Int) (ha : a ≤ t) (hl : 0 < l) :
    ∀ (n k : Nat), ready_sum t (fresh_from k (List.replicate n (a, l))) =
      100 * (n : Int) * (k : Int) + 50 * (n : Int) * ((n : Int) + 1) := by
  intro n
  induction n with
  | zero => intro k; simp [fresh_from, ready_sum]
  | succ m ih =>
    intro k
    simp only [List.replicate_succ, fresh_from, ready_sum]
    rw [ih]
    have hr : (fresh k (a, l)).end_time < 0 ∧ (fresh k (a, l)).arrival ≤ t ∧
        (fresh k (a, l)).remaining > 0 := by
      simp only [fresh]
      exact ⟨by decide, ha, hl⟩
    rw [if_pos hr]
    simp only [fresh]
    push_cast
    ring

theorem fresh_tickets_pos (tr : List (Int × Int)) : ∀ k, ∀ j ∈ fresh_from k tr, 0 < j.tickets := by
  induction tr with
  | nil => intro k j hj; cases hj
  | cons p rest ih =>
    intro k j hj
    simp only [fresh_from] at hj
    rcases List.mem_cons.1 hj with h | h
    · subst h
      simp only [fresh]
      omega
    · exact ih _ j h

theorem load_tickets_pos (tr : List (Int × Int)) : ∀ j ∈ load tr, 0 < j.tickets := by
  rw [load_eq_fresh_from]
  exact fresh_tickets_pos tr 0

theorem lottery_scan_wrap_ready (t w : Int) (l : List Job) :
    ∀ (i : Nat) (acc : Int) (q : Nat), lottery_scan t w l i acc = some q →
      ∃ k x, q = i + k ∧ l[k]? = some x ∧ x.end_time < 0 ∧ x.arrival ≤ t ∧ 0 < x.remaining := by
  induction l with
  | nil => intro i acc q h; simp [lottery_scan] at h
  | cons j rest ih =>
    intro i acc q h
    simp only [lottery_scan] at h
    by_cases hr : j.end_time < 0 ∧ j.arrival ≤ t ∧ j.remaining > 0
    · simp only [hr, and_self, if_true] at h
      by_cases hw : wrap (acc + j.tickets) > w
      · simp only [hw, if_true] at h
        injection h with h
        exact ⟨0, j, by omega, by simp, hr.1, hr.2.1, hr.2.2⟩
      · simp only [hw, if_false] at h
        obtain ⟨k, x, h1, h2, h3⟩ := ih _ _ _ h
        exact ⟨k + 1, x, by omega, by simpa using h2, h3⟩
    · simp only [hr, if_false] at h
      obtain ⟨k, x, h1, h2, h3⟩ := ih _ _ _ h
      exact ⟨k + 1, x, by omega, by simpa using h2, h3⟩

theorem pick_lottery_wrap_ready (js : List Job) (t w : Int) (p : Nat)
    (h : pick_lottery js t w = some p) :
    ∃ j, js[p]? = some j ∧ j.end_time < 0 ∧ j.arrival ≤ t ∧ 0 < j.remaining := by
  unfold pick_lottery at h
  obtain ⟨k, x, hk, hx, hxr⟩ := lottery_scan_wrap_ready t w js 0 0 p h
  have hqk : p = k := by omega
  subst hqk
  exact ⟨x, hx, hxr⟩

theorem set_static (js : List Job) (p : Nat) (j j1 : Job) (hj : js[p]? = some j)
    (h : j1.static = j.static) : (js.set p j1).map Job.static = js.map Job.static := by
  apply List.ext_getElem?
  intro i
  simp only [List.getElem?_map]
  by_cases hip : p = i
  · subst hip
    have hlt : p < js.length := (List.getElem?_eq_some_iff.1 hj).1
    rw [List.getElem?_set_self hlt, hj]
    simp [h]
  · rw [List.getElem?_set_ne hip]

theorem grant_static_eq (j : Job) (t ran : Int) : (grant j t ran).static = j.static := by
  obtain ⟨h1, h2, h3, h4, _⟩ := grant_static j t ran
  simp [Job.static, h1, h2, h3, h4]

/-- C10 as stated fails: on the registry of the valid trace of 9268 lines `0,1`,
at time 0, every job is ready and holds a positive number of tickets; the tickets
sum to 4295254600, so `total_ready_tickets(0)` returns 287304, which is positive;
job 9267 holds 926800 tickets, more than there are winning numbers in
`[0, 287304)`. -/
theorem C10_counterexample :
    valid_trace (List.replicate 9268 (0, 1)) ∧
    total_ready_tickets (load (List.replicate 9268 (0, 1))) 0 = 287304 ∧
    (∀ x ∈ load (List.replicate 9268 (0, 1)), x.end_time < 0 → x.arrival ≤ 0 →
      0 < x.remaining → 0 < x.tickets) ∧
    ∃ j, (load (List.replicate 9268 (0, 1)))[9267]? = some j ∧ j.end_time < 0 ∧
      j.arrival ≤ 0 ∧ 0 < j.remaining ∧ j.tickets = 926800 ∧
      (((Finset.Ico 0 (total_ready_tickets (load (List.replicate 9268 (0, 1))) 0)).filter
        (fun w => pick_lottery (load (List.replicate 9268 (0, 1))) 0 w = some 9267)).card :
          Int) ≠ j.tickets := by
  have htot : total_ready_tickets (load (List.replicate 9268 (0, 1))) 0 = 287304 := by
    rw [total_ready_tickets_wrap, load_eq_fresh_from,
      ready_sum_replicate 0 0 1 (le_refl _) (by decide)]
    decide
  refine ⟨⟨?_, ?_⟩, htot, fun x hx _ _ _ => load_tickets_pos _ x hx,
    fresh 9267 (0, 1), ?_, by decide, by decide, by decide, by decide, ?_⟩
  · intro h
    have := congrArg List.length h
    rw [List.length_replicate] at this
    cases this
  · intro p hp
    rw [List.mem_replicate] at hp
    rw [hp.2]
    decide
  · rw [load_getElem?, List.getElem?_replicate]
    rfl
  · rw [htot]
    have h1 := Finset.card_filter_le (Finset.Ico (0 : Int) 287304)
      (fun w => pick_lottery (load (List.replicate 9268 (0, 1))) 0 w = some 9267)
    rw [Int.card_Ico] at h1
    have h2 : (287304 - 0 : Int).toNat = 287304 := by decide
    rw [h2] at h1
    have h3 : (fresh 9267 (0, 1)).tickets = 926800 := by decide
    rw [h3]
    omega

/-- C10, amended: for every registry and time `t` with a positive ticket total
and positive tickets on every ready job: when the tickets of the ready jobs sum
to at most `INT_MAX`, for every ready job the number of winning numbers `w` in
`[0, total)` for which `pick_lottery(t, w)` returns that job is the number of its
tickets; and `pick_lottery` never returns a job that is not ready. -/
theorem C10_lottery_proportional (js : List Job) (t : Int)
    (_htot : 0 < total_ready_tickets js t)
    (hpos : ∀ x ∈ js, x.end_time < 0 → x.arrival ≤ t → 0 < x.remaining → 0 < x.tickets) :
    (ready_sum t js ≤ INT_MAX →
      ∀ (p : Nat) (j : Job), js[p]? = some j → j.end_time < 0 → j.arrival ≤ t →
        0 < j.remaining →
        (((Finset.Ico 0 (total_ready_tickets js t)).filter
          (fun w => pick_lottery js t w = some p)).card : Int) = j.tickets) ∧
    (∀ (w : Int) (p : Nat), pick_lottery js t w = some p →
      ∃ j, js[p]? = some j ∧ j.end_time < 0 ∧ j.arrival ≤ t ∧ 0 < j.remaining) := by
  refine ⟨?_, fun w p h => pick_lottery_wrap_ready js t w p h⟩
  intro hfit
  have e1 : total_ready_tickets js t = total_ready_tickets_exact js t :=
    total_scan_agree t js hpos 0 (le_refl _) (by omega)
  have e2 : ∀ w, pick_lottery js t w = pick_lottery_exact js t w :=
    fun w => lottery_scan_agree t w js hpos 0 0 (le_refl _) (by omega)
  simp only [e1, e2]
  exact (lottery_proportional_exact js t (by rw [← e1]; exact _htot) hpos).1

/-- C10 (amended) on the registry of the trace `0,5 / 1,3` at time 1: job 0 holds
100 of the 300 tickets and job 1 holds 200. -/
theorem C10_witness :
    0 < total_ready_tickets (load [(0, 5), (1, 3)]) 1 ∧
    ready_sum 1 (load [(0, 5), (1, 3)]) ≤ INT_MAX ∧
    (∀ (p : Nat) (j : Job), (load [(0, 5), (1, 3)])[p]? = some j → j.end_time < 0 →
      j.arrival ≤ 1 → 0 < j.remaining →
      (((Finset.Ico 0 (total_ready_tickets (load [(0, 5), (1, 3)]) 1)).filter
        (fun w => pick_lottery (load [(0, 5), (1, 3)]) 1 w = some p)).card : Int) = j.tickets) :=
  ⟨by decide, by decide,
    (C10_lottery_proportional (load [(0, 5), (1, 3)]) 1 (by decide) (by decide)).1
      (by decide)⟩

theorem Reach.comparable {σ : Type} {cond : σ → Bool} {body : σ → Option σ} {a x y : σ}
    (h1 : Reach cond body a x) (h2 : Reach cond body a y) :
    Reach cond body x y ∨ Reach cond body y x := by
  induction h1 with
  | start => exact Or.inl h2
  | @step u v _ hc hb ih =>
    rcases ih with h | h
    · rcases h.head with e | ⟨b, _, hb1, hr⟩
      · subst e
        exact Or.inr (Reach.step Reach.start hc hb)
      · rw [hb] at hb1
        injection hb1 with hb1
        subst hb1
        exact Or.inl hr
    · exact Or.inr (Reach.step h hc hb)

theorem idle_jump_le_max (js : List Job) (t : Int) : idle_jump js t ≤ INT_MAX := by
  unfold idle_jump
  simp only
  split_ifs
  · exact (wrap_bounds _).2
  · exact (next_arrival_scan_spec t js INT_MAX).1

/-- The two ways an iteration of the RR loop goes. -/
theorem RR_wrap_cases (slice : Int) (s : RRState) (hptr : RR_ptr s) (hc : RR_cond s = true) :
    ((∀ i, ¬ is_ready s.jobs s.t i) ∧
      RR_body slice s = some { s with t := idle_jump s.jobs s.t, curr := none }) ∨
    ∃ q qj, s.jobs[q]? = some qj ∧ is_ready s.jobs s.t q ∧
      (∀ i, is_ready s.jobs s.t i →
        cdist s.jobs.length (scan_start (RR_from s)) q ≤
          cdist s.jobs.length (scan_start (RR_from s)) i) ∧
      RR_body slice s = some
        { jobs := s.jobs.set q (grant qj s.t (cmin slice qj.remaining)),
          t := wrap (s.t + cmin slice qj.remaining),
          curr := some (next_or_head s.jobs q),
          out := s.out ++ [print_seg s.t qj (cmin slice qj.remaining)] } := by
  obtain ⟨x, hx, _⟩ := not_all_done_mem hc
  have hn : 0 < s.jobs.length := List.length_pos_of_mem hx
  have hst := RR_from_start s hn hptr
  have hspec := find_next_ready_from_spec s.jobs (RR_from s) s.t (by
    intro c hcc
    have : scan_start (RR_from s) = c := by rw [hcc]; rfl
    omega)
  cases hf : find_next_ready_from s.jobs (RR_from s) s.t with
  | none =>
    rw [hf] at hspec
    left
    refine ⟨hspec, ?_⟩
    unfold RR_body
    simp only [hf]
  | some q =>
    rw [hf] at hspec
    obtain ⟨⟨qj, hq, hqr⟩, hmin⟩ := hspec
    exact Or.inr ⟨q, qj, hq, ⟨qj, hq, hqr⟩, hmin, RR_wrap_grant slice s q qj hf hq⟩

theorem RRW_init (js0 : List Job) : RRW js0 (RR_init js0) := by
  refine ⟨rfl, ?_, ?_, ?_⟩
  · intro c hc
    cases hc
  · show (0 : Int) ≤ INT_MAX
    decide
  · intro g hg
    cases hg

theorem RRW_step (js0 : List Job) (slice : Int) (s s1 : RRState) (hW : RRW js0 s)
    (hc : RR_cond s = true) (hb : RR_body slice s = some s1) : RRW js0 s1 := by
  rcases RR_wrap_cases slice s hW.ptr hc with ⟨_, h⟩ | ⟨q, qj, hq, _, _, h⟩
  · rw [h] at hb
    injection hb with hb
    subst hb
    refine ⟨hW.static, ?_, idle_jump_le_max _ _, hW.outb⟩
    intro c hcc
    cases hcc
  · rw [h] at hb
    injection hb with hb
    subst hb
    have hqlt : q < s.jobs.length := (List.getElem?_eq_some_iff.1 hq).1
    refine ⟨?_, ?_, (wrap_bounds _).2, ?_⟩
    · simp only
      rw [set_static s.jobs q qj _ hq (grant_static_eq qj s.t _)]
      exact hW.static
    · intro c hcc
      simp only at hcc
      injection hcc with hcc
      subst hcc
      simp only [List.length_set]
      exact next_or_head_lt s.jobs q hqlt
    · intro g hg
      simp only at hg
      rcases List.mem_append.1 hg with hg | hg
      · exact hW.outb g hg
      · simp only [List.mem_singleton] at hg
        subst hg
        exact hW.clock

theorem RRW_reach (js0 : List Job) (slice : Int) (s0 s : RRState) (h0 : RRW js0 s0)
    (h : Reach RR_cond (RR_body slice) s0 s) : RRW js0 s :=
  h.inv (RRW js0) h0 (fun a b ha hc hb => RRW_step js0 slice a b ha hc hb)

/-- The id of a node is its position. -/
theorem RRW.ids {tr : List (Int × Int)} {s : RRState} (hW : RRW (load tr) s) (q : Nat)
    (qj : Job) (hq : s.jobs[q]? = some qj) : qj.id = (q : Int) ∧
      ∃ p, tr[q]? = some p ∧ qj.arrival = p.1 := by
  obtain ⟨j0, hj0, hid, harr, _⟩ := static_get_rev s.jobs (load tr) hW.static q qj hq
  rw [load_getElem?] at hj0
  cases hp : tr[q]? with
  | none => rw [hp] at hj0; cases hj0
  | some p =>
    rw [hp] at hj0
    simp only [Option.map_some'] at hj0
    injection hj0 with hj0
    subst hj0
    exact ⟨hid, p, rfl, harr⟩

theorem RRW.length {tr : List (Int × Int)} {s : RRState} (hW : RRW (load tr) s) :
    s.jobs.length = tr.length := by
  have := congrArg List.length hW.static
  simpa [load_length] using this

/-- One iteration of the RR loop prints nothing or one segment. -/
theorem RR_wrap_out_step (slice : Int) (a b : RRState) (h : RR_body slice a = some b) :
    b.out = a.out ∨ ∃ g, b.out = a.out ++ [g] := by
  unfold RR_body at h
  cases hf : find_next_ready_from a.jobs (RR_from a) a.t with
  | none =>
    rw [hf] at h
    injection h with h
    subst h
    exact Or.inl rfl
  | some q =>
    rw [hf] at h
    simp only at h
    cases hq : a.jobs[q]? with
    | none => rw [hq] at h; cases h
    | some qj =>
      rw [hq] at h
      injection h with h
      subst h
      exact Or.inr ⟨_, rfl⟩

theorem RR_wrap_out_grows (slice : Int) (a b : RRState)
    (h : Reach RR_cond (RR_body slice) a b) : ∃ rest, b.out = a.out ++ rest := by
  induction h with
  | start => exact ⟨[], by simp⟩
  | @step x y _ _ hb ih =>
    obtain ⟨rest, hrest⟩ := ih
    rcases RR_wrap_out_step slice x y hb with h | ⟨g, h⟩
    · exact ⟨rest, by rw [h, hrest]⟩
    · exact ⟨rest ++ [g], by rw [h, hrest]; simp⟩

/-- Every segment of the printed trace was printed by one iteration, on top of
the segments before it. -/
theorem RR_wrap_emit_point (slice : Int) (s0 f : RRState) (h0 : s0.out = [])
    (h : Reach RR_cond (RR_body slice) s0 f) :
    ∀ (pre post : List Seg) (g1 : Seg), f.out = pre ++ g1 :: post →
      ∃ s s1, Reach RR_cond (RR_body slice) s0 s ∧ RR_cond s = true ∧
        RR_body slice s = some s1 ∧ s.out = pre ∧ s1.out = pre ++ [g1] := by
  induction h with
  | start =>
    intro pre post g1 h
    rw [h0] at h
    simp at h
  | @step x y hr hc hb ih =>
    intro pre post g1 h
    rcases RR_wrap_out_step slice x y hb with hxy | ⟨g, hxy⟩
    · rw [hxy] at h
      exact ih pre post g1 h
    · rw [hxy] at h
      rcases append_singleton_split x.out pre post g g1 h with ⟨h1, h2, _⟩ | ⟨post1, _, h2⟩
      · exact ⟨x, y, hr, hc, hb, h1, by rw [hxy, h1, h2]⟩
      · exact ih pre post1 g1 h2

/-- The first element with a property splits a list in one way. -/
theorem first_split_unique {α : Type} (P : α → Prop) :
    ∀ (l1 l2 r1 r2 : List α) (a b : α), l1 ++ a :: r1 = l2 ++ b :: r2 →
      (∀ g ∈ l1, ¬ P g) → P a → (∀ g ∈ l2, ¬ P g) → P b → l1 = l2 ∧ a = b := by
  intro l1
  induction l1 with
  | nil =>
    intro l2 r1 r2 a b h _ ha h2 _
    cases l2 with
    | nil =>
      simp only [List.nil_append] at h
      injection h with h _
      exact ⟨rfl, h⟩
    | cons c l2 =>
      simp only [List.nil_append, List.cons_append] at h
      injection h with h _
      subst h
      exact absurd ha (h2 a (List.mem_cons_self _ _))
  | cons c l1 ih =>
    intro l2 r1 r2 a b h h1 ha h2 hb
    cases l2 with
    | nil =>
      simp only [List.nil_append, List.cons_append] at h
      injection h with h _
      subst h
      exact absurd hb (h1 c (List.mem_cons_self _ _))
    | cons d l2 =>
      simp only [List.cons_append] at h
      injection h with h h'
      subst h
      obtain ⟨e1, e2⟩ := ih l2 r1 r2 a b h'
        (fun g hg => h1 g (List.mem_cons_of_mem _ hg)) ha
        (fun g hg => h2 g (List.mem_cons_of_mem _ hg)) hb
      exact ⟨by rw [e1], e2⟩

/-- A ready job is granted the processor after at most `d` other grants, where
`d` is the number of `next` steps from the scan start to its node, and the clock
advances by at most `d` slices meanwhile, unless the clock passes `INT_MAX`
within these `d` slices. -/
theorem RR_next_grant_wrap (tr : List (Int × Int)) (slice : Int) (hs : 0 < slice) :
    ∀ (d : Nat) (s : RRState) (i : Nat) (j : Job), RRW (load tr) s → s.jobs[i]? = some j →
      j.end_time < 0 → j.arrival ≤ s.t → 0 ≤ s.t → 0 < j.remaining →
      cdist s.jobs.length (scan_start (RR_from s)) i ≤ d →
      INT_MAX < s.t + (d : Int) * slice ∨
      ∃ s2 s3 mid g2, Reach RR_cond (RR_body slice) s s2 ∧ RR_cond s2 = true ∧
        RR_body slice s2 = some s3 ∧ s2.out = s.out ++ mid ∧ (∀ g ∈ mid, g.id ≠ (i : Int)) ∧
        s3.out = s2.out ++ [g2] ∧ g2.id = (i : Int) ∧
        g2.tstart ≤ s.t + (d : Int) * slice := by
  intro d
  induction d with
  | zero =>
    intro s i j hW hj he ha ht hr hd
    have hilt : i < s.jobs.length := (List.getElem?_eq_some_iff.1 hj).1
    have hst := RR_from_start s (by omega) hW.ptr
    have hc : RR_cond s = true := by
      unfold RR_cond
      have := (not_all_done_iff s.jobs).2 ⟨j, List.mem_iff_getElem?.2 ⟨i, hj⟩, he⟩
      simp [this]
    rcases RR_wrap_cases slice s hW.ptr hc with ⟨hno, _⟩ | ⟨q, qj, hq, _, hmin, hbody⟩
    · exact absurd ⟨j, hj, he, ha, hr⟩ (hno i)
    · have hqlt : q < s.jobs.length := (List.getElem?_eq_some_iff.1 hq).1
      have h1 := hmin i ⟨j, hj, he, ha, hr⟩
      have hqi : q = i :=
        cdist_inj s.jobs.length (scan_start (RR_from s)) q i hqlt hilt hst (by omega)
      subst hqi
      right
      refine ⟨s, _, [], _, Reach.start, hc, hbody, by simp, by simp, rfl, ?_, ?_⟩
      · simp only [print_seg]
        exact (hW.ids q qj hq).1
      · simp [print_seg]
  | succ d ih =>
    intro s i j hW hj he ha ht hr hd
    have hilt : i < s.jobs.length := (List.getElem?_eq_some_iff.1 hj).1
    have hst := RR_from_start s (by omega) hW.ptr
    have hc : RR_cond s = true := by
      unfold RR_cond
      have := (not_all_done_iff s.jobs).2 ⟨j, List.mem_iff_getElem?.2 ⟨i, hj⟩, he⟩
      simp [this]
    have hd0 : (0 : Int) ≤ (d : Int) * slice := by positivity
    rcases RR_wrap_cases slice s hW.ptr hc with ⟨hno, _⟩ |
      ⟨q, qj, hq, ⟨qj1, hq1, _, _, hqr⟩, hmin, hbody⟩
    · exact absurd ⟨j, hj, he, ha, hr⟩ (hno i)
    · rw [hq] at hq1
      injection hq1 with hq1
      subst hq1
      have hqlt : q < s.jobs.length := (List.getElem?_eq_some_iff.1 hq).1
      have h1 := hmin i ⟨j, hj, he, ha, hr⟩
      obtain ⟨hr1, hr2, hr3⟩ := cmin_bounds slice qj.remaining hs hqr
      have hexp : ((d + 1 : Nat) : Int) * slice = (d : Int) * slice + slice := by
        push_cast; ring
      by_cases hqi : q = i
      · subst hqi
        right
        refine ⟨s, _, [], _, Reach.start, hc, hbody, by simp, by simp, rfl, ?_, ?_⟩
        · simp only [print_seg]
          exact (hW.ids q qj hq).1
        · simp only [print_seg]
          rw [hexp]
          omega
      · by_cases hwrap : INT_MAX < s.t + cmin slice qj.remaining
        · left
          rw [hexp]
          omega
        · have hlt : cdist s.jobs.length (scan_start (RR_from s)) q <
              cdist s.jobs.length (scan_start (RR_from s)) i := by
            rcases Nat.lt_or_ge (cdist s.jobs.length (scan_start (RR_from s)) q)
              (cdist s.jobs.length (scan_start (RR_from s)) i) with h | h
            · exact h
            · exact absurd (cdist_inj s.jobs.length _ q i hqlt hilt hst (by omega)) hqi
          have hafter := cdist_after s.jobs (scan_start (RR_from s)) q i hst hqlt hilt hlt
          have ht1 : wrap (s.t + cmin slice qj.remaining) = s.t + cmin slice qj.remaining :=
            wrap_eq_nonneg _ (by omega) (by omega)
          rw [ht1] at hbody
          have hW1 := RRW_step (load tr) slice s _ hW hc hbody
          have hcall := ih _ i j hW1
            (by simp only; rw [List.getElem?_set_ne hqi]; exact hj) he
            (by simp only; omega) (by simp only; omega) hr
            (by
              simp only [List.length_set]
              have : scan_start (RR_from
                  { jobs := s.jobs.set q (grant qj s.t (cmin slice qj.remaining)),
                    t := s.t + cmin slice qj.remaining,
                    curr := some (next_or_head s.jobs q),
                    out := s.out ++ [print_seg s.t qj (cmin slice qj.remaining)] })
                  = next_or_head s.jobs q := rfl
              rw [this]
              omega)
          simp only at hcall
          rcases hcall with hmax | ⟨s2, s3, mid, g2, hreach, hc2, hb2, hout2, hmid, hout3, hg2,
            hbound⟩
          · left
            rw [hexp]
            omega
          · right
            refine ⟨s2, s3, print_seg s.t qj (cmin slice qj.remaining) :: mid, g2,
              Reach.trans (Reach.step Reach.start hc hbody) hreach, hc2, hb2, ?_, ?_, hout3,
              hg2, ?_⟩
            · rw [hout2]; simp
            · intro g hg
              rcases List.mem_cons.1 hg with rfl | hg
              · simp only [print_seg]
                rw [(hW.ids q qj hq).1]
                omega
              · exact hmid g hg
            · rw [hexp]
              omega

/-- A job with nothing remaining is not granted the processor again. -/
theorem RR_dead (tr : List (Int × Int)) (slice : Int) (s1 : RRState) (hW : RRW (load tr) s1)
    (i : Nat) (j : Job) (hj : s1.jobs[i]? = some j) (hr : j.remaining ≤ 0) (x : RRState)
    (h : Reach RR_cond (RR_body slice) s1 x) :
    ∃ ext, x.out = s1.out ++ ext ∧ ∀ g ∈ ext, g.id ≠ (i : Int) := by
  have key : RRW (load tr) x ∧ x.jobs[i]? = some j ∧
      ∃ ext, x.out = s1.out ++ ext ∧ ∀ g ∈ ext, g.id ≠ (i : Int) := by
    refine h.inv (fun x => RRW (load tr) x ∧ x.jobs[i]? = some j ∧
      ∃ ext, x.out = s1.out ++ ext ∧ ∀ g ∈ ext, g.id ≠ (i : Int))
      ⟨hW, hj, [], by simp, by simp⟩ ?_
    intro a b ⟨hWa, hja, ext, hext, hno⟩ hc hb
    refine ⟨RRW_step (load tr) slice a b hWa hc hb, ?_⟩
    rcases RR_wrap_cases slice a hWa.ptr hc with ⟨_, h1⟩ |
      ⟨q, qj, hq, ⟨qj1, hq1, _, _, hqr⟩, _, h1⟩
    · rw [h1] at hb
      injection hb with hb
      subst hb
      exact ⟨hja, ext, hext, hno⟩
    · rw [hq] at hq1
      injection hq1 with hq1
      subst hq1
      rw [h1] at hb
      injection hb with hb
      subst hb
      have hqi : q ≠ i := by
        intro e
        subst e
        rw [hq] at hja
        injection hja with hja
        subst hja
        omega
      refine ⟨by simp only; rw [List.getElem?_set_ne hqi]; exact hja,
        ext ++ [print_seg a.t qj (cmin slice qj.remaining)], by simp [hext], ?_⟩
      intro g hg
      rcases List.mem_append.1 hg with hg | hg
      · exact hno g hg
      · simp only [List.mem_singleton] at hg
        subst hg
        simp only [print_seg]
        rw [(hWa.ids q qj hq).1]
        omega
  exact key.2.2

/-- On the wrap-around clock: between two consecutive segments of a job in the
trace `policy_RR` has printed at some head, the clock advances by at most
`(n - 1) * slice`. -/
theorem RR_gap_bound (tr : List (Int × Int)) (hv : valid_trace tr) (slice : Int)
    (hs : 0 < slice) (f : RRState)
    (hf : Reach RR_cond (RR_body slice) (RR_init (load tr)) f)
    (pre mid rest : List Seg) (g1 g2 : Seg) (hout : f.out = pre ++ g1 :: (mid ++ g2 :: rest))
    (hmid : ∀ g ∈ mid, g.id ≠ g1.id) (hg2 : g2.id = g1.id) :
    g2.tstart - (g1.tstart + g1.ran) ≤ ((tr.length : Int) - 1) * slice := by
  have hWf := RRW_reach (load tr) slice _ f (RRW_init _) hf
  have hg2max : g2.tstart ≤ INT_MAX := hWf.outb g2 (by rw [hout]; simp)
  obtain ⟨s, s1, hrs, hcs, hbs, hsout, hs1out⟩ :=
    RR_wrap_emit_point slice (RR_init (load tr)) f rfl hf pre _ g1 hout
  have hWs := RRW_reach (load tr) slice _ s (RRW_init _) hrs
  have hW1 := RRW_step (load tr) slice s s1 hWs hcs hbs
  have hr1 : Reach RR_cond (RR_body slice) (RR_init (load tr)) s1 := Reach.step hrs hcs hbs
  rcases RR_wrap_cases slice s hWs.ptr hcs with ⟨_, h1⟩ |
    ⟨q, qj, hq, ⟨qj1, hq1, hqe, hqa, hqr⟩, _, h1⟩
  · rw [h1] at hbs
    injection hbs with hbs
    subst hbs
    simp only at hs1out
    rw [hsout] at hs1out
    have := congrArg List.length hs1out
    simp at this
  · rw [hq] at hq1
    injection hq1 with hq1
    subst hq1
    rw [h1] at hbs
    injection hbs with hbs
    have hqlt : q < s.jobs.length := (List.getElem?_eq_some_iff.1 hq).1
    obtain ⟨hqid, p, hp, hparr⟩ := hWs.ids q qj hq
    have hp0 : 0 ≤ p.1 := (hv.2 p (List.mem_iff_getElem?.2 ⟨q, hp⟩)).1
    have hn : 0 < tr.length := by rw [← hWs.length]; omega
    obtain ⟨hc1, hc2, hc3⟩ := cmin_bounds slice qj.remaining hs hqr
    have hg1 : g1 = print_seg s.t qj (cmin slice qj.remaining) := by
      rw [← hbs] at hs1out
      simp only at hs1out
      rw [hsout] at hs1out
      have := List.append_cancel_left hs1out
      injection this with this
      exact this.symm
    have hg1t : g1.tstart = s.t := by rw [hg1]; rfl
    have hg1r : g1.ran = cmin slice qj.remaining := by rw [hg1]; rfl
    have hg1id : g1.id = (q : Int) := by rw [hg1]; exact hqid
    have hbnd : (0 : Int) ≤ ((tr.length : Int) - 1) * slice := by
      have : (0 : Int) ≤ (tr.length : Int) - 1 := by omega
      positivity
    by_cases hwrap : INT_MAX < s.t + cmin slice qj.remaining
    · omega
    · have ht1 : s1.t = s.t + cmin slice qj.remaining := by
        rw [← hbs]
        exact wrap_eq_nonneg _ (by omega) (by omega)
      have hj1 : s1.jobs[q]? = some (grant qj s.t (cmin slice qj.remaining)) := by
        rw [← hbs]
        exact List.getElem?_set_self hqlt
      by_cases hrem : (grant qj s.t (cmin slice qj.remaining)).remaining ≤ 0
      · -- the job is not granted the processor again
        exfalso
        rcases hr1.comparable hf with h | h
        · obtain ⟨ext, hext, hno⟩ := RR_dead tr slice s1 hW1 q _ hj1 hrem f h
          rw [hs1out, hout] at hext
          have e : pre ++ g1 :: (mid ++ g2 :: rest) = pre ++ (g1 :: ext) := by
            rw [hext]; simp
          have e1 := List.append_cancel_left e
          injection e1 with _ e1
          have : g2 ∈ ext := by rw [← e1]; simp
          exact hno g2 this (by rw [hg2, hg1id])
        · obtain ⟨ext, hext⟩ := RR_wrap_out_grows slice f s1 h
          rw [hs1out, hout] at hext
          have := congrArg List.length hext
          simp at this
      · have hrem1 : 0 < (grant qj s.t (cmin slice qj.remaining)).remaining := by omega
        have hend1 : (grant qj s.t (cmin slice qj.remaining)).end_time < 0 := by
          rcases grant_end_time qj s.t (cmin slice qj.remaining) with h | h
          · rw [h]; exact hqe
          · omega
        have harr1 : (grant qj s.t (cmin slice qj.remaining)).arrival ≤ s1.t := by
          rw [(grant_static qj s.t _).2.1, ht1]
          omega
        have hdist : cdist s1.jobs.length (scan_start (RR_from s1)) q ≤ tr.length - 1 := by
          have hstart : scan_start (RR_from s1) = next_or_head s.jobs q := by rw [← hbs]; rfl
          have hl : s1.jobs.length = s.jobs.length := by rw [← hbs]; simp
          rw [hstart, hl, cdist_next_self s.jobs q hqlt, hWs.length]
        have hcast : ((tr.length - 1 : Nat) : Int) = (tr.length : Int) - 1 := by omega
        rcases RR_next_grant_wrap tr slice hs (tr.length - 1) s1 q _ hW1 hj1 hend1 harr1
            (by rw [ht1]; omega) hrem1 hdist with hmax |
          ⟨s2, s3, mid0, g20, hreach2, hc2', hb2, hout2, hmid0, hout3, hg20, hbound⟩
        · rw [hcast, ht1] at hmax
          omega
        · have hr3 : Reach RR_cond (RR_body slice) (RR_init (load tr)) s3 :=
            Reach.step (Reach.trans hr1 hreach2) hc2' hb2
          have hs3out : s3.out = pre ++ g1 :: (mid0 ++ [g20]) := by
            rw [hout3, hout2, hs1out]; simp
          have hP1 : ∀ g ∈ mid, ¬ (g.id = (q : Int)) := fun g hg => by
            rw [← hg1id]; exact hmid g hg
          have hP2 : g2.id = (q : Int) := by rw [hg2, hg1id]
          have heq : g2 = g20 := by
            rcases hr3.comparable hf with h | h
            · obtain ⟨ext, hext⟩ := RR_wrap_out_grows slice s3 f h
              rw [hs3out, hout] at hext
              have e : pre ++ g1 :: (mid ++ g2 :: rest) = pre ++ (g1 :: (mid0 ++ g20 :: ext)) := by
                rw [hext]; simp
              have e1 := List.append_cancel_left e
              injection e1 with _ e1
              exact (first_split_unique (fun g => g.id = (q : Int)) mid mid0 rest ext g2 g20 e1
                hP1 hP2 hmid0 hg20).2
            · obtain ⟨ext, hext⟩ := RR_wrap_out_grows slice f s3 h
              rw [hs3out, hout] at hext
              have e : pre ++ (g1 :: (mid0 ++ g20 :: [])) =
                  pre ++ (g1 :: (mid ++ g2 :: (rest ++ ext))) := by
                rw [hext]; simp
              have e1 := List.append_cancel_left e
              injection e1 with _ e1
              exact (first_split_unique (fun g => g.id = (q : Int)) mid0 mid [] (rest ++ ext)
                g20 g2 e1 hmid0 hg20 hP1 hP2).2.symm
          rw [heq]
          rw [hcast, ht1] at hbound
          omega

/-! ### Round-robin: the fairness bound -/

/-- C8: on every valid trace with `n` jobs and for every slice `s` above 0, in the
trace `policy_RR` has printed at any head of its loop: when a segment of a job
ends at `e` (its start plus its duration) and a later segment of the same job
follows, the next one starts no later than `e + (n - 1) * s`.  (The bound holds
whether or not all jobs have arrived by `e`.)  On a trace whose latest arrival
plus the sum of its lengths is at most `INT_MAX` the loop finishes, and a
segment after which the segments of the job printed so far do not add up to its
length is followed by a later segment of the same job. -/
theorem C8_rr_fairness_bound (tr : List (Int × Int)) (hv : valid_trace tr)
    (slice : Int) (hs : 0 < slice) :
    (∀ f, Reach RR_cond (RR_body slice) (RR_init (load tr)) f →
      ∀ (pre mid rest : List Seg) (g1 g2 : Seg),
        f.out = pre ++ g1 :: (mid ++ g2 :: rest) → (∀ g ∈ mid, g.id ≠ g1.id) →
        g2.id = g1.id →
        g2.tstart - (g1.tstart + g1.ran) ≤ ((tr.length : Int) - 1) * slice) ∧
    (Fits tr →
      ∃ k f, (∀ fuel, k ≤ fuel → policy_RR slice fuel (load tr) = Run.finished k f) ∧
        ∀ (pre post : List Seg) (g1 : Seg) (i : Nat) (p : Int × Int),
          f.out = pre ++ g1 :: post → g1.id = (i : Int) → tr[i]? = some p →
          ran_total (i : Int) (pre ++ [g1]) < p.2 →
          ∃ mid g2 rest, post = mid ++ g2 :: rest ∧ (∀ g ∈ mid, g.id ≠ g1.id) ∧
            g2.id = g1.id ∧
            g2.tstart - (g1.tstart + g1.ran) ≤ ((tr.length : Int) - 1) * slice) := by
  refine ⟨fun f hf pre mid rest g1 g2 hout hmid hg2 =>
    RR_gap_bound tr hv slice hs f hf pre mid rest g1 g2 hout hmid hg2, ?_⟩
  intro hfit
  obtain ⟨k, f, hrun, hall⟩ := rr_fairness_exact tr hv slice hs
  refine ⟨k, f, ?_, hall⟩
  simp only [policy_RR_agree tr hv.2 hfit slice hs]; exact hrun

/-- C8 on the trace `0,5 / 1,3` with slice 2. -/
theorem C8_witness :
    valid_trace [(0, 5), (1, 3)] ∧ (0 : Int) < 2 ∧ Fits [(0, 5), (1, 3)] ∧
    ∃ k f, (∀ fuel, k ≤ fuel → policy_RR 2 fuel (load [(0, 5), (1, 3)]) = Run.finished k f) ∧
      ∀ (pre post : List Seg) (g1 : Seg) (i : Nat) (p : Int × Int),
        f.out = pre ++ g1 :: post → g1.id = (i : Int) →
        [((0 : Int), (5 : Int)), (1, 3)][i]? = some p →
        ran_total (i : Int) (pre ++ [g1]) < p.2 →
        ∃ mid g2 rest, post = mid ++ g2 :: rest ∧ (∀ g ∈ mid, g.id ≠ g1.id) ∧
          g2.id = g1.id ∧
          g2.tstart - (g1.tstart + g1.ran) ≤
            (([((0 : Int), (5 : Int)), (1, 3)].length : Int) - 1) * 2 :=
  ⟨by decide, by decide, by decide,
    (C8_rr_fairness_bound [(0, 5), (1, 3)] (by decide) 2 (by decide)).2 (by decide)⟩

theorem FIFOWrap_step (js0 : List Job) (hf : Fresh js0) (s : FIFOState) (hI : FIFOWrap js0 s)
    (hc : FIFO_cond s = true) :
    ∃ s1, FIFO_body s = some s1 ∧ FIFOWrap js0 s1 ∧
      js0.length - s1.out.length < js0.length - s.out.length := by
  have hcur := hI.cur
  have hlt : s.out.length < js0.length := by
    by_contra h
    rw [if_neg h] at hcur
    simp [FIFO_cond, hcur] at hc
  rw [if_pos hlt] at hcur
  have hj0 : js0[s.out.length]? = some js0[s.out.length] := List.getElem?_eq_getElem hlt
  have hj : s.jobs[s.out.length]? = some js0[s.out.length] := by
    rw [hI.untouched _ (le_refl _)]; exact hj0
  obtain ⟨hst, hrem⟩ := hf _ (List.getElem_mem hlt)
  generalize js0[s.out.length] = j at hj0 hj hst hrem
  unfold FIFO_body
  simp only [hcur, hj]
  have hstamp : ∀ t0, stamp_start j t0 = { j with start_time := t0 } := by
    intro t0; unfold stamp_start; simp [hst]
  simp only [hstamp]
  refine ⟨_, rfl, ?_, ?_⟩
  · have hlen1 : (s.out ++ [print_seg (if s.t < j.arrival then j.arrival else s.t)
        { j with start_time := if s.t < j.arrival then j.arrival else s.t } j.remaining]).length
        = s.out.length + 1 := by simp
    constructor
    · simp only [List.length_set]; exact hI.len
    · simp only [hlen1, next_ptr, hI.len]
    · simp only [hlen1]; omega
    · intro i hi
      simp only [hlen1] at hi
      simp only
      rw [List.getElem?_set_ne (by omega)]
      exact hI.untouched i (by omega)
    · intro k hk
      simp only [hlen1] at hk
      simp only
      by_cases hkc : k < s.out.length
      · intro x0 hx0
        obtain ⟨x, h1, h2, h3, h4, h5, h6⟩ := hI.done k hkc x0 hx0
        refine ⟨x, ?_, h2, ?_, h4, h5, ?_⟩
        · rw [List.getElem?_set_ne (by omega)]; exact h1
        · rw [clock_before_set _ _ _ _ (by omega)]; exact h3
        · rw [List.getElem?_append_left hkc]; exact h6
      · have hk2 : k = s.out.length := by omega
        subst hk2
        intro x0 hx0
        rw [hj0] at hx0
        injection hx0 with hx0
        subst hx0
        have hlt2 : s.out.length < s.jobs.length := by rw [hI.len]; exact hlt
        refine ⟨Job.mk j.id j.arrival j.length j.tickets 0
          (if s.t < j.arrival then j.arrival else s.t)
          (wrap ((if s.t < j.arrival then j.arrival else s.t) + j.remaining)),
          List.getElem?_set_self hlt2, rfl, ?_, ?_, rfl, ?_⟩
        · simp only
          rw [clock_before_set _ _ _ _ (le_refl _), ← hI.clock]
          rcases lt_or_le s.t j.arrival with h | h
          · simp [h, le_of_lt h]
          · simp [not_lt.2 h, h]
        · simp only; rw [hrem]
        · simp only
          rw [List.getElem?_append_right (le_refl _)]
          simp [print_seg, hrem]
    · simp only [hlen1, clock_before]
      have hlt2 : s.out.length < s.jobs.length := by rw [hI.len]; exact hlt
      rw [List.getElem?_set_self hlt2]
  · simp
    omega

theorem FIFOWrap_init (js0 : List Job) : FIFOWrap js0 (FIFO_init js0) := by
  constructor
  · rfl
  · simp only [FIFO_init, head_ptr, List.length_nil]
    cases js0 <;> simp
  · simp [FIFO_init]
  · intro i _; rfl
  · intro k hk; simp [FIFO_init] at hk
  · rfl

/-- The loop of `policy_FIFO` finishes on every registry of fresh nodes after one
iteration per node. -/
theorem FIFO_wrap_run (js0 : List Job) (hf : Fresh js0) :
    ∃ k f, (∀ fuel, k ≤ fuel → policy_FIFO fuel js0 = Run.finished k f) ∧
      k ≤ js0.length ∧ FIFOWrap js0 f ∧ f.out.length = js0.length ∧
      Reach FIFO_cond FIFO_body (FIFO_init js0) f := by
  obtain ⟨k, f, hk, hI, hc, hr, hrun⟩ :=
    runLoop_total FIFO_cond FIFO_body (FIFOWrap js0)
      (fun s => js0.length - s.out.length)
      (fun s hI hc => FIFOWrap_step js0 hf s hI hc)
      _ (FIFO_init js0) (FIFOWrap_init js0) (le_refl _)
  refine ⟨k, f, hrun, ?_, hI, ?_, hr⟩
  · simp [FIFO_init] at hk; exact hk
  · have h1 := hI.cur
    have h2 := hI.count
    by_contra hne
    rw [if_pos (by omega)] at h1
    simp [FIFO_cond, h1] at hc

/-! ### FIFO: what each job gets -/

/-- C4 as stated fails: on the valid trace `0,2147483647 / 0,1` the clock of
`policy_FIFO` wraps around at the second job, whose `end_time` becomes
-2147483648 and not `start_time + length = 2147483648`. -/
theorem C4_counterexample :
    valid_trace [(0, 2147483647), (0, 1)] ∧
    ∃ f, policy_FIFO 2 (load [(0, 2147483647), (0, 1)]) = Run.finished 2 f ∧
      ∃ j, f.jobs[1]? = some j ∧ j.start_time = 2147483647 ∧ j.end_time = -2147483648 ∧
        j.end_time ≠ j.start_time + 1 :=
  ⟨by decide, FIFOState.mk [Job.mk 0 0 2147483647 100 0 0 2147483647,
                 Job.mk 1 0 1 200 0 2147483647 (-2147483648)] (-2147483648) none
     [Seg.mk 0 0 0 2147483647, Seg.mk 2147483647 1 0 1],
   by decide!, Job.mk 1 0 1 200 0 2147483647 (-2147483648), rfl, rfl, rfl, by decide⟩

/-- C4, amended: `policy_FIFO` processes the jobs in registry order.  For every
trace, the job on line `i` gets `start_time = max(arrival, clock)` where the
clock is 0 for the first job and the `end_time` of the job before otherwise,
`end_time = start_time + length` computed in the arithmetic of `int` (it is the
exact sum whenever that sum is in the range of `int`) and `remaining = 0`, and
the printed trace has one segment per job, the one at position `i` being
`(start_time, i, arrival, length)`. -/
theorem C4_fifo_per_job (tr : List (Int × Int)) :
    ∃ k f, (∀ fuel, k ≤ fuel → policy_FIFO fuel (load tr) = Run.finished k f) ∧
      f.out.length = tr.length ∧
      ∀ (i : Nat) (p : Int × Int), tr[i]? = some p →
        ∃ j, f.jobs[i]? = some j ∧
          j.start_time = max p.1 (clock_before f.jobs i) ∧
          j.end_time = wrap (j.start_time + p.2) ∧
          (INT_MIN ≤ j.start_time + p.2 → j.start_time + p.2 ≤ INT_MAX →
            j.end_time = j.start_time + p.2) ∧
          j.remaining = 0 ∧
          f.out[i]? = some { tstart := j.start_time, id := (i : Int), arrival := p.1,
                             ran := p.2 } := by
  obtain ⟨k, f, hrun, _, hI, hlen, _⟩ := FIFO_wrap_run (load tr) (Fresh_load tr)
  refine ⟨k, f, hrun, by rw [hlen, load_length], ?_⟩
  intro i p hp
  have hlt : i < tr.length := (List.getElem?_eq_some_iff.1 hp).1
  have h0 : (load tr)[i]? = some (fresh i p) := by rw [load_getElem?, hp]; rfl
  obtain ⟨j, h1, _, h3, h4, h5, h6⟩ := hI.done i (by rw [hlen, load_length]; exact hlt) _ h0
  exact ⟨j, h1, h3, h4, fun a b => by rw [h4]; exact wrap_eq _ a b, h5, h6⟩

/-- C4 (amended) on the trace `0,5 / 1,3`, for the job on line 1. -/
theorem C4_witness :
    ∃ k f, (∀ fuel, k ≤ fuel → policy_FIFO fuel (load [(0, 5), (1, 3)]) = Run.finished k f) ∧
      ∃ j, f.jobs[1]? = some j ∧
        j.start_time = max 1 (clock_before f.jobs 1) ∧
        j.end_time = wrap (j.start_time + 3) ∧
        (INT_MIN ≤ j.start_time + 3 → j.start_time + 3 ≤ INT_MAX →
          j.end_time = j.start_time + 3) ∧
        j.remaining = 0 ∧
        f.out[1]? = some { tstart := j.start_time, id := ((1 : Nat) : Int), arrival := 1,
                           ran := 3 } := by
  obtain ⟨k, f, h1, _, h3⟩ := C4_fifo_per_job [(0, 5), (1, 3)]
  exact ⟨k, f, h1, h3 1 (1, 3) rfl⟩

/-! ### Work done: the durations of the segments of a job -/

/-- In a list of segments whose segment at position `k` carries the id `k`, the
durations of the segments of the job `i` sum to the duration of the segment at
position `i`. -/
theorem ran_total_indexed : ∀ (out : List Seg),
    (∀ (k : Nat) (g : Seg), out[k]? = some g → g.id = (k : Int)) →
    ∀ (i : Nat) (g : Seg), out[i]? = some g → ran_total (i : Int) out = g.ran := by
  intro out
  induction out using List.reverseRecOn with
  | nil => intro _ i g h; simp at h
  | append_singleton o x ih =>
    intro hid i g h
    have hid1 : ∀ (k : Nat) (g : Seg), o[k]? = some g → g.id = (k : Int) := by
      intro k g hk
      apply hid k g
      rw [List.getElem?_append_left (List.getElem?_eq_some_iff.1 hk).1]
      exact hk
    have hx : x.id = (o.length : Int) := hid o.length x (by simp)
    rw [ran_total_append]
    rcases Nat.lt_or_ge i o.length with hlt | hge
    · have h1 : o[i]? = some g := by rwa [List.getElem?_append_left hlt] at h
      rw [ih hid1 i g h1, if_neg (by rw [hx]; omega)]
      simp
    · have hi : i = o.length := by
        have h2 := (List.getElem?_eq_some_iff.1 h).1
        simp at h2
        omega
      subst hi
      have hg : x = g := by simpa using h
      subst hg
      rw [ran_total_none, if_pos hx]
      · simp
      · intro g1 hg1
        obtain ⟨k, hk⟩ := List.mem_iff_getElem?.1 hg1
        have h3 := hid1 k g1 hk
        have h4 := (List.getElem?_eq_some_iff.1 hk).1
        rw [h3]
        omega

/-- The loop of `policy_FIFO` finishes on every trace, and the durations of the
segments printed for a job sum to the length of the job. -/
theorem FIFO_wrap_sums (tr : List (Int × Int)) :
    ∃ k f, (∀ fuel, k ≤ fuel → policy_FIFO fuel (load tr) = Run.finished k f) ∧
      SumsToLength tr f.out := by
  obtain ⟨k, f, hrun, _, hI, hlen, _⟩ := FIFO_wrap_run (load tr) (Fresh_load tr)
  have hseg : ∀ (i : Nat) (p : Int × Int), tr[i]? = some p →
      ∃ g, f.out[i]? = some g ∧ g.id = (i : Int) ∧ g.ran = p.2 := by
    intro i p hp
    have hlt : i < tr.length := (List.getElem?_eq_some_iff.1 hp).1
    have h0 : (load tr)[i]? = some (fresh i p) := by rw [load_getElem?, hp]; rfl
    obtain ⟨j, _, _, _, _, _, h6⟩ :=
      hI.done i (by rw [hlen, load_length]; exact hlt) _ h0
    exact ⟨_, h6, rfl, rfl⟩
  refine ⟨k, f, hrun, ?_⟩
  intro i p hp
  obtain ⟨g, hg, _, hr⟩ := hseg i p hp
  rw [ran_total_indexed f.out ?_ i g hg, hr]
  intro n g1 hn
  have hlt : n < tr.length := by
    have h1 := (List.getElem?_eq_some_iff.1 hn).1
    rw [hlen, load_length] at h1
    exact h1
  obtain ⟨g2, hg2, hid, _⟩ := hseg n (tr.get ⟨n, hlt⟩) (List.getElem?_eq_getElem hlt)
  rw [hg2] at hn
  cases hn
  exact hid

/-- C1 as stated fails: on the valid trace `2147483646,3 / 2147483646,5` the clock
of `policy_SJF` wraps around after the first job, the loop then runs job 0 a
second time for 0 units and finishes after 4 iterations without having run
job 1: the segments printed for job 1 sum to 0 and not to its length 5. -/
theorem C1_counterexample :
    valid_trace [(2147483646, 3), (2147483646, 5)] ∧
    ∃ f, policy_SJF 4 (load [(2147483646, 3), (2147483646, 5)]) = Run.finished 4 f ∧
      f.out = [Seg.mk 2147483646 0 2147483646 3, Seg.mk 2147483646 0 2147483646 0] ∧
      ¬ SumsToLength [(2147483646, 3), (2147483646, 5)] f.out :=
  ⟨by decide,
   SJFState.mk [Job.mk 0 2147483646 3 100 0 2147483646 2147483646,
                Job.mk 1 2147483646 5 200 5 (-1) (-1)] 2147483646 0
     [Seg.mk 2147483646 0 2147483646 3, Seg.mk 2147483646 0 2147483646 0],
   by decide!, rfl, fun h => absurd (h 1 (2147483646, 5) rfl) (by decide)⟩

/-- C1, amended: on every valid trace `policy_FIFO` finishes, and for every job
the durations of the segments it has printed for the job sum to the length of
the job (the clock does not enter the durations FIFO prints).  On every valid
trace whose latest arrival plus the sum of its lengths is at most `INT_MAX` (so
that the clock stays in the range of `int`), for every slice above 0 and every
sequence of draws, the same holds of `policy_SJF`, `policy_STCF` and `policy_RR`
and, when moreover the tickets of the registry sum to at most `INT_MAX`, of
`policy_LT`. -/
theorem C1_segment_durations_sum_to_length (tr : List (Int × Int)) (hv : valid_trace tr)
    (slice : Int) (hs : 0 < slice) (rand : Nat → Nat) :
    (∃ k f, (∀ fuel, k ≤ fuel → policy_FIFO fuel (load tr) = Run.finished k f) ∧
      SumsToLength tr f.out) ∧
    (Fits tr →
      (∃ k f, (∀ fuel, k ≤ fuel → policy_SJF fuel (load tr) = Run.finished k f) ∧
        SumsToLength tr f.out) ∧
      (∃ k f, (∀ fuel, k ≤ fuel → policy_STCF fuel (load tr) = Run.finished k f) ∧
        SumsToLength tr f.out) ∧
      (∃ k f, (∀ fuel, k ≤ fuel → policy_RR slice fuel (load tr) = Run.finished k f) ∧
        SumsToLength tr f.out) ∧
      (TicketsFit tr →
        ∃ k f, (∀ fuel, k ≤ fuel → policy_LT rand slice fuel (load tr) = Run.finished k f) ∧
          SumsToLength tr f.out)) := by
  obtain ⟨_, h2, h3, h4, h5⟩ := sums_to_length_exact tr hv slice hs rand
  refine ⟨FIFO_wrap_sums tr, fun hfit => ⟨?_, ?_, ?_, ?_⟩⟩
  · simp only [policy_SJF_agree tr hv.2 hfit]; exact h2
  · simp only [policy_STCF_agree tr hv.2 hfit]; exact h3
  · simp only [policy_RR_agree tr hv.2 hfit slice hs]; exact h4
  · intro htk
    simp only [policy_LT_agree tr hv.2 hfit htk rand slice hs]; exact h5

/-- C1 (amended) on the trace `0,5 / 1,3` with slice 2 and the draws 0, 1, 2, ... -/
theorem C1_witness :
    valid_trace [(0, 5), (1, 3)] ∧ (0 : Int) < 2 ∧ Fits [(0, 5), (1, 3)] ∧
    (∃ k f, (∀ fuel, k ≤ fuel → policy_STCF fuel (load [(0, 5), (1, 3)]) = Run.finished k f) ∧
      SumsToLength [(0, 5), (1, 3)] f.out) :=
  ⟨by decide, by decide, by decide,
    ((C1_segment_durations_sum_to_length [(0, 5), (1, 3)] (by decide) 2 (by decide)
      (fun k => k)).2 (by decide)).2.1⟩

end Scheduler
